import Mathlib

/-! The offline circuit-assignment simulator: evaluator and DWC strategy

A shallow embedding of `tor-offline-scheduling.c`.

Conventions of the embedding.

* A `GHashTable` is an association list whose keys are pairwise different.
  `g_hash_table_insert` overwrites the value of a key where it stands and
  puts a new key at the end, so the iteration order of a table is its
  insertion order.
* A `gdouble` is a rational number. The evaluator is embedded twice. In the
  first embedding every `gdouble` operation is exact: it carries the
  statements on the real values (shares, fairness, saturation), which the
  binary64 arithmetic of the program follows up to rounding. In the second
  embedding, the namespace `Binary64`, every `gdouble` operation is followed
  by `gdouble_round`, the rounding to the nearest binary64 value: it carries
  what hangs on single bits, an error raised or not and a value cut to a
  `gint`. The two agree wherever no operation rounds: a solve whose bandwidths
  are all whole numbers, or halves of whole numbers, has the same total, the
  same fields and the same table of available bandwidths in both
  (`compute_download_bandwidths_half`). The sizes that `select_parent` and
  `breed` cut from a percentile are rounded in the one embedding the genetic
  strategy has.
* A `gint` is an integer; the one product and the one difference that
  `compute_total_bandwidth` takes in `gint` are reduced to 32 bits.
* A function that can stop the process (`g_error`, a dereferenced `NULL`)
  returns an `Option`; `none` is the run that does not return.
* A download is the record the pointer points to; two downloads that are the
  same in every field other than `id` are kept apart by `id`.  The two
  fields that the evaluator writes, `bandwidth` and `bottleneck`, are kept
  in a table of their own (`fields`), the most recent write first.
-/

namespace TorSched

/-! ## Data model -/

/-- The `circuit_t` record. -/
structure circuit_t where
  guard : String
  middle : String
  exit : String
  bandwidth : ℚ := 0
  client : Option String := none
  start_time : ℚ := 0
  end_time : ℚ := 0
deriving DecidableEq

/-- The `download_t` record without the two fields the evaluator writes;
`circuits` is the candidate pool (`circuit_list` is the same sequence as an
array). -/
structure download_t where
  id : Nat
  client : String := ""
  start_time : Int
  end_time : Int
  circuits : List circuit_t := []
deriving DecidableEq

/-! ## Hash tables -/

/-- A hash table as the list of its entries. -/
abbrev GHashTable (κ ν : Type) := List (κ × ν)

/-- The value stored for a key, `none` standing for `NULL`. -/
def g_hash_table_lookup {κ ν : Type} [DecidableEq κ] : GHashTable κ ν → κ → Option ν
  | [], _ => none
  | (k', v) :: t, k => if k' = k then some v else g_hash_table_lookup t k

/-- Store a value for a key, overwriting what the key had. -/
def g_hash_table_insert {κ ν : Type} [DecidableEq κ] : GHashTable κ ν → κ → ν → GHashTable κ ν
  | [], k, v => [(k, v)]
  | (k', v') :: t, k, v =>
    if k' = k then (k, v) :: t else (k', v') :: g_hash_table_insert t k v

/-- Drop a key. -/
def g_hash_table_remove {κ ν : Type} [DecidableEq κ] (t : GHashTable κ ν) (k : κ) : GHashTable κ ν :=
  t.filter (fun p => decide (p.1 ≠ k))

/-- The number of entries. -/
def g_hash_table_size {κ ν : Type} (t : GHashTable κ ν) : Nat := t.length

/-- The keys, in iteration order. -/
def g_hash_table_get_keys {κ ν : Type} (t : GHashTable κ ν) : List κ := t.map Prod.fst

/-! ## Machine numbers -/

/-- The constant `G_MAXINT32`. -/
def G_MAXINT32 : ℚ := 2147483647

/-- The constant `G_MININT`. -/
def G_MININT : Int := -2147483648

/-- The constant `G_MAXDOUBLE`, the largest finite double. -/
def G_MAXDOUBLE : ℚ := 2 ^ 1024 - 2 ^ 971

/-- An integer reduced to the range of a 32-bit `gint`. -/
def gint_wrap (x : Int) : Int := (x + 2147483648) % 4294967296 - 2147483648

/-- The conversion `(gint)x` of a double: the fraction is cut off, towards zero.
For a value that does not fit a `gint` C leaves the result open; the
conversion instruction of x86-64 (`cvttsd2si`) gives `G_MININT`, which is the
value taken here. -/
def gint_of_gdouble (x : ℚ) : Int :=
  if -2147483649 < x ∧ x < 2147483648 then
    (if 0 ≤ x then Rat.floor x else - Rat.floor (- x))
  else G_MININT

/-! ## Binary64 rounding -/

/-- The number of halvings that bring `n` below 2, which is `⌊log2 n⌋` for
`n ≥ 1`; the first argument bounds the recursion. -/
def log2_loop : Nat → Nat → Nat
  | 0, _ => 0
  | fuel + 1, n => if 2 ≤ n then log2_loop fuel (n / 2) + 1 else 0

/-- The binary exponent of a rational other than 0: the `e` with
`2 ^ e ≤ |x| < 2 ^ (e + 1)` (`gdouble_exponent_spec`). -/
def gdouble_exponent (x : ℚ) : Int :=
  let d : Int := (log2_loop x.num.natAbs x.num.natAbs : Int) - (log2_loop x.den x.den : Int)
  if (2 : ℚ) ^ d ≤ |x| then d else d - 1

/-- The nearest integer, a tie going to the even one. -/
def round_half_even (x : ℚ) : Int :=
  if x - Rat.floor x < 1 / 2 then Rat.floor x
  else if 1 / 2 < x - Rat.floor x then Rat.floor x + 1
  else if Rat.floor x % 2 = 0 then Rat.floor x else Rat.floor x + 1

/-- The binary64 value nearest to a rational, a tie going to the even
significand: the rounding of every `gdouble` operation of the program. A
binary64 value has 53 significant bits and an exponent of at least -1022, so
the values near `x` are the multiples of `2 ^ (e - 52)`, `e` the exponent of
`x` or -1022. The largest binary64 value, `G_MAXDOUBLE`, is far above every
value the program computes; beyond it the function goes on rounding to 53
bits. -/
def gdouble_round (x : ℚ) : ℚ :=
  if x = 0 then 0
  else (round_half_even (x / 2 ^ (max (gdouble_exponent x) (-1022) - 52)) : ℚ)
        * 2 ^ (max (gdouble_exponent x) (-1022) - 52)

/-- The sum of two doubles. -/
def gdouble_add (a b : ℚ) : ℚ := gdouble_round (a + b)

/-- The difference of two doubles. -/
def gdouble_sub (a b : ℚ) : ℚ := gdouble_round (a - b)

/-- The product of two doubles. -/
def gdouble_mul (a b : ℚ) : ℚ := gdouble_round (a * b)

/-- The quotient of two doubles, the divisor other than 0. -/
def gdouble_div (a b : ℚ) : ℚ := gdouble_round (a / b)

/-- The relay capacity `GPOINTER_TO_INT(g_hash_table_lookup(relays, relay))`:
a relay the table does not have reads as 0. -/
def relay_capacity (relays : GHashTable String Int) (relay : String) : Int :=
  (g_hash_table_lookup relays relay).getD 0

/-! ## The steady-state solve -/

/-- The scratch tables and outputs of one call of `compute_download_bandwidths`. -/
structure solve_state where
  active_relays : GHashTable String ℚ
  relay_downloads : GHashTable String (List download_t)
  total_bandwidth : ℚ
  weights : Option (GHashTable String ℚ)
  fields : List (download_t × ℚ × String)

/-- The function `update_active_relay`. -/
def update_active_relay (relay_downloads : GHashTable String (List download_t))
    (active_relays : GHashTable String ℚ) (relay : String) (download : download_t)
    (bandwidth : Int) : GHashTable String (List download_t) × GHashTable String ℚ :=
  let downloads := (g_hash_table_lookup relay_downloads relay).getD []
  let downloads := if download ∈ downloads then downloads else downloads ++ [download]
  let relay_downloads := g_hash_table_insert relay_downloads relay downloads
  match g_hash_table_lookup active_relays relay with
  | none => (relay_downloads, g_hash_table_insert active_relays relay (bandwidth : ℚ))
  | some _ => (relay_downloads, active_relays)

/-- The function `update_relays`; the relay has to be active, its residual is
read through the pointer the lookup returns. -/
def update_relays (active_relays : GHashTable String ℚ) (relay : String)
    (download_bandwidth : ℚ) : Option (GHashTable String ℚ) :=
  match g_hash_table_lookup active_relays relay with
  | none => none
  | some v =>
    if v - download_bandwidth < 1 / 1000000 then
      some (g_hash_table_remove active_relays relay)
    else
      some (g_hash_table_insert active_relays relay (v - download_bandwidth))

/-- The function `remove_download_from_relay`; `g_hash_table_remove` fails, and
`g_error` follows, when the relay has no download table or the table does not
have the download. -/
def remove_download_from_relay (relay_downloads : GHashTable String (List download_t))
    (relay : String) (download : download_t) : Option (GHashTable String (List download_t)) :=
  match g_hash_table_lookup relay_downloads relay with
  | none => none
  | some downloads =>
    if download ∈ downloads then
      let downloads := downloads.filter (fun d => decide (d ≠ download))
      if downloads.length = 0 then
        some (g_hash_table_remove relay_downloads relay)
      else
        some (g_hash_table_insert relay_downloads relay downloads)
    else none

/-- Step 1 of `compute_download_bandwidths` for one active download. -/
def register_download (relays : GHashTable String Int)
    (circuit_selection : GHashTable download_t circuit_t)
    (acc : Option (GHashTable String (List download_t) × GHashTable String ℚ))
    (download : download_t) :
    Option (GHashTable String (List download_t) × GHashTable String ℚ) :=
  match acc, g_hash_table_lookup circuit_selection download with
  | some (relay_downloads, active_relays), some circuit =>
    let s1 := update_active_relay relay_downloads active_relays circuit.guard download
      (relay_capacity relays circuit.guard)
    let s2 := update_active_relay s1.1 s1.2 circuit.middle download
      (relay_capacity relays circuit.middle)
    some (update_active_relay s2.1 s2.2 circuit.exit download
      (relay_capacity relays circuit.exit))
  | _, _ => none

/-- The three running values of the bottleneck search. -/
structure bottleneck_t where
  bottleneck_relay : Option String
  bottleneck_bandwidth : ℚ
  download_bandwidth : ℚ

/-- Step 2 of `compute_download_bandwidths` for one active relay. -/
def bottleneck_step (relay_downloads : GHashTable String (List download_t))
    (acc : bottleneck_t) (entry : String × ℚ) : bottleneck_t :=
  if entry.2 = 0 then acc
  else
    match g_hash_table_lookup relay_downloads entry.1 with
    | none => acc
    | some relay_download_list =>
      if entry.2 / (relay_download_list.length : ℚ) < acc.download_bandwidth then
        { bottleneck_relay := some entry.1, bottleneck_bandwidth := entry.2,
          download_bandwidth := entry.2 / (relay_download_list.length : ℚ) }
      else acc

/-- The search for the relay with the smallest bandwidth per download. -/
def find_bottleneck (relay_downloads : GHashTable String (List download_t))
    (active_relays : GHashTable String ℚ) : bottleneck_t :=
  active_relays.foldl (bottleneck_step relay_downloads)
    { bottleneck_relay := none, bottleneck_bandwidth := G_MAXINT32,
      download_bandwidth := G_MAXINT32 }

/-- Step 3 of `compute_download_bandwidths` for one download of the bottleneck relay. -/
def assign_download (circuit_selection : GHashTable download_t circuit_t)
    (bottleneck_relay : String) (download_bandwidth : ℚ)
    (acc : Option solve_state) (download : download_t) : Option solve_state :=
  match acc, g_hash_table_lookup circuit_selection download with
  | some st, some circuit =>
    (update_relays st.active_relays circuit.guard download_bandwidth).bind fun a1 =>
    (update_relays a1 circuit.middle download_bandwidth).bind fun a2 =>
    (update_relays a2 circuit.exit download_bandwidth).bind fun a3 =>
    (remove_download_from_relay st.relay_downloads circuit.guard download).bind fun r1 =>
    (remove_download_from_relay r1 circuit.middle download).bind fun r2 =>
    (remove_download_from_relay r2 circuit.exit download).bind fun r3 =>
    some { st with
      active_relays := a3
      relay_downloads := r3
      total_bandwidth := st.total_bandwidth + download_bandwidth
      fields := (download, download_bandwidth, bottleneck_relay) :: st.fields }
  | _, _ => none

/-- One pass of the main loop of `compute_download_bandwidths`. -/
def solve_round (circuit_selection : GHashTable download_t circuit_t)
    (st : solve_state) : Option solve_state :=
  let found := find_bottleneck st.relay_downloads st.active_relays
  match found.bottleneck_relay with
  | none => none
  | some bottleneck_relay =>
    match g_hash_table_lookup st.relay_downloads bottleneck_relay with
    | none => none
    | some downloads =>
      let st1 : solve_state := { st with
        active_relays := g_hash_table_insert st.active_relays bottleneck_relay
          (found.download_bandwidth * (downloads.length : ℚ))
        weights := st.weights.map fun w =>
          g_hash_table_insert w bottleneck_relay
            ((1 / found.download_bandwidth) * (downloads.length : ℚ)) }
      match downloads.foldl
          (assign_download circuit_selection bottleneck_relay found.download_bandwidth)
          (some st1) with
      | none => none
      | some st2 =>
        if (g_hash_table_lookup st2.active_relays bottleneck_relay).isSome then none
        else if (g_hash_table_lookup st2.relay_downloads bottleneck_relay).isSome then none
        else some st2

/-- The main loop of `compute_download_bandwidths`; the first argument bounds the
number of passes. -/
def solve_loop (circuit_selection : GHashTable download_t circuit_t) :
    Nat → solve_state → Option solve_state
  | 0, st =>
    if 0 < g_hash_table_size st.active_relays ∧ 0 < g_hash_table_size st.relay_downloads
    then none else some st
  | n + 1, st =>
    if 0 < g_hash_table_size st.active_relays ∧ 0 < g_hash_table_size st.relay_downloads
    then (solve_round circuit_selection st).bind (solve_loop circuit_selection n)
    else some st

/-- What a call of `compute_download_bandwidths` leaves behind: the value it
returns, the two optional side tables, and the download fields it wrote. -/
structure solve_result where
  total_bandwidth : ℚ
  weights : Option (GHashTable String ℚ)
  available_bandwidth : Option (GHashTable String Int)
  fields : List (download_t × ℚ × String)
deriving DecidableEq

/-- The relays of the table that are not active, stored with their capacity. -/
def record_inactive (active_relays : GHashTable String ℚ) (relays : GHashTable String Int)
    (available_bandwidth : GHashTable String Int) : GHashTable String Int :=
  relays.foldl (fun t entry =>
    match g_hash_table_lookup active_relays entry.1 with
    | none => g_hash_table_insert t entry.1 entry.2
    | some _ => t) available_bandwidth

/-- The relays still active at the end, stored with their residual as a `gint`. -/
def record_residual (active_relays : GHashTable String ℚ)
    (available_bandwidth : GHashTable String Int) : GHashTable String Int :=
  active_relays.foldl (fun t entry => g_hash_table_insert t entry.1 (gint_of_gdouble entry.2))
    available_bandwidth

/-- The tables of step 1: every active download registered with its three relays. -/
def build_relay_tables (active_downloads : List download_t) (relays : GHashTable String Int)
    (circuit_selection : GHashTable download_t circuit_t) :
    Option (GHashTable String (List download_t) × GHashTable String ℚ) :=
  active_downloads.foldl (register_download relays circuit_selection) (some ([], []))

/-- The function `compute_download_bandwidths`. The active set is the list of
its members. One pass per relay that has downloads is enough for the loop
(`solve_loop_fuel`). After the loop the source hands every download table that
is still in `relay_downloads` to `g_queue_free`, which walks the hash table as
a list of links: the call returns only when no relay has a download left. -/
def compute_download_bandwidths (active_downloads : List download_t)
    (relays : GHashTable String Int) (circuit_selection : GHashTable download_t circuit_t)
    (weights : Option (GHashTable String ℚ))
    (available_bandwidth : Option (GHashTable String Int)) : Option solve_result :=
  match build_relay_tables active_downloads relays circuit_selection with
  | none => none
  | some (relay_downloads, active_relays) =>
    let available_bandwidth := available_bandwidth.map (record_inactive active_relays relays)
    match solve_loop circuit_selection (g_hash_table_size relay_downloads)
        { active_relays := active_relays, relay_downloads := relay_downloads,
          total_bandwidth := 0, weights := weights, fields := [] } with
    | none => none
    | some st =>
      if 0 < g_hash_table_size st.relay_downloads then none
      else
        some { total_bandwidth := st.total_bandwidth
               weights := st.weights
               available_bandwidth := available_bandwidth.map (record_residual st.active_relays)
               fields := st.fields }

/-! ## The timeline -/

/-- The comparison `compare_int`, a difference taken in `gint`. -/
def compare_int (a b : Int) : Int := gint_wrap (a - b)

/-- The function `generate_downloads_by_tick`: every download is appended to
the list of its start tick and then to the list of its end tick. -/
def generate_downloads_by_tick (downloads : List download_t) :
    GHashTable Int (List download_t) :=
  downloads.foldl (fun t download =>
    let t1 := g_hash_table_insert t download.start_time
      ((g_hash_table_lookup t download.start_time).getD [] ++ [download])
    g_hash_table_insert t1 download.end_time
      ((g_hash_table_lookup t1 download.end_time).getD [] ++ [download])) []

/-- The keys of the tick index sorted with `compare_int`, as `run_dwc_algorithm`
and `run_genetic_algorithm` build their tick queue. -/
def sorted_ticks (downloads_by_tick : GHashTable Int (List download_t)) : List Int :=
  (g_hash_table_get_keys downloads_by_tick).insertionSort (fun a b => compare_int a b ≤ 0)

/-! ## Integration across the timeline -/

/-- The running values of the loop of `compute_total_bandwidth`. -/
structure integrate_state where
  active_downloads : GHashTable download_t Bool
  total_bandwidth : ℚ
  last_tick : Int
  last_bandwidth : Int
deriving DecidableEq

/-- The arrival or departure of one download of the tick list; a download
without a circuit is skipped, one that neither starts nor ends at the tick
raises `g_error`. -/
def tick_download (circuit_selection : GHashTable download_t circuit_t) (tick : Int)
    (acc : Option (GHashTable download_t Bool)) (download : download_t) :
    Option (GHashTable download_t Bool) :=
  match acc with
  | none => none
  | some active_downloads =>
    match g_hash_table_lookup circuit_selection download with
    | none => some active_downloads
    | some _ =>
      if download.start_time = tick then
        some (g_hash_table_insert active_downloads download true)
      else if download.end_time = tick then
        some (g_hash_table_remove active_downloads download)
      else none

/-- The active set once the list of a tick has been walked. -/
def tick_active (circuit_selection : GHashTable download_t circuit_t)
    (downloads_by_tick : GHashTable Int (List download_t))
    (active_downloads : GHashTable download_t Bool) (tick : Int) :
    Option (GHashTable download_t Bool) :=
  ((g_hash_table_lookup downloads_by_tick tick).getD []).foldl
    (tick_download circuit_selection tick) (some active_downloads)

/-- The product `last_bandwidth * (tick - last_tick) / 1000.0`: difference and
product are taken in `gint`, the quotient in `gdouble`. -/
def interval_bytes (last_bandwidth last_tick tick : Int) : ℚ :=
  (gint_wrap (last_bandwidth * gint_wrap (tick - last_tick)) : ℚ) / 1000

/-- One pass of the loop of `compute_total_bandwidth`. -/
def tick_step (relays : GHashTable String Int)
    (circuit_selection : GHashTable download_t circuit_t)
    (downloads_by_tick : GHashTable Int (List download_t))
    (acc : Option integrate_state) (tick : Int) : Option integrate_state :=
  match acc with
  | none => none
  | some st =>
    match tick_active circuit_selection downloads_by_tick st.active_downloads tick with
    | none => none
    | some active_downloads =>
      match compute_download_bandwidths (g_hash_table_get_keys active_downloads) relays
          circuit_selection none none with
      | none => none
      | some res =>
        some { active_downloads := active_downloads
               total_bandwidth :=
                 if st.last_tick ≠ -1 then
                   st.total_bandwidth + interval_bytes st.last_bandwidth st.last_tick tick
                 else st.total_bandwidth
               last_tick := tick
               last_bandwidth := gint_of_gdouble res.total_bandwidth }

/-- The values with which the loop of `compute_total_bandwidth` starts. -/
def integrate_init : integrate_state :=
  { active_downloads := [], total_bandwidth := 0, last_tick := -1, last_bandwidth := 0 }

/-- The function `compute_total_bandwidth`. Of its argument `downloads` the
source only asserts that it is not `NULL`. -/
def compute_total_bandwidth (_downloads : List download_t) (relays : GHashTable String Int)
    (circuit_selection : GHashTable download_t circuit_t)
    (downloads_by_tick : GHashTable Int (List download_t)) (ticks : List Int) : Option ℚ :=
  (ticks.foldl (tick_step relays circuit_selection downloads_by_tick)
    (some integrate_init)).map fun st => st.total_bandwidth

/-! ## The DWC strategy -/

/-- The fields of `dwc_data_t` that a worker reads. -/
structure dwc_data_t where
  relays : GHashTable String Int
  active_downloads : GHashTable download_t Bool
  circuit_selection : GHashTable download_t circuit_t
  relay_weights : Option (GHashTable String ℚ)
  available_bandwidth : Option (GHashTable String Int)
  download : download_t
  start_idx : Nat
  end_idx : Nat

/-- The fields of `dwc_data_t` that a worker writes, with the three tables the
worker keeps for itself. -/
structure dwc_best_t where
  circuit_selection : GHashTable download_t circuit_t
  relay_weights : GHashTable String ℚ
  available_bandwidth : GHashTable String Int
  best_circuit : Option circuit_t
  best_circuit_weight : ℚ
  best_circuit_bandwidth : Int

/-- The minimum over the three relays of a circuit of the bandwidth entry, an
absent entry reading as 0. -/
def circuit_available (bandwidths : GHashTable String Int) (circuit : circuit_t) : Int :=
  min (min ((g_hash_table_lookup bandwidths circuit.guard).getD 0)
      ((g_hash_table_lookup bandwidths circuit.middle).getD 0))
    ((g_hash_table_lookup bandwidths circuit.exit).getD 0)

/-- The sum over the three relays of a circuit of the weight entry, an absent
entry adding nothing. -/
def circuit_weight_of (weights : GHashTable String ℚ) (circuit : circuit_t) : ℚ :=
  ((0 + (g_hash_table_lookup weights circuit.guard).getD 0)
    + (g_hash_table_lookup weights circuit.middle).getD 0)
    + (g_hash_table_lookup weights circuit.exit).getD 0

/-- The body of the loop of `dwc_worker` for one candidate. -/
def dwc_worker_step (dwc_data : dwc_data_t) (acc : Option dwc_best_t) (circuit : circuit_t) :
    Option dwc_best_t :=
  match acc with
  | none => none
  | some st =>
    let tables : Option (dwc_best_t × GHashTable String ℚ × GHashTable String Int) :=
      match dwc_data.relay_weights with
      | some weights => some (st, weights, dwc_data.available_bandwidth.getD [])
      | none =>
        let circuit_selection := g_hash_table_insert st.circuit_selection dwc_data.download circuit
        match compute_download_bandwidths (g_hash_table_get_keys dwc_data.active_downloads)
            dwc_data.relays circuit_selection (some st.relay_weights)
            (some st.available_bandwidth) with
        | none => none
        | some res =>
          some ({ st with
                  circuit_selection := circuit_selection
                  relay_weights := res.weights.getD []
                  available_bandwidth := res.available_bandwidth.getD [] },
                res.weights.getD [], res.available_bandwidth.getD [])
    match tables with
    | none => none
    | some (st, weights, bandwidths) =>
      let circuit_bandwidth := circuit_available bandwidths circuit
      let circuit_weight := circuit_weight_of weights circuit
      if circuit_weight < st.best_circuit_weight ∨
          (circuit_weight = st.best_circuit_weight ∧
            st.best_circuit_bandwidth < circuit_bandwidth) then
        some { st with
               best_circuit := some circuit
               best_circuit_weight := circuit_weight
               best_circuit_bandwidth := circuit_bandwidth }
      else some st

/-- The function `dwc_worker`: the candidates `circuit_list[start_idx]` to
`circuit_list[end_idx - 1]` are scanned in order. -/
def dwc_worker (dwc_data : dwc_data_t) : Option dwc_best_t :=
  ((dwc_data.download.circuits.drop dwc_data.start_idx).take
      (dwc_data.end_idx - dwc_data.start_idx)).foldl (dwc_worker_step dwc_data)
    (some { circuit_selection := dwc_data.circuit_selection
            relay_weights := []
            available_bandwidth := []
            best_circuit := none
            best_circuit_weight := G_MAXDOUBLE
            best_circuit_bandwidth := G_MININT })

/-- The running best of the reduction that `run_dwc_algorithm` makes over the
workers. -/
structure dwc_choice_t where
  best_circuit : Option circuit_t
  best_circuit_weight : ℚ
  best_circuit_bandwidth : Int

/-- The reduction step for the result of one worker. -/
def dwc_reduce_step (acc : dwc_choice_t) (result : dwc_best_t) : dwc_choice_t :=
  if result.best_circuit_weight < acc.best_circuit_weight ∨
      (acc.best_circuit_weight = result.best_circuit_weight ∧
        acc.best_circuit_bandwidth < result.best_circuit_bandwidth) then
    { best_circuit := result.best_circuit
      best_circuit_weight := result.best_circuit_weight
      best_circuit_bandwidth := result.best_circuit_bandwidth }
  else acc

/-- The index range of worker `i` of `nthreads`: equal chunks, the last worker
taking what remains. -/
def dwc_range (ncircuits nthreads i : Nat) : Nat × Nat :=
  (i * (ncircuits / nthreads),
    if i + 1 = nthreads then ncircuits else (i + 1) * (ncircuits / nthreads))

/-- The reduction of `run_dwc_algorithm` over the workers, for the result of one
worker; a worker that did not return leaves no result to reduce. -/
def dwc_reduce (acc : Option dwc_choice_t) (result : Option dwc_best_t) : Option dwc_choice_t :=
  match acc, result with
  | some choice, some r => some (dwc_reduce_step choice r)
  | _, _ => none

/-- The results of the `nthreads` workers, in the order of their index. -/
def dwc_workers (relays : GHashTable String Int) (active_downloads : GHashTable download_t Bool)
    (circuit_selection : GHashTable download_t circuit_t)
    (relay_weights : GHashTable String ℚ) (available_bandwidth : GHashTable String Int)
    (download : download_t) (nthreads : Nat) : List (Option dwc_best_t) :=
  (List.range nthreads).map fun i =>
    dwc_worker
      { relays := relays
        active_downloads := active_downloads
        circuit_selection := circuit_selection
        relay_weights := some relay_weights
        available_bandwidth := some available_bandwidth
        download := download
        start_idx := (dwc_range download.circuits.length nthreads i).1
        end_idx := (dwc_range download.circuits.length nthreads i).2 }

/-- The circuit that the workers and the reduction select for an arriving
download, `none` standing for `NULL`; the outer `none` is a worker that did not
return. -/
def dwc_select (relays : GHashTable String Int) (active_downloads : GHashTable download_t Bool)
    (circuit_selection : GHashTable download_t circuit_t)
    (relay_weights : GHashTable String ℚ) (available_bandwidth : GHashTable String Int)
    (download : download_t) (nthreads : Nat) : Option dwc_choice_t :=
  (dwc_workers relays active_downloads circuit_selection relay_weights available_bandwidth
    download nthreads).foldl dwc_reduce
    (some { best_circuit := none, best_circuit_weight := G_MAXDOUBLE,
            best_circuit_bandwidth := G_MININT })

/-- The active set and the assignment that `run_dwc_algorithm` builds. -/
structure dwc_state where
  active_downloads : GHashTable download_t Bool
  circuit_selection : GHashTable download_t circuit_t
deriving DecidableEq

/-- The body of the second loop of a tick of `run_dwc_algorithm` for a download
that starts at the tick. With no thread the chunk size is a division by zero;
a `NULL` best circuit is dereferenced by the solve that follows the commit. -/
def dwc_arrival (relays : GHashTable String Int) (nthreads : Nat) (st : dwc_state)
    (download : download_t) : Option dwc_state :=
  match compute_download_bandwidths (g_hash_table_get_keys st.active_downloads) relays
      st.circuit_selection (some []) (some []) with
  | none => none
  | some solved =>
    if nthreads = 0 then none
    else
      match dwc_select relays st.active_downloads st.circuit_selection
          (solved.weights.getD []) (solved.available_bandwidth.getD []) download nthreads with
      | none => none
      | some choice =>
        match choice.best_circuit with
        | none => none
        | some best_circuit =>
          let active_downloads := g_hash_table_insert st.active_downloads download true
          let circuit_selection :=
            g_hash_table_insert st.circuit_selection download best_circuit
          match compute_download_bandwidths (g_hash_table_get_keys active_downloads) relays
              circuit_selection none none with
          | none => none
          | some _ =>
            some { active_downloads := active_downloads
                   circuit_selection := circuit_selection }

/-- The second loop of a tick, for one download of the tick list. -/
def dwc_start (relays : GHashTable String Int) (nthreads : Nat) (tick : Int)
    (acc : Option dwc_state) (download : download_t) : Option dwc_state :=
  match acc with
  | none => none
  | some st =>
    if download.start_time = tick then dwc_arrival relays nthreads st download
    else some st

/-- The first loop of a tick, for one download of the tick list. -/
def dwc_end (tick : Int) (active_downloads : GHashTable download_t Bool)
    (download : download_t) : GHashTable download_t Bool :=
  if download.end_time = tick then g_hash_table_remove active_downloads download
  else active_downloads

/-- One tick of `run_dwc_algorithm`: the departures first, then the arrivals. -/
def dwc_tick (relays : GHashTable String Int) (nthreads : Nat)
    (downloads_by_tick : GHashTable Int (List download_t))
    (acc : Option dwc_state) (tick : Int) : Option dwc_state :=
  match acc with
  | none => none
  | some st =>
    let tick_downloads := (g_hash_table_lookup downloads_by_tick tick).getD []
    tick_downloads.foldl (dwc_start relays nthreads tick)
      (some { st with active_downloads := tick_downloads.foldl (dwc_end tick) st.active_downloads })

/-- The function `run_dwc_algorithm`; the map it returns is the assignment. -/
def run_dwc_algorithm (downloads : List download_t) (relays : GHashTable String Int)
    (nthreads : Nat) : Option (GHashTable download_t circuit_t) :=
  let downloads_by_tick := generate_downloads_by_tick downloads
  let ticks := sorted_ticks downloads_by_tick
  match ticks.foldl (dwc_tick relays nthreads downloads_by_tick)
      (some { active_downloads := [], circuit_selection := [] }) with
  | none => none
  | some st =>
    match compute_total_bandwidth downloads relays st.circuit_selection downloads_by_tick ticks with
    | none => none
    | some _ => some st.circuit_selection

/-! ## Notions the properties are stated with -/

/-- The three relays of a circuit. -/
def circuit_relays (c : circuit_t) : List String := [c.guard, c.middle, c.exit]

/-- Whether the circuit selected for the download contains the relay. -/
def on_relay (circuit_selection : GHashTable download_t circuit_t) (r : String)
    (d : download_t) : Bool :=
  match g_hash_table_lookup circuit_selection d with
  | some c => decide (r ∈ circuit_relays c)
  | none => false

/-- The field `d.bandwidth` after a call on downloads that `g_new0` made: the
value written for `d`, and 0 when nothing was written. -/
def bandwidth_of (fields : List (download_t × ℚ × String)) (d : download_t) : ℚ :=
  match g_hash_table_lookup fields d with
  | some p => p.1
  | none => 0

/-- The field `d.bottleneck` after the call, `none` standing for `NULL`. -/
def bottleneck_of (fields : List (download_t × ℚ × String)) (d : download_t) : Option String :=
  (g_hash_table_lookup fields d).map Prod.snd

/-- The sum of the bandwidths written for the downloads whose circuit contains
the relay. -/
def relay_usage (circuit_selection : GHashTable download_t circuit_t)
    (fields : List (download_t × ℚ × String)) (r : String) : ℚ :=
  ((fields.filter (fun e => on_relay circuit_selection r e.1)).map (fun e => e.2.1)).sum

/-- The downloads still waiting at a relay. -/
def pending (relay_downloads : GHashTable String (List download_t)) (r : String) :
    List download_t :=
  (g_hash_table_lookup relay_downloads r).getD []

/-- The invariant of the scratch tables that every single assignment keeps. -/
structure tables_ok (A : List download_t) (relays : GHashTable String Int)
    (S : GHashTable download_t circuit_t) (st : solve_state) : Prop where
  keys_active : (g_hash_table_get_keys st.active_relays).Nodup
  keys_pending : (g_hash_table_get_keys st.relay_downloads).Nodup
  nonempty : ∀ r L, g_hash_table_lookup st.relay_downloads r = some L → L ≠ []
  pending_nodup : ∀ r, (pending st.relay_downloads r).Nodup
  pending_mem : ∀ r d, d ∈ pending st.relay_downloads r ↔
    (d ∈ A ∧ on_relay S r d = true ∧ d ∉ st.fields.map Prod.fst)
  residual : ∀ r v, g_hash_table_lookup st.active_relays r = some v →
    v = (relay_capacity relays r : ℚ) - relay_usage S st.fields r
  total : st.total_bandwidth = (st.fields.map (fun e => e.2.1)).sum
  fields_nodup : (st.fields.map Prod.fst).Nodup
  fields_mem : ∀ e ∈ st.fields, e.1 ∈ A ∧ on_relay S e.2.2 e.1 = true

/-- The bound that the share of the current round keeps: nothing written so
far is above it, and no relay that still has downloads and a residual can
give less. -/
structure share_ok (s : ℚ) (st : solve_state) : Prop where
  fields_le : ∀ e ∈ st.fields, e.2.1 ≤ s
  share_le : ∀ r v, g_hash_table_lookup st.active_relays r = some v → v ≠ 0 →
    pending st.relay_downloads r ≠ [] →
    s * ((pending st.relay_downloads r).length : ℚ) ≤ v

/-- The invariant of the main loop of `compute_download_bandwidths`, between
two rounds. -/
structure solve_inv (A : List download_t) (relays : GHashTable String Int)
    (S : GHashTable download_t circuit_t) (st : solve_state) : Prop where
  tables : tables_ok A relays S st
  below : ∀ e ∈ st.fields, ∀ r v, g_hash_table_lookup st.active_relays r = some v → v ≠ 0 →
    pending st.relay_downloads r ≠ [] →
    e.2.1 * ((pending st.relay_downloads r).length : ℚ) ≤ v
  drained : ∀ e ∈ st.fields, g_hash_table_lookup st.active_relays e.2.2 = none ∧
    pending st.relay_downloads e.2.2 = []
  saturated : ∀ e ∈ st.fields,
    relay_usage S st.fields e.2.2 = (relay_capacity relays e.2.2 : ℚ)
  least : ∀ e ∈ st.fields, ∀ e' ∈ st.fields, on_relay S e.2.2 e'.1 = true → e'.2.1 ≤ e.2.1
  same : ∀ e ∈ st.fields, ∀ e' ∈ st.fields, e.2.2 = e'.2.2 → e.2.1 = e'.2.1

/-- The tables of step 1 after the downloads `P` have been registered. -/
structure build_ok (relays : GHashTable String Int) (S : GHashTable download_t circuit_t)
    (P : List download_t)
    (t : GHashTable String (List download_t) × GHashTable String ℚ) : Prop where
  keys_active : (g_hash_table_get_keys t.2).Nodup
  keys_pending : (g_hash_table_get_keys t.1).Nodup
  nonempty : ∀ r L, g_hash_table_lookup t.1 r = some L → L ≠ []
  pending_nodup : ∀ r, (pending t.1 r).Nodup
  pending_mem : ∀ r d, d ∈ pending t.1 r ↔ (d ∈ P ∧ on_relay S r d = true)
  capacity : ∀ r v, g_hash_table_lookup t.2 r = some v → v = (relay_capacity relays r : ℚ)
  active : ∀ r, pending t.1 r ≠ [] → ∃ v, g_hash_table_lookup t.2 r = some v
  used : ∀ r v, g_hash_table_lookup t.2 r = some v → pending t.1 r ≠ []
  selected : ∀ d ∈ P, ∃ c, g_hash_table_lookup S d = some c

/-- What holds in addition when every relay in use has a positive capacity: the
residuals stay positive and no relay carries more than its capacity. -/
structure positive_ok (relays : GHashTable String Int) (S : GHashTable download_t circuit_t)
    (st : solve_state) : Prop where
  positive : ∀ r v, g_hash_table_lookup st.active_relays r = some v → 0 < v
  within : ∀ r, relay_usage S st.fields r ≤ max (relay_capacity relays r : ℚ) 0
  nonneg : ∀ e ∈ st.fields, 0 ≤ e.2.1

/-- What holds in addition when no share can fall under the tolerance: a relay
with waiting downloads is active. -/
structure complete_ok (st : solve_state) : Prop where
  floor : ∀ r v, g_hash_table_lookup st.active_relays r = some v →
    (1 / 1000000 : ℚ) * ((pending st.relay_downloads r).length : ℚ) ≤ v
  active : ∀ r, pending st.relay_downloads r ≠ [] →
    ∃ v, g_hash_table_lookup st.active_relays r = some v

/-- The tables with which the inner loop of a round starts. -/
def round_start (st : solve_state) (b : String) (s : ℚ) (n : Nat) : solve_state :=
  { st with
    active_relays := g_hash_table_insert st.active_relays b (s * (n : ℚ))
    weights := st.weights.map fun w => g_hash_table_insert w b ((1 / s) * (n : ℚ)) }

/-- The number of active downloads whose circuit contains the relay. -/
def relay_load (S : GHashTable download_t circuit_t) (A : List download_t) (r : String) : Nat :=
  (A.toFinset.filter (fun d => on_relay S r d = true)).card

/-! ## Concrete inputs -/

/-- A download from 0 s to 10 s. -/
def ex_download (i : Nat) : download_t := { id := i, start_time := 0, end_time := 10000 }

/-- A circuit over three named relays. -/
def ex_circuit (g m x : String) : circuit_t := { guard := g, middle := m, exit := x }

/-- Scenario A and B: one circuit whose exit is the narrow relay. -/
def relays_ab : GHashTable String Int := [("g", 1000), ("m", 1000), ("x-exit", 100)]

/-- Two downloads on the one circuit of scenario B. -/
def selection_b : GHashTable download_t circuit_t :=
  [(ex_download 1, ex_circuit "g" "m" "x-exit"), (ex_download 2, ex_circuit "g" "m" "x-exit")]

/-- What the solve of scenario B leaves behind. -/
def result_b : solve_result :=
  { total_bandwidth := 100, weights := none, available_bandwidth := none,
    fields := [(ex_download 2, 50, "x-exit"), (ex_download 1, 50, "x-exit")] }

/-- A relay table whose exit has capacity 0. -/
def relays_zero : GHashTable String Int := [("g", 1000), ("m", 1000), ("z-exit", 0)]

/-- One download over the circuit that ends in the relay of capacity 0. -/
def selection_zero : GHashTable download_t circuit_t :=
  [(ex_download 1, ex_circuit "g" "m" "z-exit")]

/-- Two narrow relays, `a` and `b`, the second shared by both downloads. -/
def relays_two : GHashTable String Int :=
  [("a", 10), ("b", 100), ("m", 1000), ("x-exit", 1000), ("y-exit", 1000)]

/-- The first download crosses `a` and `b`, the second `b` only. -/
def selection_two : GHashTable download_t circuit_t :=
  [(ex_download 1, ex_circuit "a" "b" "x-exit"), (ex_download 2, ex_circuit "b" "m" "y-exit")]

/-- What the solve over the two downloads of `selection_two` leaves behind. -/
def result_two : solve_result :=
  { total_bandwidth := 100, weights := none, available_bandwidth := none,
    fields := [(ex_download 2, 90, "b"), (ex_download 1, 10, "a")] }

/-- The active set after the tick lists of `ticks` have been walked in order. -/
def active_after (S : GHashTable download_t circuit_t)
    (downloads_by_tick : GHashTable Int (List download_t)) (ticks : List Int) :
    Option (GHashTable download_t Bool) :=
  ticks.foldl (fun acc tick => acc.bind fun a => tick_active S downloads_by_tick a tick)
    (some [])

/-- The steady-state total `B` at the last tick of `ticks`: what
`compute_download_bandwidths` returns for the active set after the arrivals and
departures of these ticks. -/
def steady_total (relays : GHashTable String Int) (S : GHashTable download_t circuit_t)
    (downloads_by_tick : GHashTable Int (List download_t)) (ticks : List Int) : Option ℚ :=
  (active_after S downloads_by_tick ticks).bind fun a =>
    (compute_download_bandwidths (g_hash_table_get_keys a) relays S none none).map
      fun res => res.total_bandwidth

/-- The sum over the intervals between consecutive ticks of the steady-state
total at the left end, cut to a `gint`, times the length of the interval, over
1000. -/
def integration_formula (relays : GHashTable String Int) (S : GHashTable download_t circuit_t)
    (downloads_by_tick : GHashTable Int (List download_t)) (ticks : List Int) : ℚ :=
  ∑ i ∈ Finset.range (ticks.length - 1),
    interval_bytes
      (gint_of_gdouble ((steady_total relays S downloads_by_tick (ticks.take (i + 1))).getD 0))
      (ticks.getD i 0) (ticks.getD (i + 1) 0)

/-- Three downloads over two relays of capacity 1: the steady-state total is 3/2. -/
def relays_half : GHashTable String Int :=
  [("a", 1), ("b", 1), ("g", 10), ("m", 10), ("x-exit", 10), ("y-exit", 10), ("z-exit", 10)]

/-- A download from 0 s to 1 s. -/
def ex_short (i : Nat) : download_t := { id := i, start_time := 0, end_time := 1000 }

/-- The three downloads of `relays_half`. -/
def downloads_half : List download_t := [ex_short 1, ex_short 2, ex_short 3]

/-- The first two downloads share `a`, the last two share `b`. -/
def selection_half : GHashTable download_t circuit_t :=
  [(ex_short 1, ex_circuit "a" "g" "x-exit"), (ex_short 2, ex_circuit "a" "b" "y-exit"),
   (ex_short 3, ex_circuit "b" "m" "z-exit")]

/-- Every entry of an assignment is a candidate of its download. -/
def selection_in_pool (S : GHashTable download_t circuit_t) : Prop :=
  ∀ d c, g_hash_table_lookup S d = some c → c ∈ d.circuits

/-- What a stretch of `run_dwc_algorithm` keeps of the assignment: the entries
stay in the pools and no entry is lost. -/
def dwc_extends (st st' : dwc_state) : Prop :=
  (selection_in_pool st.circuit_selection → selection_in_pool st'.circuit_selection) ∧
  ∀ d, (g_hash_table_lookup st.circuit_selection d).isSome = true →
    (g_hash_table_lookup st'.circuit_selection d).isSome = true

/-- Two candidate circuits over disjoint relays, of capacity 100 and 50. -/
def relays_dwc : GHashTable String Int :=
  [("g1", 100), ("m1", 100), ("x1-exit", 100), ("g2", 50), ("m2", 50), ("x2-exit", 50)]

/-- The pool of the two circuits of `relays_dwc`. -/
def pool_dwc : List circuit_t := [ex_circuit "g1" "m1" "x1-exit", ex_circuit "g2" "m2" "x2-exit"]

/-- A download of the pool `pool_dwc`. -/
def ex_arrival (i : Nat) (s e : Int) : download_t :=
  { id := i, start_time := s, end_time := e, circuits := pool_dwc }

/-- Two disjoint circuits, of capacity 100 and 50. -/
def relays_split : GHashTable String Int :=
  [("g", 1000), ("m", 1000), ("x-exit", 100), ("g2", 1000), ("m2", 1000), ("y-exit", 50)]

/-- A download that starts and ends at tick 0. -/
def ex_instant : download_t := { id := 0, start_time := 0, end_time := 0 }

/-- The download of length 0 on the first circuit, a download of 10 s on the
second. -/
def selection_split : GHashTable download_t circuit_t :=
  [(ex_instant, ex_circuit "g" "m" "x-exit"), (ex_download 1, ex_circuit "g2" "m2" "y-exit")]

/-- The order of the DWC choice: the pair `(w1, b1)` of a weight and a
bandwidth is at least as good as `(w2, b2)`. -/
def dwc_before (w1 : ℚ) (b1 : Int) (w2 : ℚ) (b2 : Int) : Prop :=
  w1 < w2 ∨ (w1 = w2 ∧ b2 ≤ b1)

/-! ## The catalog: candidate circuits -/

/-- The test `g_strstr_len(haystack, -1, needle)` for a match, on the characters
of the two strings. -/
def strstr_chars : List Char → List Char → Bool
  | [], needle => needle.isEmpty
  | c :: t, needle => needle.isPrefixOf (c :: t) || strstr_chars t needle

/-- Whether `g_strstr_len(haystack, -1, needle)` finds the needle. -/
def g_strstr_len (haystack needle : String) : Bool :=
  strstr_chars haystack.toList needle.toList

/-- The placement that both circuit builders make of three relays: the last of
them that is named as an exit takes the exit slot, the other two keep their
order; `none` when none of the three is an exit (the circuit is dropped). -/
def place_exit (bandwidth : ℚ) (relay1 relay2 relay3 : String) : Option circuit_t :=
  if g_strstr_len relay3 "exit" then
    some { guard := relay1, middle := relay2, exit := relay3, bandwidth := bandwidth }
  else if g_strstr_len relay2 "exit" then
    some { guard := relay1, middle := relay3, exit := relay2, bandwidth := bandwidth }
  else if g_strstr_len relay1 "exit" then
    some { guard := relay2, middle := relay3, exit := relay1, bandwidth := bandwidth }
  else none

/-- The body of the innermost loop of `build_all_circuits` for the relays at the
positions `i`, `j` and `k` of the key list. The loops keep the positions below
the length of the list, so `g_list_nth_data` finds all three. -/
def all_circuits_at (relays : GHashTable String Int) (relay_list : List String)
    (i j k : Nat) : List circuit_t :=
  match relay_list[i]?, relay_list[j]?, relay_list[k]? with
  | some relay1, some relay2, some relay3 =>
    let bw1 := relay_capacity relays relay1
    let bw2 := relay_capacity relays relay2
    let bw3 := relay_capacity relays relay3
    (place_exit ((min bw1 (min bw2 bw3) : Int) : ℚ) relay1 relay2 relay3).toList
  | _, _, _ => []

/-- The function `build_all_circuits`: the loops run over `i < nrelays - 2`,
`i < j < nrelays - 1` and `j < k < nrelays`. -/
def build_all_circuits (relays : GHashTable String Int) : List circuit_t :=
  let relay_list := g_hash_table_get_keys relays
  let nrelays := g_hash_table_size relays
  (List.range (nrelays - 2)).flatMap fun i =>
    (List.range' (i + 1) (nrelays - 1 - (i + 1))).flatMap fun j =>
      (List.range' (j + 1) (nrelays - (j + 1))).flatMap fun k =>
        all_circuits_at relays relay_list i j k

/-- The comparison `compare_relay_by_bw`, a difference taken in `gint`. -/
def compare_relay_by_bw (relay_bandwidth : GHashTable String Int) (relay1 relay2 : String) :
    Int :=
  gint_wrap (relay_capacity relay_bandwidth relay2 - relay_capacity relay_bandwidth relay1)

/-- The call `g_queue_sort`: a stable sort, an element going before the first
element it does not compare greater than. -/
def g_queue_sort {α : Type} (compare : α → α → Int) (queue : List α) : List α :=
  queue.insertionSort (fun a b => compare a b ≤ 0)

/-- The tables of `build_pruned_circuits` between two passes of its loop. -/
structure pruned_state where
  relay_bandwidth : GHashTable String Int
  relays_remaining : List String
  circuits : List circuit_t
deriving DecidableEq

/-- The scan of `build_pruned_circuits` for the first relay of the queue that is
named as an exit, which `g_queue_pop_nth` takes out of the queue. -/
def pop_first_exit : List String → Option (String × List String)
  | [] => none
  | relay :: t =>
    if g_strstr_len relay "exit" then some (relay, t)
    else (pop_first_exit t).map fun p => (p.1, relay :: p.2)

/-- The tables with which the loop of `build_pruned_circuits` starts: the
capacities are copied and every relay is pushed at the head of the queue. -/
def pruned_init (relays : GHashTable String Int) : pruned_state :=
  relays.foldl (fun st entry =>
    { st with
      relay_bandwidth := g_hash_table_insert st.relay_bandwidth entry.1 entry.2
      relays_remaining := entry.1 :: st.relays_remaining })
    { relay_bandwidth := [], relays_remaining := [], circuits := [] }

/-- One pass of the loop of `build_pruned_circuits`; `none` when the loop ends,
with fewer than three relays in the queue or without an exit for the two
relays popped. The differences are stored as they are, `GINT_TO_POINTER` of a
`gdouble`. -/
def pruned_step (st : pruned_state) : Option pruned_state :=
  if st.relays_remaining.length < 3 then none
  else
    match g_queue_sort (compare_relay_by_bw st.relay_bandwidth) st.relays_remaining with
    | relay1 :: relay2 :: queue =>
      let third : Option (String × List String) :=
        if g_strstr_len relay1 "exit" || g_strstr_len relay2 "exit" then
          match queue with
          | relay3 :: queue => some (relay3, queue)
          | [] => none
        else pop_first_exit queue
      match third with
      | none => none
      | some (relay3, queue) =>
        let bw1 := relay_capacity st.relay_bandwidth relay1
        let bw2 := relay_capacity st.relay_bandwidth relay2
        let bw3 := relay_capacity st.relay_bandwidth relay3
        let bandwidth := min bw1 (min bw2 bw3)
        let t1 := g_hash_table_insert st.relay_bandwidth relay1 (bw1 - bandwidth)
        let t2 := g_hash_table_insert t1 relay2 (bw2 - bandwidth)
        let t3 := g_hash_table_insert t2 relay3 (bw3 - bandwidth)
        some { relay_bandwidth := t3
               relays_remaining := queue
               circuits := st.circuits ++ (place_exit (bandwidth : ℚ) relay1 relay2 relay3).toList }
    | _ => none

/-- The loop of `build_pruned_circuits`; the first argument bounds the number of
passes, and as many passes as the queue has relays are enough
(`pruned_loop_done`). -/
def pruned_loop : Nat → pruned_state → pruned_state
  | 0, st => st
  | n + 1, st =>
    match pruned_step st with
    | none => st
    | some st1 => pruned_loop n st1

/-- The function `build_pruned_circuits`. -/
def build_pruned_circuits (relays : GHashTable String Int) : List circuit_t :=
  (pruned_loop (g_hash_table_size relays) (pruned_init relays)).circuits

/-- The set of the three relays of a circuit. -/
def relay_set (c : circuit_t) : Finset String := {c.guard, c.middle, c.exit}

/-- A table of six relays, three of them exits. -/
def relays_six : GHashTable String Int :=
  [("a", 30), ("b-exit", 50), ("c", 20), ("d-exit", 40), ("e", 60), ("f-exit", 10)]

/-- The invariant of the loop of `build_pruned_circuits`: a relay still in the
queue has its capacity left, no residual is negative, and the bandwidths of
the circuits made fit into what the relays that left the queue had. -/
structure pruned_ok (relays : GHashTable String Int) (st : pruned_state) : Prop where
  queue_nodup : st.relays_remaining.Nodup
  untouched : ∀ r ∈ st.relays_remaining,
    relay_capacity st.relay_bandwidth r = relay_capacity relays r
  nonneg : ∀ e ∈ st.relay_bandwidth, 0 ≤ e.2
  budget : (st.circuits.map (fun c => c.bandwidth)).sum +
      ((st.relays_remaining.map (fun r => (relay_capacity relays r : ℚ))).sum) ≤
    ((relays.map (fun e => (e.2 : ℚ))).sum)
  bandwidths : ∀ c ∈ st.circuits,
    c.bandwidth = ((min (relay_capacity relays c.guard)
      (min (relay_capacity relays c.middle) (relay_capacity relays c.exit)) : Int) : ℚ)

/-! ## The catalog: circuits read from a file -/

/-- The tokens of `g_strsplit(string, " ", 0)` for a string that is not empty,
on its characters. -/
def strsplit_chars : List Char → List (List Char)
  | [] => [[]]
  | c :: t =>
    if c = ' ' then [] :: strsplit_chars t
    else
      match strsplit_chars t with
      | [] => [[c]]
      | token :: tokens => (c :: token) :: tokens

/-- The call `g_strsplit(string, " ", 0)`; an empty string has no token. -/
def g_strsplit (string : String) : List String :=
  if string = "" then [] else (strsplit_chars string.toList).map String.mk

/-- The filter of `read_circuits` for a circuit that names a client: the
circuit joins the pool of a download whose interval its window covers, a bound
of 0 leaving the side open. -/
def offer_circuit (circuit : circuit_t) (download : download_t) : download_t :=
  if (circuit.start_time = 0 ∨ circuit.start_time ≤ (download.start_time : ℚ)) ∧
      (circuit.end_time = 0 ∨ (download.end_time : ℚ) ≤ circuit.end_time) then
    { download with circuits := download.circuits ++ [circuit] }
  else download

/-- The body of the loop of `read_circuits` for one line of the file; the
result is the queue of circuits and the downloads of every client. The
conversion `g_ascii_strtod` is a parameter. The record comes from `g_new0`, and
no line of the function writes its field `bandwidth`. -/
def read_circuit_line (g_ascii_strtod : String → ℚ)
    (acc : List circuit_t × GHashTable String (List download_t)) (line : String) :
    List circuit_t × GHashTable String (List download_t) :=
  if line = "" then acc
  else
    let parts := g_strsplit line
    let nparts := parts.length
    if nparts < 3 then acc
    else
      let circuit : circuit_t :=
        { guard := parts.getD 0 ""
          middle := parts.getD 1 ""
          exit := parts.getD 2 ""
          bandwidth := 0
          client := if 3 < nparts then parts[3]? else none
          start_time := if 4 < nparts then g_ascii_strtod (parts.getD 4 "") * 1000 else 0
          end_time := if 5 < nparts then g_ascii_strtod (parts.getD 5 "") * 1000 else 0 }
      match circuit.client with
      | none => (acc.1 ++ [circuit], acc.2)
      | some client =>
        match g_hash_table_lookup acc.2 client with
        | none => acc
        | some downloads =>
          (acc.1 ++ [circuit],
            g_hash_table_insert acc.2 client (downloads.map (offer_circuit circuit)))

/-- The function `read_circuits`, on the lines of the file. -/
def read_circuits (g_ascii_strtod : String → ℚ) (lines : List String)
    (client_downloads : GHashTable String (List download_t)) :
    List circuit_t × GHashTable String (List download_t) :=
  lines.foldl (read_circuit_line g_ascii_strtod) ([], client_downloads)

/-! ## The greedy strategy: the order of the downloads -/

/-- The comparison `compare_download_by_end`, a difference taken in `gint`. -/
def compare_download_by_end (download1 download2 : download_t) : Int :=
  gint_wrap (download1.end_time - download2.end_time)

/-- The comparison `compare_download_by_length`; the two lengths and their
difference are taken in `gint`. -/
def compare_download_by_length (download1 download2 : download_t) : Int :=
  let length1 := gint_wrap (download1.end_time - download1.start_time)
  let length2 := gint_wrap (download2.end_time - download2.start_time)
  gint_wrap (length2 - length1)

/-- Whether `g_ascii_strcasecmp` returns 0: the two strings are the same once
the letters `A` to `Z` are made lower case. -/
def strcasecmp_equal (s1 s2 : String) : Bool :=
  s1.toList.map Char.toLower == s2.toList.map Char.toLower

/-- The queue that `run_greedy_algorithm` hands to `greedy_circuit_selection`:
the downloads sorted as the selection mode says, an unknown mode standing for
`inorder`. -/
def greedy_order (downloads : List download_t) (selection : String) : List download_t :=
  if strcasecmp_equal selection "inorder" then
    g_queue_sort compare_download_by_end downloads
  else if strcasecmp_equal selection "longest" then
    g_queue_sort compare_download_by_length downloads
  else if strcasecmp_equal selection "shortest" then
    (g_queue_sort compare_download_by_length downloads).reverse
  else
    g_queue_sort compare_download_by_end downloads

/-- The length `end_time - start_time` of a download. -/
def download_length (download : download_t) : Int := download.end_time - download.start_time

/-- The largest `gint`. -/
def G_MAXINT : Int := 2147483647

/-- Two downloads whose end times are further apart than a `gint` can hold. -/
def downloads_far : List download_t :=
  [{ id := 1, start_time := 0, end_time := 2147483600 },
   { id := 2, start_time := -100, end_time := -100 }]

/-- Three downloads of different end times and lengths. -/
def downloads_three : List download_t :=
  [{ id := 1, start_time := 0, end_time := 9000 },
   { id := 2, start_time := 1000, end_time := 3000 },
   { id := 3, start_time := 2000, end_time := 8000 }]

/-! ## The genetic strategy -/

/-- The `experiment_t` record. -/
structure experiment_t where
  circuit_selection : GHashTable download_t circuit_t
  score : Int
deriving DecidableEq

/-- The constant `RAND_MAX` of the C library. -/
def RAND_MAX : Nat := 2147483647

/-- The inner loop with which `select_parent` and `breed` pass an experiment
along the array of the best: at every slot the one with the higher score
stays, the other moves on. The second component is the experiment that falls
out at the end. -/
def top_insert : List experiment_t → experiment_t → List experiment_t × experiment_t
  | [], iter => ([], iter)
  | e :: top, iter =>
    if e.score < iter.score then
      ((iter :: (top_insert top e).1), (top_insert top e).2)
    else
      ((e :: (top_insert top iter).1), (top_insert top iter).2)

/-- The array of the best `size` experiments as `select_parent` and `breed`
build it: the first `size` experiments, then every other experiment passed
along the array. -/
def top_experiments (experiments : List experiment_t) (size : Nat) : List experiment_t :=
  (experiments.drop size).foldl (fun top iter => (top_insert top iter).1)
    (experiments.take size)

/-- The number of copies `(gint)(score / 1024.0)` of an experiment in the
weighted array of `select_parent`. -/
def score_weight (experiment : experiment_t) : Int :=
  gint_of_gdouble ((experiment.score : ℚ) / 1024)

/-- The `gint` that `select_parent` and `breed` cut from a percentile of the
population (lines 828 and 883): the binary64 product of the number of
experiments and the percentile, without its fraction. -/
def percentile_slots (nexperiments : Int) (percentile : ℚ) : Int :=
  gint_of_gdouble (gdouble_mul (nexperiments : ℚ) percentile)

/-- The function `select_parent` for the value `rand` that its one call of
`rand()` returns. The array sizes are `gint` values cut from a `gdouble`, the
size of the array of the best from the binary64 product
`nexperiments * breed_percentile`; a
size outside the array, a division by zero, an allocation of negative size and
a write past the weighted array end the run, and so does the `NULL` that the
weighted array holds past its last entry, which `breed` dereferences. -/
def select_parent (experiments : List experiment_t) (breed_percentile : ℚ)
    (breed_weighted : Bool) (rand : Nat) : Option experiment_t :=
  let nexperiments : Int := experiments.length
  let breed_size := percentile_slots nexperiments breed_percentile
  if breed_size < 0 ∨ nexperiments < breed_size then none
  else
    let breed_experiments := top_experiments experiments breed_size.toNat
    if ¬ breed_weighted then
      if breed_size = 0 then none
      else breed_experiments[rand % breed_size.toNat]?
    else
      let total_score :=
        breed_experiments.foldl (fun total e => gint_wrap (total + score_weight e)) 0
      let weighted_experiments :=
        breed_experiments.flatMap fun e => List.replicate (score_weight e).toNat e
      if total_score ≤ 0 then none
      else if total_score < weighted_experiments.length then none
      else weighted_experiments[rand % total_score.toNat]?

/-- The copy that `breed` makes of the assignment of an elite, entry by entry. -/
def copy_selection (circuit_selection : GHashTable download_t circuit_t) :
    GHashTable download_t circuit_t :=
  circuit_selection.foldl (fun t entry => g_hash_table_insert t entry.1 entry.2) []

/-- The body of the loop of `breed` over the downloads for one child; `pos`
counts the calls of `rand()` so far, and `r` is the binary64 quotient
`(gdouble)rand() / RAND_MAX`. Both parents have to have a circuit for
the download (`g_assert`), and a mutation divides by the length of the pool. -/
def breed_download (rand : Nat → Nat) (mutation_probability : ℚ)
    (parent1 parent2 : experiment_t)
    (acc : Option (GHashTable download_t circuit_t × Nat)) (download : download_t) :
    Option (GHashTable download_t circuit_t × Nat) :=
  match acc with
  | none => none
  | some (child, pos) =>
    match g_hash_table_lookup parent1.circuit_selection download,
        g_hash_table_lookup parent2.circuit_selection download with
    | some circuit1, some circuit2 =>
      if gdouble_div (rand pos : ℚ) (RAND_MAX : ℚ) < mutation_probability then
        if download.circuits.length = 0 then none
        else
          match download.circuits[rand (pos + 1) % download.circuits.length]? with
          | none => none
          | some circuit => some (g_hash_table_insert child download circuit, pos + 2)
      else
        if gdouble_div (rand (pos + 1) : ℚ) (RAND_MAX : ℚ) < 1 / 2 then
          some (g_hash_table_insert child download circuit1, pos + 2)
        else
          some (g_hash_table_insert child download circuit2, pos + 2)
    | _, _ => none

/-- The body of the loop of `breed` that makes the children: two parents are
drawn, then every download is given a circuit. -/
def breed_child (rand : Nat → Nat) (experiments : List experiment_t)
    (downloads : List download_t) (breed_percentile : ℚ) (breed_weighted : Bool)
    (mutation_probability : ℚ)
    (acc : Option (List (GHashTable download_t circuit_t) × Nat)) (_i : Nat) :
    Option (List (GHashTable download_t circuit_t) × Nat) :=
  match acc with
  | none => none
  | some (children, pos) =>
    match select_parent experiments breed_percentile breed_weighted (rand pos),
        select_parent experiments breed_percentile breed_weighted (rand (pos + 1)) with
    | some parent1, some parent2 =>
      match downloads.foldl (breed_download rand mutation_probability parent1 parent2)
          (some ([], pos + 2)) with
      | none => none
      | some (child, pos1) => some (children ++ [child], pos1)
    | _, _ => none

/-- The assignments of the new generation as `breed` makes them: the copies of
the elites in the first slots, the children in the other slots. The number of
elite slots is the `gint` cut from the binary64 product
`nexperiments * elite_percentile`. -/
def breed_selections (rand : Nat → Nat) (experiments : List experiment_t)
    (downloads : List download_t) (breed_percentile : ℚ) (breed_weighted : Bool)
    (elite_percentile : ℚ) (mutation_probability : ℚ) :
    Option (List (GHashTable download_t circuit_t)) :=
  let nexperiments : Int := experiments.length
  let nelite := percentile_slots nexperiments elite_percentile
  if nelite < 0 ∨ nexperiments < nelite then none
  else
    let elites := (top_experiments experiments nelite.toNat).map
      fun e => copy_selection e.circuit_selection
    match (List.range (experiments.length - nelite.toNat)).foldl
        (breed_child rand experiments downloads breed_percentile breed_weighted
          mutation_probability) (some ([], 0)) with
    | none => none
    | some (children, _) => some (elites ++ children)

/-- The function `breed`: every experiment of the array is given the assignment
of its slot of the new generation; its field `score` is left as it is. -/
def breed (rand : Nat → Nat) (experiments : List experiment_t)
    (downloads : List download_t) (breed_percentile : ℚ) (breed_weighted : Bool)
    (elite_percentile : ℚ) (mutation_probability : ℚ) : Option (List experiment_t) :=
  (breed_selections rand experiments downloads breed_percentile breed_weighted
    elite_percentile mutation_probability).map fun selections =>
    List.zipWith (fun e s => { e with circuit_selection := s }) experiments selections

/-- A child of two parents, as the loop of `breed` over the downloads leaves it:
every download has the circuit that one of the two parents has for it or,
after a mutation, a circuit of its own pool. -/
def child_of (downloads : List download_t) (parent1 parent2 : experiment_t)
    (child : GHashTable download_t circuit_t) : Prop :=
  ∀ d ∈ downloads, ∃ c, g_hash_table_lookup child d = some c ∧
    (c ∈ d.circuits ∨ g_hash_table_lookup parent1.circuit_selection d = some c ∨
      g_hash_table_lookup parent2.circuit_selection d = some c)

/-- A slot that `breed` fills with a child: two draws of `select_parent` gave
its parents. -/
def child_slot (experiments : List experiment_t) (downloads : List download_t)
    (breed_percentile : ℚ) (breed_weighted : Bool)
    (child : GHashTable download_t circuit_t) : Prop :=
  ∃ (rand1 rand2 : Nat) (parent1 parent2 : experiment_t),
    select_parent experiments breed_percentile breed_weighted rand1 = some parent1 ∧
    select_parent experiments breed_percentile breed_weighted rand2 = some parent2 ∧
    child_of downloads parent1 parent2 child

/-- The fields of `experiment_info_t` that `genetic_worker` reads. -/
structure experiment_info_t where
  downloads : List download_t
  relays : GHashTable String Int
  downloads_by_tick : GHashTable Int (List download_t)
  ticks : List Int

/-- The function `genetic_worker`: the score of an experiment is the integrated
throughput of its assignment, cut to a `gint`. -/
def genetic_worker (experiment_info : experiment_info_t) (experiment : experiment_t) :
    Option experiment_t :=
  (compute_total_bandwidth experiment_info.downloads experiment_info.relays
    experiment.circuit_selection experiment_info.downloads_by_tick
    experiment_info.ticks).map fun total =>
    { experiment with score := gint_of_gdouble total }

/-- The tick index and the ticks that `run_genetic_algorithm` prepares. -/
def genetic_info (downloads : List download_t) (relays : GHashTable String Int) :
    experiment_info_t :=
  { downloads := downloads
    relays := relays
    downloads_by_tick := generate_downloads_by_tick downloads
    ticks := sorted_ticks (generate_downloads_by_tick downloads) }

/-- An experiment that gives the download of `relays_dwc` its wide circuit. -/
def experiment_wide : experiment_t :=
  { circuit_selection := [(ex_arrival 1 0 10000, ex_circuit "g1" "m1" "x1-exit")], score := 1000 }

/-- An experiment that gives the download of `relays_dwc` its narrow circuit. -/
def experiment_narrow : experiment_t :=
  { circuit_selection := [(ex_arrival 1 0 10000, ex_circuit "g2" "m2" "x2-exit")], score := 500 }

/-- A generation of four experiments. -/
def generation_four : List experiment_t :=
  [experiment_narrow, experiment_wide, experiment_narrow, experiment_narrow]

/-- A generation of ten experiments. -/
def generation_ten : List experiment_t :=
  [experiment_narrow, experiment_wide, experiment_narrow, experiment_narrow, experiment_wide,
   experiment_narrow, experiment_wide, experiment_narrow, experiment_narrow, experiment_wide]

/-- A generation of twenty experiments, three of them of the score 1000. -/
def generation_twenty : List experiment_t :=
  [experiment_narrow, experiment_wide, experiment_narrow, experiment_wide, experiment_wide] ++
    List.replicate 15 experiment_narrow

/-- The generation that `breed` makes of `generation_twenty` with three elite
slots when every download is mutated to the second circuit of its pool. -/
def generation_twenty_bred : List experiment_t :=
  [{ experiment_wide with score := 500 }, experiment_wide, { experiment_wide with score := 500 },
   { experiment_narrow with score := 1000 }, { experiment_narrow with score := 1000 }] ++
    List.replicate 15 experiment_narrow

/-- A generation of two experiments, the better one first. -/
def generation_two : List experiment_t := [experiment_wide, experiment_narrow]

/-- The generation that `breed` makes of `generation_two` when every download
is mutated to the second circuit of its pool. -/
def generation_two_bred : List experiment_t :=
  [{ experiment_narrow with score := 1000 }, experiment_narrow]

/-! ## The greedy strategy: the selection -/

/-- The tick index of `greedy_circuit_selection` with the queues it has made.
A pointer is the integer of its 64 bits, `NULL` is 0, and `GINT_TO_POINTER` of
a `gint` is that `gint`. The source makes an entry with
`g_hash_table_insert(downloads_by_tick, tick_downloads, GINT_TO_POINTER(tick))`:
the address of the queue is the key, and the tick is the value. -/
structure greedy_index where
  downloads_by_tick : GHashTable Int Int
  queues : GHashTable Int (List download_t)
deriving DecidableEq

/-- The lines of `greedy_circuit_selection` that put a download into the list
of one of its two ticks. `queue_address n` is the address that `g_queue_new`
returns for the queue made after `n` others. What the lookup returns is used
as a queue: pushing to an address that is not a queue ends the run. -/
def greedy_tick_queue (queue_address : Nat → Int) (index : greedy_index) (tick : Int)
    (download : download_t) : Option greedy_index :=
  let tick_downloads := (g_hash_table_lookup index.downloads_by_tick tick).getD 0
  if tick_downloads = 0 then
    let queue := queue_address index.queues.length
    some { downloads_by_tick := g_hash_table_insert index.downloads_by_tick queue tick
           queues := g_hash_table_insert index.queues queue [download] }
  else
    match g_hash_table_lookup index.queues tick_downloads with
    | none => none
    | some queue =>
      some { index with
             queues := g_hash_table_insert index.queues tick_downloads (queue ++ [download]) }

/-- The queue `ticks` of `greedy_circuit_selection`: the keys of the index,
sorted with `compare_int`, which takes each key as `GPOINTER_TO_INT` cuts it. -/
def greedy_ticks (index : greedy_index) : List Int :=
  (g_hash_table_get_keys index.downloads_by_tick).insertionSort
    (fun p q => compare_int (gint_wrap p) (gint_wrap q) ≤ 0)

/-- The tick lists that `compute_total_bandwidth` finds when it is given the
index of `greedy_circuit_selection`: for every element of `ticks` it looks up
`GINT_TO_POINTER(tick)` and walks what it gets as a queue; `NULL` is walked as
an empty queue, an address that is not a queue ends the run. -/
def greedy_tick_lists (index : greedy_index) (ticks : List Int) :
    Option (GHashTable Int (List download_t)) :=
  ticks.foldl (fun acc p =>
    match acc with
    | none => none
    | some lists =>
      match g_hash_table_lookup index.downloads_by_tick (gint_wrap p) with
      | none => some lists
      | some tick_downloads =>
        if tick_downloads = 0 then some lists
        else
          match g_hash_table_lookup index.queues tick_downloads with
          | none => none
          | some queue => some (g_hash_table_insert lists (gint_wrap p) queue)) (some [])

/-- The call of `compute_total_bandwidth` that `greedy_circuit_selection` makes
for an assignment. -/
def greedy_total_bandwidth (downloads : List download_t) (relays : GHashTable String Int)
    (index : greedy_index) (circuit_selection : GHashTable download_t circuit_t) : Option ℚ :=
  match greedy_tick_lists index (greedy_ticks index) with
  | none => none
  | some lists =>
    compute_total_bandwidth downloads relays circuit_selection lists
      ((greedy_ticks index).map gint_wrap)

/-- The values that the loop of `greedy_circuit_selection` over the candidates
of a download keeps; `best_circuit` is `none` as long as no candidate has set
the variable, which the source declares without a value. -/
structure greedy_best_t where
  circuit_selection : GHashTable download_t circuit_t
  best_circuit : Option circuit_t
  best_circuit_bandwidth : ℚ
deriving DecidableEq

/-- The body of the loop of `greedy_circuit_selection` over the candidates. -/
def greedy_candidate (downloads : List download_t) (relays : GHashTable String Int)
    (index : greedy_index) (download : download_t) (acc : Option greedy_best_t)
    (circuit : circuit_t) : Option greedy_best_t :=
  match acc with
  | none => none
  | some st =>
    let circuit_selection := g_hash_table_insert st.circuit_selection download circuit
    match greedy_total_bandwidth downloads relays index circuit_selection with
    | none => none
    | some bandwidth =>
      if st.best_circuit_bandwidth < bandwidth then
        some { circuit_selection := circuit_selection
               best_circuit := some circuit
               best_circuit_bandwidth := bandwidth }
      else some { st with circuit_selection := circuit_selection }

/-- The index and the assignment that `greedy_circuit_selection` builds. -/
structure greedy_state where
  index : greedy_index
  circuit_selection : GHashTable download_t circuit_t
deriving DecidableEq

/-- The body of the loop of `greedy_circuit_selection` for one download. The
commit reads `best_circuit`, and the message that follows dereferences it: the
run ends there when no candidate has set it. -/
def greedy_download (queue_address : Nat → Int) (downloads : List download_t)
    (relays : GHashTable String Int) (acc : Option greedy_state) (download : download_t) :
    Option greedy_state :=
  match acc with
  | none => none
  | some st =>
    match greedy_tick_queue queue_address st.index download.start_time download with
    | none => none
    | some index1 =>
      match greedy_tick_queue queue_address index1 download.end_time download with
      | none => none
      | some index2 =>
        match download.circuits.foldl (greedy_candidate downloads relays index2 download)
            (some { circuit_selection := st.circuit_selection
                    best_circuit := none
                    best_circuit_bandwidth := 0 }) with
        | none => none
        | some best =>
          match best.best_circuit with
          | none => none
          | some best_circuit =>
            some { index := index2
                   circuit_selection :=
                     g_hash_table_insert best.circuit_selection download best_circuit }

/-- The function `greedy_circuit_selection`; the result is the assignment it
has committed when its loop ends. -/
def greedy_circuit_selection (queue_address : Nat → Int) (downloads : List download_t)
    (relays : GHashTable String Int) : Option (GHashTable download_t circuit_t) :=
  (downloads.foldl (greedy_download queue_address downloads relays)
    (some { index := { downloads_by_tick := [], queues := [] }
            circuit_selection := [] })).map fun st => st.circuit_selection

/-- The function `run_greedy_algorithm`. -/
def run_greedy_algorithm (queue_address : Nat → Int) (downloads : List download_t)
    (relays : GHashTable String Int) (selection : String) :
    Option (GHashTable download_t circuit_t) :=
  greedy_circuit_selection queue_address (greedy_order downloads selection) relays

/-- A download from 0 s to 10 s whose pool is the one circuit of scenario A. -/
def ex_single : download_t :=
  { id := 1, start_time := 0, end_time := 10000, circuits := [ex_circuit "g" "m" "x-exit"] }

/-- Addresses of a heap above the range of a `gint`. -/
def heap_address (n : Nat) : Int := 94000000000000 + 48 * n

/-! ## Notions for the weights of the DWC strategy -/

/-- What the table `weights` holds between two rounds of the solve: an entry is
the entry of a recorded bottleneck, and every recorded bottleneck has a
positive entry. -/
structure weights_ok (st : solve_state) : Prop where
  keys : ∀ w, st.weights = some w → ∀ r v, g_hash_table_lookup w r = some v →
    ∃ e ∈ st.fields, e.2.2 = r
  positive : ∀ w, st.weights = some w → ∀ e ∈ st.fields,
    ∃ v, g_hash_table_lookup w e.2.2 = some v ∧ 0 < v

/-- Scenario E with a wide guard: the first circuit is `g1`, `m1`, `x1-exit`,
with the narrow exit. -/
def relays_e : GHashTable String Int :=
  [("g1", 1000), ("m1", 1000), ("x1-exit", 100), ("m2", 1000), ("x2-exit", 1000),
   ("g3", 50), ("m3", 50), ("x3-exit", 50)]

/-- The first arrival of scenario E, with one candidate. -/
def arrival_one : download_t :=
  { id := 1, start_time := 0, end_time := 10000,
    circuits := [ex_circuit "g1" "m1" "x1-exit"] }

/-- The second arrival of scenario E: its first candidate shares the guard `g1`
with the circuit of the first arrival, its second candidate shares no relay. -/
def arrival_two : download_t :=
  { id := 2, start_time := 0, end_time := 10000,
    circuits := [ex_circuit "g1" "m2" "x2-exit", ex_circuit "g3" "m3" "x3-exit"] }

/-! ## Notions for the safety of the solve -/

/-- The three relays of a circuit are pairwise different. -/
def circuit_distinct (c : circuit_t) : Prop :=
  c.guard ≠ c.middle ∧ c.guard ≠ c.exit ∧ c.middle ≠ c.exit

/-- The smallest of the capacities of the three relays of a circuit. -/
def circuit_capacity (relays : GHashTable String Int) (c : circuit_t) : Int :=
  min (relay_capacity relays c.guard)
    (min (relay_capacity relays c.middle) (relay_capacity relays c.exit))

/-- The state after `k` rounds of the main loop of `compute_download_bandwidths`;
`none` when there is no such round, the loop having ended before or a round
having raised an error. -/
def solve_rounds (circuit_selection : GHashTable download_t circuit_t) :
    Nat → solve_state → Option solve_state
  | 0, st => some st
  | k + 1, st =>
    if 0 < g_hash_table_size st.active_relays ∧ 0 < g_hash_table_size st.relay_downloads
    then (solve_round circuit_selection st).bind (solve_rounds circuit_selection k)
    else none

/-- The tables with which the main loop of `compute_download_bandwidths` starts. -/
def solve_init (t : GHashTable String (List download_t) × GHashTable String ℚ)
    (weights : Option (GHashTable String ℚ)) : solve_state :=
  { active_relays := t.2, relay_downloads := t.1, total_bandwidth := 0, weights := weights,
    fields := [] }

/-- What the tolerance of `update_relays` keeps: no residual of an active relay
and no bandwidth written is under one millionth. -/
structure floor_ok (st : solve_state) : Prop where
  residual : ∀ r v, g_hash_table_lookup st.active_relays r = some v → (1 : ℚ) / 1000000 ≤ v
  written : ∀ e ∈ st.fields, (1 : ℚ) / 1000000 ≤ e.2.1

/-! ## The weighted circuit lists -/

/-- The weight `MAX((gint)(circuit->bandwidth / 1024.0), 1)` of a circuit in the
weighted list. -/
def circuit_weight (circuit : circuit_t) : Int :=
  max (gint_of_gdouble (circuit.bandwidth / 1024)) 1

/-- The three outputs of `generate_circuit_lists`. -/
structure circuit_lists_t where
  circuit_list : List circuit_t
  weighted_circuit_list : List circuit_t
  total_circuit_bandwidth : Int
deriving DecidableEq

/-- The second loop of `generate_circuit_lists` for the position `i` of the
array: `bw` entries are written behind those written so far. -/
def weighted_fill (list : List circuit_t) (weighted_list : List circuit_t) (i : Nat) :
    List circuit_t :=
  match list[i]? with
  | some circuit =>
    (List.range (circuit_weight circuit).toNat).foldl (fun l _ => l ++ [circuit]) weighted_list
  | none => weighted_list

/-- The function `generate_circuit_lists`. The total is added up in `gint`; the
weighted array is allocated with that many entries, and the second loop writes
one entry per unit of weight: the call returns when the entries written are
those allocated. -/
def generate_circuit_lists (circuits : List circuit_t) : Option circuit_lists_t :=
  let list := circuits
  let total_circuit_bandwidth :=
    circuits.foldl (fun total circuit => gint_wrap (total + circuit_weight circuit)) 0
  let weighted_list := (List.range circuits.length).foldl (weighted_fill list) []
  if (weighted_list.length : Int) = total_circuit_bandwidth then
    some { circuit_list := list
           weighted_circuit_list := weighted_list
           total_circuit_bandwidth := total_circuit_bandwidth }
  else none

/-- Three relays of capacity 1500: their one circuit has the bandwidth 1500. -/
def relays_wide : GHashTable String Int := [("g", 1500), ("m", 1500), ("x-exit", 1500)]

/-- The circuit of the three relays of `relays_wide`. -/
def circuit_wide : circuit_t :=
  { guard := "g", middle := "m", exit := "x-exit", bandwidth := 1500 }

/-- A pool of two circuits, of bandwidth 2048 and 100. -/
def pool_weighted : List circuit_t :=
  [{ guard := "g1", middle := "m1", exit := "x1-exit", bandwidth := 2048 },
   { guard := "g2", middle := "m2", exit := "x2-exit", bandwidth := 100 }]

/-! ## The pools of the downloads -/

/-- The function `get_all_downloads`: the downloads of every client, client by
client. -/
def get_all_downloads (client_downloads : GHashTable String (List download_t)) :
    List download_t :=
  client_downloads.flatMap Prod.snd

/-- The loop of `main` that gives every download its pool (lines 1524-1536): a
download for which `read_circuits` made no queue takes the global queue, and
the lists of a download with a queue of its own are generated from that
queue. -/
def main_pool (circuits : List circuit_t) (download : download_t) : Option download_t :=
  if download.circuits = [] then some { download with circuits := circuits }
  else (generate_circuit_lists download.circuits).map fun _ => download

/-- The catalog as `main` sets it up from a circuits file (lines 1511-1536):
`read_circuits`, the lists of the global queue, and the pool of every
download. -/
def main_pools (g_ascii_strtod : String → ℚ) (lines : List String)
    (client_downloads : GHashTable String (List download_t)) : Option (List download_t) :=
  let read := read_circuits g_ascii_strtod lines client_downloads
  let circuits := read.1
  let downloads := get_all_downloads read.2
  match generate_circuit_lists circuits with
  | none => none
  | some _ => downloads.mapM (main_pool circuits)

/-- The window test of `read_circuits`: a bound of 0 leaves the side open. -/
def window_covers (circuit : circuit_t) (download : download_t) : Prop :=
  (circuit.start_time = 0 ∨ circuit.start_time ≤ (download.start_time : ℚ)) ∧
    (circuit.end_time = 0 ∨ circuit.end_time ≥ (download.end_time : ℚ))

instance (circuit : circuit_t) (download : download_t) :
    Decidable (window_covers circuit download) := by
  unfold window_covers
  infer_instance

/-- The record that `read_circuits` makes from a line (lines 220-247), `none`
for a line that is skipped. -/
def line_circuit (g_ascii_strtod : String → ℚ) (line : String) : Option circuit_t :=
  if line = "" then none
  else
    let parts := g_strsplit line
    if parts.length < 3 then none
    else
      some { guard := parts.getD 0 ""
             middle := parts.getD 1 ""
             exit := parts.getD 2 ""
             bandwidth := 0
             client := if 3 < parts.length then parts[3]? else none
             start_time :=
               if 4 < parts.length then g_ascii_strtod (parts.getD 4 "") * 1000 else 0
             end_time :=
               if 5 < parts.length then g_ascii_strtod (parts.getD 5 "") * 1000 else 0 }

/-- The values of `g_ascii_strtod` on the numbers of the example files. -/
def strtod_example (s : String) : ℚ :=
  if s = "5" then 5 else if s = "3" then 3 else if s = "10" then 10 else 0

/-- The downloads of two clients: one of `alice` from 0 s to 10 s and one from
0 s to 3 s, one of `bob` from 0 s to 3 s. -/
def clients_example : GHashTable String (List download_t) :=
  [("alice", [{ id := 1, client := "alice", start_time := 0, end_time := 10000 },
              { id := 2, client := "alice", start_time := 0, end_time := 3000 }]),
   ("bob", [{ id := 3, client := "bob", start_time := 0, end_time := 3000 }])]

/-- The circuit of the line `g m x-exit alice 0 5`. -/
def circuit_alice : circuit_t :=
  { guard := "g", middle := "m", exit := "x-exit", client := some "alice",
    start_time := 0, end_time := 5000 }

/-! ## The estimate of the maximum bandwidth -/

/-- Three relays of capacity one million. -/
def relays_million : GHashTable String Int :=
  [("g", 1000000), ("m", 1000000), ("x-exit", 1000000)]

/-- Three relays of capacity 1. -/
def relays_unit : GHashTable String Int := [("g", 1), ("m", 1), ("x-exit", 1)]

/-- Three relays of capacity `G_MAXINT32`. -/
def relays_max : GHashTable String Int :=
  [("g", 2147483647), ("m", 2147483647), ("x-exit", 2147483647)]

/-- The first `n` downloads of `ex_download`, all active together. -/
def downloads_crowd (n : Nat) : List download_t := (List.range n).map ex_download

/-- Every download of a list on the one circuit `g`, `m`, `x-exit`. -/
def selection_same (downloads : List download_t) : GHashTable download_t circuit_t :=
  downloads.map fun d => (d, ex_circuit "g" "m" "x-exit")

/-- A download with the given times. -/
def ex_interval (i : Nat) (s e : Int) : download_t := { id := i, start_time := s, end_time := e }

/-- The tick index without the downloads that have no circuit. -/
def delete_unassigned (circuit_selection : GHashTable download_t circuit_t)
    (downloads_by_tick : GHashTable Int (List download_t)) : GHashTable Int (List download_t) :=
  downloads_by_tick.map fun entry =>
    (entry.1, entry.2.filter fun d => (g_hash_table_lookup circuit_selection d).isSome)

/-- Two downloads of which the second has no circuit. -/
def downloads_sparse : List download_t := [ex_interval 1 0 5000, ex_interval 2 1000 4000]

/-- The assignment that has an entry for the first download of `downloads_sparse`
only. -/
def selection_sparse : GHashTable download_t circuit_t :=
  [(ex_interval 1 0 5000, ex_circuit "g" "m" "x-exit")]
/-! ## Inputs for the error of the solve -/

/-- Three relays of capacity 0. -/
def relays_idle : GHashTable String Int := [("g", 0), ("m", 0), ("x-exit", 0)]

/-! ## The tick queue of `get_download_ticks` -/

/-- The function `get_download_ticks`: the start and the end of every download
are pushed to the tail of a queue, which is then sorted with `compare_int`. -/
def get_download_ticks (downloads : List download_t) : List Int :=
  g_queue_sort compare_int
    (downloads.foldl
      (fun ticks download => (ticks ++ [download.start_time]) ++ [download.end_time]) [])

/-! ## The passes of `build_pruned_circuits` -/

/-- The number of passes that the loop of `build_pruned_circuits` makes from a
state, the pass that ends with `break` counted; the first argument bounds the
number of passes. -/
def pruned_passes : Nat → pruned_state → Nat
  | 0, _ => 0
  | n + 1, st =>
    if st.relays_remaining.length < 3 then 0
    else
      match pruned_step st with
      | none => 1
      | some st1 => 1 + pruned_passes n st1

/-! ## The first generation of the genetic strategy -/

/-- The body of the inner loop of `generate_initial_experiments` for one
download; `pos` counts the calls of `rand()` so far. The fields
`weighted_circuit_list` and `total_circuit_bandwidth` of the download are what
`generate_circuit_lists` made of its pool, `circuit_list` is the pool as an
array. A remainder by 0 ends the run. -/
def initial_download (rand : Nat → Nat) (weighted : Bool)
    (acc : Option (GHashTable download_t circuit_t × Nat)) (download : download_t) :
    Option (GHashTable download_t circuit_t × Nat) :=
  match acc with
  | none => none
  | some (circuit_selection, pos) =>
    let lists : Option (List circuit_t × Int) :=
      if weighted then
        (generate_circuit_lists download.circuits).map fun l =>
          (l.weighted_circuit_list, l.total_circuit_bandwidth)
      else some (download.circuits, (download.circuits.length : Int))
    match lists with
    | none => none
    | some (list, ncircuits) =>
      if ncircuits = 0 then none
      else
        match list[rand pos % ncircuits.natAbs]? with
        | none => none
        | some circuit =>
          some (g_hash_table_insert circuit_selection download circuit, pos + 1)

/-- The body of the outer loop of `generate_initial_experiments`: a new table is
filled download by download; the score is the 0 of `g_new0`. -/
def initial_experiment (rand : Nat → Nat) (downloads : List download_t) (weighted : Bool)
    (acc : Option (List experiment_t × Nat)) (_i : Nat) : Option (List experiment_t × Nat) :=
  match acc with
  | none => none
  | some (experiments, pos) =>
    match downloads.foldl (initial_download rand weighted) (some ([], pos)) with
    | none => none
    | some (circuit_selection, pos1) =>
      some (experiments ++ [{ circuit_selection := circuit_selection, score := 0 }], pos1)

/-- The function `generate_initial_experiments` for `n` experiments. -/
def generate_initial_experiments (rand : Nat → Nat) (downloads : List download_t)
    (weighted : Bool) (n : Nat) : Option (List experiment_t) :=
  ((List.range n).foldl (initial_experiment rand downloads weighted) (some ([], 0))).map
    Prod.fst

/-- An assignment gives every download of the list a circuit of the download's
own pool. -/
def pool_assignment (downloads : List download_t)
    (circuit_selection : GHashTable download_t circuit_t) : Prop :=
  ∀ d ∈ downloads, ∃ c, g_hash_table_lookup circuit_selection d = some c ∧ c ∈ d.circuits

/-- The experiment that `generate_initial_experiments` makes for the download of
`relays_dwc` when every draw is 1: the second circuit of the pool, the score 0. -/
def experiment_narrow_zero : experiment_t :=
  { circuit_selection := [(ex_arrival 1 0 10000, ex_circuit "g2" "m2" "x2-exit")], score := 0 }

/-- What a table of the genetic strategy keeps while it is filled: the keys are
pairwise different and every entry is a circuit of the pool of its download. -/
def pool_table (t : GHashTable download_t circuit_t) : Prop :=
  (g_hash_table_get_keys t).Nodup ∧
    ∀ d c, g_hash_table_lookup t d = some c → c ∈ d.circuits

/-! ## Inputs for the side tables of the solve -/

/-- What the solve of scenario B leaves behind when it is given two empty side
tables: the weight 2 / 50 for the exit, the capacity 1000 less the two
bandwidths of 50 for the guard and the middle relay. -/
def result_b_side : solve_result :=
  { total_bandwidth := 100, weights := some [("x-exit", 1 / 25)],
    available_bandwidth := some [("g", 900), ("m", 900)],
    fields := [(ex_download 2, 50, "x-exit"), (ex_download 1, 50, "x-exit")] }

/-- A relay of capacity 5 among wide relays, and a relay that no circuit uses. -/
def relays_odd : GHashTable String Int :=
  [("a", 5), ("g1", 1000), ("x1-exit", 1000), ("g2", 1000), ("x2-exit", 1000), ("idle", 700)]

/-- Two downloads that share the relay `a` of `relays_odd`. -/
def selection_odd : GHashTable download_t circuit_t :=
  [(ex_download 1, ex_circuit "g1" "a" "x1-exit"), (ex_download 2, ex_circuit "g2" "a" "x2-exit")]

/-- What the solve over the two downloads of `selection_odd` leaves behind when
it is given an empty table `available_bandwidth`. -/
def result_odd : solve_result :=
  { total_bandwidth := 5, weights := none,
    available_bandwidth :=
      some [("idle", 700), ("g1", 997), ("x1-exit", 997), ("g2", 997), ("x2-exit", 997)],
    fields := [(ex_download 2, 5 / 2, "a"), (ex_download 1, 5 / 2, "a")] }

/-- What the solve keeps of the relays that are no longer active: an active
relay carries a download of the active set, and a relay that carried one and is
no longer active has less than the tolerance of `update_relays` left. -/
structure gone_ok (A : List download_t) (relays : GHashTable String Int)
    (S : GHashTable download_t circuit_t) (st : solve_state) : Prop where
  touched : ∀ r v, g_hash_table_lookup st.active_relays r = some v →
    ∃ d ∈ A, on_relay S r d = true
  gone : ∀ r, (∃ d ∈ A, on_relay S r d = true) →
    g_hash_table_lookup st.active_relays r = none →
    (relay_capacity relays r : ℚ) - relay_usage S st.fields r < 1 / 1000000

/-! ## The DWC choice as one scan of the pool -/

/-- The values with which every worker and the reduction of `run_dwc_algorithm`
start. -/
def dwc_choice_init : dwc_choice_t :=
  { best_circuit := none, best_circuit_weight := G_MAXDOUBLE, best_circuit_bandwidth := G_MININT }

/-- A candidate with its weight and its bandwidth. -/
def dwc_candidate (weights : GHashTable String ℚ) (bandwidths : GHashTable String Int)
    (circuit : circuit_t) : dwc_choice_t :=
  { best_circuit := some circuit
    best_circuit_weight := circuit_weight_of weights circuit
    best_circuit_bandwidth := circuit_available bandwidths circuit }

/-- The comparison of `dwc_worker` and of the reduction: the running best is
replaced by a value of smaller weight, or of the same weight and larger
bandwidth. -/
def dwc_merge (acc x : dwc_choice_t) : dwc_choice_t :=
  if x.best_circuit_weight < acc.best_circuit_weight ∨
      (acc.best_circuit_weight = x.best_circuit_weight ∧
        acc.best_circuit_bandwidth < x.best_circuit_bandwidth) then x
  else acc

/-- One scan of a list of candidates from a running best. -/
def dwc_scan_from (weights : GHashTable String ℚ) (bandwidths : GHashTable String Int)
    (acc : dwc_choice_t) (l : List circuit_t) : dwc_choice_t :=
  l.foldl (fun acc circuit => dwc_merge acc (dwc_candidate weights bandwidths circuit)) acc

/-- One scan of a list of candidates, as a single worker makes it. -/
def dwc_scan (weights : GHashTable String ℚ) (bandwidths : GHashTable String Int)
    (l : List circuit_t) : dwc_choice_t :=
  dwc_scan_from weights bandwidths dwc_choice_init l

/-- The place of a value in the order of the choice: ascending weight, then
descending bandwidth. -/
def dwc_key (x : dwc_choice_t) : Lex (ℚ × Int) :=
  toLex (x.best_circuit_weight, - x.best_circuit_bandwidth)

/-- The three result fields of a worker. -/
def dwc_result (r : dwc_best_t) : dwc_choice_t :=
  { best_circuit := r.best_circuit
    best_circuit_weight := r.best_circuit_weight
    best_circuit_bandwidth := r.best_circuit_bandwidth }

/-- A pool of three circuits over the relays of `relays_e`. -/
def arrival_three : download_t :=
  { id := 3, start_time := 0, end_time := 10000,
    circuits := [ex_circuit "g1" "m2" "x2-exit", ex_circuit "g3" "m3" "x3-exit",
      ex_circuit "g1" "m1" "x1-exit"] }

/-! ## The solve under every iteration order of its tables -/

/-- The same scratch tables in another iteration order: the active relays, the
relays with downloads, and the downloads of every relay are the same, in
whatever order. -/
structure reordered (st st' : solve_state) : Prop where
  active : st'.active_relays.Perm st.active_relays
  relays : (g_hash_table_get_keys st'.relay_downloads).Perm
    (g_hash_table_get_keys st.relay_downloads)
  downloads : ∀ r, (pending st'.relay_downloads r).Perm (pending st.relay_downloads r)
  total : st'.total_bandwidth = st.total_bandwidth
  weights : st'.weights = st.weights
  fields : st'.fields = st.fields

/-- A run of the main loop of `compute_download_bandwidths` in which every pass
finds the tables in some iteration order, from a state to the state with which
the loop ends. -/
inductive solve_run (circuit_selection : GHashTable download_t circuit_t) :
    solve_state → solve_state → Prop
  | done (st : solve_state) :
    ¬ (0 < g_hash_table_size st.active_relays ∧ 0 < g_hash_table_size st.relay_downloads) →
    solve_run circuit_selection st st
  | round (st st1 st2 st3 : solve_state) :
    (0 < g_hash_table_size st.active_relays ∧ 0 < g_hash_table_size st.relay_downloads) →
    reordered st st1 → solve_round circuit_selection st1 = some st2 →
    solve_run circuit_selection st2 st3 → solve_run circuit_selection st st3

/-- What a call of `compute_download_bandwidths` that returns can leave behind
under some iteration order of the active set and of the scratch tables: the
download fields written and the total returned. -/
def solve_outcome (active_downloads : List download_t) (relays : GHashTable String Int)
    (circuit_selection : GHashTable download_t circuit_t)
    (fields : List (download_t × ℚ × String)) (total_bandwidth : ℚ) : Prop :=
  ∃ (order : List download_t)
    (t : GHashTable String (List download_t) × GHashTable String ℚ)
    (weights : Option (GHashTable String ℚ)) (st : solve_state),
    order.Perm active_downloads ∧ build_relay_tables order relays circuit_selection = some t ∧
    solve_run circuit_selection (solve_init t weights) st ∧
    ¬ (0 < g_hash_table_size st.relay_downloads) ∧
    st.fields = fields ∧ st.total_bandwidth = total_bandwidth

/-- One pass of the loop of `compute_total_bandwidth` in which the solve finds
its tables in some iteration order. -/
def tick_outcome (relays : GHashTable String Int)
    (circuit_selection : GHashTable download_t circuit_t)
    (downloads_by_tick : GHashTable Int (List download_t))
    (st : integrate_state) (tick : Int) (st' : integrate_state) : Prop :=
  ∃ (active_downloads : GHashTable download_t Bool) (fields : List (download_t × ℚ × String))
    (bandwidth : ℚ),
    tick_active circuit_selection downloads_by_tick st.active_downloads tick =
      some active_downloads ∧
    solve_outcome (g_hash_table_get_keys active_downloads) relays circuit_selection fields
      bandwidth ∧
    st' = { active_downloads := active_downloads
            total_bandwidth :=
              if st.last_tick ≠ -1 then
                st.total_bandwidth + interval_bytes st.last_bandwidth st.last_tick tick
              else st.total_bandwidth
            last_tick := tick
            last_bandwidth := gint_of_gdouble bandwidth }

/-- A run of the loop of `compute_total_bandwidth` over a list of ticks in which
every solve finds its tables in some iteration order. -/
inductive integrate_run (relays : GHashTable String Int)
    (circuit_selection : GHashTable download_t circuit_t)
    (downloads_by_tick : GHashTable Int (List download_t)) :
    integrate_state → List Int → integrate_state → Prop
  | nil (st : integrate_state) : integrate_run relays circuit_selection downloads_by_tick st [] st
  | cons (st st1 st2 : integrate_state) (tick : Int) (ticks : List Int) :
    tick_outcome relays circuit_selection downloads_by_tick st tick st1 →
    integrate_run relays circuit_selection downloads_by_tick st1 ticks st2 →
    integrate_run relays circuit_selection downloads_by_tick st (tick :: ticks) st2

/-! ## The evaluator in binary64

The steady-state solve and the integration once more, with every `gdouble`
operation of the source followed by the rounding to binary64. The tables, the
record of the written fields and the functions that compute nothing in
`gdouble` (`update_active_relay`, `remove_download_from_relay`,
`register_download`, `record_inactive`, `record_residual`, `tick_active`) are
those of the first embedding. -/

namespace Binary64

/-- The constant `0.000001` of `update_relays` as a double. -/
def tolerance : ℚ := gdouble_round (1 / 1000000)

/-- The function `update_relays`: `*relays -= download_bandwidth` is a
binary64 subtraction, and the relay leaves the active relays when what remains
is below the double `0.000001`. -/
def update_relays (active_relays : GHashTable String ℚ) (relay : String)
    (download_bandwidth : ℚ) : Option (GHashTable String ℚ) :=
  match g_hash_table_lookup active_relays relay with
  | none => none
  | some v =>
    if gdouble_sub v download_bandwidth < tolerance then
      some (g_hash_table_remove active_relays relay)
    else
      some (g_hash_table_insert active_relays relay (gdouble_sub v download_bandwidth))

/-- Step 2 of `compute_download_bandwidths` for one active relay: the share
`bandwidth / ndownloads` is a binary64 quotient. -/
def bottleneck_step (relay_downloads : GHashTable String (List download_t))
    (acc : bottleneck_t) (entry : String × ℚ) : bottleneck_t :=
  if entry.2 = 0 then acc
  else
    match g_hash_table_lookup relay_downloads entry.1 with
    | none => acc
    | some relay_download_list =>
      if gdouble_div entry.2 (relay_download_list.length : ℚ) < acc.download_bandwidth then
        { bottleneck_relay := some entry.1, bottleneck_bandwidth := entry.2,
          download_bandwidth := gdouble_div entry.2 (relay_download_list.length : ℚ) }
      else acc

/-- The search for the relay with the smallest bandwidth per download. -/
def find_bottleneck (relay_downloads : GHashTable String (List download_t))
    (active_relays : GHashTable String ℚ) : bottleneck_t :=
  active_relays.foldl (bottleneck_step relay_downloads)
    { bottleneck_relay := none, bottleneck_bandwidth := G_MAXINT32,
      download_bandwidth := G_MAXINT32 }

/-- Step 3 of `compute_download_bandwidths` for one download of the bottleneck
relay: `total_bandwidth += download_bandwidth` is a binary64 sum. -/
def assign_download (circuit_selection : GHashTable download_t circuit_t)
    (bottleneck_relay : String) (download_bandwidth : ℚ)
    (acc : Option solve_state) (download : download_t) : Option solve_state :=
  match acc, g_hash_table_lookup circuit_selection download with
  | some st, some circuit =>
    (update_relays st.active_relays circuit.guard download_bandwidth).bind fun a1 =>
    (update_relays a1 circuit.middle download_bandwidth).bind fun a2 =>
    (update_relays a2 circuit.exit download_bandwidth).bind fun a3 =>
    (remove_download_from_relay st.relay_downloads circuit.guard download).bind fun r1 =>
    (remove_download_from_relay r1 circuit.middle download).bind fun r2 =>
    (remove_download_from_relay r2 circuit.exit download).bind fun r3 =>
    some { st with
      active_relays := a3
      relay_downloads := r3
      total_bandwidth := gdouble_add st.total_bandwidth download_bandwidth
      fields := (download, download_bandwidth, bottleneck_relay) :: st.fields }
  | _, _ => none

/-- The tables with which a pass assigns the downloads of the bottleneck relay:
the residual of the relay is set to the binary64 product
`download_bandwidth * size`, the weight to `(1.0 / download_bandwidth) * size`. -/
def round_start (st : solve_state) (bottleneck_relay : String) (download_bandwidth : ℚ)
    (size : Nat) : solve_state :=
  { st with
    active_relays := g_hash_table_insert st.active_relays bottleneck_relay
      (gdouble_mul download_bandwidth (size : ℚ))
    weights := st.weights.map fun w =>
      g_hash_table_insert w bottleneck_relay
        (gdouble_mul (gdouble_div 1 download_bandwidth) (size : ℚ)) }

/-- The state in which the loop over the downloads of the bottleneck relay
ends, before the two checks that close the pass (lines 712 to 717). -/
def assign_round (circuit_selection : GHashTable download_t circuit_t)
    (st : solve_state) : Option solve_state :=
  let found := find_bottleneck st.relay_downloads st.active_relays
  match found.bottleneck_relay with
  | none => none
  | some bottleneck_relay =>
    match g_hash_table_lookup st.relay_downloads bottleneck_relay with
    | none => none
    | some downloads =>
      downloads.foldl
        (assign_download circuit_selection bottleneck_relay found.download_bandwidth)
        (some (round_start st bottleneck_relay found.download_bandwidth downloads.length))

/-- One pass of the main loop of `compute_download_bandwidths`: `g_error` is
raised when the bottleneck relay is still active after its downloads were
assigned (line 712), or still has downloads (line 715). -/
def solve_round (circuit_selection : GHashTable download_t circuit_t)
    (st : solve_state) : Option solve_state :=
  match (find_bottleneck st.relay_downloads st.active_relays).bottleneck_relay,
      assign_round circuit_selection st with
  | some bottleneck_relay, some st2 =>
    if (g_hash_table_lookup st2.active_relays bottleneck_relay).isSome then none
    else if (g_hash_table_lookup st2.relay_downloads bottleneck_relay).isSome then none
    else some st2
  | _, _ => none

/-- The main loop of `compute_download_bandwidths`; the first argument bounds the
number of passes. -/
def solve_loop (circuit_selection : GHashTable download_t circuit_t) :
    Nat → solve_state → Option solve_state
  | 0, st =>
    if 0 < g_hash_table_size st.active_relays ∧ 0 < g_hash_table_size st.relay_downloads
    then none else some st
  | n + 1, st =>
    if 0 < g_hash_table_size st.active_relays ∧ 0 < g_hash_table_size st.relay_downloads
    then (solve_round circuit_selection st).bind (solve_loop circuit_selection n)
    else some st

/-- The function `compute_download_bandwidths`. Every pass that raises no error
takes the bottleneck relay out of `relay_downloads`, so one pass per relay
that has downloads is enough for the loop. -/
def compute_download_bandwidths (active_downloads : List download_t)
    (relays : GHashTable String Int) (circuit_selection : GHashTable download_t circuit_t)
    (weights : Option (GHashTable String ℚ))
    (available_bandwidth : Option (GHashTable String Int)) : Option solve_result :=
  match build_relay_tables active_downloads relays circuit_selection with
  | none => none
  | some (relay_downloads, active_relays) =>
    let available_bandwidth := available_bandwidth.map (record_inactive active_relays relays)
    match solve_loop circuit_selection (g_hash_table_size relay_downloads)
        { active_relays := active_relays, relay_downloads := relay_downloads,
          total_bandwidth := 0, weights := weights, fields := [] } with
    | none => none
    | some st =>
      if 0 < g_hash_table_size st.relay_downloads then none
      else
        some { total_bandwidth := st.total_bandwidth
               weights := st.weights
               available_bandwidth := available_bandwidth.map (record_residual st.active_relays)
               fields := st.fields }

/-- The term `last_bandwidth * (tick - last_tick) / 1000.0`: difference and
product are taken in `gint`, the quotient is a binary64 quotient. -/
def interval_bytes (last_bandwidth last_tick tick : Int) : ℚ :=
  gdouble_div (gint_wrap (last_bandwidth * gint_wrap (tick - last_tick)) : ℚ) 1000

/-- One pass of the loop of `compute_total_bandwidth`: the term of the interval
that ends at the tick is added in binary64, and the total of the solve is cut
to the `gint` `last_bandwidth`. -/
def tick_step (relays : GHashTable String Int)
    (circuit_selection : GHashTable download_t circuit_t)
    (downloads_by_tick : GHashTable Int (List download_t))
    (acc : Option integrate_state) (tick : Int) : Option integrate_state :=
  match acc with
  | none => none
  | some st =>
    match tick_active circuit_selection downloads_by_tick st.active_downloads tick with
    | none => none
    | some active_downloads =>
      match compute_download_bandwidths (g_hash_table_get_keys active_downloads) relays
          circuit_selection none none with
      | none => none
      | some res =>
        some { active_downloads := active_downloads
               total_bandwidth :=
                 if st.last_tick ≠ -1 then
                   gdouble_add st.total_bandwidth
                     (interval_bytes st.last_bandwidth st.last_tick tick)
                 else st.total_bandwidth
               last_tick := tick
               last_bandwidth := gint_of_gdouble res.total_bandwidth }

/-- The function `compute_total_bandwidth`. -/
def compute_total_bandwidth (_downloads : List download_t) (relays : GHashTable String Int)
    (circuit_selection : GHashTable download_t circuit_t)
    (downloads_by_tick : GHashTable Int (List download_t)) (ticks : List Int) : Option ℚ :=
  (ticks.foldl (tick_step relays circuit_selection downloads_by_tick)
    (some integrate_init)).map fun st => st.total_bandwidth

/-- The steady-state total `B` at the last tick of `ticks`: what
`compute_download_bandwidths` returns for the active set after the arrivals and
departures of these ticks. -/
def steady_total (relays : GHashTable String Int) (S : GHashTable download_t circuit_t)
    (downloads_by_tick : GHashTable Int (List download_t)) (ticks : List Int) : Option ℚ :=
  (active_after S downloads_by_tick ticks).bind fun a =>
    (compute_download_bandwidths (g_hash_table_get_keys a) relays S none none).map
      fun res => res.total_bandwidth

/-- The term of the interval from tick `i` to tick `i + 1` of a list of ticks:
the steady-state total at the left end, cut to a `gint`, times the length of
the interval, over 1000. -/
def integration_term (relays : GHashTable String Int) (S : GHashTable download_t circuit_t)
    (downloads_by_tick : GHashTable Int (List download_t)) (ticks : List Int) (i : Nat) : ℚ :=
  interval_bytes
    (gint_of_gdouble ((steady_total relays S downloads_by_tick (ticks.take (i + 1))).getD 0))
    (ticks.getD i 0) (ticks.getD (i + 1) 0)

/-- The terms of the intervals between consecutive ticks, added from the first
interval to the last in binary64. -/
def integration_formula (relays : GHashTable String Int) (S : GHashTable download_t circuit_t)
    (downloads_by_tick : GHashTable Int (List download_t)) (ticks : List Int) : ℚ :=
  (List.range (ticks.length - 1)).foldl
    (fun total i => gdouble_add total (integration_term relays S downloads_by_tick ticks i)) 0

end Binary64

/-- The tick that `read_downloads` makes of a time in seconds (lines 160 and
161), `(gint)(seconds * 10) * 100`: the product with 10 is taken in binary64,
the product with 100 in `gint`. -/
def download_tick (seconds : ℚ) : Int :=
  gint_wrap (gint_of_gdouble (gdouble_mul seconds 10) * 100)

/-- Scenario D with a guard of the capacity `G_MAXINT32`. -/
def relays_guard_max : GHashTable String Int :=
  [("g", 2147483647), ("m", 1000), ("x-exit", 100)]

/-- Three relays of capacity 1800 million. -/
def relays_broad : GHashTable String Int :=
  [("g", 1800000000), ("m", 1800000000), ("x-exit", 1800000000)]

/-- Every bandwidth written is a whole number. -/
def whole_fields (fields : List (download_t × ℚ × String)) : Prop :=
  ∀ e ∈ fields, ∃ n : Int, e.2.1 = (n : ℚ)

/-- The relays of `relays_half` with the capacity 2 for `a` and `b`: with the
three downloads of `downloads_half` the two relays tie at the share 1. -/
def relays_even : GHashTable String Int :=
  [("a", 2), ("b", 2), ("g", 10), ("m", 10), ("x-exit", 10), ("y-exit", 10), ("z-exit", 10)]

/-- What the solve over `relays_even` leaves behind: the relay `a` is found
first, and takes the second download. -/
def result_even : solve_result :=
  { total_bandwidth := 3, weights := none, available_bandwidth := none,
    fields := [(ex_short 3, 1, "b"), (ex_short 2, 1, "a"), (ex_short 1, 1, "a")] }

/-- What the solve leaves behind when the active set is walked in the reverse
order: the relay `b` is found first, and takes the second download. -/
def result_even_reverse : solve_result :=
  { total_bandwidth := 3, weights := none, available_bandwidth := none,
    fields := [(ex_short 1, 1, "a"), (ex_short 2, 1, "b"), (ex_short 3, 1, "b")] }

/-- Three relays of capacity two thousand million. -/
def relays_large : GHashTable String Int :=
  [("g", 2000000000), ("m", 2000000000), ("x-exit", 2000000000)]

/-- The tables of the solve of the first `n` downloads of `ex_download`, all on
the circuit `g`, `m`, `x-exit` over `relays_large`, before the first pass. -/
def crowd_large_init (n : Nat) : solve_state :=
  { active_relays := [("g", 2000000000), ("m", 2000000000), ("x-exit", 2000000000)]
    relay_downloads := [("g", downloads_crowd n), ("m", downloads_crowd n),
      ("x-exit", downloads_crowd n)]
    total_bandwidth := 0, weights := none, fields := [] }

/-- Two guards, two middle relays and two exits; the middle relay `m2` of
capacity 2 is to carry six downloads, the guard `g1` and the exit `x1-exit` of
capacity 1 three each. -/
def relays_tie : GHashTable String Int :=
  [("g1", 1), ("g2", 2), ("m1", 3), ("m2", 2), ("x1-exit", 1), ("x2-exit", 5)]

/-- A download from 0 s to 1 s. -/
def ex_tie (i : Nat) : download_t := { id := i, start_time := 0, end_time := 1000 }

/-- Six downloads over `relays_tie`: all cross `m2`, whose share 2/6 ties with
the share 1/3 of `g1` and of `x1-exit`. -/
def selection_tie : GHashTable download_t circuit_t :=
  [(ex_tie 0, ex_circuit "g2" "m2" "x1-exit"), (ex_tie 1, ex_circuit "g2" "m2" "x1-exit"),
   (ex_tie 2, ex_circuit "g1" "m2" "x2-exit"), (ex_tie 3, ex_circuit "g1" "m2" "x2-exit"),
   (ex_tie 4, ex_circuit "g2" "m2" "x2-exit"), (ex_tie 5, ex_circuit "g1" "m2" "x1-exit")]

/-- The six downloads in the order in which the relay `m2` is met before `g1`. -/
def downloads_tie : List download_t :=
  [ex_tie 0, ex_tie 1, ex_tie 2, ex_tie 3, ex_tie 4, ex_tie 5]

/-- The six downloads in an order in which the relay `g1` is met first. -/
def downloads_tie_other : List download_t :=
  [ex_tie 3, ex_tie 1, ex_tie 2, ex_tie 0, ex_tie 4, ex_tie 5]

/-! ## The two embeddings in step -/

/-- Two states of a solve with the same scratch tables, total and written
fields; the weights, which no step of the solve reads, are left aside. -/
def same_tables (st st2 : solve_state) : Prop :=
  st2.active_relays = st.active_relays ∧ st2.relay_downloads = st.relay_downloads ∧
  st2.total_bandwidth = st.total_bandwidth ∧ st2.fields = st.fields

/-- Every bandwidth written is a whole number or a whole number and a half. -/
def half_fields (fields : List (download_t × ℚ × String)) : Prop :=
  ∀ e ∈ fields, ∃ n : Int, e.2.1 = (n : ℚ) / 2

/-- Every residual of the table is half of a whole number, from 0 to
`2^31 - 1`. -/
def half_table (a : GHashTable String ℚ) : Prop :=
  ∀ e ∈ a, ∃ n : Int, e.2 = (n : ℚ) / 2 ∧ 0 ≤ n ∧ n ≤ 4294967294

/-- The running total is half of a whole number, at most `2^31 - 1` for every
bandwidth written. -/
def half_total (st : solve_state) : Prop :=
  ∃ n : Int, st.total_bandwidth = (n : ℚ) / 2 ∧ 0 ≤ n ∧
    n ≤ 4294967294 * (st.fields.length : Int)

namespace Binary64

end Binary64

/-! ## Hash table facts -/

section tables
variable {κ ν : Type} [DecidableEq κ]

theorem lookup_insert_self (t : GHashTable κ ν) (k : κ) (v : ν) :
    g_hash_table_lookup (g_hash_table_insert t k v) k = some v := by
  induction t with
  | nil => simp [g_hash_table_insert, g_hash_table_lookup]
  | cons p t ih =>
    obtain ⟨k', v'⟩ := p
    by_cases h : k' = k
    · simp [g_hash_table_insert, g_hash_table_lookup, h]
    · simp [g_hash_table_insert, g_hash_table_lookup, h, ih]

theorem lookup_insert_ne (t : GHashTable κ ν) (k k' : κ) (v : ν) (h : k' ≠ k) :
    g_hash_table_lookup (g_hash_table_insert t k v) k' = g_hash_table_lookup t k' := by
  induction t with
  | nil => simp [g_hash_table_insert, g_hash_table_lookup, Ne.symm h]
  | cons p t ih =>
    obtain ⟨k1, v1⟩ := p
    by_cases h1 : k1 = k
    · subst h1
      simp [g_hash_table_insert, g_hash_table_lookup, Ne.symm h]
    · by_cases h2 : k1 = k'
      · subst h2
        simp [g_hash_table_insert, g_hash_table_lookup, h1]
      · simp [g_hash_table_insert, g_hash_table_lookup, h1, h2, ih]

theorem lookup_remove_self (t : GHashTable κ ν) (k : κ) :
    g_hash_table_lookup (g_hash_table_remove t k) k = none := by
  induction t with
  | nil => simp [g_hash_table_remove, g_hash_table_lookup]
  | cons p t ih =>
    obtain ⟨k1, v1⟩ := p
    by_cases h1 : k1 = k
    · simpa [g_hash_table_remove, h1] using ih
    · simpa [g_hash_table_remove, List.filter_cons, h1, g_hash_table_lookup] using ih

theorem lookup_remove_ne (t : GHashTable κ ν) (k k' : κ) (h : k' ≠ k) :
    g_hash_table_lookup (g_hash_table_remove t k) k' = g_hash_table_lookup t k' := by
  induction t with
  | nil => simp [g_hash_table_remove, g_hash_table_lookup]
  | cons p t ih =>
    obtain ⟨k1, v1⟩ := p
    by_cases h1 : k1 = k
    · subst h1
      have h2 : ¬ k1 = k' := fun e => h e.symm
      simpa [g_hash_table_remove, g_hash_table_lookup, h2] using ih
    · by_cases h2 : k1 = k'
      · subst h2
        simp [g_hash_table_remove, List.filter_cons, h1, g_hash_table_lookup]
      · simpa [g_hash_table_remove, List.filter_cons, h1, g_hash_table_lookup, h2] using ih

theorem lookup_insert (t : GHashTable κ ν) (k k' : κ) (v : ν) :
    g_hash_table_lookup (g_hash_table_insert t k v) k' =
      if k' = k then some v else g_hash_table_lookup t k' := by
  by_cases h : k' = k
  · subst h; simp [lookup_insert_self]
  · simp [h, lookup_insert_ne]

theorem lookup_remove (t : GHashTable κ ν) (k k' : κ) :
    g_hash_table_lookup (g_hash_table_remove t k) k' =
      if k' = k then none else g_hash_table_lookup t k' := by
  by_cases h : k' = k
  · subst h; simp [lookup_remove_self]
  · simp [h, lookup_remove_ne]

theorem mem_of_lookup {t : GHashTable κ ν} {k : κ} {v : ν}
    (h : g_hash_table_lookup t k = some v) : (k, v) ∈ t := by
  induction t with
  | nil => simp [g_hash_table_lookup] at h
  | cons p t ih =>
    obtain ⟨k1, v1⟩ := p
    by_cases h1 : k1 = k
    · simp [g_hash_table_lookup, h1] at h
      simp [h1, h]
    · simp [g_hash_table_lookup, h1] at h
      exact List.mem_cons_of_mem _ (ih h)

theorem lookup_isSome_of_mem {t : GHashTable κ ν} {k : κ} {v : ν}
    (h : (k, v) ∈ t) : ∃ w, g_hash_table_lookup t k = some w := by
  induction t with
  | nil => simp at h
  | cons p t ih =>
    obtain ⟨k1, v1⟩ := p
    by_cases h1 : k1 = k
    · exact ⟨v1, by simp [g_hash_table_lookup, h1]⟩
    · have : (k, v) ∈ t := by
        rcases List.mem_cons.1 h with e | e
        · exact absurd (congrArg Prod.fst e).symm h1
        · exact e
      obtain ⟨w, hw⟩ := ih this
      exact ⟨w, by simp [g_hash_table_lookup, h1, hw]⟩

theorem lookup_of_mem {t : GHashTable κ ν} (hn : (g_hash_table_get_keys t).Nodup)
    {k : κ} {v : ν} (h : (k, v) ∈ t) : g_hash_table_lookup t k = some v := by
  induction t with
  | nil => simp at h
  | cons p t ih =>
    obtain ⟨k1, v1⟩ := p
    simp only [g_hash_table_get_keys, List.map_cons, List.nodup_cons] at hn
    rcases List.mem_cons.1 h with e | e
    · cases e
      simp [g_hash_table_lookup]
    · have h1 : k1 ≠ k := by
        intro e1
        apply hn.1
        rw [e1]
        exact List.mem_map.2 ⟨(k, v), e, rfl⟩
      simp only [g_hash_table_lookup, h1, if_false]
      exact ih hn.2 e

theorem nodup_keys_insert {t : GHashTable κ ν} (hn : (g_hash_table_get_keys t).Nodup)
    (k : κ) (v : ν) : (g_hash_table_get_keys (g_hash_table_insert t k v)).Nodup := by
  induction t with
  | nil => simp [g_hash_table_insert, g_hash_table_get_keys]
  | cons p t ih =>
    obtain ⟨k1, v1⟩ := p
    simp only [g_hash_table_get_keys, List.map_cons, List.nodup_cons] at hn
    by_cases h1 : k1 = k
    · subst h1
      simpa [g_hash_table_insert, g_hash_table_get_keys] using hn
    · simp only [g_hash_table_insert, h1, if_false, g_hash_table_get_keys, List.map_cons,
        List.nodup_cons]
      refine ⟨?_, ih hn.2⟩
      intro hmem
      obtain ⟨⟨k2, v2⟩, h2, e2⟩ := List.mem_map.1 hmem
      simp only at e2
      subst e2
      obtain ⟨w, hw⟩ := lookup_isSome_of_mem h2
      rw [lookup_insert_ne _ _ _ _ h1] at hw
      exact hn.1 (List.mem_map.2 ⟨(k2, w), mem_of_lookup hw, rfl⟩)

theorem nodup_keys_remove {t : GHashTable κ ν} (hn : (g_hash_table_get_keys t).Nodup)
    (k : κ) : (g_hash_table_get_keys (g_hash_table_remove t k)).Nodup := by
  unfold g_hash_table_get_keys g_hash_table_remove
  exact (List.Nodup.sublist (List.Sublist.map _ (List.filter_sublist _)) hn)

end tables

/-! ## The three table updates -/

theorem update_relays_lookup {a a' : GHashTable String ℚ} {r : String} {s : ℚ}
    (h : update_relays a r s = some a') :
    ∃ v, g_hash_table_lookup a r = some v ∧
      ∀ r', g_hash_table_lookup a' r' =
        if r' = r then (if v - s < 1 / 1000000 then none else some (v - s))
        else g_hash_table_lookup a r' := by
  unfold update_relays at h
  cases hv : g_hash_table_lookup a r with
  | none => simp [hv] at h
  | some v =>
    refine ⟨v, rfl, ?_⟩
    intro r'
    simp only [hv] at h
    by_cases hlt : v - s < 1 / 1000000
    · simp only [hlt, if_true, Option.some.injEq] at h
      subst h
      rw [lookup_remove]
      by_cases e : r' = r
      · rw [if_pos e, if_pos e, if_pos hlt]
      · rw [if_neg e, if_neg e]
    · simp only [hlt, if_false, Option.some.injEq] at h
      subst h
      rw [lookup_insert]
      by_cases e : r' = r
      · rw [if_pos e, if_pos e, if_neg hlt]
      · rw [if_neg e, if_neg e]

theorem update_relays_nodup {a a' : GHashTable String ℚ} {r : String} {s : ℚ}
    (h : update_relays a r s = some a') (hn : (g_hash_table_get_keys a).Nodup) :
    (g_hash_table_get_keys a').Nodup := by
  unfold update_relays at h
  cases hv : g_hash_table_lookup a r with
  | none => simp [hv] at h
  | some v =>
    simp only [hv] at h
    by_cases hlt : v - s < 1 / 1000000
    · simp only [hlt, if_true, Option.some.injEq] at h
      subst h
      exact nodup_keys_remove hn r
    · simp only [hlt, if_false, Option.some.injEq] at h
      subst h
      exact nodup_keys_insert hn r _

theorem remove_download_lookup {rd rd' : GHashTable String (List download_t)} {r : String}
    {d : download_t} (h : remove_download_from_relay rd r d = some rd') :
    ∃ L, g_hash_table_lookup rd r = some L ∧ d ∈ L ∧
      ∀ r', g_hash_table_lookup rd' r' =
        if r' = r then
          (if (L.filter (fun x => decide (x ≠ d))).length = 0 then none
           else some (L.filter (fun x => decide (x ≠ d))))
        else g_hash_table_lookup rd r' := by
  unfold remove_download_from_relay at h
  cases hv : g_hash_table_lookup rd r with
  | none => simp [hv] at h
  | some L =>
    simp only [hv] at h
    by_cases hd : d ∈ L
    · refine ⟨L, rfl, hd, ?_⟩
      intro r'
      simp only [hd, if_true] at h
      by_cases hl : (L.filter (fun x => decide (x ≠ d))).length = 0
      · simp only [hl, if_true, Option.some.injEq] at h
        subst h
        rw [lookup_remove]
        by_cases e : r' = r
        · rw [if_pos e, if_pos e, if_pos hl]
        · rw [if_neg e, if_neg e]
      · simp only [hl, if_false, Option.some.injEq] at h
        subst h
        rw [lookup_insert]
        by_cases e : r' = r
        · rw [if_pos e, if_pos e, if_neg hl]
        · rw [if_neg e, if_neg e]
    · simp [hd] at h

theorem remove_download_nodup {rd rd' : GHashTable String (List download_t)} {r : String}
    {d : download_t} (h : remove_download_from_relay rd r d = some rd')
    (hn : (g_hash_table_get_keys rd).Nodup) : (g_hash_table_get_keys rd').Nodup := by
  unfold remove_download_from_relay at h
  cases hv : g_hash_table_lookup rd r with
  | none => simp [hv] at h
  | some L =>
    simp only [hv] at h
    by_cases hd : d ∈ L
    · simp only [hd, if_true] at h
      by_cases hl : (L.filter (fun x => decide (x ≠ d))).length = 0
      · simp only [hl, if_true, Option.some.injEq] at h
        subst h
        exact nodup_keys_remove hn r
      · simp only [hl, if_false, Option.some.injEq] at h
        subst h
        exact nodup_keys_insert hn r _
    · simp [hd] at h

/-- The downloads waiting at a relay after one removal. -/
theorem remove_download_pending {rd rd' : GHashTable String (List download_t)} {r : String}
    {d : download_t} (h : remove_download_from_relay rd r d = some rd') :
    d ∈ pending rd r ∧
      ∀ r', pending rd' r' =
        if r' = r then (pending rd r).filter (fun x => decide (x ≠ d)) else pending rd r' := by
  obtain ⟨L, hL, hd, hall⟩ := remove_download_lookup h
  refine ⟨by simp [pending, hL, hd], ?_⟩
  intro r'
  unfold pending
  rw [hall r']
  by_cases e : r' = r
  · subst e
    rw [if_pos rfl, if_pos rfl, hL, Option.getD_some]
    by_cases hl : (L.filter (fun x => decide (x ≠ d))).length = 0
    · rw [if_pos hl, Option.getD_none]
      exact (List.length_eq_zero.1 hl).symm
    · rw [if_neg hl, Option.getD_some]
  · rw [if_neg e, if_neg e]

theorem remove_download_nonempty {rd rd' : GHashTable String (List download_t)} {r : String}
    {d : download_t} (h : remove_download_from_relay rd r d = some rd')
    (hne : ∀ r L, g_hash_table_lookup rd r = some L → L ≠ []) :
    ∀ r L, g_hash_table_lookup rd' r = some L → L ≠ [] := by
  obtain ⟨L, hL, hd, hall⟩ := remove_download_lookup h
  intro r' L' hL'
  rw [hall r'] at hL'
  by_cases e : r' = r
  · rw [if_pos e] at hL'
    by_cases hl : (L.filter (fun x => decide (x ≠ d))).length = 0
    · rw [if_pos hl] at hL'
      cases hL'
    · rw [if_neg hl] at hL'
      cases hL'
      intro h0
      exact hl (by rw [h0]; rfl)
  · rw [if_neg e] at hL'
    exact hne r' L' hL'

/-! ## One assignment -/

theorem mem_circuit_relays (c : circuit_t) (r : String) :
    r ∈ circuit_relays c ↔ r = c.guard ∨ r = c.middle ∨ r = c.exit := by
  simp [circuit_relays]

theorem on_relay_of_lookup {S : GHashTable download_t circuit_t} {d : download_t}
    {c : circuit_t} (h : g_hash_table_lookup S d = some c) (r : String) :
    on_relay S r d = true ↔ r ∈ circuit_relays c := by
  simp [on_relay, h]

theorem relay_usage_cons (S : GHashTable download_t circuit_t)
    (e : download_t × ℚ × String) (fields : List (download_t × ℚ × String)) (r : String) :
    relay_usage S (e :: fields) r =
      (if on_relay S r e.1 = true then e.2.1 else 0) + relay_usage S fields r := by
  unfold relay_usage
  by_cases h : on_relay S r e.1 = true
  · simp [List.filter_cons, h]
  · simp [List.filter_cons, h]

theorem length_filter_ne {α : Type} [DecidableEq α] {L : List α} (hn : L.Nodup) {d : α}
    (hd : d ∈ L) : (L.filter (fun x => decide (x ≠ d))).length + 1 = L.length := by
  induction L with
  | nil => simp at hd
  | cons a t ih =>
    rw [List.nodup_cons] at hn
    by_cases e : a = d
    · subst e
      have : t.filter (fun x => decide (x ≠ a)) = t := by
        rw [List.filter_eq_self]
        intro x hx
        have hxa : x ≠ a := fun e => hn.1 (e ▸ hx)
        simp [hxa]
      have ha : decide (a ≠ a) = false := by simp
      rw [List.filter_cons, ha, this]
      simp
    · have hd' : d ∈ t := by
        rcases List.mem_cons.1 hd with h | h
        · exact absurd h.symm e
        · exact h
      have := ih hn.2 hd'
      have ha : decide (a ≠ d) = true := by simpa using e
      rw [List.filter_cons, ha]
      simp only [if_true, List.length_cons]
      omega

/-- What one successful pass of step 3 does to the tables. -/
theorem assign_download_spec {S : GHashTable download_t circuit_t} {b : String} {s : ℚ}
    {st st' : solve_state} {d : download_t}
    (h : assign_download S b s (some st) d = some st') :
    ∃ c, g_hash_table_lookup S d = some c ∧
      (c.guard ≠ c.middle ∧ c.guard ≠ c.exit ∧ c.middle ≠ c.exit) ∧
      (∀ r ∈ circuit_relays c, d ∈ pending st.relay_downloads r) ∧
      (∀ r, pending st'.relay_downloads r =
        if r ∈ circuit_relays c then
          (pending st.relay_downloads r).filter (fun x => decide (x ≠ d))
        else pending st.relay_downloads r) ∧
      (∀ r v', g_hash_table_lookup st'.active_relays r = some v' →
        ∃ v, g_hash_table_lookup st.active_relays r = some v ∧
          v' = v - (if r ∈ circuit_relays c then s else 0) ∧
          (r ∈ circuit_relays c → (1 : ℚ) / 1000000 ≤ v')) ∧
      st'.total_bandwidth = st.total_bandwidth + s ∧
      st'.fields = (d, s, b) :: st.fields ∧
      st'.weights = st.weights ∧
      ((g_hash_table_get_keys st.active_relays).Nodup →
        (g_hash_table_get_keys st'.active_relays).Nodup) ∧
      ((g_hash_table_get_keys st.relay_downloads).Nodup →
        (g_hash_table_get_keys st'.relay_downloads).Nodup) ∧
      ((∀ r L, g_hash_table_lookup st.relay_downloads r = some L → L ≠ []) →
        (∀ r L, g_hash_table_lookup st'.relay_downloads r = some L → L ≠ [])) := by
  unfold assign_download at h
  cases hc : g_hash_table_lookup S d with
  | none => simp [hc] at h
  | some c =>
    simp only [hc, Option.bind_eq_some] at h
    obtain ⟨a1, ha1, a2, ha2, a3, ha3, r1, hr1, r2, hr2, r3, hr3, hst⟩ := h
    simp only [Option.some.injEq] at hst
    subst hst
    obtain ⟨hp1, hq1⟩ := remove_download_pending hr1
    obtain ⟨hp2, hq2⟩ := remove_download_pending hr2
    obtain ⟨hp3, hq3⟩ := remove_download_pending hr3
    have notin : ∀ L : List download_t, d ∉ L.filter (fun x => decide (x ≠ d)) := by
      intro L hmem
      simpa using (List.mem_filter.1 hmem).2
    have hgm : c.guard ≠ c.middle := by
      intro e
      rw [hq1, ← e, if_pos rfl] at hp2
      exact notin _ hp2
    have hmx : c.middle ≠ c.exit := by
      intro e
      rw [hq2, ← e, if_pos rfl] at hp3
      exact notin _ hp3
    have hgx : c.guard ≠ c.exit := by
      intro e
      rw [hq2, if_neg (Ne.symm hmx), hq1, ← e, if_pos rfl] at hp3
      exact notin _ hp3
    have hp2' : d ∈ pending st.relay_downloads c.middle := by
      rw [hq1, if_neg (Ne.symm hgm)] at hp2
      exact hp2
    have hp3' : d ∈ pending st.relay_downloads c.exit := by
      rw [hq2, if_neg (Ne.symm hmx), hq1, if_neg (Ne.symm hgx)] at hp3
      exact hp3
    obtain ⟨v1, hv1, hl1⟩ := update_relays_lookup ha1
    obtain ⟨v2, hv2, hl2⟩ := update_relays_lookup ha2
    obtain ⟨v3, hv3, hl3⟩ := update_relays_lookup ha3
    have hv2' : g_hash_table_lookup st.active_relays c.middle = some v2 := by
      rw [hl1, if_neg (Ne.symm hgm)] at hv2
      exact hv2
    have hv3' : g_hash_table_lookup st.active_relays c.exit = some v3 := by
      rw [hl2, if_neg (Ne.symm hmx), hl1, if_neg (Ne.symm hgx)] at hv3
      exact hv3
    refine ⟨c, rfl, ⟨hgm, hgx, hmx⟩, ?_, ?_, ?_, rfl, rfl, rfl, ?_, ?_, ?_⟩
    · intro r hr
      rcases (mem_circuit_relays c r).1 hr with e | e | e
      · rw [e]; exact hp1
      · rw [e]; exact hp2'
      · rw [e]; exact hp3'
    · intro r
      show pending r3 r = _
      have hx : c.exit ∈ circuit_relays c := (mem_circuit_relays c _).2 (Or.inr (Or.inr rfl))
      have hm : c.middle ∈ circuit_relays c := (mem_circuit_relays c _).2 (Or.inr (Or.inl rfl))
      have hg : c.guard ∈ circuit_relays c := (mem_circuit_relays c _).2 (Or.inl rfl)
      by_cases e3 : r = c.exit
      · subst e3
        rw [hq3 c.exit, if_pos rfl, hq2 c.exit, if_neg (Ne.symm hmx), hq1 c.exit,
          if_neg (Ne.symm hgx), if_pos hx]
      · rw [hq3 r, if_neg e3]
        by_cases e2 : r = c.middle
        · subst e2
          rw [hq2 c.middle, if_pos rfl, hq1 c.middle, if_neg (Ne.symm hgm), if_pos hm]
        · rw [hq2 r, if_neg e2]
          by_cases e1 : r = c.guard
          · subst e1
            rw [hq1 c.guard, if_pos rfl, if_pos hg]
          · rw [hq1 r, if_neg e1, if_neg]
            intro hmem
            rcases (mem_circuit_relays c r).1 hmem with e | e | e
            · exact e1 e
            · exact e2 e
            · exact e3 e
    · intro r v' hv'
      show ∃ v, g_hash_table_lookup st.active_relays r = some v ∧ _
      have hv'' : g_hash_table_lookup a3 r = some v' := hv'
      rw [hl3] at hv''
      by_cases e3 : r = c.exit
      · rw [if_pos e3] at hv''
        have hin : r ∈ circuit_relays c := (mem_circuit_relays c r).2 (Or.inr (Or.inr e3))
        by_cases hlt : v3 - s < 1 / 1000000
        · rw [if_pos hlt] at hv''; cases hv''
        · rw [if_neg hlt] at hv''
          cases hv''
          refine ⟨v3, by rw [e3]; exact hv3', by rw [if_pos hin], fun _ => not_lt.1 hlt⟩
      · rw [if_neg e3, hl2] at hv''
        by_cases e2 : r = c.middle
        · rw [if_pos e2] at hv''
          have hin : r ∈ circuit_relays c := (mem_circuit_relays c r).2 (Or.inr (Or.inl e2))
          by_cases hlt : v2 - s < 1 / 1000000
          · rw [if_pos hlt] at hv''; cases hv''
          · rw [if_neg hlt] at hv''
            cases hv''
            refine ⟨v2, by rw [e2]; exact hv2', by rw [if_pos hin], fun _ => not_lt.1 hlt⟩
        · rw [if_neg e2, hl1] at hv''
          by_cases e1 : r = c.guard
          · rw [if_pos e1] at hv''
            have hin : r ∈ circuit_relays c := (mem_circuit_relays c r).2 (Or.inl e1)
            by_cases hlt : v1 - s < 1 / 1000000
            · rw [if_pos hlt] at hv''; cases hv''
            · rw [if_neg hlt] at hv''
              cases hv''
              refine ⟨v1, by rw [e1]; exact hv1, by rw [if_pos hin], fun _ => not_lt.1 hlt⟩
          · rw [if_neg e1] at hv''
            have hnin : r ∉ circuit_relays c := by
              intro hmem
              rcases (mem_circuit_relays c r).1 hmem with e | e | e
              · exact e1 e
              · exact e2 e
              · exact e3 e
            refine ⟨v', hv'', by rw [if_neg hnin]; ring, fun hin => absurd hin hnin⟩
    · intro hn
      exact update_relays_nodup ha3 (update_relays_nodup ha2 (update_relays_nodup ha1 hn))
    · intro hn
      exact remove_download_nodup hr3 (remove_download_nodup hr2 (remove_download_nodup hr1 hn))
    · intro hne
      exact remove_download_nonempty hr3
        (remove_download_nonempty hr2 (remove_download_nonempty hr1 hne))

theorem assign_download_ok {A : List download_t} {relays : GHashTable String Int}
    {S : GHashTable download_t circuit_t} {b : String} {s : ℚ} {st st' : solve_state}
    {d : download_t} (hok : tables_ok A relays S st) (hb : on_relay S b d = true)
    (h : assign_download S b s (some st) d = some st') : tables_ok A relays S st' := by
  obtain ⟨c, hc, _, hpend, hpend', hact, htot, hfld, _, hka, hkp, hne⟩ := assign_download_spec h
  have hg : c.guard ∈ circuit_relays c := (mem_circuit_relays c _).2 (Or.inl rfl)
  have hdm := (hok.pending_mem c.guard d).1 (hpend _ hg)
  refine ⟨hka hok.keys_active, hkp hok.keys_pending, hne hok.nonempty, ?_, ?_, ?_, ?_, ?_, ?_⟩
  · intro r
    rw [hpend' r]
    by_cases hr : r ∈ circuit_relays c
    · rw [if_pos hr]
      exact (hok.pending_nodup r).filter _
    · rw [if_neg hr]
      exact hok.pending_nodup r
  · intro r d'
    rw [hpend' r, hfld]
    simp only [List.map_cons, List.mem_cons, not_or]
    by_cases hr : r ∈ circuit_relays c
    · rw [if_pos hr, List.mem_filter, hok.pending_mem r d']
      simp only [ne_eq, decide_not, Bool.not_eq_true', decide_eq_false_iff_not]
      tauto
    · rw [if_neg hr, hok.pending_mem r d']
      constructor
      · rintro ⟨h1, h2, h3⟩
        refine ⟨h1, h2, ?_, h3⟩
        intro e
        subst e
        exact hr ((on_relay_of_lookup hc r).1 h2)
      · rintro ⟨h1, h2, _, h3⟩
        exact ⟨h1, h2, h3⟩
  · intro r v' hv'
    obtain ⟨v, hv, hvv, _⟩ := hact r v' hv'
    rw [hfld, relay_usage_cons, hvv, hok.residual r v hv]
    simp only [on_relay_of_lookup hc r]
    ring
  · rw [htot, hfld, hok.total]
    simp [add_comm]
  · rw [hfld]
    simp only [List.map_cons, List.nodup_cons]
    exact ⟨hdm.2.2, hok.fields_nodup⟩
  · intro e he
    rw [hfld] at he
    rcases List.mem_cons.1 he with e1 | e1
    · subst e1
      exact ⟨hdm.1, hb⟩
    · exact hok.fields_mem e e1

theorem assign_download_share {A : List download_t} {relays : GHashTable String Int}
    {S : GHashTable download_t circuit_t} {b : String} {s : ℚ} {st st' : solve_state}
    {d : download_t} (hok : tables_ok A relays S st) (hs : share_ok s st)
    (h : assign_download S b s (some st) d = some st') : share_ok s st' := by
  obtain ⟨c, hc, _, hpend, hpend', hact, _, hfld, _, _, _, _⟩ := assign_download_spec h
  constructor
  · intro e he
    rw [hfld] at he
    rcases List.mem_cons.1 he with e1 | e1
    · subst e1
      exact le_refl _
    · exact hs.fields_le e e1
  · intro r v' hv' hv0 hne
    obtain ⟨v, hv, hvv, hge⟩ := hact r v' hv'
    rw [hpend' r] at hne ⊢
    by_cases hr : r ∈ circuit_relays c
    · rw [if_pos hr] at hne ⊢
      rw [if_pos hr] at hvv
      have hlen := length_filter_ne (hok.pending_nodup r) (hpend r hr)
      have hlen' : (((pending st.relay_downloads r).filter (fun x => decide (x ≠ d))).length : ℚ)
          + 1 = ((pending st.relay_downloads r).length : ℚ) := by exact_mod_cast hlen
      have hne0 : pending st.relay_downloads r ≠ [] := by
        intro e0
        have := hpend r hr
        rw [e0] at this
        simp at this
      by_cases hz : v = 0
      · have h1 := hge hr
        have hsneg : s ≤ 0 := by
          rw [hvv, hz] at h1
          linarith
        have h2 : (0 : ℚ) ≤ (((pending st.relay_downloads r).filter
            (fun x => decide (x ≠ d))).length : ℚ) := Nat.cast_nonneg _
        have h3 : s * (((pending st.relay_downloads r).filter
            (fun x => decide (x ≠ d))).length : ℚ) ≤ 0 :=
          mul_nonpos_of_nonpos_of_nonneg hsneg h2
        linarith
      · have h1 := hs.share_le r v hv hz hne0
        rw [← hlen'] at h1
        rw [hvv]
        linarith
    · rw [if_neg hr] at hne ⊢
      rw [if_neg hr] at hvv
      have : v' = v := by rw [hvv]; ring
      rw [this] at hv0 ⊢
      exact hs.share_le r v hv hv0 hne

theorem assign_download_none (S : GHashTable download_t circuit_t) (b : String) (s : ℚ)
    (l : List download_t) : l.foldl (assign_download S b s) none = none := by
  induction l with
  | nil => rfl
  | cons d t ih => simpa [List.foldl_cons, assign_download] using ih

/-- What the inner loop of step 3 does to the tables. -/
theorem assign_fold_spec {A : List download_t} {relays : GHashTable String Int}
    {S : GHashTable download_t circuit_t} {b : String} {s : ℚ} (l : List download_t) :
    ∀ (st st' : solve_state), tables_ok A relays S st → share_ok s st →
      (∀ d ∈ l, on_relay S b d = true) →
      l.foldl (assign_download S b s) (some st) = some st' →
      tables_ok A relays S st' ∧ share_ok s st' ∧
      st'.fields = (l.reverse.map fun d => (d, s, b)) ++ st.fields ∧
      st'.weights = st.weights ∧
      (∀ r v', g_hash_table_lookup st'.active_relays r = some v' →
        ∃ v, g_hash_table_lookup st.active_relays r = some v) ∧
      (∀ r d, d ∈ pending st'.relay_downloads r → d ∈ pending st.relay_downloads r) := by
  induction l with
  | nil =>
    intro st st' hok hs _ h
    simp only [List.foldl_nil, Option.some.injEq] at h
    subst h
    exact ⟨hok, hs, by simp, rfl, fun r v' hv' => ⟨v', hv'⟩, fun _ _ hd => hd⟩
  | cons d t ih =>
    intro st st' hok hs hl h
    rw [List.foldl_cons] at h
    cases h1 : assign_download S b s (some st) d with
    | none =>
      rw [h1, assign_download_none] at h
      cases h
    | some st1 =>
      rw [h1] at h
      have hb := hl d (List.mem_cons_self _ _)
      have hok1 := assign_download_ok hok hb h1
      have hs1 := assign_download_share hok hs h1
      obtain ⟨c, hc, _, hpend, hpend', hact, _, hfld, hw, _, _, _⟩ := assign_download_spec h1
      obtain ⟨k1, k2, k3, k4, k5, k6⟩ :=
        ih st1 st' hok1 hs1 (fun d' hd' => hl d' (List.mem_cons_of_mem _ hd')) h
      refine ⟨k1, k2, ?_, by rw [k4, hw], ?_, ?_⟩
      · rw [k3, hfld]
        simp
      · intro r v' hv'
        obtain ⟨v1, hv1⟩ := k5 r v' hv'
        obtain ⟨v, hv, _⟩ := hact r v1 hv1
        exact ⟨v, hv⟩
      · intro r d' hd'
        have := k6 r d' hd'
        rw [hpend' r] at this
        by_cases hr : r ∈ circuit_relays c
        · rw [if_pos hr] at this
          exact (List.mem_filter.1 this).1
        · rw [if_neg hr] at this
          exact this

/-! ## The bottleneck search -/

theorem bottleneck_fold (rd : GHashTable String (List download_t)) (a : GHashTable String ℚ) :
    ∀ acc : bottleneck_t,
      (a.foldl (bottleneck_step rd) acc).download_bandwidth ≤ acc.download_bandwidth ∧
      (∀ e ∈ a, e.2 ≠ 0 → ∀ L, g_hash_table_lookup rd e.1 = some L →
        (a.foldl (bottleneck_step rd) acc).download_bandwidth ≤ e.2 / (L.length : ℚ)) ∧
      (a.foldl (bottleneck_step rd) acc = acc ∨
        ∃ e ∈ a, ∃ L, e.2 ≠ 0 ∧ g_hash_table_lookup rd e.1 = some L ∧
          (a.foldl (bottleneck_step rd) acc).bottleneck_relay = some e.1 ∧
          (a.foldl (bottleneck_step rd) acc).download_bandwidth = e.2 / (L.length : ℚ) ∧
          (a.foldl (bottleneck_step rd) acc).download_bandwidth < acc.download_bandwidth) := by
  induction a with
  | nil =>
    intro acc
    exact ⟨le_refl _, by simp, Or.inl rfl⟩
  | cons p t ih =>
    intro acc
    rw [List.foldl_cons]
    obtain ⟨h1, h2, h3⟩ := ih (bottleneck_step rd acc p)
    have hstep : (bottleneck_step rd acc p).download_bandwidth ≤ acc.download_bandwidth := by
      unfold bottleneck_step
      by_cases hz : p.2 = 0
      · simp [hz]
      · cases hL : g_hash_table_lookup rd p.1 with
        | none => simp [hz]
        | some L =>
          by_cases hlt : p.2 / (L.length : ℚ) < acc.download_bandwidth
          · simp [hz, hlt, le_of_lt hlt]
          · simp [hz, hlt]
    have hp : p.2 ≠ 0 → ∀ L, g_hash_table_lookup rd p.1 = some L →
        (bottleneck_step rd acc p).download_bandwidth ≤ p.2 / (L.length : ℚ) := by
      intro hz L hL
      unfold bottleneck_step
      by_cases hlt : p.2 / (L.length : ℚ) < acc.download_bandwidth
      · simp [hz, hL, hlt]
      · simp [hz, hL, hlt]
        exact not_lt.1 hlt
    have hcase : bottleneck_step rd acc p = acc ∨
        ∃ L, p.2 ≠ 0 ∧ g_hash_table_lookup rd p.1 = some L ∧
          (bottleneck_step rd acc p).bottleneck_relay = some p.1 ∧
          (bottleneck_step rd acc p).download_bandwidth = p.2 / (L.length : ℚ) ∧
          (bottleneck_step rd acc p).download_bandwidth < acc.download_bandwidth := by
      unfold bottleneck_step
      by_cases hz : p.2 = 0
      · left; simp [hz]
      · cases hL : g_hash_table_lookup rd p.1 with
        | none => left; simp [hz]
        | some L =>
          by_cases hlt : p.2 / (L.length : ℚ) < acc.download_bandwidth
          · right
            exact ⟨L, hz, rfl, by simp [hz, hlt], by simp [hz, hlt], by simp [hz, hlt]⟩
          · left; simp [hz, hlt]
    refine ⟨le_trans h1 hstep, ?_, ?_⟩
    · intro e he hz L hL
      rcases List.mem_cons.1 he with e1 | e1
      · subst e1
        exact le_trans h1 (hp hz L hL)
      · exact h2 e e1 hz L hL
    · rcases h3 with h3 | ⟨e, he, L, hz, hL, hb, hd, hlt⟩
      · rw [h3]
        rcases hcase with h4 | ⟨L, hz, hL, hb, hd, hlt⟩
        · left; exact h4
        · right
          exact ⟨p, List.mem_cons_self _ _, L, hz, hL, hb, hd, hlt⟩
      · right
        exact ⟨e, List.mem_cons_of_mem _ he, L, hz, hL, hb, hd, lt_of_lt_of_le hlt hstep⟩

theorem find_bottleneck_spec (rd : GHashTable String (List download_t))
    (a : GHashTable String ℚ) {b : String}
    (hb : (find_bottleneck rd a).bottleneck_relay = some b) :
    (∀ e ∈ a, e.2 ≠ 0 → ∀ L, g_hash_table_lookup rd e.1 = some L →
      (find_bottleneck rd a).download_bandwidth ≤ e.2 / (L.length : ℚ)) ∧
    ∃ v L, (b, v) ∈ a ∧ v ≠ 0 ∧ g_hash_table_lookup rd b = some L ∧
      (find_bottleneck rd a).download_bandwidth = v / (L.length : ℚ) ∧
      (find_bottleneck rd a).download_bandwidth < G_MAXINT32 := by
  unfold find_bottleneck at hb ⊢
  obtain ⟨_, h2, h3⟩ := bottleneck_fold rd a
    { bottleneck_relay := none, bottleneck_bandwidth := G_MAXINT32,
      download_bandwidth := G_MAXINT32 }
  refine ⟨h2, ?_⟩
  rcases h3 with h3 | ⟨e, he, L, hz, hL, hb', hd, hlt⟩
  · rw [h3] at hb
    cases hb
  · rw [hb'] at hb
    cases hb
    exact ⟨e.2, L, he, hz, hL, hd, hlt⟩

/-! ## One round -/

theorem relay_usage_append (S : GHashTable download_t circuit_t)
    (l1 l2 : List (download_t × ℚ × String)) (r : String) :
    relay_usage S (l1 ++ l2) r = relay_usage S l1 r + relay_usage S l2 r := by
  unfold relay_usage
  rw [List.filter_append, List.map_append, List.sum_append]

theorem relay_usage_map (S : GHashTable download_t circuit_t) (s : ℚ) (b : String)
    (l : List download_t) (r : String) :
    relay_usage S (l.map fun d => (d, s, b)) r =
      s * ((l.filter (fun d => on_relay S r d)).length : ℚ) := by
  induction l with
  | nil => simp [relay_usage]
  | cons d t ih =>
    rw [List.map_cons, relay_usage_cons, ih]
    by_cases h : on_relay S r d = true
    · simp only [h, if_true, List.filter_cons, List.length_cons, Nat.cast_add, Nat.cast_one]
      ring
    · simp only [h, if_false, List.filter_cons, zero_add]
      simp

theorem relay_usage_round (S : GHashTable download_t circuit_t) (s : ℚ) (b : String)
    (l : List download_t) (r : String) :
    relay_usage S (l.reverse.map fun d => (d, s, b)) r =
      s * ((l.filter (fun d => on_relay S r d)).length : ℚ) := by
  rw [relay_usage_map, List.filter_reverse, List.length_reverse]

theorem pending_of_lookup {rd : GHashTable String (List download_t)} {r : String}
    {L : List download_t} (h : g_hash_table_lookup rd r = some L) : pending rd r = L := by
  simp [pending, h]

theorem pending_ne_nil {rd : GHashTable String (List download_t)} {r : String}
    (h : pending rd r ≠ []) : ∃ L, g_hash_table_lookup rd r = some L ∧ pending rd r = L := by
  cases hL : g_hash_table_lookup rd r with
  | none => exact absurd (by simp [pending, hL]) h
  | some L => exact ⟨L, rfl, by simp [pending, hL]⟩

/-- The parts of a successful round. -/
theorem solve_round_cases {S : GHashTable download_t circuit_t} {st st' : solve_state}
    (h : solve_round S st = some st') :
    ∃ (b : String) (L : List download_t),
      (find_bottleneck st.relay_downloads st.active_relays).bottleneck_relay = some b ∧
      g_hash_table_lookup st.relay_downloads b = some L ∧
      L.foldl (assign_download S b
          (find_bottleneck st.relay_downloads st.active_relays).download_bandwidth)
        (some (round_start st b
          (find_bottleneck st.relay_downloads st.active_relays).download_bandwidth L.length))
        = some st' ∧
      g_hash_table_lookup st'.active_relays b = none ∧
      g_hash_table_lookup st'.relay_downloads b = none := by
  unfold solve_round at h
  dsimp only at h
  split at h
  · cases h
  rename_i b hb
  split at h
  · cases h
  rename_i L hL
  split at h
  · cases h
  rename_i st2 hfold
  split at h
  · cases h
  rename_i hc1
  split at h
  · cases h
  rename_i hc2
  cases h
  refine ⟨b, L, hb, hL, hfold, ?_, ?_⟩
  · cases hx : g_hash_table_lookup st'.active_relays b with
    | none => rfl
    | some x => rw [hx] at hc1; exact absurd rfl hc1
  · cases hx : g_hash_table_lookup st'.relay_downloads b with
    | none => rfl
    | some x => rw [hx] at hc2; exact absurd rfl hc2

/-- The state in which the inner loop of a round starts. -/
theorem solve_round_start {A : List download_t} {relays : GHashTable String Int}
    {S : GHashTable download_t circuit_t} {st : solve_state} {b : String}
    {L : List download_t} (hinv : solve_inv A relays S st)
    (hb : (find_bottleneck st.relay_downloads st.active_relays).bottleneck_relay = some b)
    (hL : g_hash_table_lookup st.relay_downloads b = some L) (s : ℚ)
    (hsdef : (find_bottleneck st.relay_downloads st.active_relays).download_bandwidth = s) :
    ∃ vb : ℚ,
      g_hash_table_lookup st.active_relays b = some vb ∧ vb ≠ 0 ∧ L ≠ [] ∧
      s = vb / (L.length : ℚ) ∧ s < G_MAXINT32 ∧
      (∀ r v, g_hash_table_lookup st.active_relays r = some v → v ≠ 0 →
        pending st.relay_downloads r ≠ [] →
        s * ((pending st.relay_downloads r).length : ℚ) ≤ v) ∧
      (∀ r, g_hash_table_lookup (round_start st b s L.length).active_relays r =
        g_hash_table_lookup st.active_relays r) ∧
      tables_ok A relays S (round_start st b s L.length) ∧
      share_ok s (round_start st b s L.length) ∧
      (∀ d ∈ L, on_relay S b d = true) := by
  obtain ⟨hmin, vb, L', hmem, hvb, hL', hs, hmax⟩ :=
    find_bottleneck_spec st.relay_downloads st.active_relays hb
  rw [hL] at hL'
  cases hL'
  rw [hsdef] at hmin hs hmax
  have hLne : L ≠ [] := hinv.tables.nonempty b L hL
  have hpos : (0 : ℚ) < (L.length : ℚ) := by
    have : L.length ≠ 0 := fun e => hLne (List.length_eq_zero.1 e)
    exact_mod_cast Nat.pos_of_ne_zero this
  have hlen : (L.length : ℚ) ≠ 0 := ne_of_gt hpos
  have hvb' : g_hash_table_lookup st.active_relays b = some vb :=
    lookup_of_mem hinv.tables.keys_active hmem
  have hreset : s * (L.length : ℚ) = vb := by
    rw [hs]; field_simp
  have hsame : ∀ r, g_hash_table_lookup (round_start st b s L.length).active_relays r =
      g_hash_table_lookup st.active_relays r := by
    intro r
    show g_hash_table_lookup (g_hash_table_insert st.active_relays b (s * (L.length : ℚ))) r = _
    rw [lookup_insert]
    by_cases e : r = b
    · rw [if_pos e, e, hvb', hreset]
    · rw [if_neg e]
  have hshare : ∀ r v, g_hash_table_lookup st.active_relays r = some v → v ≠ 0 →
      pending st.relay_downloads r ≠ [] →
      s * ((pending st.relay_downloads r).length : ℚ) ≤ v := by
    intro r v hv hv0 hne
    obtain ⟨L', hL', hp⟩ := pending_ne_nil hne
    have h1 := hmin (r, v) (mem_of_lookup hv) hv0 L' hL'
    rw [hp]
    have hpos' : (0 : ℚ) < (L'.length : ℚ) := by
      have : L'.length ≠ 0 := fun e => (hinv.tables.nonempty r L' hL') (List.length_eq_zero.1 e)
      exact_mod_cast Nat.pos_of_ne_zero this
    exact (le_div_iff₀ hpos').1 h1
  have hok1 : tables_ok A relays S (round_start st b s L.length) := by
    refine ⟨nodup_keys_insert hinv.tables.keys_active _ _, hinv.tables.keys_pending,
      hinv.tables.nonempty, hinv.tables.pending_nodup, hinv.tables.pending_mem, ?_,
      hinv.tables.total, hinv.tables.fields_nodup, hinv.tables.fields_mem⟩
    intro r v hv
    exact hinv.tables.residual r v (by rw [← hsame r]; exact hv)
  have hfle : ∀ e ∈ st.fields, e.2.1 ≤ s := by
    intro e he
    have h1 := hinv.below e he b vb hvb' hvb (by rw [pending_of_lookup hL]; exact hLne)
    rw [pending_of_lookup hL] at h1
    rw [hs]
    exact (le_div_iff₀ hpos).2 h1
  have hs1 : share_ok s (round_start st b s L.length) := by
    refine ⟨hfle, ?_⟩
    intro r v hv hv0 hne
    exact hshare r v (by rw [← hsame r]; exact hv) hv0 hne
  have hon : ∀ d ∈ L, on_relay S b d = true := by
    intro d hd
    have : d ∈ pending st.relay_downloads b := by rw [pending_of_lookup hL]; exact hd
    exact ((hinv.tables.pending_mem b d).1 this).2.1
  exact ⟨vb, hvb', hvb, hLne, hs, hmax, hshare, hsame, hok1, hs1, hon⟩

/-- What one successful round does. -/
theorem solve_round_spec {A : List download_t} {relays : GHashTable String Int}
    {S : GHashTable download_t circuit_t} {st st' : solve_state}
    (hinv : solve_inv A relays S st) (h : solve_round S st = some st') :
    ∃ (b : String) (s : ℚ) (l : List download_t) (vb : ℚ),
      g_hash_table_lookup st.active_relays b = some vb ∧ vb ≠ 0 ∧
      g_hash_table_lookup st.relay_downloads b = some l ∧ l ≠ [] ∧
      s = vb / (l.length : ℚ) ∧ s < G_MAXINT32 ∧
      (∀ r v, g_hash_table_lookup st.active_relays r = some v → v ≠ 0 →
        pending st.relay_downloads r ≠ [] →
        s * ((pending st.relay_downloads r).length : ℚ) ≤ v) ∧
      tables_ok A relays S st' ∧ share_ok s st' ∧
      st'.fields = (l.reverse.map fun d => (d, s, b)) ++ st.fields ∧
      st'.weights = st.weights.map (fun w =>
        g_hash_table_insert w b ((1 / s) * (l.length : ℚ))) ∧
      (∀ r v', g_hash_table_lookup st'.active_relays r = some v' →
        ∃ v, g_hash_table_lookup st.active_relays r = some v) ∧
      (∀ r d, d ∈ pending st'.relay_downloads r → d ∈ pending st.relay_downloads r) ∧
      g_hash_table_lookup st'.active_relays b = none ∧
      g_hash_table_lookup st'.relay_downloads b = none := by
  obtain ⟨b, L, hb, hL, hfold, hc1, hc2⟩ := solve_round_cases h
  obtain ⟨vb, hvb', hvb, hLne, hs, hmax, hshare, hsame, hok1, hs1, hon⟩ :=
    solve_round_start hinv hb hL _ rfl
  obtain ⟨k1, k2, k3, k4, k5, k6⟩ := assign_fold_spec L _ _ hok1 hs1 hon hfold
  refine ⟨b, _, L, vb, hvb', hvb, hL, hLne, hs, hmax, hshare, k1, k2, k3, k4, ?_, k6, hc1, hc2⟩
  intro r v' hv'
  obtain ⟨v, hv⟩ := k5 r v' hv'
  exact ⟨v, by rw [← hsame r]; exact hv⟩

theorem solve_round_inv {A : List download_t} {relays : GHashTable String Int}
    {S : GHashTable download_t circuit_t} {st st' : solve_state}
    (hinv : solve_inv A relays S st) (h : solve_round S st = some st') :
    solve_inv A relays S st' := by
  obtain ⟨b, s, l, vb, hvb, hvb0, hl, hlne, hs, _, _, hok, hsh, hfld, _, hact, hpend, hb1, hb2⟩ :=
    solve_round_spec hinv h
  have hpos : (0 : ℚ) < (l.length : ℚ) := by
    have : l.length ≠ 0 := fun e => hlne (List.length_eq_zero.1 e)
    exact_mod_cast Nat.pos_of_ne_zero this
  have hpb : pending st'.relay_downloads b = [] := by simp [pending, hb2]
  have hlb : ∀ d ∈ l, on_relay S b d = true := by
    intro d hd
    have : d ∈ pending st.relay_downloads b := by rw [pending_of_lookup hl]; exact hd
    exact ((hinv.tables.pending_mem b d).1 this).2.1
  -- a download of this round does not cross a relay drained before
  have hnew : ∀ e ∈ st.fields, ∀ d ∈ l, on_relay S e.2.2 d = true → False := by
    intro e he d hd hon
    have h1 : d ∈ pending st.relay_downloads b := by rw [pending_of_lookup hl]; exact hd
    have h2 := (hinv.tables.pending_mem b d).1 h1
    have h3 : d ∈ pending st.relay_downloads e.2.2 :=
      (hinv.tables.pending_mem e.2.2 d).2 ⟨h2.1, hon, h2.2.2⟩
    rw [(hinv.drained e he).2] at h3
    simp at h3
  have hsplit : ∀ e ∈ st'.fields,
      (∃ d ∈ l, e = (d, s, b)) ∨ e ∈ st.fields := by
    intro e he
    rw [hfld] at he
    rcases List.mem_append.1 he with h1 | h1
    · left
      obtain ⟨d, hd, rfl⟩ := List.mem_map.1 h1
      exact ⟨d, List.mem_reverse.1 hd, rfl⟩
    · right; exact h1
  refine ⟨hok, ?_, ?_, ?_, ?_, ?_⟩
  · intro e he r v hv hv0 hne
    have h1 := hsh.fields_le e he
    have h2 := hsh.share_le r v hv hv0 hne
    have h3 : (0 : ℚ) ≤ ((pending st'.relay_downloads r).length : ℚ) := Nat.cast_nonneg _
    exact le_trans (mul_le_mul_of_nonneg_right h1 h3) h2
  · intro e he
    rcases hsplit e he with ⟨d, _, rfl⟩ | h1
    · exact ⟨hb1, hpb⟩
    · obtain ⟨d1, d2⟩ := hinv.drained e h1
      constructor
      · cases hx : g_hash_table_lookup st'.active_relays e.2.2 with
        | none => rfl
        | some x =>
          obtain ⟨v, hv⟩ := hact _ _ hx
          rw [d1] at hv
          cases hv
      · apply List.eq_nil_iff_forall_not_mem.2
        intro d hd
        have := hpend _ _ hd
        rw [d2] at this
        simp at this
  · intro e he
    rw [hfld, relay_usage_append, relay_usage_round]
    rcases hsplit e he with ⟨d, _, rfl⟩ | h1
    · have hfil : l.filter (fun d => on_relay S b d) = l :=
        List.filter_eq_self.2 hlb
      show s * ((l.filter (fun d => on_relay S b d)).length : ℚ) + relay_usage S st.fields b = _
      rw [hfil, hinv.tables.residual b vb hvb] at *
      rw [hs]
      field_simp
    · have hfil : l.filter (fun d => on_relay S e.2.2 d) = [] := by
        apply List.filter_eq_nil_iff.2
        intro d hd hon
        exact hnew e h1 d hd hon
      rw [hfil, hinv.saturated e h1]
      simp
  · intro e he e' he' hon
    rcases hsplit e he with ⟨d, hd, rfl⟩ | h1
    · exact hsh.fields_le e' he'
    · rcases hsplit e' he' with ⟨d', hd', rfl⟩ | h2
      · exact absurd (hnew e h1 d' hd' hon) id
      · exact hinv.least e h1 e' h2 hon
  · intro e he e' he' hbb
    rcases hsplit e he with ⟨d, hd, rfl⟩ | h1
    · rcases hsplit e' he' with ⟨d', hd', rfl⟩ | h2
      · rfl
      · have := (hinv.drained e' h2).1
        rw [← hbb] at this
        rw [hvb] at this
        cases this
    · rcases hsplit e' he' with ⟨d', hd', rfl⟩ | h2
      · have := (hinv.drained e h1).1
        rw [hbb] at this
        rw [hvb] at this
        cases this
      · exact hinv.same e h1 e' h2 hbb

/-- The invariant holds when the loop is left, and the loop is left only when
its condition fails. -/
theorem solve_loop_inv {A : List download_t} {relays : GHashTable String Int}
    {S : GHashTable download_t circuit_t} (n : Nat) :
    ∀ (st st' : solve_state), solve_inv A relays S st → solve_loop S n st = some st' →
      solve_inv A relays S st' ∧ st'.weights.isSome = st.weights.isSome ∧
      ¬ (0 < g_hash_table_size st'.active_relays ∧ 0 < g_hash_table_size st'.relay_downloads) := by
  induction n with
  | zero =>
    intro st st' hinv h
    unfold solve_loop at h
    split at h
    · cases h
    · rename_i hc
      cases h
      exact ⟨hinv, rfl, hc⟩
  | succ n ih =>
    intro st st' hinv h
    unfold solve_loop at h
    split at h
    · obtain ⟨st1, h1, h2⟩ := Option.bind_eq_some.1 h
      obtain ⟨k1, k2, k3⟩ := ih st1 st' (solve_round_inv hinv h1) h2
      refine ⟨k1, ?_, k3⟩
      obtain ⟨b, s, l, vb, _, _, _, _, _, _, _, _, _, _, hw, _⟩ := solve_round_spec hinv h1
      rw [k2, hw]
      cases st.weights <;> rfl
    · rename_i hc
      cases h
      exact ⟨hinv, rfl, hc⟩

/-! ## Step 1 -/

theorem update_active_relay_spec (rd : GHashTable String (List download_t))
    (a : GHashTable String ℚ) (r : String) (d : download_t) (cap : Int) :
    (∀ r', pending (update_active_relay rd a r d cap).1 r' =
      if r' = r then (if d ∈ pending rd r then pending rd r else pending rd r ++ [d])
      else pending rd r') ∧
    (∀ r' v, g_hash_table_lookup (update_active_relay rd a r d cap).2 r' = some v →
      g_hash_table_lookup a r' = some v ∨ (r' = r ∧ v = (cap : ℚ))) ∧
    (∀ r' v, g_hash_table_lookup a r' = some v →
      g_hash_table_lookup (update_active_relay rd a r d cap).2 r' = some v) ∧
    (∃ v, g_hash_table_lookup (update_active_relay rd a r d cap).2 r = some v) ∧
    ((g_hash_table_get_keys a).Nodup →
      (g_hash_table_get_keys (update_active_relay rd a r d cap).2).Nodup) ∧
    ((g_hash_table_get_keys rd).Nodup →
      (g_hash_table_get_keys (update_active_relay rd a r d cap).1).Nodup) ∧
    ((∀ r' L, g_hash_table_lookup rd r' = some L → L ≠ []) →
      (∀ r' L, g_hash_table_lookup (update_active_relay rd a r d cap).1 r' = some L → L ≠ [])) := by
  have h1 : (update_active_relay rd a r d cap).1 = g_hash_table_insert rd r
      (if d ∈ pending rd r then pending rd r else pending rd r ++ [d]) := by
    unfold update_active_relay pending
    cases g_hash_table_lookup a r <;> rfl
  have h2 : (update_active_relay rd a r d cap).2 =
      match g_hash_table_lookup a r with
      | none => g_hash_table_insert a r (cap : ℚ)
      | some _ => a := by
    unfold update_active_relay
    cases g_hash_table_lookup a r <;> rfl
  refine ⟨?_, ?_, ?_, ?_, ?_, ?_, ?_⟩
  · intro r'
    rw [h1]
    unfold pending
    rw [lookup_insert]
    by_cases e : r' = r
    · rw [if_pos e, if_pos e]; rfl
    · rw [if_neg e, if_neg e]
  · intro r' v hv
    rw [h2] at hv
    cases ha : g_hash_table_lookup a r with
    | none =>
      rw [ha] at hv
      simp only at hv
      rw [lookup_insert] at hv
      by_cases e : r' = r
      · rw [if_pos e] at hv
        cases hv
        exact Or.inr ⟨e, rfl⟩
      · rw [if_neg e] at hv
        exact Or.inl hv
    | some x =>
      rw [ha] at hv
      exact Or.inl hv
  · intro r' v hv
    rw [h2]
    cases ha : g_hash_table_lookup a r with
    | none =>
      simp only
      rw [lookup_insert]
      by_cases e : r' = r
      · rw [e, ha] at hv; cases hv
      · rw [if_neg e]; exact hv
    | some x => exact hv
  · rw [h2]
    cases ha : g_hash_table_lookup a r with
    | none => exact ⟨_, lookup_insert_self _ _ _⟩
    | some x => exact ⟨x, ha⟩
  · intro hn
    rw [h2]
    cases ha : g_hash_table_lookup a r with
    | none => exact nodup_keys_insert hn _ _
    | some x => exact hn
  · intro hn
    rw [h1]
    exact nodup_keys_insert hn _ _
  · intro hne r' L hL
    rw [h1, lookup_insert] at hL
    by_cases e : r' = r
    · rw [if_pos e] at hL
      cases hL
      by_cases hd : d ∈ pending rd r
      · rw [if_pos hd]
        intro h0
        rw [h0] at hd
        simp at hd
      · rw [if_neg hd]
        simp
    · rw [if_neg e] at hL
      exact hne r' L hL

theorem update_active_relay_ok (relays : GHashTable String Int)
    (t : GHashTable String (List download_t) × GHashTable String ℚ)
    (Q : String → download_t → Prop) (r : String) (d : download_t)
    (hk1 : (g_hash_table_get_keys t.2).Nodup) (hk2 : (g_hash_table_get_keys t.1).Nodup)
    (hne : ∀ r L, g_hash_table_lookup t.1 r = some L → L ≠ [])
    (hnd : ∀ r, (pending t.1 r).Nodup)
    (hmem : ∀ r' d', d' ∈ pending t.1 r' ↔ Q r' d')
    (hcap : ∀ r v, g_hash_table_lookup t.2 r = some v → v = (relay_capacity relays r : ℚ))
    (hact : ∀ r, pending t.1 r ≠ [] → ∃ v, g_hash_table_lookup t.2 r = some v)
    (hused : ∀ r v, g_hash_table_lookup t.2 r = some v → pending t.1 r ≠ []) :
    (g_hash_table_get_keys (update_active_relay t.1 t.2 r d (relay_capacity relays r)).2).Nodup ∧
    (g_hash_table_get_keys (update_active_relay t.1 t.2 r d (relay_capacity relays r)).1).Nodup ∧
    (∀ r' L, g_hash_table_lookup
      (update_active_relay t.1 t.2 r d (relay_capacity relays r)).1 r' = some L → L ≠ []) ∧
    (∀ r', (pending (update_active_relay t.1 t.2 r d (relay_capacity relays r)).1 r').Nodup) ∧
    (∀ r' d', d' ∈ pending (update_active_relay t.1 t.2 r d (relay_capacity relays r)).1 r' ↔
      (Q r' d' ∨ (r' = r ∧ d' = d))) ∧
    (∀ r' v, g_hash_table_lookup
      (update_active_relay t.1 t.2 r d (relay_capacity relays r)).2 r' = some v →
      v = (relay_capacity relays r' : ℚ)) ∧
    (∀ r', pending (update_active_relay t.1 t.2 r d (relay_capacity relays r)).1 r' ≠ [] →
      ∃ v, g_hash_table_lookup
        (update_active_relay t.1 t.2 r d (relay_capacity relays r)).2 r' = some v) ∧
    (∀ r' v, g_hash_table_lookup
      (update_active_relay t.1 t.2 r d (relay_capacity relays r)).2 r' = some v →
      pending (update_active_relay t.1 t.2 r d (relay_capacity relays r)).1 r' ≠ []) := by
  obtain ⟨p1, p2, p3, p4, p5, p6, p7⟩ :=
    update_active_relay_spec t.1 t.2 r d (relay_capacity relays r)
  refine ⟨p5 hk1, p6 hk2, p7 hne, ?_, ?_, ?_, ?_, ?_⟩
  · intro r'
    rw [p1 r']
    by_cases e : r' = r
    · rw [if_pos e]
      by_cases hd : d ∈ pending t.1 r
      · rw [if_pos hd]; exact hnd r
      · rw [if_neg hd]
        refine List.Nodup.append (hnd r) (List.nodup_singleton d) ?_
        intro x hx hx'
        rw [List.mem_singleton] at hx'
        exact hd (hx' ▸ hx)
    · rw [if_neg e]; exact hnd r'
  · intro r' d'
    rw [p1 r']
    by_cases e : r' = r
    · rw [if_pos e]
      subst e
      by_cases hd : d ∈ pending t.1 r'
      · rw [if_pos hd, hmem]
        constructor
        · intro h; exact Or.inl h
        · rintro (h | ⟨_, h⟩)
          · exact h
          · rw [h]; exact (hmem _ _).1 hd
      · rw [if_neg hd, List.mem_append, hmem]
        simp
    · rw [if_neg e, hmem]
      constructor
      · intro h; exact Or.inl h
      · rintro (h | ⟨h, _⟩)
        · exact h
        · exact absurd h e
  · intro r' v hv
    rcases p2 r' v hv with h | ⟨h1, h2⟩
    · exact hcap r' v h
    · rw [h1, h2]
  · intro r' hne'
    by_cases e : r' = r
    · rw [e]; exact p4
    · rw [p1 r', if_neg e] at hne'
      obtain ⟨v, hv⟩ := hact r' hne'
      exact ⟨v, p3 r' v hv⟩
  · intro r' v hv
    rw [p1 r']
    by_cases e : r' = r
    · rw [if_pos e]
      by_cases hd : d ∈ pending t.1 r
      · rw [if_pos hd]
        intro h0
        rw [h0] at hd
        simp at hd
      · rw [if_neg hd]
        simp
    · rw [if_neg e]
      rcases p2 r' v hv with h | ⟨h1, _⟩
      · exact hused r' v h
      · exact absurd h1 e

theorem register_download_ok {relays : GHashTable String Int}
    {S : GHashTable download_t circuit_t} {P : List download_t}
    {t t' : GHashTable String (List download_t) × GHashTable String ℚ} {d : download_t}
    (hok : build_ok relays S P t) (h : register_download relays S (some t) d = some t') :
    build_ok relays S (P ++ [d]) t' := by
  unfold register_download at h
  cases hc : g_hash_table_lookup S d with
  | none => simp [hc] at h
  | some c =>
    simp only [hc, Option.some.injEq] at h
    obtain ⟨a1, a2, a3, a4, a5, a6, a7, a8⟩ := update_active_relay_ok relays t
      (fun r d => d ∈ P ∧ on_relay S r d = true) c.guard d
      hok.keys_active hok.keys_pending hok.nonempty hok.pending_nodup hok.pending_mem
      hok.capacity hok.active hok.used
    obtain ⟨b1, b2, b3, b4, b5, b6, b7, b8⟩ := update_active_relay_ok relays
      (update_active_relay t.1 t.2 c.guard d (relay_capacity relays c.guard))
      _ c.middle d a1 a2 a3 a4 a5 a6 a7 a8
    obtain ⟨c1, c2, c3, c4, c5, c6, c7, c8⟩ := update_active_relay_ok relays
      (update_active_relay
        (update_active_relay t.1 t.2 c.guard d (relay_capacity relays c.guard)).1
        (update_active_relay t.1 t.2 c.guard d (relay_capacity relays c.guard)).2
        c.middle d (relay_capacity relays c.middle))
      _ c.exit d b1 b2 b3 b4 b5 b6 b7 b8
    subst h
    refine ⟨c1, c2, c3, c4, ?_, c6, c7, c8, ?_⟩
    swap
    · intro d' hd'
      rcases List.mem_append.1 hd' with h1 | h1
      · exact hok.selected d' h1
      · rw [List.mem_singleton] at h1
        rw [h1]
        exact ⟨c, hc⟩
    intro r d'
    rw [c5 r d']
    simp only [List.mem_append, List.mem_singleton]
    constructor
    · rintro (((⟨h1, h2⟩ | ⟨h1, h2⟩) | ⟨h1, h2⟩) | ⟨h1, h2⟩)
      · exact ⟨Or.inl h1, h2⟩
      · refine ⟨Or.inr h2, ?_⟩
        rw [h2, on_relay_of_lookup hc, mem_circuit_relays]
        exact Or.inl h1
      · refine ⟨Or.inr h2, ?_⟩
        rw [h2, on_relay_of_lookup hc, mem_circuit_relays]
        exact Or.inr (Or.inl h1)
      · refine ⟨Or.inr h2, ?_⟩
        rw [h2, on_relay_of_lookup hc, mem_circuit_relays]
        exact Or.inr (Or.inr h1)
    · rintro ⟨h1 | h1, h2⟩
      · exact Or.inl (Or.inl (Or.inl ⟨h1, h2⟩))
      · rw [h1, on_relay_of_lookup hc, mem_circuit_relays] at h2
        rcases h2 with e | e | e
        · exact Or.inl (Or.inl (Or.inr ⟨e, h1⟩))
        · exact Or.inl (Or.inr ⟨e, h1⟩)
        · exact Or.inr ⟨e, h1⟩

theorem register_download_none (relays : GHashTable String Int)
    (S : GHashTable download_t circuit_t) (l : List download_t) :
    l.foldl (register_download relays S) none = none := by
  induction l with
  | nil => rfl
  | cons d t ih => simpa [List.foldl_cons, register_download] using ih

theorem register_fold_ok {relays : GHashTable String Int}
    {S : GHashTable download_t circuit_t} (l : List download_t) :
    ∀ (P : List download_t) (t t' : GHashTable String (List download_t) × GHashTable String ℚ),
      build_ok relays S P t → l.foldl (register_download relays S) (some t) = some t' →
      build_ok relays S (P ++ l) t' := by
  induction l with
  | nil =>
    intro P t t' hok h
    simp only [List.foldl_nil, Option.some.injEq] at h
    subst h
    simpa using hok
  | cons d l ih =>
    intro P t t' hok h
    rw [List.foldl_cons] at h
    cases h1 : register_download relays S (some t) d with
    | none =>
      rw [h1, register_download_none] at h
      cases h
    | some t1 =>
      rw [h1] at h
      have := ih (P ++ [d]) t1 t' (register_download_ok hok h1) h
      simpa using this

theorem build_relay_tables_ok {A : List download_t} {relays : GHashTable String Int}
    {S : GHashTable download_t circuit_t}
    {t : GHashTable String (List download_t) × GHashTable String ℚ}
    (h : build_relay_tables A relays S = some t) : build_ok relays S A t := by
  unfold build_relay_tables at h
  have h0 : build_ok relays S [] (([], []) :
      GHashTable String (List download_t) × GHashTable String ℚ) := by
    refine ⟨by simp [g_hash_table_get_keys], by simp [g_hash_table_get_keys], ?_, ?_, ?_, ?_, ?_,
      ?_, by simp⟩
    · intro r L hL; simp [g_hash_table_lookup] at hL
    · intro r; simp [pending, g_hash_table_lookup]
    · intro r d; simp [pending, g_hash_table_lookup]
    · intro r v hv; simp [g_hash_table_lookup] at hv
    · intro r hr; simp [pending, g_hash_table_lookup] at hr
    · intro r v hv; simp [g_hash_table_lookup] at hv
  simpa using register_fold_ok A [] _ t h0 h

/-- The invariant holds when the loop is entered. -/
theorem solve_inv_init {A : List download_t} {relays : GHashTable String Int}
    {S : GHashTable download_t circuit_t}
    {t : GHashTable String (List download_t) × GHashTable String ℚ}
    (h : build_relay_tables A relays S = some t) (w : Option (GHashTable String ℚ)) :
    solve_inv A relays S
      { active_relays := t.2, relay_downloads := t.1, total_bandwidth := 0, weights := w,
        fields := [] } := by
  have hok := build_relay_tables_ok h
  refine ⟨⟨hok.keys_active, hok.keys_pending, hok.nonempty, hok.pending_nodup, ?_, ?_, ?_, ?_, ?_⟩,
    ?_, ?_, ?_, ?_, ?_⟩
  · intro r d
    rw [hok.pending_mem r d]
    simp
  · intro r v hv
    rw [hok.capacity r v hv]
    simp [relay_usage]
  · simp
  · simp
  · intro e he; simp at he
  · intro e he; simp at he
  · intro e he; simp at he
  · intro e he; simp at he
  · intro e he; simp at he
  · intro e he; simp at he

/-! ## The whole call -/

/-- A call that returns leaves the loop with the invariant in force. -/
theorem compute_download_bandwidths_inv {A : List download_t}
    {relays : GHashTable String Int} {S : GHashTable download_t circuit_t}
    {w : Option (GHashTable String ℚ)} {ab : Option (GHashTable String Int)}
    {res : solve_result} (h : compute_download_bandwidths A relays S w ab = some res) :
    ∃ st, solve_inv A relays S st ∧ res.fields = st.fields ∧
      res.total_bandwidth = st.total_bandwidth ∧ res.weights = st.weights ∧
      ¬ (0 < g_hash_table_size st.relay_downloads) := by
  unfold compute_download_bandwidths at h
  split at h
  · cases h
  rename_i rd a hbuild
  dsimp only at h
  split at h
  · cases h
  rename_i st hloop
  split at h
  · cases h
  rename_i hempty
  cases h
  obtain ⟨k1, _, _⟩ := solve_loop_inv _ _ _ (solve_inv_init hbuild w) hloop
  exact ⟨st, k1, rfl, rfl, rfl, hempty⟩

/-- A call that returns has given every active download a bandwidth. -/
theorem compute_download_bandwidths_all {A : List download_t}
    {relays : GHashTable String Int} {S : GHashTable download_t circuit_t}
    {w : Option (GHashTable String ℚ)} {ab : Option (GHashTable String Int)}
    {res : solve_result} (h : compute_download_bandwidths A relays S w ab = some res) :
    ∀ d ∈ A, d ∈ res.fields.map Prod.fst := by
  obtain ⟨st, hinv, hf, _, _, hempty⟩ := compute_download_bandwidths_inv h
  have hsel : ∀ d ∈ A, ∃ c, g_hash_table_lookup S d = some c := by
    unfold compute_download_bandwidths at h
    split at h
    · cases h
    rename_i rd a hbuild
    exact (build_relay_tables_ok hbuild).selected
  intro d hd
  rw [hf]
  by_contra hnot
  obtain ⟨c, hc⟩ := hsel d hd
  have hon : on_relay S c.guard d = true :=
    (on_relay_of_lookup hc _).2 ((mem_circuit_relays c _).2 (Or.inl rfl))
  have hp : d ∈ pending st.relay_downloads c.guard :=
    (hinv.tables.pending_mem c.guard d).2 ⟨hd, hon, hnot⟩
  have hne : pending st.relay_downloads c.guard ≠ [] := by
    intro e0
    rw [e0] at hp
    simp at hp
  obtain ⟨L, hL, _⟩ := pending_ne_nil hne
  apply hempty
  unfold g_hash_table_size
  exact List.length_pos_of_mem (mem_of_lookup hL)

theorem bandwidth_of_cons (e : download_t × ℚ × String)
    (fields : List (download_t × ℚ × String)) (d : download_t) :
    bandwidth_of (e :: fields) d = if e.1 = d then e.2.1 else bandwidth_of fields d := by
  obtain ⟨d0, x0, b0⟩ := e
  unfold bandwidth_of
  by_cases h : d0 = d
  · simp [g_hash_table_lookup, h]
  · simp [g_hash_table_lookup, h]

theorem bandwidth_of_not_mem {fields : List (download_t × ℚ × String)} {d : download_t}
    (h : d ∉ fields.map Prod.fst) : bandwidth_of fields d = 0 := by
  induction fields with
  | nil => rfl
  | cons e t ih =>
    rw [bandwidth_of_cons]
    simp only [List.map_cons, List.mem_cons, not_or] at h
    rw [if_neg (fun e' => h.1 e'.symm)]
    exact ih h.2

/-- The bandwidths written for the downloads that pass a test, summed over the
entries, is the sum of the field `bandwidth` over the downloads written. -/
theorem sum_fields_eq (fields : List (download_t × ℚ × String))
    (hn : (fields.map Prod.fst).Nodup) (p : download_t → Bool) :
    ((fields.filter (fun e => p e.1)).map (fun e => e.2.1)).sum =
      ∑ d ∈ (fields.map Prod.fst).toFinset.filter (fun d => p d = true),
        bandwidth_of fields d := by
  induction fields with
  | nil => simp
  | cons e t ih =>
    simp only [List.map_cons, List.nodup_cons] at hn
    have hrest : ∀ d ∈ (t.map Prod.fst).toFinset.filter (fun d => p d = true),
        bandwidth_of (e :: t) d = bandwidth_of t d := by
      intro d hd
      rw [bandwidth_of_cons]
      have hd' : d ∈ t.map Prod.fst := List.mem_toFinset.1 (Finset.mem_filter.1 hd).1
      rw [if_neg]
      intro e'
      exact hn.1 (e' ▸ hd')
    have hnot : e.1 ∉ (t.map Prod.fst).toFinset.filter (fun d => p d = true) := by
      intro hmem
      exact hn.1 (List.mem_toFinset.1 (Finset.mem_filter.1 hmem).1)
    simp only [List.map_cons, List.toFinset_cons]
    by_cases hp : p e.1 = true
    · rw [List.filter_cons, if_pos hp, List.map_cons, List.sum_cons, ih hn.2,
        Finset.filter_insert, if_pos hp, Finset.sum_insert hnot, Finset.sum_congr rfl hrest,
        bandwidth_of_cons, if_pos rfl]
    · rw [List.filter_cons, if_neg hp, ih hn.2, Finset.filter_insert, if_neg hp,
        Finset.sum_congr rfl hrest]

/-- The same sum taken over the active set: a download nothing was written for
has bandwidth 0. -/
theorem sum_fields_active {A : List download_t} (fields : List (download_t × ℚ × String))
    (hn : (fields.map Prod.fst).Nodup) (hsub : ∀ e ∈ fields, e.1 ∈ A) (p : download_t → Bool) :
    ((fields.filter (fun e => p e.1)).map (fun e => e.2.1)).sum =
      ∑ d ∈ A.toFinset.filter (fun d => p d = true), bandwidth_of fields d := by
  rw [sum_fields_eq fields hn p]
  apply Finset.sum_subset
  · intro d hd
    rw [Finset.mem_filter] at hd ⊢
    obtain ⟨e, he, rfl⟩ := List.mem_map.1 (List.mem_toFinset.1 hd.1)
    exact ⟨List.mem_toFinset.2 (hsub e he), hd.2⟩
  · intro d hd hnd
    apply bandwidth_of_not_mem
    intro hmem
    apply hnd
    rw [Finset.mem_filter] at hd ⊢
    exact ⟨List.mem_toFinset.2 hmem, hd.2⟩

theorem relay_usage_eq_sum {A : List download_t} {relays : GHashTable String Int}
    {S : GHashTable download_t circuit_t} {st : solve_state} (hok : tables_ok A relays S st)
    (r : String) :
    relay_usage S st.fields r =
      ∑ d ∈ A.toFinset.filter (fun d => on_relay S r d = true), bandwidth_of st.fields d :=
  sum_fields_active st.fields hok.fields_nodup (fun e he => (hok.fields_mem e he).1)
    (fun d => on_relay S r d)


/-! ## Positive capacities -/

/-- The residuals after one assignment. -/
theorem assign_download_active {S : GHashTable download_t circuit_t} {b : String} {s : ℚ}
    {st st' : solve_state} {d : download_t}
    (h : assign_download S b s (some st) d = some st') :
    ∃ c, g_hash_table_lookup S d = some c ∧
      (∀ r ∈ circuit_relays c, ∃ v, g_hash_table_lookup st.active_relays r = some v) ∧
      (∀ r, g_hash_table_lookup st'.active_relays r =
        if r ∈ circuit_relays c then
          (g_hash_table_lookup st.active_relays r).bind fun v =>
            if v - s < 1 / 1000000 then none else some (v - s)
        else g_hash_table_lookup st.active_relays r) := by
  obtain ⟨c, hc, ⟨hgm, hgx, hmx⟩, _⟩ := assign_download_spec h
  unfold assign_download at h
  simp only [hc, Option.bind_eq_some] at h
  obtain ⟨a1, ha1, a2, ha2, a3, ha3, r1, hr1, r2, hr2, r3, hr3, hst⟩ := h
  simp only [Option.some.injEq] at hst
  subst hst
  obtain ⟨v1, hv1, hl1⟩ := update_relays_lookup ha1
  obtain ⟨v2, hv2, hl2⟩ := update_relays_lookup ha2
  obtain ⟨v3, hv3, hl3⟩ := update_relays_lookup ha3
  have hv2' : g_hash_table_lookup st.active_relays c.middle = some v2 := by
    rw [hl1, if_neg (Ne.symm hgm)] at hv2
    exact hv2
  have hv3' : g_hash_table_lookup st.active_relays c.exit = some v3 := by
    rw [hl2, if_neg (Ne.symm hmx), hl1, if_neg (Ne.symm hgx)] at hv3
    exact hv3
  have hx : c.exit ∈ circuit_relays c := (mem_circuit_relays c _).2 (Or.inr (Or.inr rfl))
  have hm : c.middle ∈ circuit_relays c := (mem_circuit_relays c _).2 (Or.inr (Or.inl rfl))
  have hg : c.guard ∈ circuit_relays c := (mem_circuit_relays c _).2 (Or.inl rfl)
  refine ⟨c, hc, ?_, ?_⟩
  · intro r hr
    rcases (mem_circuit_relays c r).1 hr with e | e | e
    · exact ⟨v1, by rw [e]; exact hv1⟩
    · exact ⟨v2, by rw [e]; exact hv2'⟩
    · exact ⟨v3, by rw [e]; exact hv3'⟩
  · intro r
    show g_hash_table_lookup a3 r = _
    by_cases e3 : r = c.exit
    · subst e3
      rw [hl3 c.exit, if_pos rfl, if_pos hx, hv3']
      rfl
    · rw [hl3 r, if_neg e3]
      by_cases e2 : r = c.middle
      · subst e2
        rw [hl2 c.middle, if_pos rfl, if_pos hm, hv2']
        rfl
      · rw [hl2 r, if_neg e2]
        by_cases e1 : r = c.guard
        · subst e1
          rw [hl1 c.guard, if_pos rfl, if_pos hg, hv1]
          rfl
        · rw [hl1 r, if_neg e1, if_neg]
          intro hmem
          rcases (mem_circuit_relays c r).1 hmem with e | e | e
          · exact e1 e
          · exact e2 e
          · exact e3 e

theorem assign_download_positive {A : List download_t} {relays : GHashTable String Int}
    {S : GHashTable download_t circuit_t} {b : String} {s : ℚ} {st st' : solve_state}
    {d : download_t} (hok : tables_ok A relays S st) (hs : share_ok s st)
    (hp : positive_ok relays S st) (hs0 : 0 ≤ s)
    (h : assign_download S b s (some st) d = some st') : positive_ok relays S st' := by
  obtain ⟨c, hc, _, hpend, _, hact, _, hfld, _, _, _, _⟩ := assign_download_spec h
  obtain ⟨c', hc', hex, _⟩ := assign_download_active h
  rw [hc] at hc'
  cases hc'
  refine ⟨?_, ?_, ?_⟩
  · intro r v' hv'
    obtain ⟨v, hv, hvv, hge⟩ := hact r v' hv'
    by_cases hr : r ∈ circuit_relays c
    · have := hge hr
      linarith
    · rw [if_neg hr] at hvv
      have := hp.positive r v hv
      linarith
  · intro r
    rw [hfld, relay_usage_cons]
    simp only [on_relay_of_lookup hc r]
    by_cases hr : r ∈ circuit_relays c
    · rw [if_pos hr]
      obtain ⟨v, hv⟩ := hex r hr
      have hres := hok.residual r v hv
      have hvpos := hp.positive r v hv
      have hne0 : pending st.relay_downloads r ≠ [] := by
        intro e0
        have := hpend r hr
        rw [e0] at this
        simp at this
      have h1 := hs.share_le r v hv (ne_of_gt hvpos) hne0
      have hlen : (1 : ℚ) ≤ ((pending st.relay_downloads r).length : ℚ) := by
        have : 1 ≤ (pending st.relay_downloads r).length :=
          Nat.pos_of_ne_zero (fun e => hne0 (List.length_eq_zero.1 e))
        exact_mod_cast this
      have h2 : s ≤ s * ((pending st.relay_downloads r).length : ℚ) := by
        have := mul_le_mul_of_nonneg_left hlen hs0
        linarith
      have h3 : s + relay_usage S st.fields r ≤ (relay_capacity relays r : ℚ) := by linarith
      exact le_trans h3 (le_max_left _ _)
    · rw [if_neg hr]
      have := hp.within r
      linarith
  · intro e he
    rw [hfld] at he
    rcases List.mem_cons.1 he with e1 | e1
    · subst e1; exact hs0
    · exact hp.nonneg e e1

theorem assign_download_complete {A : List download_t} {relays : GHashTable String Int}
    {S : GHashTable download_t circuit_t} {b : String} {s : ℚ} {st st' : solve_state}
    {d : download_t} (hok : tables_ok A relays S st) (hs : share_ok s st)
    (hq : complete_ok st)
    (h : assign_download S b s (some st) d = some st') : complete_ok st' := by
  obtain ⟨c, hc, _, hpend, hpend', hact, _, _, _, _, _, _⟩ := assign_download_spec h
  obtain ⟨c', hc', hex, heq⟩ := assign_download_active h
  rw [hc] at hc'
  cases hc'
  -- the residual of a relay of the circuit before the assignment
  have key : ∀ r ∈ circuit_relays c, ∀ v, g_hash_table_lookup st.active_relays r = some v →
      (1 / 1000000 : ℚ) * (((pending st.relay_downloads r).filter
        (fun x => decide (x ≠ d))).length : ℚ) ≤ v - s := by
    intro r hr v hv
    have hlen := length_filter_ne (hok.pending_nodup r) (hpend r hr)
    have hlen' : (((pending st.relay_downloads r).filter (fun x => decide (x ≠ d))).length : ℚ)
        + 1 = ((pending st.relay_downloads r).length : ℚ) := by exact_mod_cast hlen
    have hne0 : pending st.relay_downloads r ≠ [] := by
      intro e0
      have := hpend r hr
      rw [e0] at this
      simp at this
    have hfl := hq.floor r v hv
    have hk : (0 : ℚ) ≤ (((pending st.relay_downloads r).filter
        (fun x => decide (x ≠ d))).length : ℚ) := Nat.cast_nonneg _
    have hv0 : v ≠ 0 := by
      intro e0
      rw [e0, ← hlen'] at hfl
      linarith
    have hsl := hs.share_le r v hv hv0 hne0
    rw [← hlen'] at hfl hsl
    generalize (((pending st.relay_downloads r).filter
      (fun x => decide (x ≠ d))).length : ℚ) = k at hfl hsl hk ⊢
    have hk1 : (0 : ℚ) < k + 1 := by linarith
    have h3 : (1 / 1000000 : ℚ) * k * (k + 1) ≤ (v - s) * (k + 1) := by
      nlinarith [mul_le_mul_of_nonneg_right hfl hk]
    exact le_of_mul_le_mul_right h3 hk1
  constructor
  · intro r v' hv'
    obtain ⟨v, hv, hvv, _⟩ := hact r v' hv'
    rw [hpend' r]
    by_cases hr : r ∈ circuit_relays c
    · rw [if_pos hr]
      rw [if_pos hr] at hvv
      rw [hvv]
      exact key r hr v hv
    · rw [if_neg hr]
      rw [if_neg hr] at hvv
      have := hq.floor r v hv
      rw [hvv]
      linarith
  · intro r hne
    rw [hpend' r] at hne
    rw [heq r]
    by_cases hr : r ∈ circuit_relays c
    · rw [if_pos hr] at hne ⊢
      obtain ⟨v, hv⟩ := hex r hr
      rw [hv]
      have h1 := key r hr v hv
      have hlen : (1 : ℚ) ≤ (((pending st.relay_downloads r).filter
          (fun x => decide (x ≠ d))).length : ℚ) := by
        have : 1 ≤ ((pending st.relay_downloads r).filter (fun x => decide (x ≠ d))).length :=
          Nat.pos_of_ne_zero (fun e => hne (List.length_eq_zero.1 e))
        exact_mod_cast this
      have h2 : ¬ (v - s < 1 / 1000000) := by
        intro hlt
        have : (1 / 1000000 : ℚ) * 1 ≤ (1 / 1000000 : ℚ) * (((pending st.relay_downloads r).filter
          (fun x => decide (x ≠ d))).length : ℚ) :=
          mul_le_mul_of_nonneg_left hlen (by norm_num)
        linarith
      refine ⟨v - s, ?_⟩
      show (if v - s < 1 / 1000000 then none else some (v - s)) = some (v - s)
      exact if_neg h2
    · rw [if_neg hr] at hne ⊢
      exact hq.active r hne

/-- The two extra invariants through the inner loop of step 3. -/
theorem assign_fold_extra {A : List download_t} {relays : GHashTable String Int}
    {S : GHashTable download_t circuit_t} {b : String} {s : ℚ} (l : List download_t) :
    ∀ (st st' : solve_state), tables_ok A relays S st → share_ok s st →
      (∀ d ∈ l, on_relay S b d = true) →
      l.foldl (assign_download S b s) (some st) = some st' →
      (0 ≤ s → positive_ok relays S st → positive_ok relays S st') ∧
      (complete_ok st → complete_ok st') := by
  induction l with
  | nil =>
    intro st st' _ _ _ h
    simp only [List.foldl_nil, Option.some.injEq] at h
    subst h
    exact ⟨fun _ hp => hp, fun hq => hq⟩
  | cons d t ih =>
    intro st st' hok hs hl h
    rw [List.foldl_cons] at h
    cases h1 : assign_download S b s (some st) d with
    | none =>
      rw [h1, assign_download_none] at h
      cases h
    | some st1 =>
      rw [h1] at h
      have hb := hl d (List.mem_cons_self _ _)
      have hok1 := assign_download_ok hok hb h1
      have hs1 := assign_download_share hok hs h1
      obtain ⟨k1, k2⟩ := ih st1 st' hok1 hs1 (fun d' hd' => hl d' (List.mem_cons_of_mem _ hd')) h
      exact ⟨fun hs0 hp => k1 hs0 (assign_download_positive hok hs hp hs0 h1),
        fun hq => k2 (assign_download_complete hok hs hq h1)⟩

theorem solve_round_extra {A : List download_t} {relays : GHashTable String Int}
    {S : GHashTable download_t circuit_t} {st st' : solve_state}
    (hinv : solve_inv A relays S st) (h : solve_round S st = some st') :
    (positive_ok relays S st → positive_ok relays S st') ∧
    (complete_ok st → complete_ok st') := by
  obtain ⟨b, L, hb, hL, hfold, _, _⟩ := solve_round_cases h
  obtain ⟨vb, hvb', hvb, hLne, hs, _, _, hsame, hok1, hs1, hon⟩ :=
    solve_round_start hinv hb hL _ rfl
  obtain ⟨k1, k2⟩ := assign_fold_extra L _ _ hok1 hs1 hon hfold
  constructor
  · intro hp
    have hs0 : 0 ≤ (find_bottleneck st.relay_downloads st.active_relays).download_bandwidth := by
      rw [hs]
      exact div_nonneg (le_of_lt (hp.positive b vb hvb')) (Nat.cast_nonneg _)
    apply k1 hs0
    exact ⟨fun r v hv => hp.positive r v (by rw [← hsame r]; exact hv), hp.within, hp.nonneg⟩
  · intro hq
    apply k2
    refine ⟨fun r v hv => hq.floor r v (by rw [← hsame r]; exact hv), ?_⟩
    intro r hne
    obtain ⟨v, hv⟩ := hq.active r hne
    exact ⟨v, by rw [hsame r]; exact hv⟩

theorem solve_loop_extra {A : List download_t} {relays : GHashTable String Int}
    {S : GHashTable download_t circuit_t} (n : Nat) :
    ∀ (st st' : solve_state), solve_inv A relays S st → solve_loop S n st = some st' →
      (positive_ok relays S st → positive_ok relays S st') ∧
      (complete_ok st → complete_ok st') := by
  induction n with
  | zero =>
    intro st st' _ h
    unfold solve_loop at h
    split at h
    · cases h
    · cases h
      exact ⟨fun hp => hp, fun hq => hq⟩
  | succ n ih =>
    intro st st' hinv h
    unfold solve_loop at h
    split at h
    · obtain ⟨st1, h1, h2⟩ := Option.bind_eq_some.1 h
      obtain ⟨k1, k2⟩ := ih st1 st' (solve_round_inv hinv h1) h2
      obtain ⟨j1, j2⟩ := solve_round_extra hinv h1
      exact ⟨fun hp => k1 (j1 hp), fun hq => k2 (j2 hq)⟩
    · cases h
      exact ⟨fun hp => hp, fun hq => hq⟩

/-- The final state of a call that returns, with what held at the start. -/
theorem compute_download_bandwidths_final {A : List download_t}
    {relays : GHashTable String Int} {S : GHashTable download_t circuit_t}
    {w : Option (GHashTable String ℚ)} {ab : Option (GHashTable String Int)}
    {res : solve_result} (h : compute_download_bandwidths A relays S w ab = some res) :
    ∃ (t : GHashTable String (List download_t) × GHashTable String ℚ) (st : solve_state),
      build_ok relays S A t ∧ solve_inv A relays S st ∧
      (positive_ok relays S
        { active_relays := t.2, relay_downloads := t.1, total_bandwidth := 0, weights := w,
          fields := [] } → positive_ok relays S st) ∧
      (complete_ok
        { active_relays := t.2, relay_downloads := t.1, total_bandwidth := 0, weights := w,
          fields := [] } → complete_ok st) ∧
      res.fields = st.fields ∧ res.total_bandwidth = st.total_bandwidth := by
  unfold compute_download_bandwidths at h
  split at h
  · cases h
  rename_i rd a hbuild
  dsimp only at h
  split at h
  · cases h
  rename_i st hloop
  split at h
  · cases h
  cases h
  obtain ⟨k1, k2⟩ := solve_loop_extra _ _ _ (solve_inv_init hbuild w) hloop
  obtain ⟨j1, _, _⟩ := solve_loop_inv _ _ _ (solve_inv_init hbuild w) hloop
  exact ⟨(rd, a), st, build_relay_tables_ok hbuild, j1, k1, k2, rfl, rfl⟩

/-- With positive capacities on the circuits in use, no relay carries more than
its capacity and no bandwidth is negative. -/
theorem compute_download_bandwidths_positive {A : List download_t}
    {relays : GHashTable String Int} {S : GHashTable download_t circuit_t}
    {w : Option (GHashTable String ℚ)} {ab : Option (GHashTable String Int)}
    {res : solve_result} (h : compute_download_bandwidths A relays S w ab = some res)
    (hcap : ∀ d ∈ A, ∀ r, on_relay S r d = true → 0 < relay_capacity relays r) :
    (∀ r, relay_usage S res.fields r ≤ max (relay_capacity relays r : ℚ) 0) ∧
    (∀ e ∈ res.fields, 0 ≤ e.2.1) := by
  obtain ⟨t, st, hok, _, k1, _, hf, _⟩ := compute_download_bandwidths_final h
  have hinit : positive_ok relays S
      { active_relays := t.2, relay_downloads := t.1, total_bandwidth := 0, weights := w,
        fields := [] } := by
    refine ⟨?_, ?_, ?_⟩
    · intro r v hv
      have hv' : g_hash_table_lookup t.2 r = some v := hv
      rw [hok.capacity r v hv']
      have hne := hok.used r v hv'
      obtain ⟨d, hd⟩ := List.exists_mem_of_ne_nil _ hne
      obtain ⟨h1, h2⟩ := (hok.pending_mem r d).1 hd
      exact_mod_cast hcap d h1 r h2
    · intro r
      simp [relay_usage]
    · intro e he
      simp at he
  have := k1 hinit
  rw [hf]
  exact ⟨this.within, this.nonneg⟩


/-- With capacities of at least 1 on the circuits in use and at most a million
active downloads no share falls under the tolerance, and the loop ends with no
download left at any relay. -/
theorem solve_loop_drains {A : List download_t} {relays : GHashTable String Int}
    {S : GHashTable download_t circuit_t}
    {t : GHashTable String (List download_t) × GHashTable String ℚ}
    (hbuild : build_relay_tables A relays S = some t)
    (hcap : ∀ d ∈ A, ∀ r, on_relay S r d = true → 1 ≤ relay_capacity relays r)
    (hsize : A.length ≤ 1000000) (w : Option (GHashTable String ℚ)) (n : Nat)
    (st : solve_state)
    (hloop : solve_loop S n
      { active_relays := t.2, relay_downloads := t.1, total_bandwidth := 0, weights := w,
        fields := [] } = some st) :
    g_hash_table_size st.relay_downloads = 0 := by
  have hok := build_relay_tables_ok hbuild
  have hinit : complete_ok
      { active_relays := t.2, relay_downloads := t.1, total_bandwidth := 0, weights := w,
        fields := [] } := by
    refine ⟨?_, hok.active⟩
    intro r v hv
    have hv' : g_hash_table_lookup t.2 r = some v := hv
    show (1 / 1000000 : ℚ) * ((pending t.1 r).length : ℚ) ≤ v
    rw [hok.capacity r v hv']
    have hne := hok.used r v hv'
    obtain ⟨d, hd⟩ := List.exists_mem_of_ne_nil _ hne
    obtain ⟨h1, h2⟩ := (hok.pending_mem r d).1 hd
    have hc : (1 : ℚ) ≤ (relay_capacity relays r : ℚ) := by exact_mod_cast hcap d h1 r h2
    have hlen : (pending t.1 r).length ≤ A.length := by
      apply List.Subperm.length_le
      apply List.subperm_of_subset (hok.pending_nodup r)
      intro x hx
      exact ((hok.pending_mem r x).1 hx).1
    have hlen' : ((pending t.1 r).length : ℚ) ≤ 1000000 := by
      have : (pending t.1 r).length ≤ 1000000 := le_trans hlen hsize
      exact_mod_cast this
    linarith
  obtain ⟨_, k2⟩ := solve_loop_extra n _ st (solve_inv_init hbuild w) hloop
  obtain ⟨hinv, _, hexit⟩ := solve_loop_inv n _ st (solve_inv_init hbuild w) hloop
  have hq := k2 hinit
  by_contra hne0
  have hpos : 0 < g_hash_table_size st.relay_downloads := Nat.pos_of_ne_zero hne0
  obtain ⟨⟨r, L⟩, hmem⟩ := List.exists_mem_of_length_pos hpos
  have hL := lookup_of_mem hinv.tables.keys_pending hmem
  have hLne := hinv.tables.nonempty r L hL
  obtain ⟨v, hv⟩ := hq.active r (by rw [pending_of_lookup hL]; exact hLne)
  apply hexit
  refine ⟨?_, hpos⟩
  unfold g_hash_table_size
  exact List.length_pos_of_mem (mem_of_lookup hv)

/-! ## The bound on the number of rounds -/

/-- A round that succeeds leaves fewer relays with waiting downloads. -/
theorem solve_round_decreases {A : List download_t} {relays : GHashTable String Int}
    {S : GHashTable download_t circuit_t} {st st' : solve_state}
    (hinv : solve_inv A relays S st) (h : solve_round S st = some st') :
    g_hash_table_size st'.relay_downloads < g_hash_table_size st.relay_downloads := by
  obtain ⟨b, s, l, vb, _, _, hl, _, _, _, _, hok, _, _, _, _, hpend, _, hb2⟩ :=
    solve_round_spec hinv h
  have hbmem : b ∈ g_hash_table_get_keys st.relay_downloads :=
    List.mem_map.2 ⟨(b, l), mem_of_lookup hl, rfl⟩
  have hsub : g_hash_table_get_keys st'.relay_downloads ⊆
      (g_hash_table_get_keys st.relay_downloads).erase b := by
    intro r hr
    obtain ⟨⟨r', L⟩, hmem, rfl⟩ := List.mem_map.1 hr
    have hL := lookup_of_mem hok.keys_pending hmem
    have hne : L ≠ [] := hok.nonempty r' L hL
    obtain ⟨d, hd⟩ := List.exists_mem_of_ne_nil _ hne
    have hd' : d ∈ pending st'.relay_downloads r' := by
      rw [pending_of_lookup hL]; exact hd
    have hd'' := hpend r' d hd'
    have hrb : r' ≠ b := by
      intro e
      rw [e, hb2] at hL
      cases hL
    have hin : r' ∈ g_hash_table_get_keys st.relay_downloads := by
      cases hx : g_hash_table_lookup st.relay_downloads r' with
      | none =>
        simp [pending, hx] at hd''
      | some L' => exact List.mem_map.2 ⟨(r', L'), mem_of_lookup hx, rfl⟩
    exact (List.mem_erase_of_ne hrb).2 hin
  have hle := (List.subperm_of_subset hok.keys_pending hsub).length_le
  have her := List.length_erase_of_mem hbmem
  have hpos : 0 < (g_hash_table_get_keys st.relay_downloads).length :=
    List.length_pos_of_mem hbmem
  unfold g_hash_table_size
  unfold g_hash_table_get_keys at hle her hpos
  rw [List.length_map] at hle hpos
  rw [her, List.length_map] at hle
  omega

/-- One pass per relay with downloads is enough: the loop gives the same result
for every larger bound on the number of passes, so `none` never stands for a
bound that was too small. -/
theorem solve_loop_fuel {A : List download_t} {relays : GHashTable String Int}
    {S : GHashTable download_t circuit_t} (n : Nat) :
    ∀ (m : Nat) (st : solve_state), solve_inv A relays S st →
      g_hash_table_size st.relay_downloads ≤ n → g_hash_table_size st.relay_downloads ≤ m →
      solve_loop S n st = solve_loop S m st := by
  induction n with
  | zero =>
    intro m st _ hn _
    have hc : ¬ (0 < g_hash_table_size st.active_relays ∧
        0 < g_hash_table_size st.relay_downloads) := by
      intro hc; omega
    cases m with
    | zero => rfl
    | succ m => simp [solve_loop, hc]
  | succ n ih =>
    intro m st hinv hn hm
    by_cases hc : 0 < g_hash_table_size st.active_relays ∧
        0 < g_hash_table_size st.relay_downloads
    · cases m with
      | zero => omega
      | succ m =>
        simp only [solve_loop, hc, and_self, if_true]
        cases hr : solve_round S st with
        | none => rfl
        | some st1 =>
          have hdec := solve_round_decreases hinv hr
          simp only [Option.some_bind]
          exact ih m st1 (solve_round_inv hinv hr) (by omega) (by omega)
    · cases m with
      | zero => simp [solve_loop, hc]
      | succ m => simp [solve_loop, hc]

/-- The call gives the same result for every larger bound on the number of
passes of its loop. -/
theorem compute_download_bandwidths_fuel {A : List download_t}
    {relays : GHashTable String Int} {S : GHashTable download_t circuit_t}
    {t : GHashTable String (List download_t) × GHashTable String ℚ}
    (h : build_relay_tables A relays S = some t) (w : Option (GHashTable String ℚ))
    (m : Nat) (hm : g_hash_table_size t.1 ≤ m) :
    solve_loop S (g_hash_table_size t.1)
        { active_relays := t.2, relay_downloads := t.1, total_bandwidth := 0, weights := w,
          fields := [] } =
      solve_loop S m
        { active_relays := t.2, relay_downloads := t.1, total_bandwidth := 0, weights := w,
          fields := [] } :=
  solve_loop_fuel _ m _ (solve_inv_init h w) (le_refl _) hm

/-! ## The claims on the steady-state solve -/

theorem fields_entry {fields : List (download_t × ℚ × String)}
    (hn : (fields.map Prod.fst).Nodup) {e : download_t × ℚ × String} (he : e ∈ fields) :
    bandwidth_of fields e.1 = e.2.1 ∧ bottleneck_of fields e.1 = some e.2.2 := by
  have h : g_hash_table_lookup fields e.1 = some e.2 :=
    lookup_of_mem (t := fields) hn (by simpa using he)
  simp [bandwidth_of, bottleneck_of, h]

theorem fields_entry_of_bottleneck {fields : List (download_t × ℚ × String)}
    {d : download_t} {b : String} (h : bottleneck_of fields d = some b) :
    ∃ x, (d, x, b) ∈ fields := by
  unfold bottleneck_of at h
  cases hx : g_hash_table_lookup fields d with
  | none => simp [hx] at h
  | some p =>
    rw [hx] at h
    simp only [Option.map_some', Option.some.injEq] at h
    refine ⟨p.1, ?_⟩
    have := mem_of_lookup hx
    rw [← h]
    exact this

/-- C1, at the failing input: a single download over `g` (1000), `m` (1000)
and `z-exit` (capacity 0) is given the bandwidth 1000, so the downloads that
cross `z-exit` carry more than its capacity plus the tolerance. -/
theorem capacity_overrun_zero_relay :
    ∃ res, compute_download_bandwidths [ex_download 1] relays_zero selection_zero none none
        = some res ∧
      bandwidth_of res.fields (ex_download 1) = 1000 ∧
      (relay_capacity relays_zero "z-exit" : ℚ) + 1 / 1000000 <
        ∑ d ∈ [ex_download 1].toFinset.filter
          (fun d => on_relay selection_zero "z-exit" d = true), bandwidth_of res.fields d :=
  ⟨{ total_bandwidth := 1000, weights := none, available_bandwidth := none,
     fields := [(ex_download 1, 1000, "g")] }, by decide!, by decide!, by decide!⟩

/-- C6: when `compute_download_bandwidths` returns on an active set, the value
returned is the sum over the active downloads of the bandwidth the call wrote
for them, and the call wrote a bandwidth exactly once for every active
download (and for no other). -/
theorem returned_total (A : List download_t) (relays : GHashTable String Int)
    (S : GHashTable download_t circuit_t) (w : Option (GHashTable String ℚ))
    (ab : Option (GHashTable String Int)) (res : solve_result)
    (h : compute_download_bandwidths A relays S w ab = some res) :
    res.total_bandwidth = ∑ d ∈ A.toFinset, bandwidth_of res.fields d ∧
    (∀ d ∈ A, (res.fields.map Prod.fst).count d = 1) ∧
    (∀ d ∈ res.fields.map Prod.fst, d ∈ A) := by
  have hall := compute_download_bandwidths_all h
  obtain ⟨st, hinv, hf, ht, _, _⟩ := compute_download_bandwidths_inv h
  refine ⟨?_, ?_, ?_⟩
  · rw [ht, hf, hinv.tables.total]
    have := sum_fields_active (A := A) st.fields hinv.tables.fields_nodup
      (fun e he => (hinv.tables.fields_mem e he).1) (fun _ => true)
    simpa using this
  · intro d hd
    have hn : (res.fields.map Prod.fst).Nodup := by rw [hf]; exact hinv.tables.fields_nodup
    exact List.count_eq_one_of_mem hn (hall d hd)
  · rw [hf]
    intro d hd
    obtain ⟨e, he, rfl⟩ := List.mem_map.1 hd
    exact (hinv.tables.fields_mem e he).1

/-- C6 on scenario B: the total 100 is 50 + 50, and each of the two downloads
was written once. -/
theorem returned_total_witness :
    result_b.total_bandwidth =
        ∑ d ∈ [ex_download 1, ex_download 2].toFinset, bandwidth_of result_b.fields d ∧
      (∀ d ∈ [ex_download 1, ex_download 2], (result_b.fields.map Prod.fst).count d = 1) ∧
      (∀ d ∈ result_b.fields.map Prod.fst, d ∈ [ex_download 1, ex_download 2]) :=
  returned_total [ex_download 1, ex_download 2] relays_ab selection_b none none result_b
    (by decide!)

/-- C7, counterexample: the second download of `selection_two` is given 90 with
bottleneck `b`, while the capacity of `b` over the number of active downloads
whose circuit contains `b` is 100 / 2. -/
theorem bottleneck_share_counterexample :
    ∃ res, compute_download_bandwidths [ex_download 1, ex_download 2] relays_two selection_two
        none none = some res ∧
      bottleneck_of res.fields (ex_download 2) = some "b" ∧
      bandwidth_of res.fields (ex_download 2) = 90 ∧
      (relay_capacity relays_two "b" : ℚ) /
        (relay_load selection_two [ex_download 1, ex_download 2] "b" : ℚ) = 50 :=
  ⟨result_two, by decide!, by decide!, by decide!, by decide!⟩

/-- C7, amended: when `compute_download_bandwidths` returns, a download `d`
with recorded bottleneck `b` has as bandwidth what `b` had left for the
downloads it became the bottleneck of, shared equally among them: the capacity
of `b` minus the bandwidths of the active downloads on `b` with another
bottleneck, over the number of active downloads with bottleneck `b`. -/
theorem bottleneck_share (A : List download_t) (relays : GHashTable String Int)
    (S : GHashTable download_t circuit_t) (w : Option (GHashTable String ℚ))
    (ab : Option (GHashTable String Int)) (res : solve_result)
    (h : compute_download_bandwidths A relays S w ab = some res)
    (d : download_t) (b : String) (hb : bottleneck_of res.fields d = some b) :
    bandwidth_of res.fields d =
      ((relay_capacity relays b : ℚ) -
        ∑ d' ∈ A.toFinset.filter
          (fun d' => on_relay S b d' = true ∧ bottleneck_of res.fields d' ≠ some b),
          bandwidth_of res.fields d') /
      ((A.toFinset.filter (fun d' => bottleneck_of res.fields d' = some b)).card : ℚ) := by
  obtain ⟨st, hinv, hf, _, _, _⟩ := compute_download_bandwidths_inv h
  rw [hf] at hb ⊢
  obtain ⟨x, hx⟩ := fields_entry_of_bottleneck hb
  have hn := hinv.tables.fields_nodup
  obtain ⟨hbw, _⟩ := fields_entry hn hx
  simp only at hbw
  have hsat := hinv.saturated _ hx
  rw [relay_usage_eq_sum hinv.tables b] at hsat
  simp only at hsat
  rw [← Finset.sum_filter_add_sum_filter_not _
    (fun d' => bottleneck_of st.fields d' = some b)] at hsat
  rw [Finset.filter_filter, Finset.filter_filter] at hsat
  have hF1 : A.toFinset.filter
      (fun d' => on_relay S b d' = true ∧ bottleneck_of st.fields d' = some b) =
      A.toFinset.filter (fun d' => bottleneck_of st.fields d' = some b) := by
    apply Finset.filter_congr
    intro d' _
    constructor
    · exact fun hh => hh.2
    · intro hh
      obtain ⟨x', hx'⟩ := fields_entry_of_bottleneck hh
      exact ⟨(hinv.tables.fields_mem _ hx').2, hh⟩
  rw [hF1] at hsat
  have hconst : ∀ d' ∈ A.toFinset.filter (fun d' => bottleneck_of st.fields d' = some b),
      bandwidth_of st.fields d' = x := by
    intro d' hd'
    obtain ⟨x', hx'⟩ := fields_entry_of_bottleneck (Finset.mem_filter.1 hd').2
    obtain ⟨hbw', _⟩ := fields_entry hn hx'
    simp only at hbw'
    rw [hbw']
    exact hinv.same _ hx' _ hx rfl
  rw [Finset.sum_congr rfl hconst, Finset.sum_const, nsmul_eq_mul] at hsat
  have hmem : d ∈ A.toFinset.filter (fun d' => bottleneck_of st.fields d' = some b) :=
    Finset.mem_filter.2 ⟨List.mem_toFinset.2 (hinv.tables.fields_mem _ hx).1, hb⟩
  have hcard : (0 : ℚ) <
      ((A.toFinset.filter (fun d' => bottleneck_of st.fields d' = some b)).card : ℚ) := by
    exact_mod_cast Finset.card_pos.2 ⟨d, hmem⟩
  rw [hbw, eq_div_iff (ne_of_gt hcard)]
  linarith

/-- C7 on `selection_two`: 90 = (100 - 10) / 1 for the second download. -/
theorem bottleneck_share_witness :
    bandwidth_of result_two.fields (ex_download 2) =
      ((relay_capacity relays_two "b" : ℚ) -
        ∑ d' ∈ [ex_download 1, ex_download 2].toFinset.filter
          (fun d' => on_relay selection_two "b" d' = true ∧
            bottleneck_of result_two.fields d' ≠ some "b"),
          bandwidth_of result_two.fields d') /
      (([ex_download 1, ex_download 2].toFinset.filter
        (fun d' => bottleneck_of result_two.fields d' = some "b")).card : ℚ) :=
  bottleneck_share [ex_download 1, ex_download 2] relays_two selection_two none none result_two
    (by decide!) (ex_download 2) "b" (by decide!)

/-! ## The claims on the integration -/

theorem tick_step_none (relays : GHashTable String Int) (S : GHashTable download_t circuit_t)
    (dbt : GHashTable Int (List download_t)) (l : List Int) :
    l.foldl (tick_step relays S dbt) none = none := by
  induction l with
  | nil => rfl
  | cons t l ih => simpa [List.foldl_cons, tick_step] using ih

/-- The state of the loop of `compute_total_bandwidth` after the ticks `p`. -/
theorem integrate_fold (relays : GHashTable String Int) (S : GHashTable download_t circuit_t)
    (dbt : GHashTable Int (List download_t)) (p : List Int) :
    (∀ t ∈ p, t ≠ -1) → ∀ st,
      p.foldl (tick_step relays S dbt) (some integrate_init) = some st →
      active_after S dbt p = some st.active_downloads ∧
      st.total_bandwidth = integration_formula relays S dbt p ∧
      (p = [] → st = integrate_init) ∧
      (p ≠ [] → st.last_tick = p.getD (p.length - 1) 0 ∧
        ∃ B, steady_total relays S dbt p = some B ∧ st.last_bandwidth = gint_of_gdouble B) := by
  induction p using List.reverseRecOn with
  | nil =>
    intro _ st h
    simp only [List.foldl_nil, Option.some.injEq] at h
    subst h
    refine ⟨rfl, ?_, fun _ => rfl, fun hne => absurd rfl hne⟩
    simp [integration_formula, integrate_init]
  | append_singleton q t ih =>
    intro hp st h
    rw [List.foldl_append, List.foldl_cons, List.foldl_nil] at h
    cases hq : q.foldl (tick_step relays S dbt) (some integrate_init) with
    | none =>
      rw [hq] at h
      simp [tick_step] at h
    | some sq =>
      rw [hq] at h
      obtain ⟨i1, i2, i3, i4⟩ := ih (fun t' ht' => hp t' (List.mem_append_left _ ht')) sq hq
      unfold tick_step at h
      dsimp only at h
      split at h
      · cases h
      rename_i a ha
      split at h
      · cases h
      rename_i res hres
      cases h
      have hact : active_after S dbt (q ++ [t]) = some a := by
        unfold active_after at i1 ⊢
        rw [List.foldl_append, i1]
        simp [ha]
      have hB : steady_total relays S dbt (q ++ [t]) = some res.total_bandwidth := by
        unfold steady_total
        rw [hact]
        simp [hres]
      refine ⟨hact, ?_, fun he => absurd he (by simp), fun _ => ⟨?_, res.total_bandwidth, hB, rfl⟩⟩
      · by_cases hqe : q = []
        · subst hqe
          rw [i3 rfl]
          simp [integrate_init, integration_formula]
        · obtain ⟨j1, B, j2, j3⟩ := i4 hqe
          have hlen : 0 < q.length := List.length_pos.2 hqe
          have hlast : q.getD (q.length - 1) 0 ∈ q := by
            rw [List.getD_eq_getElem q 0 (by omega)]
            exact List.getElem_mem _
          have hne1 : sq.last_tick ≠ -1 := by
            rw [j1]
            exact hp _ (List.mem_append_left _ hlast)
          simp only [hne1, ne_eq, not_false_eq_true, if_true]
          unfold integration_formula at i2 ⊢
          have hl : (q ++ [t]).length - 1 = (q.length - 1) + 1 := by
            simp only [List.length_append, List.length_singleton]
            omega
          rw [hl, Finset.sum_range_succ, i2]
          congr 1
          · apply Finset.sum_congr rfl
            intro i hi
            have hi' : i < q.length - 1 := Finset.mem_range.1 hi
            rw [List.take_append_of_le_length (by omega),
              List.getD_append q [t] 0 i (by omega),
              List.getD_append q [t] 0 (i + 1) (by omega)]
          · have e1 : q.length - 1 + 1 = q.length := by omega
            rw [e1, List.take_append_of_le_length (le_refl _), List.take_length,
              List.getD_append q [t] 0 (q.length - 1) (by omega),
              List.getD_append_right q [t] 0 q.length (le_refl _), j2, j1, j3]
            simp
      · simp

/-! ## Downloads of length 0 -/

/-- C4, at the failing input: a download that starts and ends at tick 0 stands
twice in the list of that tick and is inserted twice and never removed, so it
is still active once the tick is processed; with a second download lasting
from 0 s to 10 s on a disjoint circuit the fitness is (100 + 50) * 10 = 1500,
and 50 * 10 = 500 for the same assignment without the download of length 0. -/
theorem zero_length_download_stays_active :
    generate_downloads_by_tick [ex_instant, ex_download 1] =
        [(0, [ex_instant, ex_instant, ex_download 1]), (10000, [ex_download 1])] ∧
      tick_active selection_split (generate_downloads_by_tick [ex_instant, ex_download 1]) [] 0 =
        some [(ex_instant, true), (ex_download 1, true)] ∧
      compute_total_bandwidth [ex_instant, ex_download 1] relays_split selection_split
        (generate_downloads_by_tick [ex_instant, ex_download 1])
        (sorted_ticks (generate_downloads_by_tick [ex_instant, ex_download 1])) = some 1500 ∧
      compute_total_bandwidth [ex_download 1] relays_split selection_split
        (generate_downloads_by_tick [ex_download 1])
        (sorted_ticks (generate_downloads_by_tick [ex_download 1])) = some 500 := by
  refine ⟨by decide!, by decide!, by decide!, by decide!⟩

/-- C9, at the failing input: for a single download that starts and ends at
tick 0, with nothing else active, the solve over the empty active set gives no
weight to any relay and leaves every relay its capacity, so the first circuit
(bandwidth 100) beats the second (bandwidth 50) at equal weight 0; the download
stands twice in the list of its tick, is committed a second time against a
solve in which it is itself active on the first circuit, and
`run_dwc_algorithm` returns the second circuit for it. -/
theorem dwc_zero_length_choice :
    run_dwc_algorithm [ex_arrival 0 0 0] relays_dwc 1 =
        some [(ex_arrival 0 0 0, ex_circuit "g2" "m2" "x2-exit")] ∧
      (compute_download_bandwidths [] relays_dwc [] (some []) (some [])).map
        (fun res => (res.weights, res.available_bandwidth)) = some (some [], some relays_dwc) ∧
      ex_circuit "g1" "m1" "x1-exit" ∈ (ex_arrival 0 0 0).circuits ∧
      circuit_weight_of [] (ex_circuit "g2" "m2" "x2-exit") =
        circuit_weight_of [] (ex_circuit "g1" "m1" "x1-exit") ∧
      circuit_available relays_dwc (ex_circuit "g2" "m2" "x2-exit") <
        circuit_available relays_dwc (ex_circuit "g1" "m1" "x1-exit") := by
  refine ⟨by decide!, by decide!, by decide!, by decide!, by decide!⟩

/-! ## The DWC strategy -/

theorem dwc_worker_step_best {data : dwc_data_t} {st st' : dwc_best_t} {c : circuit_t}
    (h : dwc_worker_step data (some st) c = some st') :
    st'.best_circuit = st.best_circuit ∨ st'.best_circuit = some c := by
  unfold dwc_worker_step at h
  dsimp only at h
  split at h
  · cases h
  rename_i st1 weights bandwidths htab
  have hbest : st1.best_circuit = st.best_circuit := by
    split at htab
    · cases htab; rfl
    · split at htab
      · cases htab
      · cases htab; rfl
  split at h
  · cases h
    right; rfl
  · cases h
    left; exact hbest

theorem dwc_worker_step_none (data : dwc_data_t) (l : List circuit_t) :
    l.foldl (dwc_worker_step data) none = none := by
  induction l with
  | nil => rfl
  | cons c l ih => simpa [List.foldl_cons, dwc_worker_step] using ih

theorem dwc_worker_fold_best (data : dwc_data_t) (l : List circuit_t) :
    ∀ (acc r : dwc_best_t), l.foldl (dwc_worker_step data) (some acc) = some r →
      ∀ c, r.best_circuit = some c → acc.best_circuit = some c ∨ c ∈ l := by
  induction l with
  | nil =>
    intro acc r h c hc
    simp only [List.foldl_nil, Option.some.injEq] at h
    subst h
    exact Or.inl hc
  | cons x l ih =>
    intro acc r h c hc
    rw [List.foldl_cons] at h
    cases h1 : dwc_worker_step data (some acc) x with
    | none =>
      rw [h1, dwc_worker_step_none] at h
      cases h
    | some acc1 =>
      rw [h1] at h
      rcases ih acc1 r h c hc with h2 | h2
      · rcases dwc_worker_step_best h1 with h3 | h3
        · left; rw [← h3]; exact h2
        · rw [h3] at h2
          cases h2
          right; exact List.mem_cons_self _ _
      · right; exact List.mem_cons_of_mem _ h2

/-- The circuit a worker returns is one of the candidates of its download. -/
theorem dwc_worker_mem {data : dwc_data_t} {r : dwc_best_t} (h : dwc_worker data = some r)
    {c : circuit_t} (hc : r.best_circuit = some c) : c ∈ data.download.circuits := by
  unfold dwc_worker at h
  rcases dwc_worker_fold_best data _ _ r h c hc with h1 | h1
  · cases h1
  · exact List.mem_of_mem_drop (List.mem_of_mem_take h1)

theorem dwc_reduce_none (l : List (Option dwc_best_t)) : l.foldl dwc_reduce none = none := by
  induction l with
  | nil => rfl
  | cons c l ih => simpa [List.foldl_cons, dwc_reduce] using ih

theorem dwc_reduce_fold_best (l : List (Option dwc_best_t)) :
    ∀ (acc choice : dwc_choice_t), l.foldl dwc_reduce (some acc) = some choice →
      ∀ c, choice.best_circuit = some c →
        acc.best_circuit = some c ∨ ∃ r, some r ∈ l ∧ r.best_circuit = some c := by
  induction l with
  | nil =>
    intro acc choice h c hc
    simp only [List.foldl_nil, Option.some.injEq] at h
    subst h
    exact Or.inl hc
  | cons x l ih =>
    intro acc choice h c hc
    rw [List.foldl_cons] at h
    cases x with
    | none =>
      have : dwc_reduce (some acc) none = none := rfl
      rw [this, dwc_reduce_none] at h
      cases h
    | some r =>
      have hstep : dwc_reduce (some acc) (some r) = some (dwc_reduce_step acc r) := rfl
      rw [hstep] at h
      rcases ih _ choice h c hc with h2 | ⟨r', hr', hc'⟩
      · unfold dwc_reduce_step at h2
        split at h2
        · right
          exact ⟨r, List.mem_cons_self _ _, h2⟩
        · left; exact h2
      · right
        exact ⟨r', List.mem_cons_of_mem _ hr', hc'⟩

/-- The circuit selected for an arriving download is one of its candidates. -/
theorem dwc_select_mem {relays : GHashTable String Int}
    {active : GHashTable download_t Bool} {S : GHashTable download_t circuit_t}
    {weights : GHashTable String ℚ} {bandwidths : GHashTable String Int}
    {download : download_t} {nthreads : Nat} {choice : dwc_choice_t}
    (h : dwc_select relays active S weights bandwidths download nthreads = some choice)
    {c : circuit_t} (hc : choice.best_circuit = some c) : c ∈ download.circuits := by
  unfold dwc_select at h
  rcases dwc_reduce_fold_best _ _ choice h c hc with h1 | ⟨r, hr, hc'⟩
  · cases h1
  · unfold dwc_workers at hr
    obtain ⟨i, _, hi⟩ := List.mem_map.1 hr
    exact dwc_worker_mem hi hc'

/-- What the commit of an arriving download changes. -/
theorem dwc_arrival_spec {relays : GHashTable String Int} {nthreads : Nat}
    {st st' : dwc_state} {download : download_t}
    (h : dwc_arrival relays nthreads st download = some st') :
    ∃ c, c ∈ download.circuits ∧
      st'.circuit_selection = g_hash_table_insert st.circuit_selection download c ∧
      st'.active_downloads = g_hash_table_insert st.active_downloads download true := by
  unfold dwc_arrival at h
  split at h
  · cases h
  rename_i solved hsolved
  split at h
  · cases h
  split at h
  · cases h
  rename_i choice hchoice
  split at h
  · cases h
  rename_i best hbest
  dsimp only at h
  split at h
  · cases h
  cases h
  exact ⟨best, dwc_select_mem hchoice hbest, rfl, rfl⟩

theorem dwc_extends_refl (st : dwc_state) : dwc_extends st st :=
  ⟨fun h => h, fun _ h => h⟩

theorem dwc_extends_trans {a b c : dwc_state} (h1 : dwc_extends a b) (h2 : dwc_extends b c) :
    dwc_extends a c :=
  ⟨fun h => h2.1 (h1.1 h), fun d h => h2.2 d (h1.2 d h)⟩

theorem dwc_arrival_extends {relays : GHashTable String Int} {nthreads : Nat}
    {st st' : dwc_state} {download : download_t}
    (h : dwc_arrival relays nthreads st download = some st') :
    dwc_extends st st' ∧
      (g_hash_table_lookup st'.circuit_selection download).isSome = true := by
  obtain ⟨c, hc, hS, _⟩ := dwc_arrival_spec h
  refine ⟨⟨?_, ?_⟩, ?_⟩
  · intro hp d c' hd
    rw [hS, lookup_insert] at hd
    by_cases e : d = download
    · rw [if_pos e] at hd
      cases hd
      rw [e]; exact hc
    · rw [if_neg e] at hd
      exact hp d c' hd
  · intro d hd
    rw [hS, lookup_insert]
    by_cases e : d = download
    · rw [if_pos e]; rfl
    · rw [if_neg e]; exact hd
  · rw [hS, lookup_insert_self]; rfl

theorem dwc_start_none (relays : GHashTable String Int) (nthreads : Nat) (tick : Int)
    (l : List download_t) : l.foldl (dwc_start relays nthreads tick) none = none := by
  induction l with
  | nil => rfl
  | cons c l ih => simpa [List.foldl_cons, dwc_start] using ih

theorem dwc_start_fold {relays : GHashTable String Int} {nthreads : Nat} {tick : Int}
    (l : List download_t) :
    ∀ (st st' : dwc_state), l.foldl (dwc_start relays nthreads tick) (some st) = some st' →
      dwc_extends st st' ∧
      ∀ d ∈ l, d.start_time = tick →
        (g_hash_table_lookup st'.circuit_selection d).isSome = true := by
  induction l with
  | nil =>
    intro st st' h
    simp only [List.foldl_nil, Option.some.injEq] at h
    subst h
    exact ⟨dwc_extends_refl _, by simp⟩
  | cons x l ih =>
    intro st st' h
    rw [List.foldl_cons] at h
    cases h1 : dwc_start relays nthreads tick (some st) x with
    | none =>
      rw [h1, dwc_start_none] at h
      cases h
    | some st1 =>
      rw [h1] at h
      obtain ⟨k1, k2⟩ := ih st1 st' h
      have hx : dwc_extends st st1 ∧ (x.start_time = tick →
          (g_hash_table_lookup st1.circuit_selection x).isSome = true) := by
        unfold dwc_start at h1
        dsimp only at h1
        split at h1
        · rename_i hs
          obtain ⟨j1, j2⟩ := dwc_arrival_extends h1
          exact ⟨j1, fun _ => j2⟩
        · rename_i hs
          cases h1
          exact ⟨dwc_extends_refl _, fun e => absurd e hs⟩
      refine ⟨dwc_extends_trans hx.1 k1, ?_⟩
      intro d hd hs
      rcases List.mem_cons.1 hd with e | e
      · subst e
        exact k1.2 _ (hx.2 hs)
      · exact k2 d e hs

theorem dwc_tick_none (relays : GHashTable String Int) (nthreads : Nat)
    (dbt : GHashTable Int (List download_t)) (l : List Int) :
    l.foldl (dwc_tick relays nthreads dbt) none = none := by
  induction l with
  | nil => rfl
  | cons c l ih => simpa [List.foldl_cons, dwc_tick] using ih

theorem dwc_tick_fold {relays : GHashTable String Int} {nthreads : Nat}
    {dbt : GHashTable Int (List download_t)} (ticks : List Int) :
    ∀ (st st' : dwc_state), ticks.foldl (dwc_tick relays nthreads dbt) (some st) = some st' →
      dwc_extends st st' ∧
      ∀ t ∈ ticks, ∀ d ∈ (g_hash_table_lookup dbt t).getD [], d.start_time = t →
        (g_hash_table_lookup st'.circuit_selection d).isSome = true := by
  induction ticks with
  | nil =>
    intro st st' h
    simp only [List.foldl_nil, Option.some.injEq] at h
    subst h
    exact ⟨dwc_extends_refl _, by simp⟩
  | cons t ticks ih =>
    intro st st' h
    rw [List.foldl_cons] at h
    cases h1 : dwc_tick relays nthreads dbt (some st) t with
    | none =>
      rw [h1, dwc_tick_none] at h
      cases h
    | some st1 =>
      rw [h1] at h
      obtain ⟨k1, k2⟩ := ih st1 st' h
      unfold dwc_tick at h1
      dsimp only at h1
      obtain ⟨j1, j2⟩ := dwc_start_fold _ _ _ h1
      have j1' : dwc_extends st st1 := ⟨fun hp => j1.1 hp, fun d hd => j1.2 d hd⟩
      refine ⟨dwc_extends_trans j1' k1, ?_⟩
      intro t' ht' d hd hs
      rcases List.mem_cons.1 ht' with e | e
      · subst e
        exact k1.2 _ (j2 d hd hs)
      · exact k2 t' e d hd hs

/-- Every download stands in the list of its start tick. -/
theorem generate_downloads_by_tick_start (downloads : List download_t) :
    ∀ d ∈ downloads,
      d ∈ (g_hash_table_lookup (generate_downloads_by_tick downloads) d.start_time).getD [] := by
  unfold generate_downloads_by_tick
  have key : ∀ (l : List download_t) (t : GHashTable Int (List download_t)),
      (∀ k d, d ∈ (g_hash_table_lookup t k).getD [] →
        d ∈ (g_hash_table_lookup (l.foldl (fun t download =>
          g_hash_table_insert
            (g_hash_table_insert t download.start_time
              ((g_hash_table_lookup t download.start_time).getD [] ++ [download]))
            download.end_time
            ((g_hash_table_lookup (g_hash_table_insert t download.start_time
              ((g_hash_table_lookup t download.start_time).getD [] ++ [download]))
              download.end_time).getD [] ++ [download])) t) k).getD []) ∧
      (∀ d ∈ l, d ∈ (g_hash_table_lookup (l.foldl (fun t download =>
          g_hash_table_insert
            (g_hash_table_insert t download.start_time
              ((g_hash_table_lookup t download.start_time).getD [] ++ [download]))
            download.end_time
            ((g_hash_table_lookup (g_hash_table_insert t download.start_time
              ((g_hash_table_lookup t download.start_time).getD [] ++ [download]))
              download.end_time).getD [] ++ [download])) t) d.start_time).getD []) := by
    intro l
    induction l with
    | nil =>
      intro t
      exact ⟨fun _ _ h => h, by simp⟩
    | cons x l ih =>
      intro t
      rw [List.foldl_cons]
      obtain ⟨k1, k2⟩ := ih (g_hash_table_insert
            (g_hash_table_insert t x.start_time
              ((g_hash_table_lookup t x.start_time).getD [] ++ [x]))
            x.end_time
            ((g_hash_table_lookup (g_hash_table_insert t x.start_time
              ((g_hash_table_lookup t x.start_time).getD [] ++ [x]))
              x.end_time).getD [] ++ [x]))
      -- one insertion only lengthens a list
      have grow : ∀ (t : GHashTable Int (List download_t)) (key : Int) (y : download_t)
          (k : Int) (d : download_t), d ∈ (g_hash_table_lookup t k).getD [] →
          d ∈ (g_hash_table_lookup (g_hash_table_insert t key
            ((g_hash_table_lookup t key).getD [] ++ [y])) k).getD [] := by
        intro t key y k d hd
        rw [lookup_insert]
        by_cases e : k = key
        · rw [if_pos e, Option.getD_some, ← e]
          exact List.mem_append_left _ hd
        · rw [if_neg e]; exact hd
      have added : ∀ (t : GHashTable Int (List download_t)) (key : Int) (y : download_t),
          y ∈ (g_hash_table_lookup (g_hash_table_insert t key
            ((g_hash_table_lookup t key).getD [] ++ [y])) key).getD [] := by
        intro t key y
        rw [lookup_insert_self, Option.getD_some]
        simp
      refine ⟨fun k d hd => k1 k d (grow _ _ _ k d (grow _ _ _ k d hd)), ?_⟩
      intro d hd
      rcases List.mem_cons.1 hd with e | e
      · subst e
        exact k1 _ _ (grow _ _ _ _ _ (added _ _ _))
      · exact k2 d e
  exact (key downloads []).2

theorem mem_sorted_ticks (dbt : GHashTable Int (List download_t)) (t : Int) :
    t ∈ sorted_ticks dbt ↔ t ∈ g_hash_table_get_keys dbt := by
  unfold sorted_ticks
  exact (List.perm_insertionSort _ _).mem_iff

/-- C10: for every download list and every thread count, the map that
`run_dwc_algorithm` returns has an entry for every download, and the circuit of
the entry is a member of the candidate pool of that download. -/
theorem dwc_total_assignment (downloads : List download_t) (relays : GHashTable String Int)
    (nthreads : Nat) (selection : GHashTable download_t circuit_t)
    (h : run_dwc_algorithm downloads relays nthreads = some selection) :
    ∀ d ∈ downloads, ∃ c, g_hash_table_lookup selection d = some c ∧ c ∈ d.circuits := by
  unfold run_dwc_algorithm at h
  dsimp only at h
  split at h
  · cases h
  rename_i st hst
  split at h
  · cases h
  cases h
  obtain ⟨k1, k2⟩ := dwc_tick_fold _ _ _ hst
  have hpool : selection_in_pool st.circuit_selection := by
    apply k1.1
    intro d c hd
    simp [g_hash_table_lookup] at hd
  intro d hd
  have hmem := generate_downloads_by_tick_start downloads d hd
  have htick : d.start_time ∈ sorted_ticks (generate_downloads_by_tick downloads) := by
    rw [mem_sorted_ticks]
    cases hl : g_hash_table_lookup (generate_downloads_by_tick downloads) d.start_time with
    | none =>
      rw [hl] at hmem
      simp at hmem
    | some L =>
      exact List.mem_map.2 ⟨(d.start_time, L), mem_of_lookup hl, rfl⟩
  have hsome := k2 d.start_time htick d hmem rfl
  cases hc : g_hash_table_lookup st.circuit_selection d with
  | none =>
    rw [hc] at hsome
    cases hsome
  | some c => exact ⟨c, rfl, hpool d c hc⟩

/-- C10 on three downloads and two threads: the run returns, and each download
has a circuit of the pool. -/
theorem dwc_total_assignment_witness :
    run_dwc_algorithm [ex_arrival 0 0 10000, ex_arrival 1 0 5000, ex_arrival 2 1000 5000]
        relays_dwc 2 =
      some [(ex_arrival 0 0 10000, ex_circuit "g1" "m1" "x1-exit"),
            (ex_arrival 1 0 5000, ex_circuit "g2" "m2" "x2-exit"),
            (ex_arrival 2 1000 5000, ex_circuit "g1" "m1" "x1-exit")] ∧
    ∀ d ∈ [ex_arrival 0 0 10000, ex_arrival 1 0 5000, ex_arrival 2 1000 5000],
      ∃ c, g_hash_table_lookup
          [(ex_arrival 0 0 10000, ex_circuit "g1" "m1" "x1-exit"),
           (ex_arrival 1 0 5000, ex_circuit "g2" "m2" "x2-exit"),
           (ex_arrival 2 1000 5000, ex_circuit "g1" "m1" "x1-exit")] d = some c ∧
        c ∈ d.circuits :=
  ⟨by decide!, dwc_total_assignment _ relays_dwc 2 _ (by decide!)⟩

/-! ## Added load -/

theorem dwc_before_refl (w : ℚ) (b : Int) : dwc_before w b w b :=
  Or.inr ⟨rfl, le_refl _⟩

theorem dwc_before_trans {w1 w2 w3 : ℚ} {b1 b2 b3 : Int} (h1 : dwc_before w1 b1 w2 b2)
    (h2 : dwc_before w2 b2 w3 b3) : dwc_before w1 b1 w3 b3 := by
  unfold dwc_before at *
  rcases h1 with h1 | ⟨h1, h1'⟩
  · rcases h2 with h2 | ⟨h2, _⟩
    · exact Or.inl (lt_trans h1 h2)
    · exact Or.inl (h2 ▸ h1)
  · rcases h2 with h2 | ⟨h2, h2'⟩
    · exact Or.inl (h1 ▸ h2)
    · exact Or.inr ⟨h1.trans h2, le_trans h2' h1'⟩

/-- One candidate scanned by a worker that was given the two tables. -/
theorem dwc_worker_step_shared {data : dwc_data_t} {W : GHashTable String ℚ}
    (hW : data.relay_weights = some W) {st st' : dwc_best_t} {c : circuit_t}
    (h : dwc_worker_step data (some st) c = some st') :
    dwc_before st'.best_circuit_weight st'.best_circuit_bandwidth
      st.best_circuit_weight st.best_circuit_bandwidth ∧
    dwc_before st'.best_circuit_weight st'.best_circuit_bandwidth
      (circuit_weight_of W c) (circuit_available (data.available_bandwidth.getD []) c) ∧
    (st' = st ∨ (st'.best_circuit = some c ∧
      st'.best_circuit_weight = circuit_weight_of W c ∧
      st'.best_circuit_bandwidth = circuit_available (data.available_bandwidth.getD []) c)) := by
  unfold dwc_worker_step at h
  simp only [hW] at h
  split at h
  · rename_i hbetter
    cases h
    refine ⟨?_, dwc_before_refl _ _, Or.inr ⟨rfl, rfl, rfl⟩⟩
    rcases hbetter with hb | ⟨hb1, hb2⟩
    · exact Or.inl hb
    · exact Or.inr ⟨hb1, le_of_lt hb2⟩
  · rename_i hnot
    cases h
    refine ⟨dwc_before_refl _ _, ?_, Or.inl rfl⟩
    rw [not_or, not_and] at hnot
    rcases lt_or_eq_of_le (not_lt.1 hnot.1) with hlt | heq
    · exact Or.inl hlt
    · exact Or.inr ⟨heq, not_lt.1 (hnot.2 heq.symm)⟩

theorem dwc_worker_fold_shared {data : dwc_data_t} {W : GHashTable String ℚ}
    (hW : data.relay_weights = some W) (l : List circuit_t) :
    ∀ (acc r : dwc_best_t), l.foldl (dwc_worker_step data) (some acc) = some r →
      dwc_before r.best_circuit_weight r.best_circuit_bandwidth
        acc.best_circuit_weight acc.best_circuit_bandwidth ∧
      (∀ c ∈ l, dwc_before r.best_circuit_weight r.best_circuit_bandwidth
        (circuit_weight_of W c) (circuit_available (data.available_bandwidth.getD []) c)) ∧
      (r = acc ∨ ∃ c ∈ l, r.best_circuit = some c ∧
        r.best_circuit_weight = circuit_weight_of W c ∧
        r.best_circuit_bandwidth = circuit_available (data.available_bandwidth.getD []) c) := by
  induction l with
  | nil =>
    intro acc r h
    simp only [List.foldl_nil, Option.some.injEq] at h
    subst h
    exact ⟨dwc_before_refl _ _, by simp, Or.inl rfl⟩
  | cons x l ih =>
    intro acc r h
    rw [List.foldl_cons] at h
    cases h1 : dwc_worker_step data (some acc) x with
    | none =>
      rw [h1, dwc_worker_step_none] at h
      cases h
    | some acc1 =>
      rw [h1] at h
      obtain ⟨k1, k2, k3⟩ := ih acc1 r h
      obtain ⟨j1, j2, j3⟩ := dwc_worker_step_shared hW h1
      refine ⟨dwc_before_trans k1 j1, ?_, ?_⟩
      · intro c hc
        rcases List.mem_cons.1 hc with e | e
        · subst e
          exact dwc_before_trans k1 j2
        · exact k2 c e
      · rcases k3 with k3 | ⟨c, hc, k3⟩
        · rcases j3 with j3 | j3
          · left; rw [k3, j3]
          · right
            rw [k3]
            exact ⟨x, List.mem_cons_self _ _, j3⟩
        · right
          exact ⟨c, List.mem_cons_of_mem _ hc, k3⟩

/-- The chunks of the workers cover the pool. -/
theorem dwc_range_cover {l : List circuit_t} {nthreads : Nat} (hT : 0 < nthreads)
    {c : circuit_t} (hc : c ∈ l) :
    ∃ i < nthreads, c ∈ (l.drop (dwc_range l.length nthreads i).1).take
      ((dwc_range l.length nthreads i).2 - (dwc_range l.length nthreads i).1) := by
  obtain ⟨j, hj, rfl⟩ := List.getElem_of_mem hc
  have slice : ∀ s e : Nat, s ≤ j → j < e → l[j] ∈ (l.drop s).take (e - s) := by
    intro s e hs he
    rw [List.mem_iff_getElem]
    refine ⟨j - s, ?_, ?_⟩
    · rw [List.length_take, List.length_drop]
      omega
    · rw [List.getElem_take, List.getElem_drop]
      congr 1
      omega
  by_cases hcase : j < (nthreads - 1) * (l.length / nthreads)
  · have hk : 0 < l.length / nthreads := by
      by_contra h0
      have : l.length / nthreads = 0 := Nat.eq_zero_of_not_pos h0
      rw [this] at hcase
      simp at hcase
    have hi : j / (l.length / nthreads) < nthreads - 1 :=
      (Nat.div_lt_iff_lt_mul hk).2 hcase
    refine ⟨j / (l.length / nthreads), by omega, ?_⟩
    unfold dwc_range
    have hne : ¬ (j / (l.length / nthreads) + 1 = nthreads) := by omega
    simp only [hne, if_false]
    apply slice
    · exact Nat.div_mul_le_self j _
    · have := Nat.lt_succ_iff.2 (le_refl (j / (l.length / nthreads)))
      exact (Nat.div_lt_iff_lt_mul hk).1 this
  · refine ⟨nthreads - 1, by omega, ?_⟩
    unfold dwc_range
    have he : nthreads - 1 + 1 = nthreads := by omega
    simp only [he, if_true]
    apply slice
    · omega
    · exact hj

/-- The reduction over the workers keeps the best of their results. -/
theorem dwc_reduce_fold_shared (l : List (Option dwc_best_t)) :
    ∀ (acc choice : dwc_choice_t), l.foldl dwc_reduce (some acc) = some choice →
      (∀ x ∈ l, ∃ r, x = some r ∧
        dwc_before choice.best_circuit_weight choice.best_circuit_bandwidth
          r.best_circuit_weight r.best_circuit_bandwidth) ∧
      (choice = acc ∨ ∃ r, some r ∈ l ∧ choice.best_circuit = r.best_circuit ∧
        choice.best_circuit_weight = r.best_circuit_weight ∧
        choice.best_circuit_bandwidth = r.best_circuit_bandwidth) ∧
      dwc_before choice.best_circuit_weight choice.best_circuit_bandwidth
        acc.best_circuit_weight acc.best_circuit_bandwidth := by
  induction l with
  | nil =>
    intro acc choice h
    simp only [List.foldl_nil, Option.some.injEq] at h
    subst h
    exact ⟨by simp, Or.inl rfl, dwc_before_refl _ _⟩
  | cons x l ih =>
    intro acc choice h
    rw [List.foldl_cons] at h
    cases x with
    | none =>
      have : dwc_reduce (some acc) none = none := rfl
      rw [this, dwc_reduce_none] at h
      cases h
    | some r =>
      have hstep : dwc_reduce (some acc) (some r) = some (dwc_reduce_step acc r) := rfl
      rw [hstep] at h
      obtain ⟨k1, k2, k3⟩ := ih _ choice h
      have hs : dwc_before (dwc_reduce_step acc r).best_circuit_weight
            (dwc_reduce_step acc r).best_circuit_bandwidth
            acc.best_circuit_weight acc.best_circuit_bandwidth ∧
          dwc_before (dwc_reduce_step acc r).best_circuit_weight
            (dwc_reduce_step acc r).best_circuit_bandwidth
            r.best_circuit_weight r.best_circuit_bandwidth ∧
          (dwc_reduce_step acc r = acc ∨
            ((dwc_reduce_step acc r).best_circuit = r.best_circuit ∧
             (dwc_reduce_step acc r).best_circuit_weight = r.best_circuit_weight ∧
             (dwc_reduce_step acc r).best_circuit_bandwidth = r.best_circuit_bandwidth)) := by
        unfold dwc_reduce_step
        split
        · rename_i hbetter
          refine ⟨?_, dwc_before_refl _ _, Or.inr ⟨rfl, rfl, rfl⟩⟩
          rcases hbetter with hb | ⟨hb1, hb2⟩
          · exact Or.inl hb
          · exact Or.inr ⟨hb1.symm, le_of_lt hb2⟩
        · rename_i hnot
          refine ⟨dwc_before_refl _ _, ?_, Or.inl rfl⟩
          rw [not_or, not_and] at hnot
          rcases lt_or_eq_of_le (not_lt.1 hnot.1) with hlt | heq
          · exact Or.inl hlt
          · exact Or.inr ⟨heq, not_lt.1 (hnot.2 heq)⟩
      refine ⟨?_, ?_, dwc_before_trans k3 hs.1⟩
      · intro y hy
        rcases List.mem_cons.1 hy with e | e
        · subst e
          exact ⟨r, rfl, dwc_before_trans k3 hs.2.1⟩
        · exact k1 y e
      · rcases k2 with k2 | ⟨r', hr', k2⟩
        · rcases hs.2.2 with j | j
          · left; rw [k2, j]
          · right
            rw [k2]
            exact ⟨r, List.mem_cons_self _ _, j⟩
        · right
          exact ⟨r', List.mem_cons_of_mem _ hr', k2⟩

/-- The circuit selected for an arriving download is at least as good as every
candidate of the pool: smaller weight, or the same weight and no smaller
bandwidth. -/
theorem dwc_select_best {relays : GHashTable String Int}
    {active : GHashTable download_t Bool} {S : GHashTable download_t circuit_t}
    {W : GHashTable String ℚ} {B : GHashTable String Int}
    {download : download_t} {nthreads : Nat} {choice : dwc_choice_t}
    (h : dwc_select relays active S W B download nthreads = some choice)
    (hT : 0 < nthreads) {best : circuit_t} (hbest : choice.best_circuit = some best) :
    best ∈ download.circuits ∧
    ∀ c ∈ download.circuits,
      dwc_before (circuit_weight_of W best) (circuit_available B best)
        (circuit_weight_of W c) (circuit_available B c) := by
  refine ⟨dwc_select_mem h hbest, ?_⟩
  unfold dwc_select at h
  obtain ⟨k1, k2, _⟩ := dwc_reduce_fold_shared _ _ choice h
  -- the result of a worker
  have worker : ∀ i r, dwc_worker
      { relays := relays, active_downloads := active, circuit_selection := S,
        relay_weights := some W, available_bandwidth := some B, download := download,
        start_idx := (dwc_range download.circuits.length nthreads i).1,
        end_idx := (dwc_range download.circuits.length nthreads i).2 } = some r →
      (∀ c ∈ (download.circuits.drop (dwc_range download.circuits.length nthreads i).1).take
          ((dwc_range download.circuits.length nthreads i).2 -
            (dwc_range download.circuits.length nthreads i).1),
        dwc_before r.best_circuit_weight r.best_circuit_bandwidth
          (circuit_weight_of W c) (circuit_available B c)) ∧
      (∀ c, r.best_circuit = some c → r.best_circuit_weight = circuit_weight_of W c ∧
        r.best_circuit_bandwidth = circuit_available B c) := by
    intro i r hr
    unfold dwc_worker at hr
    obtain ⟨_, j2, j3⟩ := dwc_worker_fold_shared (W := W) rfl _ _ r hr
    refine ⟨j2, ?_⟩
    intro c hc
    rcases j3 with j3 | ⟨c', _, j3, j4, j5⟩
    · rw [j3] at hc
      cases hc
    · rw [j3] at hc
      cases hc
      exact ⟨j4, j5⟩
  -- the pair of the choice is the pair of the chosen circuit
  have hpair : choice.best_circuit_weight = circuit_weight_of W best ∧
      choice.best_circuit_bandwidth = circuit_available B best := by
    rcases k2 with k2 | ⟨r, hr, k2, k3, k4⟩
    · rw [k2] at hbest
      cases hbest
    · unfold dwc_workers at hr
      obtain ⟨i, _, hi⟩ := List.mem_map.1 hr
      rw [k2] at hbest
      obtain ⟨e1, e2⟩ := (worker i r hi).2 best hbest
      exact ⟨k3.trans e1, k4.trans e2⟩
  intro c hc
  obtain ⟨i, hi, hmem⟩ := dwc_range_cover hT hc
  have hx : dwc_worker
      { relays := relays, active_downloads := active, circuit_selection := S,
        relay_weights := some W, available_bandwidth := some B, download := download,
        start_idx := (dwc_range download.circuits.length nthreads i).1,
        end_idx := (dwc_range download.circuits.length nthreads i).2 } ∈
      dwc_workers relays active S W B download nthreads := by
    unfold dwc_workers
    exact List.mem_map.2 ⟨i, List.mem_range.2 hi, rfl⟩
  obtain ⟨r, hr, hbefore⟩ := k1 _ hx
  have := (worker i r hr).1 c hmem
  rw [← hpair.1, ← hpair.2]
  exact dwc_before_trans hbefore this

/-- The circuit committed for an arriving download is, for the weights and the
available bandwidths of the solve over the active set at its arrival, at least
as good as every candidate of its pool. -/
theorem dwc_arrival_best {relays : GHashTable String Int} {nthreads : Nat}
    {st st' : dwc_state} {download : download_t}
    (h : dwc_arrival relays nthreads st download = some st') :
    ∃ solved best,
      compute_download_bandwidths (g_hash_table_get_keys st.active_downloads) relays
        st.circuit_selection (some []) (some []) = some solved ∧
      g_hash_table_lookup st'.circuit_selection download = some best ∧
      best ∈ download.circuits ∧
      ∀ c ∈ download.circuits,
        dwc_before (circuit_weight_of (solved.weights.getD []) best)
          (circuit_available (solved.available_bandwidth.getD []) best)
          (circuit_weight_of (solved.weights.getD []) c)
          (circuit_available (solved.available_bandwidth.getD []) c) := by
  unfold dwc_arrival at h
  split at h
  · cases h
  rename_i solved hsolved
  split at h
  · cases h
  rename_i hT
  split at h
  · cases h
  rename_i choice hchoice
  split at h
  · cases h
  rename_i best hbest
  dsimp only at h
  split at h
  · cases h
  cases h
  obtain ⟨k1, k2⟩ := dwc_select_best hchoice (Nat.pos_of_ne_zero hT) hbest
  exact ⟨solved, best, hsolved, lookup_insert_self _ _ _, k1, k2⟩

/-! ## More hash table facts -/

theorem mem_insert {κ ν : Type} [DecidableEq κ] (t : GHashTable κ ν) (k : κ) (v : ν)
    {e : κ × ν} (h : e ∈ g_hash_table_insert t k v) : e = (k, v) ∨ e ∈ t := by
  induction t with
  | nil =>
    simp only [g_hash_table_insert, List.mem_singleton] at h
    exact Or.inl h
  | cons p t ih =>
    obtain ⟨k1, v1⟩ := p
    unfold g_hash_table_insert at h
    split at h
    · rcases List.mem_cons.1 h with h | h
      · exact Or.inl h
      · exact Or.inr (List.mem_cons_of_mem _ h)
    · rcases List.mem_cons.1 h with h | h
      · exact Or.inr (h ▸ List.mem_cons_self _ _)
      · rcases ih h with h | h
        · exact Or.inl h
        · exact Or.inr (List.mem_cons_of_mem _ h)

theorem lookup_none_of_not_mem {κ ν : Type} [DecidableEq κ] {t : GHashTable κ ν} {k : κ}
    (h : k ∉ g_hash_table_get_keys t) : g_hash_table_lookup t k = none := by
  cases hl : g_hash_table_lookup t k with
  | none => rfl
  | some v => exact absurd (List.mem_map.2 ⟨(k, v), mem_of_lookup hl, rfl⟩) h

theorem insert_of_not_mem {κ ν : Type} [DecidableEq κ] (t : GHashTable κ ν) (k : κ) (v : ν)
    (h : k ∉ g_hash_table_get_keys t) : g_hash_table_insert t k v = t ++ [(k, v)] := by
  induction t with
  | nil => rfl
  | cons p t ih =>
    obtain ⟨k1, v1⟩ := p
    simp only [g_hash_table_get_keys, List.map_cons, List.mem_cons, not_or] at h
    unfold g_hash_table_insert
    rw [if_neg (Ne.symm h.1), ih h.2]
    rfl

/-! ## The weights of the DWC strategy -/

theorem solve_round_weights {A : List download_t} {relays : GHashTable String Int}
    {S : GHashTable download_t circuit_t} {st st' : solve_state}
    (hinv : solve_inv A relays S st) (hpos : positive_ok relays S st)
    (hw : weights_ok st) (h : solve_round S st = some st') : weights_ok st' := by
  obtain ⟨b, s, l, vb, hvb, _, _, hl, hs, _, _, _, _, hfields, hweights, _⟩ :=
    solve_round_spec hinv h
  have hlen : (0 : ℚ) < (l.length : ℚ) := by
    have : 0 < l.length := List.length_pos.2 hl
    exact_mod_cast this
  have hspos : 0 < s := by
    rw [hs]
    exact div_pos (hpos.positive b vb hvb) hlen
  have hval : (0 : ℚ) < (1 / s) * (l.length : ℚ) := mul_pos (one_div_pos.2 hspos) hlen
  obtain ⟨d, hd⟩ := List.exists_mem_of_ne_nil _ hl
  constructor
  · intro w1 hw1 r v hv
    rw [hweights] at hw1
    cases hw0 : st.weights with
    | none =>
      rw [hw0] at hw1
      cases hw1
    | some w0 =>
      rw [hw0] at hw1
      simp only [Option.map_some', Option.some.injEq] at hw1
      rw [← hw1] at hv
      by_cases hr : r = b
      · refine ⟨(d, s, b), ?_, hr.symm⟩
        rw [hfields]
        exact List.mem_append_left _ (List.mem_map.2 ⟨d, List.mem_reverse.2 hd, rfl⟩)
      · rw [lookup_insert_ne _ _ _ _ hr] at hv
        obtain ⟨e, he, her⟩ := hw.keys w0 hw0 r v hv
        exact ⟨e, by rw [hfields]; exact List.mem_append_right _ he, her⟩
  · intro w1 hw1 e he
    rw [hweights] at hw1
    cases hw0 : st.weights with
    | none =>
      rw [hw0] at hw1
      cases hw1
    | some w0 =>
      rw [hw0] at hw1
      simp only [Option.map_some', Option.some.injEq] at hw1
      rw [← hw1]
      by_cases hr : e.2.2 = b
      · rw [hr, lookup_insert_self]
        exact ⟨_, rfl, hval⟩
      · rw [lookup_insert_ne _ _ _ _ hr]
        rw [hfields] at he
        rcases List.mem_append.1 he with he | he
        · obtain ⟨d', _, rfl⟩ := List.mem_map.1 he
          exact absurd rfl hr
        · exact hw.positive w0 hw0 e he

theorem solve_loop_weights {A : List download_t} {relays : GHashTable String Int}
    {S : GHashTable download_t circuit_t} (n : Nat) :
    ∀ (st st' : solve_state), solve_inv A relays S st → positive_ok relays S st →
      weights_ok st → solve_loop S n st = some st' → weights_ok st' := by
  induction n with
  | zero =>
    intro st st' _ _ hw h
    unfold solve_loop at h
    split at h
    · cases h
    · cases h
      exact hw
  | succ n ih =>
    intro st st' hinv hpos hw h
    unfold solve_loop at h
    split at h
    · obtain ⟨st1, h1, h2⟩ := Option.bind_eq_some.1 h
      exact ih st1 st' (solve_round_inv hinv h1) ((solve_round_extra hinv h1).1 hpos)
        (solve_round_weights hinv hpos hw h1) h2
    · cases h
      exact hw

/-- The table `weights` of a solve that was given an empty table, over relays
of positive capacity: its entries are the entries of the recorded bottlenecks,
and the entry of a recorded bottleneck is positive. -/
theorem compute_download_bandwidths_weights {A : List download_t}
    {relays : GHashTable String Int} {S : GHashTable download_t circuit_t}
    {ab : Option (GHashTable String Int)} {res : solve_result}
    (h : compute_download_bandwidths A relays S (some []) ab = some res)
    (hcap : ∀ d ∈ A, ∀ r, on_relay S r d = true → 0 < relay_capacity relays r) :
    ∃ w, res.weights = some w ∧
      (∀ r v, g_hash_table_lookup w r = some v → ∃ e ∈ res.fields, e.2.2 = r) ∧
      (∀ e ∈ res.fields, ∃ v, g_hash_table_lookup w e.2.2 = some v ∧ 0 < v) := by
  unfold compute_download_bandwidths at h
  split at h
  · cases h
  rename_i rd a hbuild
  dsimp only at h
  split at h
  · cases h
  rename_i st hloop
  split at h
  · cases h
  cases h
  have hok := build_relay_tables_ok hbuild
  have hinit : positive_ok relays S
      { active_relays := a, relay_downloads := rd, total_bandwidth := 0, weights := some [],
        fields := [] } := by
    refine ⟨?_, ?_, ?_⟩
    · intro r v hv
      have hv' : g_hash_table_lookup a r = some v := hv
      rw [hok.capacity r v hv']
      have hne := hok.used r v hv'
      obtain ⟨d, hd⟩ := List.exists_mem_of_ne_nil _ hne
      obtain ⟨h1, h2⟩ := (hok.pending_mem r d).1 hd
      exact_mod_cast hcap d h1 r h2
    · intro r
      simp [relay_usage]
    · intro e he
      simp at he
  have hw0 : weights_ok
      { active_relays := a, relay_downloads := rd, total_bandwidth := 0, weights := some [],
        fields := [] } := by
    constructor
    · intro w hw r v hv
      simp only [Option.some.injEq] at hw
      rw [← hw] at hv
      simp [g_hash_table_lookup] at hv
    · intro w _ e he
      simp at he
  have hw := solve_loop_weights _ _ _ (solve_inv_init hbuild (some [])) hinit hw0 hloop
  obtain ⟨_, hsome, _⟩ := solve_loop_inv _ _ _ (solve_inv_init hbuild (some [])) hloop
  cases hwt : st.weights with
  | none =>
    rw [hwt] at hsome
    simp at hsome
  | some w =>
    exact ⟨w, rfl, hw.keys w hwt, hw.positive w hwt⟩

/-! ## Two arrivals at one tick -/

/-- The weight of a circuit for the solve over one active download: positive
when the circuit contains the recorded bottleneck of the download, and zero
when it does not. -/
theorem single_download_weight {relays : GHashTable String Int}
    {S : GHashTable download_t circuit_t} {d : download_t}
    {ab : Option (GHashTable String Int)} {res : solve_result}
    (h : compute_download_bandwidths [d] relays S (some []) ab = some res)
    (hcap : ∀ r, on_relay S r d = true → 0 < relay_capacity relays r) :
    ∃ b, bottleneck_of res.fields d = some b ∧ on_relay S b d = true ∧
      ∀ c : circuit_t,
        (b ∈ circuit_relays c → 0 < circuit_weight_of (res.weights.getD []) c) ∧
        (b ∉ circuit_relays c → circuit_weight_of (res.weights.getD []) c = 0) := by
  obtain ⟨w, hw, hkeys, hpos⟩ := compute_download_bandwidths_weights h (by
    intro d' hd' r hr
    rw [List.mem_singleton] at hd'
    subst hd'
    exact hcap r hr)
  obtain ⟨st, hinv, hf, _, _, _⟩ := compute_download_bandwidths_inv h
  have hmem := compute_download_bandwidths_all h d (List.mem_singleton_self d)
  obtain ⟨e, he, hed⟩ := List.mem_map.1 hmem
  have hn : (res.fields.map Prod.fst).Nodup := by rw [hf]; exact hinv.tables.fields_nodup
  have hbn := (fields_entry hn he).2
  rw [hed] at hbn
  -- every entry of the fields is the entry of `d`
  have hall : ∀ e' ∈ res.fields, e'.2.2 = e.2.2 := by
    intro e' he'
    have h1 : e'.1 = d := by
      have := (hinv.tables.fields_mem e' (by rw [← hf]; exact he')).1
      exact List.mem_singleton.1 this
    have hb' := (fields_entry hn he').2
    rw [h1, hbn] at hb'
    exact (Option.some.inj hb').symm
  have hvalue : ∀ r, (0 : ℚ) ≤ (g_hash_table_lookup w r).getD 0 := by
    intro r
    cases hl : g_hash_table_lookup w r with
    | none => simp
    | some v =>
      obtain ⟨e', he', her⟩ := hkeys r v hl
      obtain ⟨v', hv', hpos'⟩ := hpos e' he'
      rw [her, hl] at hv'
      cases hv'
      exact le_of_lt hpos'
  have hb : 0 < (g_hash_table_lookup w e.2.2).getD 0 := by
    obtain ⟨v, hv, hv0⟩ := hpos e he
    rw [hv]
    exact hv0
  have hother : ∀ r, r ≠ e.2.2 → (g_hash_table_lookup w r).getD 0 = 0 := by
    intro r hr
    cases hl : g_hash_table_lookup w r with
    | none => rfl
    | some v =>
      obtain ⟨e', he', her⟩ := hkeys r v hl
      exact absurd (her.symm.trans (hall e' he')) hr
  refine ⟨e.2.2, hbn, ?_, ?_⟩
  · have := (hinv.tables.fields_mem e (by rw [← hf]; exact he)).2
    rw [hed] at this
    exact this
  · intro c
    rw [hw]
    simp only [Option.getD_some]
    unfold circuit_weight_of
    constructor
    · intro hc
      have g1 := hvalue c.guard
      have g2 := hvalue c.middle
      have g3 := hvalue c.exit
      rcases (mem_circuit_relays c _).1 hc with e1 | e1 | e1
      · rw [e1] at hb
        linarith
      · rw [e1] at hb
        linarith
      · rw [e1] at hb
        linarith
    · intro hc
      have n1 : c.guard ≠ e.2.2 := fun e1 => hc ((mem_circuit_relays c _).2 (Or.inl e1.symm))
      have n2 : c.middle ≠ e.2.2 := fun e1 =>
        hc ((mem_circuit_relays c _).2 (Or.inr (Or.inl e1.symm)))
      have n3 : c.exit ≠ e.2.2 := fun e1 =>
        hc ((mem_circuit_relays c _).2 (Or.inr (Or.inr e1.symm)))
      rw [hother _ n1, hother _ n2, hother _ n3]
      norm_num

/-- C11, counterexample: the two downloads of scenario E arrive at tick 0; the
first is given the circuit `g1`, `m1`, `x1-exit`, and the second the circuit
`g1`, `m2`, `x2-exit`, which shares the guard `g1`, although its pool has the
circuit `g3`, `m3`, `x3-exit`, which shares no relay with the first. -/
theorem dwc_overlap_counterexample :
    ∃ S, run_dwc_algorithm [arrival_one, arrival_two] relays_e 1 = some S ∧
      g_hash_table_lookup S arrival_one = some (ex_circuit "g1" "m1" "x1-exit") ∧
      g_hash_table_lookup S arrival_two = some (ex_circuit "g1" "m2" "x2-exit") ∧
      ex_circuit "g3" "m3" "x3-exit" ∈ arrival_two.circuits ∧
      (∀ r ∈ circuit_relays (ex_circuit "g3" "m3" "x3-exit"),
        r ∉ circuit_relays (ex_circuit "g1" "m1" "x1-exit")) ∧
      "g1" ∈ circuit_relays (ex_circuit "g1" "m1" "x1-exit") ∧
      "g1" ∈ circuit_relays (ex_circuit "g1" "m2" "x2-exit") :=
  ⟨[(arrival_one, ex_circuit "g1" "m1" "x1-exit"),
    (arrival_two, ex_circuit "g1" "m2" "x2-exit")],
   by decide!, by decide!, by decide!, by decide, by decide, by decide, by decide⟩

/-- C11, amended: when two downloads arrive one after the other with no other
download active, and the relays of the circuit committed for the first have
positive capacity, the circuit committed for the second does not contain the
relay that the solve over the first download records as its bottleneck,
whenever the pool of the second has a circuit without that relay; the two
circuits may share other relays. -/
theorem dwc_avoids_bottleneck (relays : GHashTable String Int) (nthreads : Nat)
    (st st1 st2 : dwc_state) (d1 d2 : download_t)
    (hempty : st.active_downloads = [])
    (h1 : dwc_arrival relays nthreads st d1 = some st1)
    (h2 : dwc_arrival relays nthreads st1 d2 = some st2)
    (hcap : ∀ r, on_relay st1.circuit_selection r d1 = true → 0 < relay_capacity relays r) :
    ∃ (c1 c2 : circuit_t) (res : solve_result) (b : String),
      g_hash_table_lookup st1.circuit_selection d1 = some c1 ∧
      g_hash_table_lookup st2.circuit_selection d2 = some c2 ∧
      c2 ∈ d2.circuits ∧
      compute_download_bandwidths [d1] relays st1.circuit_selection (some []) (some [])
        = some res ∧
      bottleneck_of res.fields d1 = some b ∧ b ∈ circuit_relays c1 ∧
      ((∃ c ∈ d2.circuits, b ∉ circuit_relays c) → b ∉ circuit_relays c2) := by
  obtain ⟨c1, _, hsel1, hact1⟩ := dwc_arrival_spec h1
  obtain ⟨solved, best, hsolved, hbest, hpool, hbefore⟩ := dwc_arrival_best h2
  have hkeys : g_hash_table_get_keys st1.active_downloads = [d1] := by
    rw [hact1, hempty]
    rfl
  rw [hkeys] at hsolved
  obtain ⟨b, hb, hon, hweight⟩ := single_download_weight hsolved hcap
  have hc1 : g_hash_table_lookup st1.circuit_selection d1 = some c1 := by
    rw [hsel1]
    exact lookup_insert_self _ _ _
  refine ⟨c1, best, solved, b, hc1, hbest, hpool, hsolved, hb, ?_, ?_⟩
  · exact (on_relay_of_lookup hc1 b).1 hon
  · rintro ⟨c, hc, hbc⟩ hbb
    have hzero := (hweight c).2 hbc
    have hposw := (hweight best).1 hbb
    have := hbefore c hc
    unfold dwc_before at this
    rw [hzero] at this
    rcases this with hlt | ⟨heq, _⟩
    · linarith
    · linarith

/-- C11 on scenario E: the first arrival is given `g1`, `m1`, `x1-exit` with the
bottleneck `x1-exit`, and the circuit `g1`, `m2`, `x2-exit` of the second does
not contain `x1-exit`. -/
theorem dwc_avoids_bottleneck_witness :
    ∃ (c1 c2 : circuit_t) (res : solve_result) (b : String),
      g_hash_table_lookup [(arrival_one, ex_circuit "g1" "m1" "x1-exit")] arrival_one
        = some c1 ∧
      g_hash_table_lookup [(arrival_one, ex_circuit "g1" "m1" "x1-exit"),
        (arrival_two, ex_circuit "g1" "m2" "x2-exit")] arrival_two = some c2 ∧
      c2 ∈ arrival_two.circuits ∧
      compute_download_bandwidths [arrival_one] relays_e
        [(arrival_one, ex_circuit "g1" "m1" "x1-exit")] (some []) (some []) = some res ∧
      bottleneck_of res.fields arrival_one = some b ∧ b ∈ circuit_relays c1 ∧
      ((∃ c ∈ arrival_two.circuits, b ∉ circuit_relays c) → b ∉ circuit_relays c2) :=
  dwc_avoids_bottleneck relays_e 1 { active_downloads := [], circuit_selection := [] }
    { active_downloads := [(arrival_one, true)]
      circuit_selection := [(arrival_one, ex_circuit "g1" "m1" "x1-exit")] }
    { active_downloads := [(arrival_one, true), (arrival_two, true)]
      circuit_selection := [(arrival_one, ex_circuit "g1" "m1" "x1-exit"),
        (arrival_two, ex_circuit "g1" "m2" "x2-exit")] }
    arrival_one arrival_two rfl (by decide!) (by decide!)
    (by
      intro r hr
      have hc : g_hash_table_lookup [(arrival_one, ex_circuit "g1" "m1" "x1-exit")] arrival_one
          = some (ex_circuit "g1" "m1" "x1-exit") := by decide!
      rcases (mem_circuit_relays _ r).1 ((on_relay_of_lookup hc r).1 hr) with e | e | e
      all_goals (rw [e]; decide!))

/-! ## The order of the greedy strategy -/

theorem gint_wrap_of_range {x : Int} (h1 : -2147483648 ≤ x) (h2 : x ≤ 2147483647) :
    gint_wrap x = x := by
  unfold gint_wrap
  omega

/-- A comparison that agrees with a key on the elements of a queue sorts the
queue by that key. -/
theorem g_queue_sort_sorted {α : Type} (compare : α → α → Int) (key : α → Int)
    (queue : List α)
    (h : ∀ a ∈ queue, ∀ b ∈ queue, (compare a b ≤ 0 ↔ key a ≤ key b)) :
    (g_queue_sort compare queue).Sorted (fun a b => key a ≤ key b) := by
  unfold g_queue_sort
  have insert_ok : ∀ (a : α) (l : List α), (∀ b ∈ l, (compare a b ≤ 0 ↔ key a ≤ key b)) →
      l.Sorted (fun a b => key a ≤ key b) →
      (l.orderedInsert (fun a b => compare a b ≤ 0) a).Sorted (fun a b => key a ≤ key b) := by
    intro a l
    induction l with
    | nil =>
      intro _ _
      exact List.sorted_singleton a
    | cons b t ih =>
      intro hab hs
      rw [List.orderedInsert]
      split
      · rename_i hr
        refine List.sorted_cons.2 ⟨?_, hs⟩
        intro c hc
        have hb : key a ≤ key b := (hab b (List.mem_cons_self _ _)).1 hr
        rcases List.mem_cons.1 hc with rfl | hc
        · exact hb
        · exact le_trans hb (List.rel_of_sorted_cons hs c hc)
      · rename_i hr
        have hb : key b ≤ key a := by
          have := mt (hab b (List.mem_cons_self _ _)).2 hr
          exact le_of_lt (not_le.1 this)
        refine List.sorted_cons.2 ⟨?_, ih (fun c hc => hab c (List.mem_cons_of_mem _ hc))
          hs.of_cons⟩
        intro c hc
        rcases (List.mem_orderedInsert _).1 hc with rfl | hc
        · exact hb
        · exact List.rel_of_sorted_cons hs c hc
  induction queue with
  | nil => exact List.sorted_nil
  | cons a t ih =>
    rw [List.insertionSort]
    apply insert_ok
    · intro b hb
      exact h a (List.mem_cons_self _ _) b
        (List.mem_cons_of_mem _ ((List.mem_insertionSort _).1 hb))
    · exact ih (fun x hx y hy => h x (List.mem_cons_of_mem _ hx) y (List.mem_cons_of_mem _ hy))

theorem g_queue_sort_perm {α : Type} (compare : α → α → Int) (queue : List α) :
    (g_queue_sort compare queue).Perm queue :=
  List.perm_insertionSort _ _

/-- C13, counterexample: of two downloads that end at 2147483600 and at -100
the mode `inorder` puts the first in front, because the difference of the two
end times does not fit a `gint`. -/
theorem greedy_order_counterexample :
    ¬ (greedy_order downloads_far "inorder").Sorted (fun a b => a.end_time ≤ b.end_time) := by
  have h : greedy_order downloads_far "inorder" = downloads_far := by decide!
  rw [h]
  decide

/-- C13, amended: for downloads whose times are `gint` values with
`0 ≤ start_time ≤ end_time`, the queue that `run_greedy_algorithm` processes is
a permutation of the download list, sorted by end time ascending in the mode
`inorder`, by length descending in the mode `longest` and by length ascending
in the mode `shortest`. -/
theorem greedy_order_sorted (downloads : List download_t) (selection : String)
    (htimes : ∀ d ∈ downloads, 0 ≤ d.start_time ∧ d.start_time ≤ d.end_time ∧
      d.end_time ≤ G_MAXINT) :
    (greedy_order downloads selection).Perm downloads ∧
    (strcasecmp_equal selection "inorder" = true →
      (greedy_order downloads selection).Sorted (fun a b => a.end_time ≤ b.end_time)) ∧
    (strcasecmp_equal selection "longest" = true →
      (greedy_order downloads selection).Sorted
        (fun a b => download_length b ≤ download_length a)) ∧
    (strcasecmp_equal selection "shortest" = true →
      (greedy_order downloads selection).Sorted
        (fun a b => download_length a ≤ download_length b)) := by
  have hend : (g_queue_sort compare_download_by_end downloads).Sorted
      (fun a b => a.end_time ≤ b.end_time) := by
    apply g_queue_sort_sorted compare_download_by_end (fun d => d.end_time)
    intro a ha b hb
    obtain ⟨a1, a2, a3⟩ := htimes a ha
    obtain ⟨b1, b2, b3⟩ := htimes b hb
    unfold G_MAXINT at a3 b3
    unfold compare_download_by_end
    rw [gint_wrap_of_range (by omega) (by omega)]
    omega
  have hlen : (g_queue_sort compare_download_by_length downloads).Sorted
      (fun a b => download_length b ≤ download_length a) := by
    have := g_queue_sort_sorted compare_download_by_length (fun d => - download_length d)
      downloads (by
        intro a ha b hb
        obtain ⟨a1, a2, a3⟩ := htimes a ha
        obtain ⟨b1, b2, b3⟩ := htimes b hb
        unfold G_MAXINT at a3 b3
        unfold compare_download_by_length download_length
        dsimp only
        rw [gint_wrap_of_range (x := a.end_time - a.start_time) (by omega) (by omega),
          gint_wrap_of_range (x := b.end_time - b.start_time) (by omega) (by omega),
          gint_wrap_of_range (by omega) (by omega)]
        omega)
    exact this.imp (fun h => by dsimp only at h; omega)
  refine ⟨?_, ?_, ?_, ?_⟩
  · unfold greedy_order
    split
    · exact g_queue_sort_perm _ _
    · split
      · exact g_queue_sort_perm _ _
      · split
        · exact (List.reverse_perm _).trans (g_queue_sort_perm _ _)
        · exact g_queue_sort_perm _ _
  · intro hs
    unfold greedy_order
    rw [if_pos hs]
    exact hend
  · intro hs
    have hne : ¬ strcasecmp_equal selection "inorder" = true := by
      intro h1
      unfold strcasecmp_equal at hs h1
      rw [beq_iff_eq] at hs h1
      rw [h1] at hs
      exact absurd hs (by decide)
    unfold greedy_order
    rw [if_neg hne, if_pos hs]
    exact hlen
  · intro hs
    have hne1 : ¬ strcasecmp_equal selection "inorder" = true := by
      intro h1
      unfold strcasecmp_equal at hs h1
      rw [beq_iff_eq] at hs h1
      rw [h1] at hs
      exact absurd hs (by decide)
    have hne2 : ¬ strcasecmp_equal selection "longest" = true := by
      intro h1
      unfold strcasecmp_equal at hs h1
      rw [beq_iff_eq] at hs h1
      rw [h1] at hs
      exact absurd hs (by decide)
    unfold greedy_order
    rw [if_neg hne1, if_neg hne2, if_pos hs]
    unfold List.Sorted
    rw [List.pairwise_reverse]
    exact hlen

/-- C13 on three downloads in the mode `longest`: the queue is a permutation
and the lengths 9000, 6000 and 2000 come in this order. -/
theorem greedy_order_sorted_witness :
    (greedy_order downloads_three "longest").Perm downloads_three ∧
    (greedy_order downloads_three "longest").Sorted
      (fun a b => download_length b ≤ download_length a) :=
  ⟨(greedy_order_sorted downloads_three "longest" (by decide)).1,
   (greedy_order_sorted downloads_three "longest" (by decide)).2.2.1 (by decide)⟩

/-! ## The selection of the greedy strategy -/

theorem gint_wrap_range (x : Int) : -2147483648 ≤ gint_wrap x ∧ gint_wrap x ≤ 2147483647 := by
  unfold gint_wrap
  omega

/-- With an empty tick index `compute_total_bandwidth` returns 0. -/
theorem compute_total_bandwidth_empty (downloads : List download_t)
    (relays : GHashTable String Int) (S : GHashTable download_t circuit_t) (ticks : List Int) :
    compute_total_bandwidth downloads relays S [] ticks = some 0 := by
  unfold compute_total_bandwidth
  have gen : ∀ (l : List Int) (st : integrate_state), st.active_downloads = [] →
      st.total_bandwidth = 0 → st.last_bandwidth = 0 →
      ∃ st1, l.foldl (tick_step relays S []) (some st) = some st1 ∧ st1.total_bandwidth = 0 := by
    intro l
    induction l with
    | nil =>
      intro st _ h2 _
      exact ⟨st, rfl, h2⟩
    | cons t l ih =>
      intro st h1 h2 h3
      rw [List.foldl_cons]
      have hsolve : compute_download_bandwidths (g_hash_table_get_keys
          ([] : GHashTable download_t Bool)) relays S none none =
          some { total_bandwidth := 0, weights := none, available_bandwidth := none,
                 fields := [] } := rfl
      have hstep : tick_step relays S [] (some st) t =
          some { active_downloads := []
                 total_bandwidth :=
                   if st.last_tick ≠ -1 then
                     st.total_bandwidth + interval_bytes st.last_bandwidth st.last_tick t
                   else st.total_bandwidth
                 last_tick := t
                 last_bandwidth := gint_of_gdouble 0 } := by
        have hactive : tick_active S [] st.active_downloads t = some [] := by
          unfold tick_active
          rw [h1]
          rfl
        unfold tick_step
        simp only [hactive, hsolve]
      rw [hstep]
      apply ih
      · rfl
      · dsimp only
        rw [h2, h3]
        unfold interval_bytes gint_wrap
        split <;> simp
      · show gint_of_gdouble 0 = 0
        decide!
  obtain ⟨st1, h1, h2⟩ := gen ticks integrate_init rfl rfl rfl
  rw [h1, Option.map_some', h2]

/-- When no key of the index fits a `gint`, no tick finds its list. -/
theorem greedy_tick_lists_none (index : greedy_index)
    (h : ∀ p ∈ g_hash_table_get_keys index.downloads_by_tick,
      p < -2147483648 ∨ 2147483647 < p) (ticks : List Int) :
    greedy_tick_lists index ticks = some [] := by
  unfold greedy_tick_lists
  induction ticks with
  | nil => rfl
  | cons p t ih =>
    rw [List.foldl_cons]
    have hnone : g_hash_table_lookup index.downloads_by_tick (gint_wrap p) = none := by
      apply lookup_none_of_not_mem
      intro hmem
      have := gint_wrap_range p
      have := h _ hmem
      omega
    simp only [hnone]
    exact ih

theorem greedy_download_none (queue_address : Nat → Int) (downloads : List download_t)
    (relays : GHashTable String Int) (l : List download_t) :
    l.foldl (greedy_download queue_address downloads relays) none = none := by
  induction l with
  | nil => rfl
  | cons x t ih => exact ih

/-- As long as every candidate is given the bandwidth 0, none is made the best. -/
theorem greedy_candidates_zero (downloads : List download_t) (relays : GHashTable String Int)
    (index : greedy_index) (download : download_t)
    (h : ∀ S, greedy_total_bandwidth downloads relays index S = some 0)
    (l : List circuit_t) :
    ∀ st : greedy_best_t, st.best_circuit = none → st.best_circuit_bandwidth = 0 →
      ∃ st1, l.foldl (greedy_candidate downloads relays index download) (some st) = some st1 ∧
        st1.best_circuit = none := by
  induction l with
  | nil =>
    intro st h1 _
    exact ⟨st, rfl, h1⟩
  | cons c l ih =>
    intro st h1 h2
    rw [List.foldl_cons]
    have hstep : greedy_candidate downloads relays index download (some st) c =
        some { st with
               circuit_selection := g_hash_table_insert st.circuit_selection download c } := by
      unfold greedy_candidate
      simp only [h, h2, lt_irrefl, if_false]
    rw [hstep]
    exact ih _ h1 h2

/-- On a heap whose addresses do not fit a `gint`, `greedy_circuit_selection`
commits no circuit for the first download of its queue: no tick finds its
list in the index, every candidate is given the bandwidth 0, and none is made
the best circuit. -/
theorem greedy_never_commits (queue_address : Nat → Int)
    (haddress : ∀ n, queue_address n < -2147483648 ∨ 2147483647 < queue_address n)
    (download : download_t) (downloads : List download_t) (relays : GHashTable String Int)
    (hend : -2147483648 ≤ download.end_time ∧ download.end_time ≤ 2147483647) :
    greedy_circuit_selection queue_address (download :: downloads) relays = none := by
  unfold greedy_circuit_selection
  rw [List.foldl_cons]
  have h0 := haddress 0
  have h1 := haddress 1
  have hq1 : greedy_tick_queue queue_address { downloads_by_tick := [], queues := [] }
      download.start_time download =
      some { downloads_by_tick := [(queue_address 0, download.start_time)]
             queues := [(queue_address 0, [download])] } := rfl
  have hq2 : greedy_tick_queue queue_address
      { downloads_by_tick := [(queue_address 0, download.start_time)]
        queues := [(queue_address 0, [download])] } download.end_time download =
      some { downloads_by_tick :=
               g_hash_table_insert [(queue_address 0, download.start_time)]
                 (queue_address 1) download.end_time
             queues :=
               g_hash_table_insert [(queue_address 0, [download])]
                 (queue_address 1) [download] } := by
    unfold greedy_tick_queue
    have hne : ¬ queue_address 0 = download.end_time := by omega
    simp only [g_hash_table_lookup, if_neg hne, Option.getD_none, if_true, List.length_singleton]
  have hkeys : ∀ p ∈ g_hash_table_get_keys
      (g_hash_table_insert [(queue_address 0, download.start_time)]
        (queue_address 1) download.end_time), p < -2147483648 ∨ 2147483647 < p := by
    intro p hp
    obtain ⟨e, he, rfl⟩ := List.mem_map.1 hp
    rcases mem_insert _ _ _ he with rfl | he
    · exact h1
    · rw [List.mem_singleton] at he
      rw [he]
      exact h0
  have hzero : ∀ S, greedy_total_bandwidth (download :: downloads) relays
      { downloads_by_tick :=
          g_hash_table_insert [(queue_address 0, download.start_time)]
            (queue_address 1) download.end_time
        queues :=
          g_hash_table_insert [(queue_address 0, [download])]
            (queue_address 1) [download] } S = some 0 := by
    intro S
    unfold greedy_total_bandwidth
    rw [greedy_tick_lists_none _ hkeys]
    exact compute_total_bandwidth_empty _ _ _ _
  obtain ⟨st1, hfold, hbest⟩ := greedy_candidates_zero (download :: downloads) relays _ download
    hzero download.circuits { circuit_selection := [], best_circuit := none,
                              best_circuit_bandwidth := 0 } rfl rfl
  have hstep : greedy_download queue_address (download :: downloads) relays
      (some { index := { downloads_by_tick := [], queues := [] }, circuit_selection := [] })
      download = none := by
    unfold greedy_download
    simp only [hq1, hq2, hfold, hbest]
  rw [hstep, greedy_download_none]
  rfl

/-- C12, at the failing input: for one download of 10 s whose pool is the one
circuit of scenario A, `compute_total_bandwidth` returns 1000 with the tick
index of `generate_downloads_by_tick`, the evaluation that
`greedy_circuit_selection` makes of the candidate with its own index returns
0, and the function commits no circuit. -/
theorem greedy_commits_nothing :
    compute_total_bandwidth [ex_single] relays_ab [(ex_single, ex_circuit "g" "m" "x-exit")]
      (generate_downloads_by_tick [ex_single])
      (sorted_ticks (generate_downloads_by_tick [ex_single])) = some 1000 ∧
    greedy_total_bandwidth [ex_single] relays_ab
      { downloads_by_tick := [(heap_address 0, 0), (heap_address 1, 10000)]
        queues := [(heap_address 0, [ex_single]), (heap_address 1, [ex_single])] }
      [(ex_single, ex_circuit "g" "m" "x-exit")] = some 0 ∧
    greedy_circuit_selection heap_address [ex_single] relays_ab = none := by
  refine ⟨by decide!, by decide!, by decide!⟩
/-! ## The rounding to binary64 -/

theorem log2_loop_spec : ∀ (fuel n : Nat), 1 ≤ n → n ≤ fuel →
    2 ^ log2_loop fuel n ≤ n ∧ n < 2 ^ (log2_loop fuel n + 1) := by
  intro fuel
  induction fuel with
  | zero =>
    intro n h1 h2
    omega
  | succ fuel ih =>
    intro n h1 h2
    unfold log2_loop
    split
    · rename_i h
      obtain ⟨a, b⟩ := ih (n / 2) (by omega) (by omega)
      rw [pow_succ] at b
      rw [pow_succ, pow_succ, pow_succ]
      constructor <;> omega
    · simp only [pow_zero, zero_add, pow_one]
      omega

/-- The exponent that `gdouble_exponent` computes is the binary exponent. -/
theorem gdouble_exponent_spec (x : ℚ) (hx : x ≠ 0) :
    (2 : ℚ) ^ gdouble_exponent x ≤ |x| ∧ |x| < (2 : ℚ) ^ (gdouble_exponent x + 1) := by
  have hnum : 1 ≤ x.num.natAbs := by
    have : x.num ≠ 0 := Rat.num_ne_zero.2 hx
    omega
  have hden : 1 ≤ x.den := x.den_pos
  obtain ⟨a1, a2⟩ := log2_loop_spec x.num.natAbs x.num.natAbs hnum (le_refl _)
  obtain ⟨b1, b2⟩ := log2_loop_spec x.den x.den hden (le_refl _)
  have habs : |x| = (x.num.natAbs : ℚ) / (x.den : ℚ) := by
    rw [Rat.abs_def, Rat.divInt_eq_div]
    simp [Nat.cast_natAbs]
  have hD : (0 : ℚ) < (x.den : ℚ) := by exact_mod_cast hden
  have a1' : (2 : ℚ) ^ (log2_loop x.num.natAbs x.num.natAbs) ≤ (x.num.natAbs : ℚ) := by
    exact_mod_cast a1
  have a2' : (x.num.natAbs : ℚ) < (2 : ℚ) ^ (log2_loop x.num.natAbs x.num.natAbs + 1) := by
    exact_mod_cast a2
  have b1' : (2 : ℚ) ^ (log2_loop x.den x.den) ≤ (x.den : ℚ) := by exact_mod_cast b1
  have b2' : (x.den : ℚ) < (2 : ℚ) ^ (log2_loop x.den x.den + 1) := by exact_mod_cast b2
  have h2 : (2 : ℚ) ≠ 0 := by norm_num
  have hpa : (0 : ℚ) < (2 : ℚ) ^ (log2_loop x.num.natAbs x.num.natAbs) := by positivity
  have hpb : (0 : ℚ) < (2 : ℚ) ^ (log2_loop x.den x.den) := by positivity
  unfold gdouble_exponent
  simp only
  split
  · rename_i h
    refine ⟨h, ?_⟩
    rw [habs, zpow_add₀ h2, zpow_sub₀ h2, zpow_natCast, zpow_natCast, zpow_one,
      div_lt_iff₀ hD]
    have e : (2 : ℚ) ^ (log2_loop x.num.natAbs x.num.natAbs) /
        (2 : ℚ) ^ (log2_loop x.den x.den) * 2 * (x.den : ℚ) =
        (2 : ℚ) ^ (log2_loop x.num.natAbs x.num.natAbs + 1) *
          ((x.den : ℚ) / (2 : ℚ) ^ (log2_loop x.den x.den)) := by
      rw [pow_succ]
      field_simp
    rw [e]
    have hge : (1 : ℚ) ≤ (x.den : ℚ) / (2 : ℚ) ^ (log2_loop x.den x.den) := by
      rw [le_div_iff₀ hpb]
      linarith
    have hpa' : (0 : ℚ) < (2 : ℚ) ^ (log2_loop x.num.natAbs x.num.natAbs + 1) := by positivity
    nlinarith
  · rename_i h
    rw [not_le] at h
    refine ⟨?_, ?_⟩
    · rw [habs, zpow_sub₀ h2, zpow_sub₀ h2, zpow_natCast, zpow_natCast, zpow_one,
        le_div_iff₀ hD]
      have e : (2 : ℚ) ^ (log2_loop x.num.natAbs x.num.natAbs) /
          (2 : ℚ) ^ (log2_loop x.den x.den) / 2 * (x.den : ℚ) =
          (2 : ℚ) ^ (log2_loop x.num.natAbs x.num.natAbs) *
            ((x.den : ℚ) / (2 : ℚ) ^ (log2_loop x.den x.den + 1)) := by
        rw [pow_succ]
        field_simp
      rw [e]
      have hle : (x.den : ℚ) / (2 : ℚ) ^ (log2_loop x.den x.den + 1) ≤ 1 := by
        rw [div_le_iff₀ (by positivity)]
        linarith
      have hnn : (0 : ℚ) ≤ (x.den : ℚ) / (2 : ℚ) ^ (log2_loop x.den x.den + 1) := by
        positivity
      nlinarith
    · have e : ((log2_loop x.num.natAbs x.num.natAbs : Int) - (log2_loop x.den x.den : Int)
          - 1 + 1) = ((log2_loop x.num.natAbs x.num.natAbs : Int) -
            (log2_loop x.den x.den : Int)) := by ring
      rw [e]
      exact h

theorem round_half_even_cases (m : ℚ) :
    round_half_even m = ⌊m⌋ ∨ (round_half_even m = ⌊m⌋ + 1 ∧ (1 : ℚ) / 2 ≤ m - ⌊m⌋) := by
  have e : Rat.floor m = ⌊m⌋ := rfl
  unfold round_half_even
  rw [e]
  split
  · exact Or.inl rfl
  · rename_i h1
    rw [not_lt] at h1
    split
    · exact Or.inr ⟨rfl, h1⟩
    · split
      · exact Or.inl rfl
      · exact Or.inr ⟨rfl, h1⟩

/-- An integer at or below a rational is at or below the rounded rational. -/
theorem le_round_half_even (k : Int) (m : ℚ) (h : (k : ℚ) ≤ m) : k ≤ round_half_even m := by
  have hk : k ≤ ⌊m⌋ := Int.le_floor.2 h
  rcases round_half_even_cases m with e | ⟨e, _⟩ <;> omega

/-- An integer at or above a rational is at or above the rounded rational. -/
theorem round_half_even_le (k : Int) (m : ℚ) (h : m ≤ (k : ℚ)) : round_half_even m ≤ k := by
  rcases round_half_even_cases m with e | ⟨e, hf⟩
  · rw [e]
    have h1 : (⌊m⌋ : ℚ) ≤ m := Int.floor_le m
    have h2 : (⌊m⌋ : ℚ) ≤ (k : ℚ) := le_trans h1 h
    exact_mod_cast h2
  · rw [e]
    have h2 : (⌊m⌋ : ℚ) < (k : ℚ) := by linarith
    have h3 : ⌊m⌋ < k := by exact_mod_cast h2
    omega

/-- The rounded rational is within one half of the rational. -/
theorem round_half_even_near (m : ℚ) : |(round_half_even m : ℚ) - m| ≤ 1 / 2 := by
  have e : Rat.floor m = ⌊m⌋ := rfl
  have h1 : (⌊m⌋ : ℚ) ≤ m := Int.floor_le m
  have h2 : m < (⌊m⌋ : ℚ) + 1 := Int.lt_floor_add_one m
  rw [abs_le]
  unfold round_half_even
  rw [e]
  split
  · rename_i h
    constructor <;> linarith
  · rename_i h
    rw [not_lt] at h
    split
    · rename_i h3
      push_cast
      constructor <;> linarith
    · rename_i h3
      rw [not_lt] at h3
      split
      · constructor <;> linarith
      · push_cast
        constructor <;> linarith

/-- Below `2 ^ 53` in size the binary64 values near `x` are the multiples of
the reciprocal of a power of two: the integers are among them. -/
theorem gdouble_round_eq (x : ℚ) (hx : x ≠ 0) (hlt : |x| < 2 ^ 53) :
    ∃ M : Nat, 0 < M ∧
      gdouble_round x = (round_half_even (x * (M : ℚ)) : ℚ) / (M : ℚ) := by
  obtain ⟨s1, _⟩ := gdouble_exponent_spec x hx
  have hexp : gdouble_exponent x < 53 := by
    have h := lt_of_le_of_lt s1 hlt
    have h' : (2 : ℚ) ^ gdouble_exponent x < (2 : ℚ) ^ (53 : Int) := by
      rw [show ((2 : ℚ) ^ (53 : Int)) = (2 : ℚ) ^ (53 : Nat) from zpow_natCast 2 53]
      exact h
    exact (zpow_lt_zpow_iff_right₀ (by norm_num : (1 : ℚ) < 2)).1 h'
  have hmax : max (gdouble_exponent x) (-1022) ≤ 52 := by
    apply max_le <;> omega
  obtain ⟨n, hn⟩ : ∃ n : Nat, max (gdouble_exponent x) (-1022) - 52 = - (n : Int) :=
    ⟨(52 - max (gdouble_exponent x) (-1022)).toNat, by omega⟩
  refine ⟨2 ^ n, by positivity, ?_⟩
  unfold gdouble_round
  rw [if_neg hx, hn, zpow_neg, zpow_natCast]
  push_cast
  rw [div_inv_eq_mul]
  rfl

/-- Binary64 rounding does not go below an integer that the rational is not
below. -/
theorem le_gdouble_round (k : Int) (x : ℚ) (hlt : |x| < 2 ^ 53) (h : (k : ℚ) ≤ x) :
    (k : ℚ) ≤ gdouble_round x := by
  by_cases hx : x = 0
  · rw [hx] at h ⊢
    unfold gdouble_round
    rw [if_pos rfl]
    exact h
  · obtain ⟨M, hM, e⟩ := gdouble_round_eq x hx hlt
    have hM' : (0 : ℚ) < (M : ℚ) := by exact_mod_cast hM
    rw [e, le_div_iff₀ hM']
    have h1 : ((k * (M : Int) : Int) : ℚ) ≤ x * (M : ℚ) := by
      push_cast
      exact mul_le_mul_of_nonneg_right h (le_of_lt hM')
    have h2 := le_round_half_even _ _ h1
    have h3 : ((k * (M : Int) : Int) : ℚ) ≤ (round_half_even (x * (M : ℚ)) : ℚ) := by
      exact_mod_cast h2
    push_cast at h3
    exact h3

/-- Binary64 rounding does not go above an integer that the rational is not
above. -/
theorem gdouble_round_le (k : Int) (x : ℚ) (hlt : |x| < 2 ^ 53) (h : x ≤ (k : ℚ)) :
    gdouble_round x ≤ (k : ℚ) := by
  by_cases hx : x = 0
  · rw [hx] at h ⊢
    unfold gdouble_round
    rw [if_pos rfl]
    exact h
  · obtain ⟨M, hM, e⟩ := gdouble_round_eq x hx hlt
    have hM' : (0 : ℚ) < (M : ℚ) := by exact_mod_cast hM
    rw [e, div_le_iff₀ hM']
    have h1 : x * (M : ℚ) ≤ ((k * (M : Int) : Int) : ℚ) := by
      push_cast
      exact mul_le_mul_of_nonneg_right h (le_of_lt hM')
    have h2 := round_half_even_le _ _ h1
    have h3 : (round_half_even (x * (M : ℚ)) : ℚ) ≤ ((k * (M : Int) : Int) : ℚ) := by
      exact_mod_cast h2
    push_cast at h3
    exact h3

/-- An integer below `2 ^ 53` in size is a binary64 value. -/
theorem gdouble_round_int (k : Int) (hlt : |(k : ℚ)| < 2 ^ 53) : gdouble_round (k : ℚ) = k :=
  le_antisymm (gdouble_round_le k _ hlt (le_refl _)) (le_gdouble_round k _ hlt (le_refl _))

/-- The binary64 value that `gdouble_round` gives is a nearest one: it is a
multiple of the spacing `2 ^ (e - 52)` at the exponent `e` of the rational, and
within half the spacing of the rational. -/
theorem gdouble_round_near (x : ℚ) (hx : x ≠ 0) :
    (∃ n : Int, gdouble_round x =
      (n : ℚ) * 2 ^ (max (gdouble_exponent x) (-1022) - 52)) ∧
    |gdouble_round x - x| ≤ 2 ^ (max (gdouble_exponent x) (-1022) - 52) / 2 := by
  have hu : (0 : ℚ) < 2 ^ (max (gdouble_exponent x) (-1022) - 52) := by positivity
  unfold gdouble_round
  rw [if_neg hx]
  refine ⟨⟨_, rfl⟩, ?_⟩
  have h := round_half_even_near (x / 2 ^ (max (gdouble_exponent x) (-1022) - 52))
  have e : (round_half_even (x / 2 ^ (max (gdouble_exponent x) (-1022) - 52)) : ℚ) *
      2 ^ (max (gdouble_exponent x) (-1022) - 52) - x =
      ((round_half_even (x / 2 ^ (max (gdouble_exponent x) (-1022) - 52)) : ℚ) -
        x / 2 ^ (max (gdouble_exponent x) (-1022) - 52)) *
        2 ^ (max (gdouble_exponent x) (-1022) - 52) := by
    field_simp
  rw [e, abs_mul, abs_of_pos hu]
  calc _ ≤ (1 / 2 : ℚ) * 2 ^ (max (gdouble_exponent x) (-1022) - 52) :=
        mul_le_mul_of_nonneg_right h (le_of_lt hu)
    _ = _ := by ring

/-! ## The best experiments of a generation -/

theorem top_insert_length (top : List experiment_t) :
    ∀ iter, (top_insert top iter).1.length = top.length := by
  induction top with
  | nil => intro iter; rfl
  | cons e t ih =>
    intro iter
    unfold top_insert
    split
    · simp [ih]
    · simp [ih]

/-- Passing an experiment along the array loses no experiment: the array and
the experiment that falls out are the old array and the one passed along. -/
theorem top_insert_perm (top : List experiment_t) :
    ∀ iter, ((top_insert top iter).2 :: (top_insert top iter).1).Perm (iter :: top) := by
  induction top with
  | nil => intro iter; exact List.Perm.refl _
  | cons e t ih =>
    intro iter
    unfold top_insert
    split
    · exact (List.Perm.swap _ _ _).trans ((ih e).cons iter)
    · exact (List.Perm.swap _ _ _).trans (((ih iter).cons e).trans (List.Perm.swap _ _ _))

/-- The experiment that falls out has the lowest score. -/
theorem top_insert_out (top : List experiment_t) :
    ∀ iter, (top_insert top iter).2.score ≤ iter.score ∧
      ∀ y ∈ (top_insert top iter).1, (top_insert top iter).2.score ≤ y.score := by
  induction top with
  | nil =>
    intro iter
    exact ⟨le_refl _, by simp [top_insert]⟩
  | cons e t ih =>
    intro iter
    unfold top_insert
    split
    · rename_i hlt
      obtain ⟨h1, h2⟩ := ih e
      refine ⟨by dsimp only; omega, ?_⟩
      intro y hy
      rcases List.mem_cons.1 hy with rfl | hy
      · dsimp only; omega
      · exact h2 y hy
    · rename_i hlt
      obtain ⟨h1, h2⟩ := ih iter
      refine ⟨h1, ?_⟩
      intro y hy
      rcases List.mem_cons.1 hy with rfl | hy
      · dsimp only; omega
      · exact h2 y hy

/-- Every experiment of the new array has at least the score of one of the old. -/
theorem top_insert_above (top : List experiment_t) :
    ∀ iter, ∀ a ∈ (top_insert top iter).1, ∃ e ∈ top, e.score ≤ a.score := by
  induction top with
  | nil =>
    intro iter a ha
    simp [top_insert] at ha
  | cons e t ih =>
    intro iter a ha
    unfold top_insert at ha
    split at ha
    · rename_i hlt
      rcases List.mem_cons.1 ha with rfl | ha
      · exact ⟨e, List.mem_cons_self _ _, le_of_lt hlt⟩
      · obtain ⟨e', he', hle⟩ := ih e a ha
        exact ⟨e', List.mem_cons_of_mem _ he', hle⟩
    · rcases List.mem_cons.1 ha with rfl | ha
      · exact ⟨a, List.mem_cons_self _ _, le_refl _⟩
      · obtain ⟨e', he', hle⟩ := ih iter a ha
        exact ⟨e', List.mem_cons_of_mem _ he', hle⟩

/-- The array of the best `size` experiments: with the experiments that fell
out it makes up the generation, and none that fell out has a higher score
than one that stayed. -/
theorem top_experiments_spec (experiments : List experiment_t) (size : Nat) :
    ∃ rest, (top_experiments experiments size ++ rest).Perm experiments ∧
      (∀ x ∈ top_experiments experiments size, ∀ y ∈ rest, y.score ≤ x.score) ∧
      (top_experiments experiments size).length = min size experiments.length := by
  unfold top_experiments
  have gen : ∀ (l top rest : List experiment_t),
      (∀ x ∈ top, ∀ y ∈ rest, y.score ≤ x.score) →
      ∃ rest1, ((l.foldl (fun top iter => (top_insert top iter).1) top) ++ rest1).Perm
          (top ++ rest ++ l) ∧
        (∀ x ∈ l.foldl (fun top iter => (top_insert top iter).1) top, ∀ y ∈ rest1,
          y.score ≤ x.score) ∧
        (l.foldl (fun top iter => (top_insert top iter).1) top).length = top.length := by
    intro l
    induction l with
    | nil =>
      intro top rest h
      exact ⟨rest, by simp, h, rfl⟩
    | cons x t ih =>
      intro top rest h
      rw [List.foldl_cons]
      obtain ⟨rest1, p1, p2, p3⟩ := ih (top_insert top x).1 ((top_insert top x).2 :: rest) (by
        intro a ha y hy
        rcases List.mem_cons.1 hy with rfl | hy
        · exact (top_insert_out top x).2 a ha
        · obtain ⟨e, he, hle⟩ := top_insert_above top x a ha
          exact le_trans (h e he y hy) hle)
      refine ⟨rest1, p1.trans ?_, p2, by rw [p3, top_insert_length]⟩
      have q := top_insert_perm top x
      have q1 : ((top_insert top x).1 ++ (top_insert top x).2 :: rest).Perm
          (x :: (top ++ rest)) := by
        refine (List.perm_middle).trans ?_
        rw [← List.cons_append]
        exact (q.append_right rest)
      refine (q1.append_right t).trans ?_
      rw [List.cons_append]
      exact (List.perm_middle).symm
  obtain ⟨rest1, p1, p2, p3⟩ := gen (experiments.drop size) (experiments.take size) [] (by simp)
  refine ⟨rest1, ?_, p2, ?_⟩
  · simpa using p1
  · rw [p3, List.length_take]

/-! ## The parents -/

theorem gint_of_gdouble_floor {x : ℚ} (h0 : 0 ≤ x) (h1 : x ≤ 2147483647) :
    gint_of_gdouble x = ⌊x⌋ := by
  unfold gint_of_gdouble
  rw [if_pos ⟨by linarith, by linarith⟩, if_pos h0]
  rfl

/-- The size that `select_parent` and `breed` cut from a percentile in [0,1] of
the population: it is the percentile of the number of experiments rounded down
or up to a whole number (up when the binary64 product is a whole number that
the exact product does not reach), and it is within the array. -/
theorem percentile_size (experiments : List experiment_t) (p : ℚ)
    (hp : 0 ≤ p ∧ p ≤ 1) (hN : (experiments.length : Int) ≤ G_MAXINT) :
    ⌊(experiments.length : ℚ) * p⌋ ≤ percentile_slots (experiments.length : Int) p ∧
      percentile_slots (experiments.length : Int) p ≤ ⌈(experiments.length : ℚ) * p⌉ ∧
      0 ≤ percentile_slots (experiments.length : Int) p ∧
      percentile_slots (experiments.length : Int) p ≤ (experiments.length : Int) := by
  have hlen : (0 : ℚ) ≤ (experiments.length : ℚ) := Nat.cast_nonneg _
  have h0 : (0 : ℚ) ≤ (experiments.length : ℚ) * p := mul_nonneg hlen hp.1
  have h1 : (experiments.length : ℚ) * p ≤ (experiments.length : ℚ) := by
    calc (experiments.length : ℚ) * p ≤ (experiments.length : ℚ) * 1 :=
          mul_le_mul_of_nonneg_left hp.2 hlen
      _ = (experiments.length : ℚ) := mul_one _
  have h2 : (experiments.length : ℚ) ≤ 2147483647 := by
    unfold G_MAXINT at hN
    exact_mod_cast hN
  have habs : |(experiments.length : ℚ) * p| < 2 ^ 53 := by
    rw [abs_of_nonneg h0]
    have : (2147483647 : ℚ) < 2 ^ 53 := by norm_num
    linarith
  have r0 : (0 : ℚ) ≤ gdouble_round ((experiments.length : ℚ) * p) := by
    have := le_gdouble_round 0 _ habs (by exact_mod_cast h0)
    exact_mod_cast this
  have r1 : gdouble_round ((experiments.length : ℚ) * p) ≤ (experiments.length : ℚ) := by
    have := gdouble_round_le (experiments.length : Int) _ habs (by exact_mod_cast h1)
    exact_mod_cast this
  have r2 : ((⌊(experiments.length : ℚ) * p⌋ : Int) : ℚ) ≤
      gdouble_round ((experiments.length : ℚ) * p) :=
    le_gdouble_round _ _ habs (Int.floor_le _)
  have r3 : gdouble_round ((experiments.length : ℚ) * p) ≤
      ((⌈(experiments.length : ℚ) * p⌉ : Int) : ℚ) :=
    gdouble_round_le _ _ habs (Int.le_ceil _)
  have e : percentile_slots (experiments.length : Int) p =
      ⌊gdouble_round ((experiments.length : ℚ) * p)⌋ := by
    unfold percentile_slots gdouble_mul
    rw [Int.cast_natCast]
    exact gint_of_gdouble_floor r0 (le_trans r1 h2)
  rw [e]
  refine ⟨Int.le_floor.2 r2, ?_, Int.floor_nonneg.2 r0, ?_⟩
  · have h3 : ((⌊gdouble_round ((experiments.length : ℚ) * p)⌋ : Int) : ℚ) ≤
        ((⌈(experiments.length : ℚ) * p⌉ : Int) : ℚ) := le_trans (Int.floor_le _) r3
    exact_mod_cast h3
  · have h3 : ((⌊gdouble_round ((experiments.length : ℚ) * p)⌋ : Int) : ℚ) ≤
        (((experiments.length : Int) : Int) : ℚ) := by
      rw [Int.cast_natCast]
      exact le_trans (Int.floor_le _) r1
    exact_mod_cast h3

theorem weight_fold_sum (l : List experiment_t) :
    ∀ acc : Int, 0 ≤ acc → (∀ e ∈ l, 0 ≤ score_weight e) →
      acc + (l.map score_weight).sum ≤ G_MAXINT →
      l.foldl (fun total e => gint_wrap (total + score_weight e)) acc =
        acc + (l.map score_weight).sum := by
  induction l with
  | nil =>
    intro acc _ _ _
    simp
  | cons e t ih =>
    intro acc h0 hw hs
    have he := hw e (List.mem_cons_self _ _)
    have ht : 0 ≤ (t.map score_weight).sum :=
      List.sum_nonneg (fun x hx => by
        obtain ⟨y, hy, rfl⟩ := List.mem_map.1 hx
        exact hw y (List.mem_cons_of_mem _ hy))
    simp only [List.map_cons, List.sum_cons] at hs
    unfold G_MAXINT at hs
    rw [List.foldl_cons, gint_wrap_of_range (by omega) (by omega),
      ih _ (by omega) (fun x hx => hw x (List.mem_cons_of_mem _ hx))
        (by unfold G_MAXINT; omega)]
    simp only [List.map_cons, List.sum_cons]
    omega

theorem weighted_length (l : List experiment_t) (hw : ∀ e ∈ l, 0 ≤ score_weight e) :
    ((l.flatMap fun e => List.replicate (score_weight e).toNat e).length : Int) =
      (l.map score_weight).sum := by
  induction l with
  | nil => simp
  | cons e t ih =>
    have he := hw e (List.mem_cons_self _ _)
    simp only [List.flatMap_cons, List.length_append, List.length_replicate, List.map_cons,
      List.sum_cons, Nat.cast_add]
    rw [ih (fun x hx => hw x (List.mem_cons_of_mem _ hx)), Int.toNat_of_nonneg he]

/-- C15, counterexample: with four experiments and the breed percentile 1/5
(as a double, the binary64 value nearest to 1/5) the binary64 product is under
1, the array of the best has no slot, and `select_parent` divides by zero
whatever `rand()` returns. -/
theorem parent_selection_counterexample :
    (0 : ℚ) < gdouble_round (1 / 5) ∧ gdouble_round (1 / 5) ≤ 1 ∧
    ⌈((4 : ℕ) : ℚ) * gdouble_round (1 / 5)⌉ = 1 ∧
    ∀ rand, select_parent generation_four (gdouble_round (1 / 5)) false rand = none := by
  refine ⟨by decide!, by decide!, by decide!, ?_⟩
  intro rand
  have h : percentile_slots (generation_four.length : Int) (gdouble_round (1 / 5)) = 0 := by
    decide!
  unfold select_parent
  simp only [h]
  simp

/-- The parent that `select_parent` returns is an entry of its array of the
best, in the uniform mode and, when the weights of the array are not negative
and add up to a positive `gint`, in the weighted mode. -/
theorem select_parent_top (experiments : List experiment_t) (breed_percentile : ℚ)
    (breed_weighted : Bool) (rand : Nat)
    (hb : 0 < breed_percentile ∧ breed_percentile ≤ 1)
    (hN : (experiments.length : Int) ≤ G_MAXINT)
    (hk : 1 ≤ (percentile_slots (experiments.length : Int) breed_percentile))
    (hw : breed_weighted = true →
      (∀ e ∈ top_experiments experiments
          (percentile_slots (experiments.length : Int) breed_percentile).toNat,
        0 ≤ score_weight e) ∧
      0 < ((top_experiments experiments
        (percentile_slots (experiments.length : Int) breed_percentile).toNat).map score_weight).sum ∧
      ((top_experiments experiments
        (percentile_slots (experiments.length : Int) breed_percentile).toNat).map score_weight).sum
        ≤ G_MAXINT) :
    ∃ parent, select_parent experiments breed_percentile breed_weighted rand = some parent ∧
      parent ∈ top_experiments experiments
        (percentile_slots (experiments.length : Int) breed_percentile).toNat := by
  obtain ⟨_, _, hk0, hkN⟩ := percentile_size experiments breed_percentile
    ⟨le_of_lt hb.1, hb.2⟩ hN
  have hlen := (top_experiments_spec experiments
    (percentile_slots (experiments.length : Int) breed_percentile).toNat).choose_spec.2.2
  have hpos : 0 < (top_experiments experiments
      (percentile_slots (experiments.length : Int) breed_percentile).toNat).length := by omega
  unfold select_parent
  simp only
  rw [if_neg (by omega)]
  cases hmode : breed_weighted with
  | false =>
    simp only [Bool.false_eq_true, not_false_eq_true, if_true]
    rw [if_neg (by omega)]
    have hidx : rand % (percentile_slots (experiments.length : Int) breed_percentile).toNat <
        (top_experiments experiments
          (percentile_slots (experiments.length : Int) breed_percentile).toNat).length := by
      have := Nat.mod_lt rand (show 0 < (percentile_slots (experiments.length : Int) breed_percentile).toNat
        by omega)
      omega
    refine ⟨(top_experiments experiments
      (percentile_slots (experiments.length : Int) breed_percentile).toNat)[rand %
        (percentile_slots (experiments.length : Int) breed_percentile).toNat], ?_, List.getElem_mem _⟩
    exact List.getElem?_eq_getElem hidx
  | true =>
    obtain ⟨w1, w2, w3⟩ := hw hmode
    simp only [not_true_eq_false, if_false]
    have hfold := weight_fold_sum (top_experiments experiments
      (percentile_slots (experiments.length : Int) breed_percentile).toNat) 0 (le_refl _) w1 (by omega)
    rw [zero_add] at hfold
    have hwl := weighted_length _ w1
    rw [hfold, if_neg (by omega), if_neg (by omega)]
    have hidx : rand % (((top_experiments experiments
        (percentile_slots (experiments.length : Int) breed_percentile).toNat).map score_weight).sum).toNat <
        ((top_experiments experiments
          (percentile_slots (experiments.length : Int) breed_percentile).toNat).flatMap
            fun e => List.replicate (score_weight e).toNat e).length := by
      have := Nat.mod_lt rand (show 0 < (((top_experiments experiments
        (percentile_slots (experiments.length : Int) breed_percentile).toNat).map score_weight).sum).toNat
        by omega)
      omega
    refine ⟨_, List.getElem?_eq_getElem hidx, ?_⟩
    have hmem := List.getElem_mem hidx
    obtain ⟨e, he, hrep⟩ := List.mem_flatMap.1 hmem
    rw [(List.mem_replicate.1 hrep).2]
    exact he


/-- C15, amended: let `n` be the size `(gint)(nexperiments * breed_percentile)`
of the array of the best, cut from the binary64 product of the number `N` of
experiments and a breed percentile `b` in (0,1]; it is `b N` rounded down, or
rounded up when the binary64 product is a whole number that `b N` does not
reach. When `n` is at least 1, `select_parent` returns, whatever `rand()`
returns, one of `n` experiments that no other experiment outscores: in the
uniform mode always, and in the weighted mode when none of these has a
negative weight `(gint)(score / 1024.0)` and the weights add up to a positive
`gint`. -/
theorem parent_selection (experiments : List experiment_t) (breed_percentile : ℚ)
    (breed_weighted : Bool) (rand : Nat)
    (hb : 0 < breed_percentile ∧ breed_percentile ≤ 1)
    (hN : (experiments.length : Int) ≤ G_MAXINT)
    (hk : 1 ≤ percentile_slots (experiments.length : Int) breed_percentile)
    (hw : breed_weighted = true →
      (∀ e ∈ top_experiments experiments
          (percentile_slots (experiments.length : Int) breed_percentile).toNat,
        0 ≤ score_weight e) ∧
      0 < ((top_experiments experiments
        (percentile_slots (experiments.length : Int) breed_percentile).toNat).map
          score_weight).sum ∧
      ((top_experiments experiments
        (percentile_slots (experiments.length : Int) breed_percentile).toNat).map
          score_weight).sum ≤ G_MAXINT) :
    ∃ (parent : experiment_t) (top rest : List experiment_t),
      select_parent experiments breed_percentile breed_weighted rand = some parent ∧
      parent ∈ top ∧
      (top.length : Int) = percentile_slots (experiments.length : Int) breed_percentile ∧
      ⌊(experiments.length : ℚ) * breed_percentile⌋ ≤ (top.length : Int) ∧
      (top.length : Int) ≤ ⌈(experiments.length : ℚ) * breed_percentile⌉ ∧
      (top ++ rest).Perm experiments ∧ ∀ x ∈ top, ∀ y ∈ rest, y.score ≤ x.score := by
  obtain ⟨hfloor, hceil, hk0, hkN⟩ := percentile_size experiments breed_percentile
    ⟨le_of_lt hb.1, hb.2⟩ hN
  obtain ⟨rest, hperm, hdom, hlen⟩ := top_experiments_spec experiments
    (percentile_slots (experiments.length : Int) breed_percentile).toNat
  obtain ⟨parent, h1, h2⟩ := select_parent_top experiments breed_percentile breed_weighted rand
    hb hN hk hw
  have hl : ((top_experiments experiments
      (percentile_slots (experiments.length : Int) breed_percentile).toNat).length : Int) =
      percentile_slots (experiments.length : Int) breed_percentile := by
    rw [hlen]
    omega
  refine ⟨parent, _, rest, h1, h2, hl, ?_, ?_, hperm, hdom⟩
  · rw [hl]
    exact hfloor
  · rw [hl]
    exact hceil

/-- C15 on ten experiments with the breed percentile 0.7 in the uniform mode:
the binary64 product of 10 and the double 0.7 is 7, where the exact product is
under 7, so the array of the best has seven slots, and the parent drawn is one
of seven experiments that no other outscores. -/
theorem parent_selection_witness :
    percentile_slots ((generation_ten.length : Nat) : Int) (gdouble_round (7 / 10)) = 7 ∧
    ⌊(generation_ten.length : ℚ) * gdouble_round (7 / 10)⌋ = 6 ∧
    ∃ (parent : experiment_t) (top rest : List experiment_t),
      select_parent generation_ten (gdouble_round (7 / 10)) false 0 = some parent ∧
      parent ∈ top ∧
      (top.length : Int) =
        percentile_slots ((generation_ten.length : Nat) : Int) (gdouble_round (7 / 10)) ∧
      ⌊(generation_ten.length : ℚ) * gdouble_round (7 / 10)⌋ ≤ (top.length : Int) ∧
      (top.length : Int) ≤ ⌈(generation_ten.length : ℚ) * gdouble_round (7 / 10)⌉ ∧
      (top ++ rest).Perm generation_ten ∧ ∀ x ∈ top, ∀ y ∈ rest, y.score ≤ x.score :=
  ⟨by decide!, by decide!,
    parent_selection generation_ten (gdouble_round (7 / 10)) false 0 (by decide!) (by decide)
      (by decide!) (by intro h; cases h)⟩

/-! ## The elites -/

/-- The copy of a table, made entry by entry, is the table. -/
theorem copy_selection_eq (t : GHashTable download_t circuit_t)
    (hn : (g_hash_table_get_keys t).Nodup) : copy_selection t = t := by
  unfold copy_selection
  have gen : ∀ (l acc : GHashTable download_t circuit_t),
      (g_hash_table_get_keys (acc ++ l)).Nodup →
      l.foldl (fun t entry => g_hash_table_insert t entry.1 entry.2) acc = acc ++ l := by
    intro l
    induction l with
    | nil => intro acc _; simp
    | cons e l ih =>
      intro acc h
      rw [List.foldl_cons]
      have hnot : e.1 ∉ g_hash_table_get_keys acc := by
        unfold g_hash_table_get_keys at h ⊢
        rw [List.map_append, List.map_cons] at h
        have := (List.nodup_append.1 h).2.2
        intro hmem
        exact this hmem (List.mem_cons_self _ _)
      rw [insert_of_not_mem _ _ _ hnot, ih]
      · simp
      · simpa using h
  simpa using gen t [] (by simpa using hn)

theorem breed_child_none (rand : Nat → Nat) (experiments : List experiment_t)
    (downloads : List download_t) (b : ℚ) (w : Bool) (μ : ℚ) (l : List Nat) :
    l.foldl (breed_child rand experiments downloads b w μ) none = none := by
  induction l with
  | nil => rfl
  | cons x t ih => exact ih

/-- The loop of `breed` over the slots of the children makes one child a slot. -/
theorem breed_children_length (rand : Nat → Nat) (experiments : List experiment_t)
    (downloads : List download_t) (b : ℚ) (w : Bool) (μ : ℚ) (l : List Nat) :
    ∀ (children : List (GHashTable download_t circuit_t)) (pos : Nat)
      (result : List (GHashTable download_t circuit_t) × Nat),
      l.foldl (breed_child rand experiments downloads b w μ) (some (children, pos)) =
        some result →
      result.1.length = children.length + l.length := by
  induction l with
  | nil =>
    intro children pos result h
    simp only [List.foldl_nil, Option.some.injEq] at h
    rw [← h]
    rfl
  | cons x t ih =>
    intro children pos result h
    rw [List.foldl_cons] at h
    cases hc : breed_child rand experiments downloads b w μ (some (children, pos)) x with
    | none =>
      rw [hc, breed_child_none] at h
      cases h
    | some r =>
      rw [hc] at h
      obtain ⟨c1, p1⟩ := r
      have hlen : c1.length = children.length + 1 := by
        unfold breed_child at hc
        dsimp only at hc
        split at hc
        · split at hc
          · cases hc
          · cases hc
            simp
        · cases hc
      rw [ih c1 p1 result h, hlen, List.length_cons]
      omega

theorem zipWith_selection (a : List experiment_t) :
    ∀ b : List (GHashTable download_t circuit_t),
      (List.zipWith (fun (e : experiment_t) s => { e with circuit_selection := s }) a b).map
        (fun e => e.circuit_selection) = b.take a.length := by
  induction a with
  | nil => intro b; simp
  | cons x t ih =>
    intro b
    cases b with
    | nil => simp
    | cons y u => simp [ih]

theorem breed_download_none (rand : Nat → Nat) (μ : ℚ) (parent1 parent2 : experiment_t)
    (l : List download_t) :
    l.foldl (breed_download rand μ parent1 parent2) none = none := by
  induction l with
  | nil => rfl
  | cons d l ih => simpa [breed_download] using ih

theorem breed_download_spec {rand : Nat → Nat} {μ : ℚ} {parent1 parent2 : experiment_t}
    {t t' : GHashTable download_t circuit_t} {pos pos' : Nat} {d : download_t}
    (h : breed_download rand μ parent1 parent2 (some (t, pos)) d = some (t', pos')) :
    ∃ c, t' = g_hash_table_insert t d c ∧
      (c ∈ d.circuits ∨ g_hash_table_lookup parent1.circuit_selection d = some c ∨
        g_hash_table_lookup parent2.circuit_selection d = some c) := by
  unfold breed_download at h
  simp only at h
  cases h1 : g_hash_table_lookup parent1.circuit_selection d with
  | none => simp [h1] at h
  | some c1 =>
    cases h2 : g_hash_table_lookup parent2.circuit_selection d with
    | none => simp [h1, h2] at h
    | some c2 =>
      simp only [h1, h2] at h
      split_ifs at h with hm h0 hhalf
      · cases hi : d.circuits[rand (pos + 1) % d.circuits.length]? with
        | none => simp [hi] at h
        | some c =>
          simp only [hi, Option.some.injEq, Prod.mk.injEq] at h
          exact ⟨c, h.1.symm, Or.inl (List.getElem?_mem hi)⟩
      · simp only [Option.some.injEq, Prod.mk.injEq] at h
        exact ⟨c1, h.1.symm, Or.inr (Or.inl rfl)⟩
      · simp only [Option.some.injEq, Prod.mk.injEq] at h
        exact ⟨c2, h.1.symm, Or.inr (Or.inr rfl)⟩

theorem mem_zipWith_selection (a : List experiment_t) :
    ∀ (b : List (GHashTable download_t circuit_t)) (y : experiment_t),
      y ∈ List.zipWith (fun (e : experiment_t) s => { e with circuit_selection := s }) a b →
      y.circuit_selection ∈ b := by
  induction a with
  | nil => intro b y h; simp at h
  | cons e a ih =>
    intro b y h
    cases b with
    | nil => simp at h
    | cons s b =>
      simp only [List.zipWith_cons_cons, List.mem_cons] at h
      rcases h with h | h
      · rw [h]
        exact List.mem_cons_self _ _
      · exact List.mem_cons_of_mem _ (ih b y h)

/-- The loop of `breed` over the downloads gives every download the circuit of
one of the parents or a circuit of its pool. -/
theorem breed_download_child {rand : Nat → Nat} {μ : ℚ} {parent1 parent2 : experiment_t}
    (l : List download_t) :
    ∀ (t t' : GHashTable download_t circuit_t) (pos pos' : Nat),
      l.foldl (breed_download rand μ parent1 parent2) (some (t, pos)) = some (t', pos') →
      (∀ d, (∃ c, g_hash_table_lookup t d = some c ∧
          (c ∈ d.circuits ∨ g_hash_table_lookup parent1.circuit_selection d = some c ∨
            g_hash_table_lookup parent2.circuit_selection d = some c)) →
        ∃ c, g_hash_table_lookup t' d = some c ∧
          (c ∈ d.circuits ∨ g_hash_table_lookup parent1.circuit_selection d = some c ∨
            g_hash_table_lookup parent2.circuit_selection d = some c)) ∧
      ∀ d ∈ l, ∃ c, g_hash_table_lookup t' d = some c ∧
        (c ∈ d.circuits ∨ g_hash_table_lookup parent1.circuit_selection d = some c ∨
          g_hash_table_lookup parent2.circuit_selection d = some c) := by
  induction l with
  | nil =>
    intro t t' pos pos' h
    simp only [List.foldl_nil, Option.some.injEq, Prod.mk.injEq] at h
    rw [← h.1]
    exact ⟨fun _ hd => hd, by simp⟩
  | cons d l ih =>
    intro t t' pos pos' h
    rw [List.foldl_cons] at h
    cases h1 : breed_download rand μ parent1 parent2 (some (t, pos)) d with
    | none =>
      rw [h1, breed_download_none] at h
      cases h
    | some r =>
      obtain ⟨t1, pos1⟩ := r
      rw [h1] at h
      obtain ⟨c, ht1, hc⟩ := breed_download_spec h1
      obtain ⟨hkeep, hall⟩ := ih t1 t' pos1 pos' h
      have hd1 : ∃ c, g_hash_table_lookup t1 d = some c ∧
          (c ∈ d.circuits ∨ g_hash_table_lookup parent1.circuit_selection d = some c ∨
            g_hash_table_lookup parent2.circuit_selection d = some c) := by
        refine ⟨c, ?_, hc⟩
        rw [ht1, lookup_insert, if_pos rfl]
      refine ⟨?_, ?_⟩
      · intro x hx
        apply hkeep
        by_cases e : x = d
        · rw [e]
          exact hd1
        · obtain ⟨c', hc', hp⟩ := hx
          refine ⟨c', ?_, hp⟩
          rw [ht1, lookup_insert, if_neg e]
          exact hc'
      · intro x hx
        rcases List.mem_cons.1 hx with e | e
        · rw [e]
          exact hkeep d hd1
        · exact hall x e

/-- Every slot that the loop of `breed` over the children fills holds a child
of two parents that `select_parent` returned. -/
theorem breed_child_slots {rand : Nat → Nat} {experiments : List experiment_t}
    {downloads : List download_t} {b : ℚ} {w : Bool} {μ : ℚ} (l : List Nat) :
    ∀ (children r : List (GHashTable download_t circuit_t)) (pos pos' : Nat),
      l.foldl (breed_child rand experiments downloads b w μ) (some (children, pos)) =
        some (r, pos') →
      (∀ t ∈ children, child_slot experiments downloads b w t) →
      ∀ t ∈ r, child_slot experiments downloads b w t := by
  induction l with
  | nil =>
    intro children r pos pos' h hc
    simp only [List.foldl_nil, Option.some.injEq, Prod.mk.injEq] at h
    rw [← h.1]
    exact hc
  | cons i l ih =>
    intro children r pos pos' h hc
    rw [List.foldl_cons] at h
    cases h1 : breed_child rand experiments downloads b w μ (some (children, pos)) i with
    | none =>
      rw [h1, breed_child_none] at h
      cases h
    | some q =>
      obtain ⟨children1, pos1⟩ := q
      rw [h1] at h
      apply ih children1 r pos1 pos' h
      unfold breed_child at h1
      simp only at h1
      cases hs1 : select_parent experiments b w (rand pos) with
      | none => simp [hs1] at h1
      | some parent1 =>
        cases hs2 : select_parent experiments b w (rand (pos + 1)) with
        | none => simp [hs1, hs2] at h1
        | some parent2 =>
          simp only [hs1, hs2] at h1
          cases hf : downloads.foldl (breed_download rand μ parent1 parent2)
              (some ([], pos + 2)) with
          | none => simp [hf] at h1
          | some q1 =>
            obtain ⟨child, p⟩ := q1
            simp only [hf, Option.some.injEq, Prod.mk.injEq] at h1
            obtain ⟨_, hall⟩ := breed_download_child downloads [] child (pos + 2) p hf
            intro t ht
            rw [← h1.1] at ht
            rcases List.mem_append.1 ht with e | e
            · exact hc t e
            · simp only [List.mem_singleton] at e
              subst e
              exact ⟨rand pos, rand (pos + 1), parent1, parent2, hs1, hs2, hall⟩

/-- C14, counterexample: with two experiments and the elite percentile 1/4 no
slot is an elite slot; when both children are mutated, the assignment of the
experiment of the highest score is in no slot of the new generation. -/
theorem elite_selection_counterexample :
    ⌈((2 : ℕ) : ℚ) * (1 / 4)⌉ = 1 ∧
    breed (fun _ => 1) generation_two [ex_arrival 1 0 10000] (1 / 2) false (1 / 4) 1
      = some generation_two_bred ∧
    (∀ x ∈ generation_two, x.score ≤ experiment_wide.score) ∧
    ∀ y ∈ generation_two_bred, y.circuit_selection ≠ experiment_wide.circuit_selection := by
  refine ⟨?_, by decide!, by decide, by decide⟩
  rw [Int.ceil_eq_iff]
  norm_num

/-- The generation that `breed` returns, for an elite percentile in [0,1]: every
experiment keeps its score and is given the assignment of its slot, the slots
being the copies of the array of the best and then the children. -/
theorem breed_spec {rand : Nat → Nat} {experiments : List experiment_t}
    {downloads : List download_t} {breed_percentile : ℚ} {breed_weighted : Bool}
    {elite_percentile : ℚ} {mutation_probability : ℚ} {new_generation : List experiment_t}
    (he : 0 ≤ elite_percentile ∧ elite_percentile ≤ 1)
    (hN : (experiments.length : Int) ≤ G_MAXINT)
    (h : breed rand experiments downloads breed_percentile breed_weighted elite_percentile
      mutation_probability = some new_generation) :
    ∃ children : List (GHashTable download_t circuit_t),
      children.length =
        experiments.length - (percentile_slots (experiments.length : Int)
          elite_percentile).toNat ∧
      (∀ t ∈ children, child_slot experiments downloads breed_percentile breed_weighted t) ∧
      new_generation =
        List.zipWith (fun (e : experiment_t) s => { e with circuit_selection := s }) experiments
          ((top_experiments experiments
            (percentile_slots (experiments.length : Int) elite_percentile).toNat).map
              (fun e => copy_selection e.circuit_selection) ++ children) := by
  obtain ⟨_, _, hk0, hkN⟩ := percentile_size experiments elite_percentile he hN
  unfold breed breed_selections at h
  simp only at h
  rw [if_neg (by omega)] at h
  cases hfold : (List.range (experiments.length -
      (percentile_slots (experiments.length : Int) elite_percentile).toNat)).foldl
      (breed_child rand experiments downloads breed_percentile breed_weighted
        mutation_probability) (some ([], 0)) with
  | none =>
    rw [hfold] at h
    cases h
  | some result =>
    rw [hfold] at h
    obtain ⟨children, pos⟩ := result
    simp only [Option.map_some', Option.some.injEq] at h
    have hchildren := breed_children_length _ _ _ _ _ _ _ _ _ _ hfold
    simp only [List.length_nil, zero_add, List.length_range] at hchildren
    exact ⟨children, hchildren,
      breed_child_slots _ [] children 0 pos hfold (by intro t ht; cases ht), h.symm⟩

/-- C14, amended: let `n` be the number `(gint)(nexperiments * elite_percentile)`
of elite slots, cut from the binary64 product of the number `N` of experiments
and an elite percentile `e` in [0,1]; it is `e N` rounded down, or rounded up
when the binary64 product is a whole number that `e N` does not reach. When
`breed` returns, the new generation has as many slots as the old; its first
`n` slots hold the assignments, entry for entry, of `n` experiments of the old
generation that no other experiment outscores; and every other slot holds a
child: an assignment that gives every download the circuit that one of two
parents returned by `select_parent` has for it, or a circuit of the pool of
the download. -/
theorem elite_selection (rand : Nat → Nat) (experiments : List experiment_t)
    (downloads : List download_t) (breed_percentile : ℚ) (breed_weighted : Bool)
    (elite_percentile : ℚ) (mutation_probability : ℚ) (new_generation : List experiment_t)
    (he : 0 ≤ elite_percentile ∧ elite_percentile ≤ 1)
    (hN : (experiments.length : Int) ≤ G_MAXINT)
    (htables : ∀ x ∈ experiments, (g_hash_table_get_keys x.circuit_selection).Nodup)
    (h : breed rand experiments downloads breed_percentile breed_weighted elite_percentile
      mutation_probability = some new_generation) :
    ∃ (elites rest : List experiment_t),
      (elites.length : Int) = percentile_slots (experiments.length : Int) elite_percentile ∧
      ⌊(experiments.length : ℚ) * elite_percentile⌋ ≤ (elites.length : Int) ∧
      (elites.length : Int) ≤ ⌈(experiments.length : ℚ) * elite_percentile⌉ ∧
      (elites ++ rest).Perm experiments ∧
      (∀ x ∈ elites, ∀ y ∈ rest, y.score ≤ x.score) ∧
      new_generation.length = experiments.length ∧
      (new_generation.take elites.length).map (fun x => x.circuit_selection) =
        elites.map (fun x => x.circuit_selection) ∧
      ∀ y ∈ new_generation.drop elites.length,
        child_slot experiments downloads breed_percentile breed_weighted
          y.circuit_selection := by
  obtain ⟨hfloor, hceil, hk0, hkN⟩ := percentile_size experiments elite_percentile he hN
  obtain ⟨rest, hperm, hdom, hlen⟩ := top_experiments_spec experiments
    (percentile_slots (experiments.length : Int) elite_percentile).toNat
  have hlen' : ((top_experiments experiments
      (percentile_slots (experiments.length : Int) elite_percentile).toNat).length : Int) =
      percentile_slots (experiments.length : Int) elite_percentile := by
    rw [hlen]
    omega
  obtain ⟨children, hchildren, hslots, hnew⟩ := breed_spec he hN h
  have hcopy : (top_experiments experiments
      (percentile_slots (experiments.length : Int) elite_percentile).toNat).map
      (fun e => copy_selection e.circuit_selection) =
      (top_experiments experiments
        (percentile_slots (experiments.length : Int) elite_percentile).toNat).map
        (fun e => e.circuit_selection) := by
    apply List.map_congr_left
    intro x hx
    exact copy_selection_eq _ (htables x (hperm.mem_iff.1 (List.mem_append_left _ hx)))
  refine ⟨_, rest, hlen', ?_, ?_, hperm, hdom, ?_, ?_, ?_⟩
  · rw [hlen']
    exact hfloor
  · rw [hlen']
    exact hceil
  · rw [hnew, List.length_zipWith, List.length_append, List.length_map, hchildren]
    omega
  · rw [hnew, List.map_take, zipWith_selection, List.take_take, hcopy]
    rw [List.take_append_of_le_length (by rw [List.length_map]; omega)]
    rw [List.take_of_length_le (by rw [List.length_map]; omega)]
  · intro y hy
    apply hslots
    rw [hnew, List.drop_zipWith] at hy
    have hmem := mem_zipWith_selection _ _ y hy
    have hl : ((top_experiments experiments
        (percentile_slots (experiments.length : Int) elite_percentile).toNat).map
        (fun e => copy_selection e.circuit_selection)).length =
        (top_experiments experiments
          (percentile_slots (experiments.length : Int) elite_percentile).toNat).length := by
      rw [List.length_map]
    rw [← hl, List.drop_left] at hmem
    exact hmem

/-- C14 on twenty experiments with the elite percentile 0.15: the binary64
product of 20 and the double 0.15 is 3, where the exact product is under 3, so
three slots are elite slots; they hold the assignments of three experiments
that no other outscores, and the other seventeen slots hold children. -/
theorem elite_selection_witness :
    percentile_slots ((generation_twenty.length : Nat) : Int) (gdouble_round (3 / 20)) = 3 ∧
    ⌊(generation_twenty.length : ℚ) * gdouble_round (3 / 20)⌋ = 2 ∧
    ∃ (elites rest : List experiment_t),
      (elites.length : Int) =
        percentile_slots ((generation_twenty.length : Nat) : Int) (gdouble_round (3 / 20)) ∧
      ⌊(generation_twenty.length : ℚ) * gdouble_round (3 / 20)⌋ ≤ (elites.length : Int) ∧
      (elites.length : Int) ≤ ⌈(generation_twenty.length : ℚ) * gdouble_round (3 / 20)⌉ ∧
      (elites ++ rest).Perm generation_twenty ∧
      (∀ x ∈ elites, ∀ y ∈ rest, y.score ≤ x.score) ∧
      generation_twenty_bred.length = generation_twenty.length ∧
      (generation_twenty_bred.take elites.length).map (fun x => x.circuit_selection) =
        elites.map (fun x => x.circuit_selection) ∧
      ∀ y ∈ generation_twenty_bred.drop elites.length,
        child_slot generation_twenty [ex_arrival 1 0 10000] (1 / 2) false
          y.circuit_selection :=
  ⟨by decide!, by decide!,
    elite_selection (fun _ => 1) generation_twenty [ex_arrival 1 0 10000] (1 / 2) false
      (gdouble_round (3 / 20)) 1 generation_twenty_bred
      (by decide!) (by decide) (by decide) (by decide!)⟩

/-! ## The best score from one generation to the next -/

/-- C16, counterexample: with the elite percentile 1/4 of the interval [0,1]
the generation of the two experiments of fitness 1000 and 500 has no elite
slot; when both children are mutated to the narrow circuit, every experiment
of the new generation has the fitness 500. -/
theorem elitism_counterexample :
    (∀ x ∈ generation_two,
      genetic_worker (genetic_info [ex_arrival 1 0 10000] relays_dwc) x = some x) ∧
    breed (fun _ => 1) generation_two [ex_arrival 1 0 10000] (1 / 2) false (1 / 4) 1
      = some generation_two_bred ∧
    compute_total_bandwidth [ex_arrival 1 0 10000] relays_dwc experiment_wide.circuit_selection
      (generate_downloads_by_tick [ex_arrival 1 0 10000])
      (sorted_ticks (generate_downloads_by_tick [ex_arrival 1 0 10000])) = some 1000 ∧
    ∀ y ∈ generation_two_bred,
      compute_total_bandwidth [ex_arrival 1 0 10000] relays_dwc y.circuit_selection
        (generate_downloads_by_tick [ex_arrival 1 0 10000])
        (sorted_ticks (generate_downloads_by_tick [ex_arrival 1 0 10000])) = some 500 := by
  refine ⟨by decide!, by decide!, by decide!, by decide!⟩

/-- C16, amended: when the elite percentile leaves at least one elite slot
(`⌊e N⌋ ≥ 1`) and every experiment carries the score that `genetic_worker`
gives its assignment, the generation that `breed` returns has, for every
experiment of the old generation, an experiment that `genetic_worker` gives at
least that score: the best score, the fitness cut to a `gint`, does not fall. -/
theorem elitism (rand : Nat → Nat) (downloads : List download_t)
    (relays : GHashTable String Int) (experiments : List experiment_t)
    (breed_percentile : ℚ) (breed_weighted : Bool) (elite_percentile : ℚ)
    (mutation_probability : ℚ) (new_generation : List experiment_t)
    (he : 0 ≤ elite_percentile ∧ elite_percentile ≤ 1)
    (hN : (experiments.length : Int) ≤ G_MAXINT)
    (hk : 1 ≤ ⌊(experiments.length : ℚ) * elite_percentile⌋)
    (htables : ∀ x ∈ experiments, (g_hash_table_get_keys x.circuit_selection).Nodup)
    (hscored : ∀ x ∈ experiments,
      genetic_worker (genetic_info downloads relays) x = some x)
    (h : breed rand experiments downloads breed_percentile breed_weighted elite_percentile
      mutation_probability = some new_generation) :
    ∀ x ∈ experiments, ∃ y ∈ new_generation, ∃ y1,
      genetic_worker (genetic_info downloads relays) y = some y1 ∧ x.score ≤ y1.score := by
  obtain ⟨hfloor, _, hk0, hkN⟩ := percentile_size experiments elite_percentile he hN
  obtain ⟨rest, hperm, hdom, hlen⟩ := top_experiments_spec experiments
    (percentile_slots (experiments.length : Int) elite_percentile).toNat
  obtain ⟨children, hchildren, _, hnew⟩ := breed_spec he hN h
  -- an elite that scores at least as high as `x`
  intro x hx
  have hpos : 0 < (top_experiments experiments
      (percentile_slots (experiments.length : Int) elite_percentile).toNat).length := by
    rw [hlen]
    omega
  obtain ⟨z, hz, hxz⟩ : ∃ z ∈ top_experiments experiments
      (percentile_slots (experiments.length : Int) elite_percentile).toNat, x.score ≤ z.score := by
    rcases List.mem_append.1 (hperm.mem_iff.2 hx) with hx1 | hx1
    · exact ⟨x, hx1, le_refl _⟩
    · obtain ⟨z, hz⟩ := List.exists_mem_of_length_pos hpos
      exact ⟨z, hz, hdom z hz x hx1⟩
  have hzmem : z ∈ experiments := hperm.mem_iff.1 (List.mem_append_left _ hz)
  -- its slot in the new generation
  obtain ⟨i, hi, hzi⟩ := List.getElem_of_mem hz
  have hi1 : i < experiments.length := by
    rw [hlen] at hi
    omega
  have hi2 : i < ((top_experiments experiments
      (percentile_slots (experiments.length : Int) elite_percentile).toNat).map
        (fun e => copy_selection e.circuit_selection) ++ children).length := by
    rw [List.length_append, List.length_map]
    omega
  subst hnew
  have hi3 : i < (List.zipWith
      (fun (e : experiment_t) s => { e with circuit_selection := s }) experiments
      ((top_experiments experiments
        (percentile_slots (experiments.length : Int) elite_percentile).toNat).map
          (fun e => copy_selection e.circuit_selection) ++ children)).length := by
    rw [List.length_zipWith]
    omega
  have hslot : (List.zipWith
      (fun (e : experiment_t) s => { e with circuit_selection := s }) experiments
      ((top_experiments experiments
        (percentile_slots (experiments.length : Int) elite_percentile).toNat).map
          (fun e => copy_selection e.circuit_selection) ++ children))[i] =
      { experiments[i] with circuit_selection := z.circuit_selection } := by
    rw [List.getElem_zipWith, List.getElem_append_left (by rw [List.length_map]; exact hi),
      List.getElem_map, hzi, copy_selection_eq _ (htables z hzmem)]
  refine ⟨_, List.getElem_mem hi3, { experiments[i] with
    circuit_selection := z.circuit_selection, score := z.score }, ?_, hxz⟩
  have hzs := hscored z hzmem
  unfold genetic_worker at hzs ⊢
  rw [hslot]
  dsimp only at hzs ⊢
  cases hc : compute_total_bandwidth (genetic_info downloads relays).downloads
      (genetic_info downloads relays).relays z.circuit_selection
      (genetic_info downloads relays).downloads_by_tick
      (genetic_info downloads relays).ticks with
  | none =>
    rw [hc] at hzs
    cases hzs
  | some total =>
    rw [hc] at hzs
    simp only [Option.map_some', Option.some.injEq] at hzs ⊢
    have hscore : gint_of_gdouble total = z.score := by
      have := congrArg experiment_t.score hzs
      exact this
    rw [hscore]

/-- C16 on two experiments with the elite percentile 1/2: the new generation
has an experiment of the score 1000 of the better of the two. -/
theorem elitism_witness :
    ∃ y ∈ [experiment_wide, { experiment_narrow with score := 500 }], ∃ y1,
      genetic_worker (genetic_info [ex_arrival 1 0 10000] relays_dwc) y = some y1 ∧
      experiment_wide.score ≤ y1.score :=
  elitism (fun _ => 1) [ex_arrival 1 0 10000] relays_dwc generation_two (1 / 2) false (1 / 2) 1
    [experiment_wide, { experiment_narrow with score := 500 }]
    (by norm_num) (by decide)
    (by
      have : ((generation_two.length : ℚ) * (1 / 2)) = 1 := by norm_num [generation_two]
      rw [this]
      norm_num)
    (by decide) (by decide!) (by decide!) experiment_wide (by decide)

/-! ## When `breed` returns -/

theorem breed_download_some (rand : Nat → Nat) (μ : ℚ) (parent1 parent2 : experiment_t)
    (l : List download_t)
    (h : ∀ d ∈ l, (∃ c, g_hash_table_lookup parent1.circuit_selection d = some c) ∧
      (∃ c, g_hash_table_lookup parent2.circuit_selection d = some c) ∧ d.circuits ≠ []) :
    ∀ (child : GHashTable download_t circuit_t) (pos : Nat),
      ∃ r, l.foldl (breed_download rand μ parent1 parent2) (some (child, pos)) = some r := by
  induction l with
  | nil =>
    intro child pos
    exact ⟨_, rfl⟩
  | cons d t ih =>
    intro child pos
    rw [List.foldl_cons]
    obtain ⟨⟨c1, h1⟩, ⟨c2, h2⟩, hpool⟩ := h d (List.mem_cons_self _ _)
    have hlen : 0 < d.circuits.length := List.length_pos.2 hpool
    have hstep : ∃ r, breed_download rand μ parent1 parent2 (some (child, pos)) d = some r := by
      unfold breed_download
      simp only [h1, h2]
      split
      · rw [if_neg (by omega)]
        have hidx : rand (pos + 1) % d.circuits.length < d.circuits.length :=
          Nat.mod_lt _ hlen
        rw [List.getElem?_eq_getElem hidx]
        exact ⟨_, rfl⟩
      · split
        · exact ⟨_, rfl⟩
        · exact ⟨_, rfl⟩
    obtain ⟨r, hr⟩ := hstep
    rw [hr]
    exact ih (fun x hx => h x (List.mem_cons_of_mem _ hx)) r.1 r.2

/-- In the uniform mode `breed` returns a generation when the elite percentile
is in [0,1], the breed percentile in (0,1] leaves a parent to draw (the size
`(gint)(nexperiments * breed_percentile)` is at least 1), every experiment has
a circuit for every download, and no pool is empty. -/
theorem breed_returns (rand : Nat → Nat) (experiments : List experiment_t)
    (downloads : List download_t) (breed_percentile elite_percentile mutation_probability : ℚ)
    (he : 0 ≤ elite_percentile ∧ elite_percentile ≤ 1)
    (hb : 0 < breed_percentile ∧ breed_percentile ≤ 1)
    (hN : (experiments.length : Int) ≤ G_MAXINT)
    (hk : 1 ≤ percentile_slots (experiments.length : Int) breed_percentile)
    (hfull : ∀ x ∈ experiments, ∀ d ∈ downloads,
      ∃ c, g_hash_table_lookup x.circuit_selection d = some c)
    (hpool : ∀ d ∈ downloads, d.circuits ≠ []) :
    ∃ new_generation, breed rand experiments downloads breed_percentile false elite_percentile
      mutation_probability = some new_generation := by
  obtain ⟨_, _, hk0, hkN⟩ := percentile_size experiments elite_percentile he hN
  have hparent : ∀ r, ∃ parent,
      select_parent experiments breed_percentile false r = some parent ∧
      parent ∈ experiments := by
    intro r
    obtain ⟨parent, h1, h2⟩ := select_parent_top experiments breed_percentile false r hb hN hk
      (by intro h; cases h)
    obtain ⟨rest, hperm, _, _⟩ := top_experiments_spec experiments
      (percentile_slots (experiments.length : Int) breed_percentile).toNat
    have hmem := (top_experiments_spec experiments
      (percentile_slots (experiments.length : Int) breed_percentile).toNat).choose_spec.1
    exact ⟨parent, h1, hmem.mem_iff.1 (List.mem_append_left _ h2)⟩
  have hchild : ∀ (l : List Nat) (children : List (GHashTable download_t circuit_t))
      (pos : Nat), ∃ r, l.foldl (breed_child rand experiments downloads breed_percentile false
        mutation_probability) (some (children, pos)) = some r := by
    intro l
    induction l with
    | nil =>
      intro children pos
      exact ⟨_, rfl⟩
    | cons i t ih =>
      intro children pos
      rw [List.foldl_cons]
      obtain ⟨p1, hp1, hm1⟩ := hparent (rand pos)
      obtain ⟨p2, hp2, hm2⟩ := hparent (rand (pos + 1))
      obtain ⟨r, hr⟩ := breed_download_some rand mutation_probability p1 p2 downloads
        (fun d hd => ⟨hfull p1 hm1 d hd, hfull p2 hm2 d hd, hpool d hd⟩) [] (pos + 2)
      have hstep : breed_child rand experiments downloads breed_percentile false
          mutation_probability (some (children, pos)) i = some (children ++ [r.1], r.2) := by
        unfold breed_child
        simp only [hp1, hp2, hr]
      rw [hstep]
      exact ih _ _
  obtain ⟨r, hr⟩ := hchild (List.range (experiments.length -
    (percentile_slots (experiments.length : Int) elite_percentile).toNat)) [] 0
  unfold breed breed_selections
  simp only
  rw [if_neg (by omega), hr]
  exact ⟨_, rfl⟩

/-! ## The circuit builders -/

/-- The test of `g_strstr_len` is the test for a substring. -/
theorem strstr_chars_iff (haystack needle : List Char) :
    strstr_chars haystack needle = true ↔ needle <:+: haystack := by
  induction haystack with
  | nil =>
    simp [strstr_chars, List.isEmpty_iff]
  | cons c t ih =>
    rw [strstr_chars, Bool.or_eq_true, ih, List.infix_cons_iff, List.isPrefixOf_iff_prefix]

theorem place_exit_exit {bandwidth : ℚ} {relay1 relay2 relay3 : String} {c : circuit_t}
    (h : place_exit bandwidth relay1 relay2 relay3 = some c) :
    g_strstr_len c.exit "exit" = true := by
  unfold place_exit at h
  split at h
  · rename_i h3
    cases h
    exact h3
  · split at h
    · rename_i h2
      cases h
      exact h2
    · split at h
      · rename_i h1
        cases h
        exact h1
      · cases h

/-- What `place_exit` makes of three relays: the bandwidth it was given, and
the three relays in some order. -/
theorem place_exit_spec {bandwidth : ℚ} {relay1 relay2 relay3 : String} {c : circuit_t}
    (h : place_exit bandwidth relay1 relay2 relay3 = some c) :
    c.bandwidth = bandwidth ∧ relay_set c = {relay1, relay2, relay3} := by
  unfold place_exit at h
  unfold relay_set
  split at h
  · cases h
    exact ⟨rfl, rfl⟩
  · split at h
    · cases h
      refine ⟨rfl, ?_⟩
      ext x
      simp only [Finset.mem_insert, Finset.mem_singleton]
      tauto
    · split at h
      · cases h
        refine ⟨rfl, ?_⟩
        ext x
        simp only [Finset.mem_insert, Finset.mem_singleton]
        tauto
      · cases h

/-- Three relays of which one is an exit are made into a circuit. -/
theorem place_exit_some (bandwidth : ℚ) {relay1 relay2 relay3 : String}
    (h : g_strstr_len relay1 "exit" = true ∨ g_strstr_len relay2 "exit" = true ∨
      g_strstr_len relay3 "exit" = true) :
    ∃ c, place_exit bandwidth relay1 relay2 relay3 = some c := by
  unfold place_exit
  split
  · exact ⟨_, rfl⟩
  · split
    · exact ⟨_, rfl⟩
    · split
      · exact ⟨_, rfl⟩
      · rename_i h3 h2 h1
        rcases h with h | h | h
        · exact absurd h h1
        · exact absurd h h2
        · exact absurd h h3

/-- The circuits of `build_all_circuits`: one for every three positions
`i < j < k` of the key list whose relays `place_exit` makes into a circuit. -/
theorem mem_build_all_circuits (relays : GHashTable String Int) (c : circuit_t) :
    c ∈ build_all_circuits relays ↔
      ∃ i j k, i < j ∧ j < k ∧ k < g_hash_table_size relays ∧
        c ∈ all_circuits_at relays (g_hash_table_get_keys relays) i j k := by
  unfold build_all_circuits
  simp only [List.mem_flatMap, List.mem_range, List.mem_range'_1]
  constructor
  · rintro ⟨i, _, j, ⟨hj1, _⟩, k, ⟨hk1, hk2⟩, hc⟩
    exact ⟨i, j, k, by omega, by omega, by omega, hc⟩
  · rintro ⟨i, j, k, hij, hjk, hk, hc⟩
    exact ⟨i, by omega, j, ⟨by omega, by omega⟩, k, ⟨by omega, by omega⟩, hc⟩

theorem all_circuits_at_spec {relays : GHashTable String Int} {relay_list : List String}
    {i j k : Nat} {c : circuit_t} (h : c ∈ all_circuits_at relays relay_list i j k) :
    ∃ relay1 relay2 relay3, relay_list[i]? = some relay1 ∧ relay_list[j]? = some relay2 ∧
      relay_list[k]? = some relay3 ∧
      place_exit ((min (relay_capacity relays relay1)
        (min (relay_capacity relays relay2) (relay_capacity relays relay3)) : Int) : ℚ)
        relay1 relay2 relay3 = some c := by
  unfold all_circuits_at at h
  split at h
  · rename_i relay1 relay2 relay3 h1 h2 h3
    refine ⟨relay1, relay2, relay3, h1, h2, h3, ?_⟩
    simpa [Option.mem_toList] using h
  · simp at h

theorem pruned_init_circuits (relays : GHashTable String Int) :
    (pruned_init relays).circuits = [] := by
  unfold pruned_init
  generalize hst : ({ relay_bandwidth := [], relays_remaining := [], circuits := [] } :
    pruned_state) = st
  have hc : st.circuits = [] := by rw [← hst]
  clear hst
  induction relays generalizing st with
  | nil => exact hc
  | cons e t ih =>
    rw [List.foldl_cons]
    exact ih _ hc

/-- The circuits that a pass of the loop of `build_pruned_circuits` has are the
circuits it had, and at most one more, which `place_exit` made. -/
theorem pruned_step_circuits {st st1 : pruned_state} (h : pruned_step st = some st1) :
    ∃ bandwidth relay1 relay2 relay3,
      st1.circuits = st.circuits ++ (place_exit bandwidth relay1 relay2 relay3).toList := by
  unfold pruned_step at h
  split at h
  · cases h
  · split at h
    · dsimp only at h
      split at h
      · cases h
      · cases h
        exact ⟨_, _, _, _, rfl⟩
    · cases h

theorem pruned_loop_exit (n : Nat) :
    ∀ st : pruned_state, (∀ c ∈ st.circuits, g_strstr_len c.exit "exit" = true) →
      ∀ c ∈ (pruned_loop n st).circuits, g_strstr_len c.exit "exit" = true := by
  induction n with
  | zero =>
    intro st h
    exact h
  | succ n ih =>
    intro st h
    unfold pruned_loop
    cases hs : pruned_step st with
    | none => exact h
    | some st1 =>
      dsimp only
      apply ih
      obtain ⟨bw, r1, r2, r3, hc⟩ := pruned_step_circuits hs
      intro c hmem
      rw [hc, List.mem_append] at hmem
      rcases hmem with hmem | hmem
      · exact h c hmem
      · rw [Option.mem_toList] at hmem
        exact place_exit_exit hmem

/-- C17: every circuit that `build_all_circuits` returns and every circuit that
`build_pruned_circuits` returns has in its exit slot a relay whose name
contains the substring `exit`. -/
theorem circuit_exit_valid (relays : GHashTable String Int) :
    (∀ c ∈ build_all_circuits relays, "exit".toList <:+: c.exit.toList) ∧
    (∀ c ∈ build_pruned_circuits relays, "exit".toList <:+: c.exit.toList) := by
  constructor
  · intro c hc
    obtain ⟨i, j, k, _, _, _, hmem⟩ := (mem_build_all_circuits relays c).1 hc
    obtain ⟨_, _, _, _, _, _, hp⟩ := all_circuits_at_spec hmem
    exact (strstr_chars_iff _ _).1 (place_exit_exit hp)
  · intro c hc
    unfold build_pruned_circuits at hc
    refine (strstr_chars_iff _ _).1 (pruned_loop_exit _ _ ?_ c hc)
    intro c hmem
    rw [pruned_init_circuits] at hmem
    cases hmem

/-- Two positions of a list without repetition that hold the same element are
the same position. -/
theorem index_unique {l : List String} (hn : l.Nodup) {i j : Nat} {a : String}
    (hi : l[i]? = some a) (hj : l[j]? = some a) : i = j := by
  obtain ⟨hi', _⟩ := List.getElem?_eq_some.1 hi
  exact List.getElem?_inj hi' hn (hi.trans hj.symm)

/-- Three increasing positions of a list without repetition are known from the
set of the three elements they hold. -/
theorem triple_unique {l : List String} (hn : l.Nodup) {i j k i' j' k' : Nat}
    {a b c a' b' c' : String} (hij : i < j) (hjk : j < k) (hij' : i' < j') (hjk' : j' < k')
    (ha : l[i]? = some a) (hb : l[j]? = some b) (hc : l[k]? = some c)
    (ha' : l[i']? = some a') (hb' : l[j']? = some b') (hc' : l[k']? = some c')
    (h : ({a, b, c} : Finset String) = {a', b', c'}) : i = i' ∧ j = j' ∧ k = k' := by
  have mem : ∀ x, x ∈ ({a, b, c} : Finset String) ↔ x ∈ ({a', b', c'} : Finset String) := by
    intro x; rw [h]
  simp only [Finset.mem_insert, Finset.mem_singleton] at mem
  have e1 : i = i' ∨ i = j' ∨ i = k' := by
    rcases (mem a).1 (Or.inl rfl) with e | e | e
    · exact Or.inl (index_unique hn ha (e ▸ ha'))
    · exact Or.inr (Or.inl (index_unique hn ha (e ▸ hb')))
    · exact Or.inr (Or.inr (index_unique hn ha (e ▸ hc')))
  have e2 : j = i' ∨ j = j' ∨ j = k' := by
    rcases (mem b).1 (Or.inr (Or.inl rfl)) with e | e | e
    · exact Or.inl (index_unique hn hb (e ▸ ha'))
    · exact Or.inr (Or.inl (index_unique hn hb (e ▸ hb')))
    · exact Or.inr (Or.inr (index_unique hn hb (e ▸ hc')))
  have e3 : k = i' ∨ k = j' ∨ k = k' := by
    rcases (mem c).1 (Or.inr (Or.inr rfl)) with e | e | e
    · exact Or.inl (index_unique hn hc (e ▸ ha'))
    · exact Or.inr (Or.inl (index_unique hn hc (e ▸ hb')))
    · exact Or.inr (Or.inr (index_unique hn hc (e ▸ hc')))
  omega

/-- The relay sets of the circuits made at three positions. -/
theorem relay_set_at {relays : GHashTable String Int} {l : List String} {i j k : Nat}
    {s : Finset String} (h : s ∈ (all_circuits_at relays l i j k).map relay_set) :
    ∃ a b c, l[i]? = some a ∧ l[j]? = some b ∧ l[k]? = some c ∧ s = {a, b, c} ∧
      ∃ r ∈ s, g_strstr_len r "exit" = true := by
  obtain ⟨x, hx, rfl⟩ := List.mem_map.1 h
  obtain ⟨a, b, c, ha, hb, hc, hp⟩ := all_circuits_at_spec hx
  refine ⟨a, b, c, ha, hb, hc, (place_exit_spec hp).2, x.exit, ?_, place_exit_exit hp⟩
  simp [relay_set]

theorem relay_set_at_nodup (relays : GHashTable String Int) (l : List String) (i j k : Nat) :
    ((all_circuits_at relays l i j k).map relay_set).Nodup := by
  unfold all_circuits_at
  split
  · dsimp only
    cases place_exit _ _ _ _ <;> simp
  · simp

/-- Three different positions of a list, put in increasing order. -/
theorem sorted_positions {l : List String} {x y z : String} {ix iy iz : Nat}
    (hx : l[ix]? = some x) (hy : l[iy]? = some y) (hz : l[iz]? = some z)
    (hxy : ix ≠ iy) (hxz : ix ≠ iz) (hyz : iy ≠ iz) :
    ∃ (i j k : Nat) (a b c : String), i < j ∧ j < k ∧ l[i]? = some a ∧ l[j]? = some b ∧ l[k]? = some c ∧
      ({a, b, c} : Finset String) = {x, y, z} := by
  have perm : ∀ a b c : String, ({a, b, c} : Finset String) = {x, y, z} ↔
      ∀ r, (r = a ∨ r = b ∨ r = c) ↔ (r = x ∨ r = y ∨ r = z) := by
    intro a b c
    rw [Finset.ext_iff]
    simp only [Finset.mem_insert, Finset.mem_singleton]
  rcases Nat.lt_or_gt_of_ne hxy with h1 | h1 <;>
  rcases Nat.lt_or_gt_of_ne hxz with h2 | h2 <;>
  rcases Nat.lt_or_gt_of_ne hyz with h3 | h3
  · exact ⟨ix, iy, iz, x, y, z, h1, h3, hx, hy, hz, rfl⟩
  · exact ⟨ix, iz, iy, x, z, y, h2, h3, hx, hz, hy, (perm _ _ _).2 (fun r => by tauto)⟩
  · omega
  · exact ⟨iz, ix, iy, z, x, y, h2, h1, hz, hx, hy, (perm _ _ _).2 (fun r => by tauto)⟩
  · exact ⟨iy, ix, iz, y, x, z, h1, h2, hy, hx, hz, (perm _ _ _).2 (fun r => by tauto)⟩
  · omega
  · exact ⟨iy, iz, ix, y, z, x, h3, h2, hy, hz, hx, (perm _ _ _).2 (fun r => by tauto)⟩
  · exact ⟨iz, iy, ix, z, y, x, h3, h1, hz, hy, hx, (perm _ _ _).2 (fun r => by tauto)⟩

/-- C18: for a relay table with distinct relay names, the circuits that
`build_all_circuits` returns correspond one to one to the sets of three relays
of the table of which at least one is named as an exit: no two circuits have
the same set of relays, the set of every circuit is such a set, and every such
set is the set of the guard, the middle and the exit of a circuit. -/
theorem all_circuits_correspondence (relays : GHashTable String Int)
    (hn : (g_hash_table_get_keys relays).Nodup) :
    ((build_all_circuits relays).map relay_set).Nodup ∧
    ∀ s : Finset String, s ∈ (build_all_circuits relays).map relay_set ↔
      (s ⊆ (g_hash_table_get_keys relays).toFinset ∧ s.card = 3 ∧
        ∃ r ∈ s, "exit".toList <:+: r.toList) := by
  have hlen : g_hash_table_size relays = (g_hash_table_get_keys relays).length := by
    simp [g_hash_table_size, g_hash_table_get_keys]
  constructor
  · unfold build_all_circuits
    dsimp only
    rw [List.map_flatMap, List.nodup_flatMap]
    constructor
    · intro i _
      rw [List.map_flatMap, List.nodup_flatMap]
      constructor
      · intro j _
        rw [List.map_flatMap, List.nodup_flatMap]
        constructor
        · intro k _
          exact relay_set_at_nodup _ _ _ _ _
        · refine (List.nodup_range' (j + 1) _).imp_of_mem ?_
          intro k k' hk hk' hne s hs hs'
          obtain ⟨a, b, c, ha, hb, hc, rfl, _⟩ := relay_set_at hs
          obtain ⟨a', b', c', ha', hb', hc', e, _⟩ := relay_set_at hs'
          rw [List.mem_range'_1] at hk hk'
          have hj := (List.mem_range'_1.1 ‹j ∈ _›)
          exact hne (triple_unique hn (by omega) (by omega) (by omega) (by omega)
            ha hb hc ha' hb' hc' e).2.2
      · refine (List.nodup_range' (i + 1) _).imp_of_mem ?_
        intro j j' hj hj' hne s hs hs'
        dsimp only at hs hs'
        rw [List.map_flatMap, List.mem_flatMap] at hs hs'
        obtain ⟨k, hk, hs⟩ := hs
        obtain ⟨k', hk', hs'⟩ := hs'
        obtain ⟨a, b, c, ha, hb, hc, rfl, _⟩ := relay_set_at hs
        obtain ⟨a', b', c', ha', hb', hc', e, _⟩ := relay_set_at hs'
        rw [List.mem_range'_1] at hj hj' hk hk'
        exact hne (triple_unique hn (by omega) (by omega) (by omega) (by omega)
          ha hb hc ha' hb' hc' e).2.1
    · refine (List.nodup_range _).imp_of_mem ?_
      intro i i' _ _ hne s hs hs'
      dsimp only at hs hs'
      rw [List.map_flatMap, List.mem_flatMap] at hs hs'
      obtain ⟨j, hj, hs⟩ := hs
      obtain ⟨j', hj', hs'⟩ := hs'
      rw [List.map_flatMap, List.mem_flatMap] at hs hs'
      obtain ⟨k, hk, hs⟩ := hs
      obtain ⟨k', hk', hs'⟩ := hs'
      obtain ⟨a, b, c, ha, hb, hc, rfl, _⟩ := relay_set_at hs
      obtain ⟨a', b', c', ha', hb', hc', e, _⟩ := relay_set_at hs'
      rw [List.mem_range'_1] at hj hj' hk hk'
      exact hne (triple_unique hn (by omega) (by omega) (by omega) (by omega)
        ha hb hc ha' hb' hc' e).1
  · intro s
    constructor
    · intro hs
      obtain ⟨x, hx, rfl⟩ := List.mem_map.1 hs
      obtain ⟨i, j, k, hij, hjk, _, hmem⟩ := (mem_build_all_circuits relays x).1 hx
      obtain ⟨a, b, c, ha, hb, hc, hp⟩ := all_circuits_at_spec hmem
      have hset := (place_exit_spec hp).2
      refine ⟨?_, ?_, x.exit, by simp [relay_set], ?_⟩
      · rw [hset]
        intro r hr
        simp only [Finset.mem_insert, Finset.mem_singleton] at hr
        rw [List.mem_toFinset]
        rcases hr with rfl | rfl | rfl
        · exact List.getElem?_mem ha
        · exact List.getElem?_mem hb
        · exact List.getElem?_mem hc
      · rw [hset, Finset.card_eq_three]
        refine ⟨a, b, c, ?_, ?_, ?_, rfl⟩
        · intro e
          have := index_unique hn ha (e ▸ hb)
          omega
        · intro e
          have := index_unique hn ha (e ▸ hc)
          omega
        · intro e
          have := index_unique hn hb (e ▸ hc)
          omega
      · exact (strstr_chars_iff _ _).1 (place_exit_exit hp)
    · rintro ⟨hsub, hcard, r, hr, hexit⟩
      obtain ⟨x, y, z, hxy, hxz, hyz, rfl⟩ := Finset.card_eq_three.1 hcard
      have hmem : ∀ q ∈ ({x, y, z} : Finset String),
          ∃ n, (g_hash_table_get_keys relays)[n]? = some q := fun q hq =>
        List.mem_iff_getElem?.1 (List.mem_toFinset.1 (hsub hq))
      obtain ⟨ix, hx⟩ := hmem x (by simp)
      obtain ⟨iy, hy⟩ := hmem y (by simp)
      obtain ⟨iz, hz⟩ := hmem z (by simp)
      have d1 : ix ≠ iy := fun e => hxy (Option.some.inj ((e ▸ hx).symm.trans hy))
      have d2 : ix ≠ iz := fun e => hxz (Option.some.inj ((e ▸ hx).symm.trans hz))
      have d3 : iy ≠ iz := fun e => hyz (Option.some.inj ((e ▸ hy).symm.trans hz))
      obtain ⟨i, j, k, a, b, c, hij, hjk, ha, hb, hc, hset⟩ := sorted_positions hx hy hz d1 d2 d3
      have hr' : r = a ∨ r = b ∨ r = c := by
        rw [← hset] at hr
        simpa using hr
      have hex : g_strstr_len r "exit" = true := (strstr_chars_iff _ _).2 hexit
      obtain ⟨circuit, hcircuit⟩ := place_exit_some
        ((min (relay_capacity relays a)
          (min (relay_capacity relays b) (relay_capacity relays c)) : Int) : ℚ)
        (show g_strstr_len a "exit" = true ∨ g_strstr_len b "exit" = true ∨
            g_strstr_len c "exit" = true by
          rcases hr' with e | e | e
          · exact Or.inl (e ▸ hex)
          · exact Or.inr (Or.inl (e ▸ hex))
          · exact Or.inr (Or.inr (e ▸ hex)))
      refine List.mem_map.2 ⟨circuit, ?_, ?_⟩
      · rw [mem_build_all_circuits]
        obtain ⟨hk, _⟩ := List.getElem?_eq_some.1 hc
        refine ⟨i, j, k, hij, hjk, by rw [hlen]; exact hk, ?_⟩
        unfold all_circuits_at
        rw [ha, hb, hc]
        dsimp only
        rw [hcircuit]
        simp
      · rw [(place_exit_spec hcircuit).2, hset]

/-- C18 on `relays_six`: the relays `a`, `c` and `f-exit` are the three relays
of a circuit of the full universe. -/
theorem all_circuits_correspondence_witness :
    (g_hash_table_get_keys relays_six).Nodup ∧
    ({"a", "c", "f-exit"} : Finset String) ∈ (build_all_circuits relays_six).map relay_set :=
  ⟨by decide,
   ((all_circuits_correspondence relays_six (by decide)).2 {"a", "c", "f-exit"}).2
     ⟨by decide, by decide, "f-exit", by decide, by decide⟩⟩

/-! ## The pruned universe -/

theorem pop_first_exit_perm : ∀ {queue queue1 : List String} {relay : String},
    pop_first_exit queue = some (relay, queue1) → queue.Perm (relay :: queue1) := by
  intro queue
  induction queue with
  | nil =>
    intro queue1 relay h
    cases h
  | cons r t ih =>
    intro queue1 relay h
    unfold pop_first_exit at h
    split at h
    · cases h
      exact List.Perm.refl _
    · cases hp : pop_first_exit t with
      | none =>
        rw [hp] at h
        cases h
      | some p =>
        rw [hp] at h
        cases h
        exact ((ih (show pop_first_exit t = some (p.1, p.2) from hp)).cons r).trans
          (List.Perm.swap _ _ _)

theorem pop_first_exit_exit : ∀ {queue queue1 : List String} {relay : String},
    pop_first_exit queue = some (relay, queue1) → g_strstr_len relay "exit" = true := by
  intro queue
  induction queue with
  | nil =>
    intro queue1 relay h
    cases h
  | cons r t ih =>
    intro queue1 relay h
    unfold pop_first_exit at h
    split at h
    · rename_i hr
      cases h
      exact hr
    · cases hp : pop_first_exit t with
      | none =>
        rw [hp] at h
        cases h
      | some p =>
        rw [hp] at h
        cases h
        exact ih (show pop_first_exit t = some (p.1, p.2) from hp)

/-- What one pass of the loop of `build_pruned_circuits` does: three relays
leave the queue, each is charged the smallest of their three residuals, and
`place_exit` makes the circuit. -/
theorem pruned_step_spec {st st1 : pruned_state} (h : pruned_step st = some st1) :
    ∃ relay1 relay2 relay3,
      st.relays_remaining.Perm (relay1 :: relay2 :: relay3 :: st1.relays_remaining) ∧
      (g_strstr_len relay1 "exit" = true ∨ g_strstr_len relay2 "exit" = true ∨
        g_strstr_len relay3 "exit" = true) ∧
      st1.relay_bandwidth =
        g_hash_table_insert
          (g_hash_table_insert
            (g_hash_table_insert st.relay_bandwidth relay1
              (relay_capacity st.relay_bandwidth relay1 -
                min (relay_capacity st.relay_bandwidth relay1)
                  (min (relay_capacity st.relay_bandwidth relay2)
                    (relay_capacity st.relay_bandwidth relay3))))
            relay2
            (relay_capacity st.relay_bandwidth relay2 -
              min (relay_capacity st.relay_bandwidth relay1)
                (min (relay_capacity st.relay_bandwidth relay2)
                  (relay_capacity st.relay_bandwidth relay3))))
          relay3
          (relay_capacity st.relay_bandwidth relay3 -
            min (relay_capacity st.relay_bandwidth relay1)
              (min (relay_capacity st.relay_bandwidth relay2)
                (relay_capacity st.relay_bandwidth relay3))) ∧
      st1.circuits = st.circuits ++
        (place_exit ((min (relay_capacity st.relay_bandwidth relay1)
          (min (relay_capacity st.relay_bandwidth relay2)
            (relay_capacity st.relay_bandwidth relay3)) : Int) : ℚ)
          relay1 relay2 relay3).toList := by
  unfold pruned_step at h
  split at h
  · cases h
  · split at h
    · rename_i relay1 relay2 queue hsort
      have hperm : st.relays_remaining.Perm (relay1 :: relay2 :: queue) := by
        rw [← hsort]
        exact (List.perm_insertionSort _ _).symm
      dsimp only at h
      split at h
      · cases h
      · rename_i relay3 queue1 hthird
        cases h
        refine ⟨relay1, relay2, relay3, ?_, ?_, rfl, rfl⟩
        · refine hperm.trans ((List.Perm.cons _ (List.Perm.cons _ ?_)))
          split at hthird
          · split at hthird
            · cases hthird
              exact List.Perm.refl _
            · cases hthird
          · exact pop_first_exit_perm hthird
        · split at hthird
          · rename_i hex
            rw [Bool.or_eq_true] at hex
            rcases hex with hex | hex
            · exact Or.inl hex
            · exact Or.inr (Or.inl hex)
          · exact Or.inr (Or.inr (pop_first_exit_exit hthird))
    · cases h

/-- The loop of `build_pruned_circuits` has ended after as many passes as the
queue has relays. -/
theorem pruned_loop_done (n : Nat) :
    ∀ st : pruned_state, st.relays_remaining.length ≤ n →
      pruned_step (pruned_loop n st) = none := by
  induction n with
  | zero =>
    intro st h
    unfold pruned_loop pruned_step
    rw [if_pos (by omega)]
  | succ n ih =>
    intro st h
    unfold pruned_loop
    cases hs : pruned_step st with
    | none => exact hs
    | some st1 =>
      dsimp only
      apply ih
      obtain ⟨_, _, _, hperm, _⟩ := pruned_step_spec hs
      have := hperm.length_eq
      simp only [List.length_cons] at this
      omega

theorem pruned_init_queue (relays : GHashTable String Int) :
    (pruned_init relays).relays_remaining = (g_hash_table_get_keys relays).reverse := by
  unfold pruned_init
  have gen : ∀ (t : GHashTable String Int) (st : pruned_state),
      (t.foldl (fun st entry =>
        { st with
          relay_bandwidth := g_hash_table_insert st.relay_bandwidth entry.1 entry.2
          relays_remaining := entry.1 :: st.relays_remaining }) st).relays_remaining =
        (g_hash_table_get_keys t).reverse ++ st.relays_remaining := by
    intro t
    induction t with
    | nil => intro st; rfl
    | cons e t ih =>
      intro st
      rw [List.foldl_cons, ih]
      simp [g_hash_table_get_keys]
  rw [gen]
  simp

/-- The fuel of `build_pruned_circuits` is enough: the loop has ended. -/
theorem build_pruned_circuits_done (relays : GHashTable String Int) :
    pruned_step (pruned_loop (g_hash_table_size relays) (pruned_init relays)) = none := by
  apply pruned_loop_done
  rw [pruned_init_queue]
  simp [g_hash_table_size, g_hash_table_get_keys]

theorem relay_capacity_nonneg {t : GHashTable String Int} (h : ∀ e ∈ t, 0 ≤ e.2)
    (r : String) : 0 ≤ relay_capacity t r := by
  unfold relay_capacity
  cases hl : g_hash_table_lookup t r with
  | none => simp
  | some v => exact h _ (mem_of_lookup hl)

/-- The copy of the relay table that `build_pruned_circuits` starts with. -/
theorem pruned_init_table (relays : GHashTable String Int)
    (hn : (g_hash_table_get_keys relays).Nodup) :
    (∀ r, g_hash_table_lookup (pruned_init relays).relay_bandwidth r =
      g_hash_table_lookup relays r) ∧
    ((∀ e ∈ relays, 0 ≤ e.2) → ∀ e ∈ (pruned_init relays).relay_bandwidth, 0 ≤ e.2) := by
  unfold pruned_init
  have gen : ∀ (t : GHashTable String Int) (st : pruned_state),
      (g_hash_table_get_keys t).Nodup →
      (∀ r, g_hash_table_lookup (t.foldl (fun st entry =>
        { st with
          relay_bandwidth := g_hash_table_insert st.relay_bandwidth entry.1 entry.2
          relays_remaining := entry.1 :: st.relays_remaining }) st).relay_bandwidth r =
        match g_hash_table_lookup t r with
        | some v => some v
        | none => g_hash_table_lookup st.relay_bandwidth r) ∧
      ((∀ e ∈ t, 0 ≤ e.2) → (∀ e ∈ st.relay_bandwidth, 0 ≤ e.2) →
        ∀ e ∈ (t.foldl (fun st entry =>
        { st with
          relay_bandwidth := g_hash_table_insert st.relay_bandwidth entry.1 entry.2
          relays_remaining := entry.1 :: st.relays_remaining }) st).relay_bandwidth,
          0 ≤ e.2) := by
    intro t
    induction t with
    | nil =>
      intro st _
      exact ⟨fun r => rfl, fun _ h => h⟩
    | cons p t ih =>
      intro st hnd
      obtain ⟨k, v⟩ := p
      simp only [g_hash_table_get_keys, List.map_cons, List.nodup_cons] at hnd
      obtain ⟨hk, hnd⟩ := hnd
      rw [List.foldl_cons]
      obtain ⟨i1, i2⟩ := ih { st with
          relay_bandwidth := g_hash_table_insert st.relay_bandwidth k v
          relays_remaining := k :: st.relays_remaining } hnd
      constructor
      · intro r
        rw [i1 r]
        by_cases hr : k = r
        · subst hr
          have hnone : g_hash_table_lookup t k = none := by
            cases hl : g_hash_table_lookup t k with
            | none => rfl
            | some w =>
              exact absurd (List.mem_map.2 ⟨(k, w), mem_of_lookup hl, rfl⟩) hk
          rw [hnone]
          simp only [g_hash_table_lookup, if_true]
          exact lookup_insert_self _ _ _
        · simp only [g_hash_table_lookup, if_neg hr]
          cases g_hash_table_lookup t r with
          | none => exact lookup_insert_ne _ _ _ _ (Ne.symm hr)
          | some w => rfl
      · intro h1 h2
        apply i2
        · intro e he
          exact h1 e (List.mem_cons_of_mem _ he)
        · intro e he
          rcases mem_insert _ _ _ he with rfl | he
          · exact h1 (k, v) (List.mem_cons_self _ _)
          · exact h2 e he
  obtain ⟨g1, g2⟩ := gen relays { relay_bandwidth := [], relays_remaining := [], circuits := [] } hn
  constructor
  · intro r
    rw [g1 r]
    cases g_hash_table_lookup relays r <;> rfl
  · intro h
    exact g2 h (by simp)

theorem pruned_init_ok (relays : GHashTable String Int)
    (hn : (g_hash_table_get_keys relays).Nodup) (hcap : ∀ e ∈ relays, 0 ≤ e.2) :
    pruned_ok relays (pruned_init relays) := by
  obtain ⟨t1, t2⟩ := pruned_init_table relays hn
  refine ⟨?_, ?_, t2 hcap, ?_, ?_⟩
  · rw [pruned_init_queue]
    exact List.nodup_reverse.2 hn
  · intro r _
    unfold relay_capacity
    rw [t1 r]
  · rw [pruned_init_circuits, pruned_init_queue]
    simp only [List.map_nil, List.sum_nil, zero_add, List.map_reverse, List.sum_reverse]
    unfold g_hash_table_get_keys
    rw [List.map_map]
    apply le_of_eq
    congr 1
    apply List.map_congr_left
    intro e he
    simp only [Function.comp]
    unfold relay_capacity
    rw [lookup_of_mem hn (show (e.1, e.2) ∈ relays from he)]
    rfl
  · intro c hc
    rw [pruned_init_circuits] at hc
    cases hc

/-- The circuit that `place_exit` makes holds the three relays in one of three
orders. -/
theorem place_exit_cases {bandwidth : ℚ} {relay1 relay2 relay3 : String} {c : circuit_t}
    (h : place_exit bandwidth relay1 relay2 relay3 = some c) :
    (c.guard = relay1 ∧ c.middle = relay2 ∧ c.exit = relay3) ∨
    (c.guard = relay1 ∧ c.middle = relay3 ∧ c.exit = relay2) ∨
    (c.guard = relay2 ∧ c.middle = relay3 ∧ c.exit = relay1) := by
  unfold place_exit at h
  split at h
  · cases h
    exact Or.inl ⟨rfl, rfl, rfl⟩
  · split at h
    · cases h
      exact Or.inr (Or.inl ⟨rfl, rfl, rfl⟩)
    · split at h
      · cases h
        exact Or.inr (Or.inr ⟨rfl, rfl, rfl⟩)
      · cases h

theorem pruned_step_ok {relays : GHashTable String Int} {st st1 : pruned_state}
    (hok : pruned_ok relays st) (h : pruned_step st = some st1) : pruned_ok relays st1 := by
  obtain ⟨r1, r2, r3, hperm, _, htable, hcircuits⟩ := pruned_step_spec h
  have hnd : (r1 :: r2 :: r3 :: st1.relays_remaining).Nodup := hperm.nodup_iff.1 hok.queue_nodup
  simp only [List.nodup_cons, List.mem_cons, not_or] at hnd
  obtain ⟨⟨h12, h13, h1q⟩, ⟨h23, h2q⟩, h3q, hq⟩ := hnd
  have m1 : r1 ∈ st.relays_remaining := hperm.mem_iff.2 (by simp)
  have m2 : r2 ∈ st.relays_remaining := hperm.mem_iff.2 (by simp)
  have m3 : r3 ∈ st.relays_remaining := hperm.mem_iff.2 (by simp)
  have mq : ∀ r ∈ st1.relays_remaining, r ∈ st.relays_remaining := fun r hr =>
    hperm.mem_iff.2 (by simp [hr])
  have c1 := hok.untouched r1 m1
  have c2 := hok.untouched r2 m2
  have c3 := hok.untouched r3 m3
  have n1 := relay_capacity_nonneg hok.nonneg r1
  have n2 := relay_capacity_nonneg hok.nonneg r2
  have n3 := relay_capacity_nonneg hok.nonneg r3
  rw [c1, c2, c3] at htable hcircuits
  rw [c1] at n1
  rw [c2] at n2
  rw [c3] at n3
  refine ⟨hq, ?_, ?_, ?_, ?_⟩
  · intro r hr
    have e1 : r ≠ r1 := fun e => h1q (e ▸ hr)
    have e2 : r ≠ r2 := fun e => h2q (e ▸ hr)
    have e3 : r ≠ r3 := fun e => h3q (e ▸ hr)
    rw [← hok.untouched r (mq r hr), htable]
    unfold relay_capacity
    rw [lookup_insert_ne _ _ _ _ e3, lookup_insert_ne _ _ _ _ e2, lookup_insert_ne _ _ _ _ e1]
  · intro e he
    rw [htable] at he
    rcases mem_insert _ _ _ he with rfl | he
    · show 0 ≤ relay_capacity relays r3 - _
      omega
    rcases mem_insert _ _ _ he with rfl | he
    · show 0 ≤ relay_capacity relays r2 - _
      omega
    rcases mem_insert _ _ _ he with rfl | he
    · show 0 ≤ relay_capacity relays r1 - _
      omega
    exact hok.nonneg e he
  · have hsum : (st.relays_remaining.map (fun r => (relay_capacity relays r : ℚ))).sum =
        (relay_capacity relays r1 : ℚ) + ((relay_capacity relays r2 : ℚ) +
          ((relay_capacity relays r3 : ℚ) +
            (st1.relays_remaining.map (fun r => (relay_capacity relays r : ℚ))).sum)) := by
      rw [(hperm.map _).sum_eq]
      simp only [List.map_cons, List.sum_cons]
    have hb := hok.budget
    rw [hsum] at hb
    have hnew : ((place_exit ((min (relay_capacity relays r1)
          (min (relay_capacity relays r2) (relay_capacity relays r3)) : Int) : ℚ)
          r1 r2 r3).toList.map (fun c => c.bandwidth)).sum ≤
        (relay_capacity relays r1 : ℚ) := by
      cases hp : place_exit ((min (relay_capacity relays r1)
          (min (relay_capacity relays r2) (relay_capacity relays r3)) : Int) : ℚ) r1 r2 r3 with
      | none =>
        simp only [Option.toList, List.map_nil, List.sum_nil]
        exact_mod_cast n1
      | some c =>
        simp only [Option.toList, List.map_cons, List.map_nil, List.sum_cons, List.sum_nil,
          add_zero]
        rw [(place_exit_spec hp).1]
        exact_mod_cast min_le_left _ _
    rw [hcircuits, List.map_append, List.sum_append]
    have q2 : (0 : ℚ) ≤ (relay_capacity relays r2 : ℚ) := by exact_mod_cast n2
    have q3 : (0 : ℚ) ≤ (relay_capacity relays r3 : ℚ) := by exact_mod_cast n3
    linarith
  · intro c hc
    rw [hcircuits, List.mem_append] at hc
    rcases hc with hc | hc
    · exact hok.bandwidths c hc
    · rw [Option.mem_toList] at hc
      rw [(place_exit_spec hc).1]
      rcases place_exit_cases hc with ⟨e1, e2, e3⟩ | ⟨e1, e2, e3⟩ | ⟨e1, e2, e3⟩
      · rw [e1, e2, e3]
      · rw [e1, e2, e3]
        congr 1
        omega
      · rw [e1, e2, e3]
        congr 1
        omega

theorem pruned_loop_ok {relays : GHashTable String Int} (n : Nat) :
    ∀ st : pruned_state, pruned_ok relays st → pruned_ok relays (pruned_loop n st) := by
  induction n with
  | zero =>
    intro st h
    exact h
  | succ n ih =>
    intro st h
    unfold pruned_loop
    cases hs : pruned_step st with
    | none => exact h
    | some st1 => exact ih st1 (pruned_step_ok h hs)

theorem capacity_sum_cast (relays : GHashTable String Int) :
    (((relays.map (fun e => e.2)).sum : Int) : ℚ) = (relays.map (fun e => (e.2 : ℚ))).sum := by
  induction relays with
  | nil => simp
  | cons e t ih =>
    simp only [List.map_cons, List.sum_cons]
    rw [Int.cast_add, ih]

/-- C20: for a relay table with non-negative capacities, the bandwidths of the
circuits that `build_pruned_circuits` returns add up to no more than the
capacities of the relays, and after any number of passes of its loop no
residual kept in `relay_bandwidth` is negative. -/
theorem pruned_budget (relays : GHashTable String Int)
    (hn : (g_hash_table_get_keys relays).Nodup) (hcap : ∀ e ∈ relays, 0 ≤ e.2) :
    ((build_pruned_circuits relays).map (fun c => c.bandwidth)).sum ≤
      (((relays.map (fun e => e.2)).sum : Int) : ℚ) ∧
    ∀ n, ∀ e ∈ (pruned_loop n (pruned_init relays)).relay_bandwidth, 0 ≤ e.2 := by
  have hinit := pruned_init_ok relays hn hcap
  constructor
  · have hok := pruned_loop_ok (g_hash_table_size relays) _ hinit
    have hb := hok.budget
    have hrest : (0 : ℚ) ≤ ((pruned_loop (g_hash_table_size relays)
        (pruned_init relays)).relays_remaining.map
        (fun r => (relay_capacity relays r : ℚ))).sum := by
      apply List.sum_nonneg
      intro x hx
      obtain ⟨r, _, rfl⟩ := List.mem_map.1 hx
      exact_mod_cast relay_capacity_nonneg hcap r
    rw [capacity_sum_cast]
    unfold build_pruned_circuits
    linarith
  · intro n
    exact (pruned_loop_ok n _ hinit).nonneg

/-- C20 on `relays_six`: the two circuits of the pruned universe have the
bandwidths 40 and 10, and the capacities add up to 210. -/
theorem pruned_budget_witness :
    ((build_pruned_circuits relays_six).map (fun c => c.bandwidth)).sum ≤
      (((relays_six.map (fun e => e.2)).sum : Int) : ℚ) ∧
    ∀ n, ∀ e ∈ (pruned_loop n (pruned_init relays_six)).relay_bandwidth, 0 ≤ e.2 :=
  pruned_budget relays_six (by decide) (by decide)

/-- The bandwidth of a circuit of either universe is the smallest of the
capacities that the relay table has for its three relays. -/
theorem built_circuit_bandwidth (relays : GHashTable String Int)
    (hn : (g_hash_table_get_keys relays).Nodup) (hcap : ∀ e ∈ relays, 0 ≤ e.2) :
    (∀ c ∈ build_all_circuits relays,
      c.bandwidth = ((min (relay_capacity relays c.guard)
        (min (relay_capacity relays c.middle) (relay_capacity relays c.exit)) : Int) : ℚ)) ∧
    (∀ c ∈ build_pruned_circuits relays,
      c.bandwidth = ((min (relay_capacity relays c.guard)
        (min (relay_capacity relays c.middle) (relay_capacity relays c.exit)) : Int) : ℚ)) := by
  constructor
  · intro c hc
    obtain ⟨i, j, k, _, _, _, hmem⟩ := (mem_build_all_circuits relays c).1 hc
    obtain ⟨r1, r2, r3, _, _, _, hp⟩ := all_circuits_at_spec hmem
    rw [(place_exit_spec hp).1]
    rcases place_exit_cases hp with ⟨e1, e2, e3⟩ | ⟨e1, e2, e3⟩ | ⟨e1, e2, e3⟩
    · rw [e1, e2, e3]
    · rw [e1, e2, e3]
      congr 1
      omega
    · rw [e1, e2, e3]
      congr 1
      omega
  · intro c hc
    exact (pruned_loop_ok (g_hash_table_size relays) _
      (pruned_init_ok relays hn hcap)).bandwidths c hc

/-! ## Circuits read from a file -/

theorem read_circuit_line_bandwidth (g_ascii_strtod : String → ℚ)
    (acc : List circuit_t × GHashTable String (List download_t)) (line : String)
    (h : ∀ c ∈ acc.1, c.bandwidth = 0) :
    ∀ c ∈ (read_circuit_line g_ascii_strtod acc line).1, c.bandwidth = 0 := by
  unfold read_circuit_line
  split
  · exact h
  · dsimp only
    split
    · exact h
    · split
      · intro c hc
        rcases List.mem_append.1 hc with hc | hc
        · exact h c hc
        · rw [List.mem_singleton] at hc
          rw [hc]
      · split
        · exact h
        · intro c hc
          rcases List.mem_append.1 hc with hc | hc
          · exact h c hc
          · rw [List.mem_singleton] at hc
            rw [hc]

/-- C19, at the failing input: `read_circuits` leaves the bandwidth of every
circuit it makes at the 0 of `g_new0`; for the line `g m x-exit` and the relays
of scenario A the circuit has bandwidth 0, and the smallest capacity of its
three relays is 100. -/
theorem read_circuits_no_bandwidth :
    (∀ (g_ascii_strtod : String → ℚ) (lines : List String)
        (client_downloads : GHashTable String (List download_t)),
      ∀ c ∈ (read_circuits g_ascii_strtod lines client_downloads).1, c.bandwidth = 0) ∧
    ∃ c ∈ (read_circuits (fun _ => 0) ["g m x-exit"] []).1,
      c.guard = "g" ∧ c.middle = "m" ∧ c.exit = "x-exit" ∧ c.bandwidth = 0 ∧
      min (relay_capacity relays_ab c.guard)
        (min (relay_capacity relays_ab c.middle) (relay_capacity relays_ab c.exit)) = 100 := by
  constructor
  · intro g_ascii_strtod lines client_downloads
    unfold read_circuits
    have gen : ∀ (l : List String) (acc : List circuit_t × GHashTable String (List download_t)),
        (∀ c ∈ acc.1, c.bandwidth = 0) →
        ∀ c ∈ (l.foldl (read_circuit_line g_ascii_strtod) acc).1, c.bandwidth = 0 := by
      intro l
      induction l with
      | nil => intro acc h; exact h
      | cons x t ih =>
        intro acc h
        rw [List.foldl_cons]
        exact ih _ (read_circuit_line_bandwidth g_ascii_strtod acc x h)
    exact gen lines _ (by simp)
  · exact ⟨{ guard := "g", middle := "m", exit := "x-exit", bandwidth := 0 }, by decide!,
      rfl, rfl, rfl, rfl, by decide!⟩

/-! ## The solve completes -/

theorem update_relays_some {a : GHashTable String ℚ} {r : String} {v : ℚ}
    (h : g_hash_table_lookup a r = some v) (s : ℚ) :
    ∃ a', update_relays a r s = some a' := by
  unfold update_relays
  rw [h]
  dsimp only
  split
  · exact ⟨_, rfl⟩
  · exact ⟨_, rfl⟩

theorem remove_download_some {rd : GHashTable String (List download_t)} {r : String}
    {d : download_t} (h : d ∈ pending rd r) :
    ∃ rd', remove_download_from_relay rd r d = some rd' := by
  unfold remove_download_from_relay
  cases hL : g_hash_table_lookup rd r with
  | none => simp [pending, hL] at h
  | some L =>
    rw [pending_of_lookup hL] at h
    dsimp only
    rw [if_pos h]
    split
    · exact ⟨_, rfl⟩
    · exact ⟨_, rfl⟩

/-- The assignment of a download that waits at the three different relays of
its circuit, all of them active, raises no error. -/
theorem assign_download_total {S : GHashTable download_t circuit_t} {st : solve_state}
    {d : download_t} {c : circuit_t} (hc : g_hash_table_lookup S d = some c)
    (hdist : circuit_distinct c)
    (hact : ∀ r ∈ circuit_relays c, ∃ v, g_hash_table_lookup st.active_relays r = some v)
    (hpend : ∀ r ∈ circuit_relays c, d ∈ pending st.relay_downloads r) (b : String) (s : ℚ) :
    ∃ st', assign_download S b s (some st) d = some st' := by
  obtain ⟨h12, h13, h23⟩ := hdist
  obtain ⟨v1, hv1⟩ := hact c.guard (by simp [circuit_relays])
  obtain ⟨v2, hv2⟩ := hact c.middle (by simp [circuit_relays])
  obtain ⟨v3, hv3⟩ := hact c.exit (by simp [circuit_relays])
  obtain ⟨a1, ha1⟩ := update_relays_some hv1 s
  obtain ⟨_, _, k1⟩ := update_relays_lookup ha1
  have hv2' : g_hash_table_lookup a1 c.middle = some v2 := by
    rw [k1 c.middle, if_neg (Ne.symm h12), hv2]
  obtain ⟨a2, ha2⟩ := update_relays_some hv2' s
  obtain ⟨_, _, k2⟩ := update_relays_lookup ha2
  have hv3' : g_hash_table_lookup a2 c.exit = some v3 := by
    rw [k2 c.exit, if_neg (Ne.symm h23), k1 c.exit, if_neg (Ne.symm h13), hv3]
  obtain ⟨a3, ha3⟩ := update_relays_some hv3' s
  obtain ⟨r1, hr1⟩ := remove_download_some (hpend c.guard (by simp [circuit_relays]))
  obtain ⟨_, j1⟩ := remove_download_pending hr1
  have hp2 : d ∈ pending r1 c.middle := by
    rw [j1 c.middle, if_neg (Ne.symm h12)]
    exact hpend c.middle (by simp [circuit_relays])
  obtain ⟨r2, hr2⟩ := remove_download_some hp2
  obtain ⟨_, j2⟩ := remove_download_pending hr2
  have hp3 : d ∈ pending r2 c.exit := by
    rw [j2 c.exit, if_neg (Ne.symm h23), j1 c.exit, if_neg (Ne.symm h13)]
    exact hpend c.exit (by simp [circuit_relays])
  obtain ⟨r3, hr3⟩ := remove_download_some hp3
  unfold assign_download
  simp only [hc, ha1, ha2, ha3, hr1, hr2, hr3, Option.some_bind]
  exact ⟨_, rfl⟩

/-- The inner loop of a round raises no error on downloads that are different,
not yet assigned, and cross the bottleneck relay. -/
theorem assign_fold_total {A : List download_t} {relays : GHashTable String Int}
    {S : GHashTable download_t circuit_t} {b : String} {s : ℚ}
    (hdist : ∀ d ∈ A, ∀ c, g_hash_table_lookup S d = some c → circuit_distinct c)
    (l : List download_t) :
    ∀ (st : solve_state), tables_ok A relays S st → share_ok s st → complete_ok st →
      l.Nodup →
      (∀ d ∈ l, d ∈ A ∧ on_relay S b d = true ∧ d ∉ st.fields.map Prod.fst) →
      ∃ st', l.foldl (assign_download S b s) (some st) = some st' := by
  induction l with
  | nil =>
    intro st _ _ _ _ _
    exact ⟨st, rfl⟩
  | cons d t ih =>
    intro st hok hs hq hnd hl
    obtain ⟨hdA, hdb, hdf⟩ := hl d (List.mem_cons_self _ _)
    have hsel : ∃ c, g_hash_table_lookup S d = some c := by
      unfold on_relay at hdb
      cases hx : g_hash_table_lookup S d with
      | none => simp [hx] at hdb
      | some c => exact ⟨c, rfl⟩
    obtain ⟨c, hc⟩ := hsel
    have hpend : ∀ r ∈ circuit_relays c, d ∈ pending st.relay_downloads r := by
      intro r hr
      exact (hok.pending_mem r d).2 ⟨hdA, (on_relay_of_lookup hc r).2 hr, hdf⟩
    have hact : ∀ r ∈ circuit_relays c,
        ∃ v, g_hash_table_lookup st.active_relays r = some v := by
      intro r hr
      exact hq.active r (List.ne_nil_of_mem (hpend r hr))
    obtain ⟨st1, h1⟩ := assign_download_total hc (hdist d hdA c hc) hact hpend b s
    obtain ⟨_, _, _, _, _, _, _, hf, _⟩ := assign_download_spec h1
    rw [List.foldl_cons, h1]
    apply ih st1 (assign_download_ok hok hdb h1) (assign_download_share hok hs h1)
      (assign_download_complete hok hs hq h1) (List.nodup_cons.1 hnd).2
    intro d' hd'
    obtain ⟨h1', h2', h3'⟩ := hl d' (List.mem_cons_of_mem _ hd')
    refine ⟨h1', h2', ?_⟩
    rw [hf, List.map_cons, List.mem_cons]
    rintro (e | e)
    · have e' : d' = d := e
      rw [e'] at hd'
      exact (List.nodup_cons.1 hnd).1 hd'
    · exact h3' e

theorem relay_usage_nonneg (S : GHashTable download_t circuit_t)
    (fields : List (download_t × ℚ × String)) (h : ∀ e ∈ fields, 0 ≤ e.2.1) (r : String) :
    0 ≤ relay_usage S fields r := by
  unfold relay_usage
  apply List.sum_nonneg
  intro x hx
  obtain ⟨e, he, rfl⟩ := List.mem_map.1 hx
  exact h e (List.mem_filter.1 he).1

/-- The search finds a bottleneck when some active relay has a residual other
than 0 and downloads whose share is under `G_MAXINT32`. -/
theorem find_bottleneck_some (rd : GHashTable String (List download_t))
    (a : GHashTable String ℚ) {r : String} {v : ℚ} {L : List download_t}
    (hmem : (r, v) ∈ a) (hv : v ≠ 0) (hL : g_hash_table_lookup rd r = some L)
    (hlt : v / (L.length : ℚ) < G_MAXINT32) :
    ∃ b, (find_bottleneck rd a).bottleneck_relay = some b := by
  obtain ⟨_, h2, h3⟩ := bottleneck_fold rd a
    { bottleneck_relay := none, bottleneck_bandwidth := G_MAXINT32,
      download_bandwidth := G_MAXINT32 }
  have hle := h2 (r, v) hmem hv L hL
  rcases h3 with h3 | ⟨e, _, _, _, _, hb, _, _⟩
  · rw [h3] at hle
    exact absurd (lt_of_le_of_lt hle hlt) (lt_irrefl _)
  · exact ⟨e.1, hb⟩

/-- A round of the main loop raises no error when the residuals are positive,
every active download crosses a relay of a capacity below `G_MAXINT32`, every
relay with waiting downloads is active and no circuit names a relay twice. -/
theorem solve_round_total {A : List download_t} {relays : GHashTable String Int}
    {S : GHashTable download_t circuit_t} {st : solve_state}
    (hdist : ∀ d ∈ A, ∀ c, g_hash_table_lookup S d = some c → circuit_distinct c)
    (hcap : ∀ d ∈ A, ∀ r0, on_relay S r0 d = true →
      ∃ r, on_relay S r d = true ∧ relay_capacity relays r < 2147483647)
    (hinv : solve_inv A relays S st) (hp : positive_ok relays S st) (hq : complete_ok st)
    (hsize : 0 < g_hash_table_size st.relay_downloads) :
    ∃ st', solve_round S st = some st' := by
  obtain ⟨⟨r0, L0⟩, hmem⟩ := List.exists_mem_of_length_pos hsize
  have hL0 := lookup_of_mem hinv.tables.keys_pending hmem
  have hL0ne := hinv.tables.nonempty r0 L0 hL0
  have hpr0 : pending st.relay_downloads r0 = L0 := pending_of_lookup hL0
  obtain ⟨d, hd⟩ := List.exists_mem_of_ne_nil _ hL0ne
  obtain ⟨hdA, hdr0, hdf⟩ := (hinv.tables.pending_mem r0 d).1 (by rw [hpr0]; exact hd)
  obtain ⟨r, hdr, hsmall⟩ := hcap d hdA r0 hdr0
  have hdp : d ∈ pending st.relay_downloads r := (hinv.tables.pending_mem r d).2 ⟨hdA, hdr, hdf⟩
  obtain ⟨L, hL⟩ : ∃ L, g_hash_table_lookup st.relay_downloads r = some L := by
    unfold pending at hdp
    cases hx : g_hash_table_lookup st.relay_downloads r with
    | none =>
      rw [hx] at hdp
      simp at hdp
    | some L => exact ⟨L, rfl⟩
  have hLne := hinv.tables.nonempty r L hL
  have hpr : pending st.relay_downloads r = L := pending_of_lookup hL
  obtain ⟨v, hv⟩ := hq.active r (by rw [hpr]; exact hLne)
  have hvpos := hp.positive r v hv
  have hvcap : v < G_MAXINT32 := by
    have h1 := hinv.tables.residual r v hv
    have h2 := relay_usage_nonneg S st.fields hp.nonneg r
    have h3 : (relay_capacity relays r : ℚ) < 2147483647 := by exact_mod_cast hsmall
    unfold G_MAXINT32
    linarith
  have hlen : (1 : ℚ) ≤ (L.length : ℚ) := by
    have : 1 ≤ L.length := List.length_pos.2 hLne
    exact_mod_cast this
  have hlt : v / (L.length : ℚ) < G_MAXINT32 := by
    apply lt_of_le_of_lt _ hvcap
    rw [div_le_iff₀ (by linarith)]
    nlinarith
  obtain ⟨b, hb⟩ := find_bottleneck_some st.relay_downloads st.active_relays
    (mem_of_lookup hv) (ne_of_gt hvpos) hL hlt
  obtain ⟨_, ⟨vb0, Lb, _, _, hLb, _, _⟩⟩ :=
    find_bottleneck_spec st.relay_downloads st.active_relays hb
  obtain ⟨vb, hvb', hvb, hLbne, hs, _, _, hsame, hok1, hs1, hon⟩ :=
    solve_round_start hinv hb hLb _ rfl
  have hs0 : 0 ≤ (find_bottleneck st.relay_downloads st.active_relays).download_bandwidth := by
    rw [hs]
    exact div_nonneg (le_of_lt (hp.positive b vb hvb')) (Nat.cast_nonneg _)
  have hp1 : positive_ok relays S (round_start st b
      (find_bottleneck st.relay_downloads st.active_relays).download_bandwidth Lb.length) :=
    ⟨fun r v hv => hp.positive r v (by rw [← hsame r]; exact hv), hp.within, hp.nonneg⟩
  have hq1 : complete_ok (round_start st b
      (find_bottleneck st.relay_downloads st.active_relays).download_bandwidth Lb.length) := by
    refine ⟨fun r v hv => hq.floor r v (by rw [← hsame r]; exact hv), ?_⟩
    intro r hne
    obtain ⟨v, hv⟩ := hq.active r hne
    exact ⟨v, by rw [hsame r]; exact hv⟩
  have hpb : pending st.relay_downloads b = Lb := pending_of_lookup hLb
  have hLnd : Lb.Nodup := by
    rw [← hpb]
    exact hinv.tables.pending_nodup b
  have hLmem : ∀ d ∈ Lb, d ∈ A ∧ on_relay S b d = true ∧ d ∉ st.fields.map Prod.fst := by
    intro d hd
    exact (hinv.tables.pending_mem b d).1 (by rw [hpb]; exact hd)
  obtain ⟨st2, hfold⟩ := assign_fold_total hdist Lb _ hok1 hs1 hq1 hLnd hLmem
  obtain ⟨hok2, _, hf2, _, _, _⟩ := assign_fold_spec Lb _ _ hok1 hs1 hon hfold
  obtain ⟨k1, _⟩ := assign_fold_extra Lb _ _ hok1 hs1 hon hfold
  have hp2 := k1 hs0 hp1
  have hf2' : st2.fields = (Lb.reverse.map fun d => (d,
      (find_bottleneck st.relay_downloads st.active_relays).download_bandwidth, b))
      ++ st.fields := hf2
  have hact2 : g_hash_table_lookup st2.active_relays b = none := by
    cases hx : g_hash_table_lookup st2.active_relays b with
    | none => rfl
    | some v' =>
      exfalso
      have h1 := hok2.residual b v' hx
      have h2 := hp2.positive b v' hx
      have h3 := hinv.tables.residual b vb hvb'
      rw [hf2', relay_usage_append, relay_usage_round] at h1
      have hfil : Lb.filter (fun d => on_relay S b d) = Lb :=
        List.filter_eq_self.2 (fun d hd => hon d hd)
      rw [hfil, hs] at h1
      have hlen : (Lb.length : ℚ) ≠ 0 := by
        have : 0 < Lb.length := List.length_pos.2 hLbne
        exact_mod_cast (Nat.pos_iff_ne_zero.1 this)
      rw [div_mul_cancel₀ _ hlen] at h1
      linarith
  have hrd2 : g_hash_table_lookup st2.relay_downloads b = none := by
    cases hx : g_hash_table_lookup st2.relay_downloads b with
    | none => rfl
    | some L' =>
      exfalso
      have hne := hok2.nonempty b L' hx
      obtain ⟨d, hd⟩ := List.exists_mem_of_ne_nil _ hne
      have hd' : d ∈ pending st2.relay_downloads b := by
        rw [pending_of_lookup hx]; exact hd
      obtain ⟨hdA, hdb, hdf⟩ := (hok2.pending_mem b d).1 hd'
      have hdL : d ∈ Lb := by
        rw [← hpb]
        apply (hinv.tables.pending_mem b d).2
        refine ⟨hdA, hdb, ?_⟩
        intro hmem
        apply hdf
        rw [hf2', List.map_append]
        exact List.mem_append_right _ hmem
      apply hdf
      rw [hf2', List.map_append]
      apply List.mem_append_left
      rw [List.map_map]
      exact List.mem_map.2 ⟨d, List.mem_reverse.2 hdL, rfl⟩
  refine ⟨st2, ?_⟩
  unfold solve_round
  simp only [hb, hLb]
  have hfold' : Lb.foldl (assign_download S b
      (find_bottleneck st.relay_downloads st.active_relays).download_bandwidth)
      (some { st with
        active_relays := g_hash_table_insert st.active_relays b
          ((find_bottleneck st.relay_downloads st.active_relays).download_bandwidth *
            (Lb.length : ℚ))
        weights := st.weights.map fun w =>
          g_hash_table_insert w b
            ((1 / (find_bottleneck st.relay_downloads st.active_relays).download_bandwidth) *
              (Lb.length : ℚ)) }) = some st2 := hfold
  simp only [hfold', hact2, hrd2]
  rfl

/-- The main loop raises no error and ends within one pass per relay that has
downloads. -/
theorem solve_loop_total {A : List download_t} {relays : GHashTable String Int}
    {S : GHashTable download_t circuit_t}
    (hdist : ∀ d ∈ A, ∀ c, g_hash_table_lookup S d = some c → circuit_distinct c)
    (hcap : ∀ d ∈ A, ∀ r0, on_relay S r0 d = true →
      ∃ r, on_relay S r d = true ∧ relay_capacity relays r < 2147483647)
    (n : Nat) :
    ∀ (st : solve_state), solve_inv A relays S st → positive_ok relays S st → complete_ok st →
      g_hash_table_size st.relay_downloads ≤ n → ∃ st', solve_loop S n st = some st' := by
  induction n with
  | zero =>
    intro st _ _ _ hn
    unfold solve_loop
    rw [if_neg (by omega)]
    exact ⟨st, rfl⟩
  | succ n ih =>
    intro st hinv hp hq hn
    unfold solve_loop
    split
    · rename_i hc
      obtain ⟨st1, h1⟩ := solve_round_total hdist hcap hinv hp hq hc.2
      have hdec := solve_round_decreases hinv h1
      obtain ⟨j1, j2⟩ := solve_round_extra hinv h1
      rw [h1, Option.some_bind]
      exact ih st1 (solve_round_inv hinv h1) (j1 hp) (j2 hq) (by omega)
    · exact ⟨st, rfl⟩

theorem register_fold_total (relays : GHashTable String Int)
    (S : GHashTable download_t circuit_t) (l : List download_t)
    (hsel : ∀ d ∈ l, ∃ c, g_hash_table_lookup S d = some c) :
    ∀ t, ∃ t', l.foldl (register_download relays S) (some t) = some t' := by
  induction l with
  | nil =>
    intro t
    exact ⟨t, rfl⟩
  | cons d l ih =>
    intro t
    obtain ⟨c, hc⟩ := hsel d (List.mem_cons_self _ _)
    rw [List.foldl_cons]
    have h1 : ∃ t1, register_download relays S (some t) d = some t1 := by
      unfold register_download
      simp only [hc]
      exact ⟨_, rfl⟩
    obtain ⟨t1, h1⟩ := h1
    rw [h1]
    exact ih (fun x hx => hsel x (List.mem_cons_of_mem _ hx)) t1

/-- In exact arithmetic the call `compute_download_bandwidths` returns when
every active download has a circuit of three different relays whose capacities
are at least 1 and of which one is below `G_MAXINT32`, and the active set has
at most a million downloads. -/
theorem compute_download_bandwidths_returns {A : List download_t}
    {relays : GHashTable String Int} {S : GHashTable download_t circuit_t}
    (hsel : ∀ d ∈ A, ∃ c, g_hash_table_lookup S d = some c ∧ circuit_distinct c)
    (hcap : ∀ d ∈ A, ∀ r, on_relay S r d = true → 1 ≤ relay_capacity relays r)
    (hsmall : ∀ d ∈ A, ∀ r0, on_relay S r0 d = true →
      ∃ r, on_relay S r d = true ∧ relay_capacity relays r < 2147483647)
    (hsize : A.length ≤ 1000000) (w : Option (GHashTable String ℚ))
    (ab : Option (GHashTable String Int)) :
    ∃ res, compute_download_bandwidths A relays S w ab = some res := by
  obtain ⟨t, hbuild⟩ := register_fold_total relays S A
    (fun d hd => (hsel d hd).imp fun c h => h.1) ([], [])
  have hbuild' : build_relay_tables A relays S = some t := hbuild
  have hok := build_relay_tables_ok hbuild'
  have hdist : ∀ d ∈ A, ∀ c, g_hash_table_lookup S d = some c → circuit_distinct c := by
    intro d hd c hc
    obtain ⟨c', hc', hd'⟩ := hsel d hd
    rw [hc] at hc'
    cases hc'
    exact hd'
  have hinit_p : positive_ok relays S
      { active_relays := t.2, relay_downloads := t.1, total_bandwidth := 0, weights := w,
        fields := [] } := by
    refine ⟨?_, ?_, ?_⟩
    · intro r v hv
      have hv' : g_hash_table_lookup t.2 r = some v := hv
      rw [hok.capacity r v hv']
      have hne := hok.used r v hv'
      obtain ⟨d, hd⟩ := List.exists_mem_of_ne_nil _ hne
      obtain ⟨h1, h2⟩ := (hok.pending_mem r d).1 hd
      have := hcap d h1 r h2
      have h0 : 0 < relay_capacity relays r := by omega
      exact_mod_cast h0
    · intro r
      simp [relay_usage]
    · intro e he
      simp at he
  have hinit_q : complete_ok
      { active_relays := t.2, relay_downloads := t.1, total_bandwidth := 0, weights := w,
        fields := [] } := by
    refine ⟨?_, hok.active⟩
    intro r v hv
    have hv' : g_hash_table_lookup t.2 r = some v := hv
    show (1 / 1000000 : ℚ) * ((pending t.1 r).length : ℚ) ≤ v
    rw [hok.capacity r v hv']
    have hne := hok.used r v hv'
    obtain ⟨d, hd⟩ := List.exists_mem_of_ne_nil _ hne
    obtain ⟨h1, h2⟩ := (hok.pending_mem r d).1 hd
    have hc : (1 : ℚ) ≤ (relay_capacity relays r : ℚ) := by exact_mod_cast hcap d h1 r h2
    have hlen : (pending t.1 r).length ≤ A.length := by
      apply List.Subperm.length_le
      apply List.subperm_of_subset (hok.pending_nodup r)
      intro x hx
      exact ((hok.pending_mem r x).1 hx).1
    have hlen' : ((pending t.1 r).length : ℚ) ≤ 1000000 := by
      have : (pending t.1 r).length ≤ 1000000 := le_trans hlen hsize
      exact_mod_cast this
    linarith
  obtain ⟨st, hloop⟩ := solve_loop_total hdist hsmall
    (g_hash_table_size t.1) _ (solve_inv_init hbuild' w) hinit_p hinit_q (le_refl _)
  have hdrain := solve_loop_drains hbuild' hcap hsize w _ st hloop
  unfold compute_download_bandwidths
  rw [hbuild']
  dsimp only
  have hloop' : solve_loop S (g_hash_table_size t.1)
      { active_relays := t.2, relay_downloads := t.1, total_bandwidth := 0, weights := w,
        fields := [] } = some st := hloop
  rw [hloop']
  dsimp only
  rw [if_neg (by omega)]
  exact ⟨_, rfl⟩

theorem gdouble_round_zero : gdouble_round 0 = 0 := by
  unfold gdouble_round
  rw [if_pos rfl]

/-- The exponent of a rational below `2 ^ 31` in size is at most 30. -/
theorem gdouble_exponent_le (x : ℚ) (hx : x ≠ 0) (hlt : |x| < 2 ^ 31) :
    gdouble_exponent x ≤ 30 := by
  obtain ⟨s1, _⟩ := gdouble_exponent_spec x hx
  have h := lt_of_le_of_lt s1 hlt
  have h' : (2 : ℚ) ^ gdouble_exponent x < (2 : ℚ) ^ (31 : Int) := by
    rw [show ((2 : ℚ) ^ (31 : Int)) = (2 : ℚ) ^ (31 : Nat) from zpow_natCast 2 31]
    exact h
  have := (zpow_lt_zpow_iff_right₀ (by norm_num : (1 : ℚ) < 2)).1 h'
  omega

/-- Below `2 ^ 31` in size the binary64 value is within `2 ^ -23` of the
rational. -/
theorem gdouble_round_close (x : ℚ) (hlt : |x| < 2 ^ 31) :
    |gdouble_round x - x| ≤ 1 / 8388608 := by
  by_cases hx : x = 0
  · rw [hx, gdouble_round_zero]
    norm_num
  · obtain ⟨_, h⟩ := gdouble_round_near x hx
    have he := gdouble_exponent_le x hx hlt
    have hmax : max (gdouble_exponent x) (-1022) - 52 ≤ -22 := by
      have : max (gdouble_exponent x) (-1022) ≤ 30 := max_le he (by norm_num)
      omega
    have hp : (2 : ℚ) ^ (max (gdouble_exponent x) (-1022) - 52) ≤ (2 : ℚ) ^ (-22 : Int) :=
      zpow_le_zpow_right₀ (by norm_num) hmax
    have e22 : (2 : ℚ) ^ (-22 : Int) = 1 / 4194304 := by
      rw [zpow_neg, show ((2 : ℚ) ^ (22 : Int)) = (2 : ℚ) ^ (22 : Nat) from zpow_natCast 2 22]
      norm_num
    rw [e22] at hp
    calc |gdouble_round x - x| ≤ 2 ^ (max (gdouble_exponent x) (-1022) - 52) / 2 := h
      _ ≤ (1 / 4194304) / 2 := by linarith
      _ = 1 / 8388608 := by norm_num

theorem mem_insert_cases {κ ν : Type} [DecidableEq κ] (t : GHashTable κ ν) (k : κ) (v : ν)
    (e : κ × ν) (h : e ∈ g_hash_table_insert t k v) : e ∈ t ∨ e = (k, v) := by
  induction t with
  | nil =>
    simp only [g_hash_table_insert, List.mem_singleton] at h
    exact Or.inr h
  | cons p t ih =>
    obtain ⟨k1, v1⟩ := p
    unfold g_hash_table_insert at h
    by_cases h1 : k1 = k
    · rw [if_pos h1] at h
      rcases List.mem_cons.1 h with h2 | h2
      · exact Or.inr h2
      · exact Or.inl (List.mem_cons_of_mem _ h2)
    · rw [if_neg h1] at h
      rcases List.mem_cons.1 h with h2 | h2
      · exact Or.inl (by rw [h2]; exact List.mem_cons_self _ _)
      · rcases ih h2 with h3 | h3
        · exact Or.inl (List.mem_cons_of_mem _ h3)
        · exact Or.inr h3

theorem mem_remove_cases {κ ν : Type} [DecidableEq κ] (t : GHashTable κ ν) (k : κ)
    (e : κ × ν) (h : e ∈ g_hash_table_remove t k) : e ∈ t := by
  unfold g_hash_table_remove at h
  exact (List.mem_filter.1 h).1

theorem tolerance_bounds_half : (0 : ℚ) < Binary64.tolerance ∧ Binary64.tolerance < 1 / 2 := by
  constructor <;> decide!

theorem round_half_even_int (k : Int) : round_half_even (k : ℚ) = k :=
  le_antisymm (round_half_even_le k _ (le_refl _)) (le_round_half_even k _ (le_refl _))

/-- The exponent of a rational below `2 ^ 52` in size is at most 51. -/
theorem gdouble_exponent_lt (x : ℚ) (hx : x ≠ 0) (hlt : |x| < 2 ^ 52) :
    gdouble_exponent x ≤ 51 := by
  obtain ⟨s1, _⟩ := gdouble_exponent_spec x hx
  have h := lt_of_le_of_lt s1 hlt
  have h' : (2 : ℚ) ^ gdouble_exponent x < (2 : ℚ) ^ (52 : Int) := by
    rw [show ((2 : ℚ) ^ (52 : Int)) = (2 : ℚ) ^ (52 : Nat) from zpow_natCast 2 52]
    exact h
  have := (zpow_lt_zpow_iff_right₀ (by norm_num : (1 : ℚ) < 2)).1 h'
  omega

/-- Half of an integer below `2 ^ 53` in size is a binary64 value. -/
theorem gdouble_round_half (n : Int) (h : |(n : ℚ)| < 2 ^ 53) :
    gdouble_round ((n : ℚ) / 2) = (n : ℚ) / 2 := by
  by_cases hx : (n : ℚ) / 2 = 0
  · rw [hx, gdouble_round_zero]
  have hlt : |(n : ℚ) / 2| < 2 ^ 52 := by
    rw [abs_div, abs_of_pos (by norm_num : (0 : ℚ) < 2), div_lt_iff₀ (by norm_num)]
    calc |(n : ℚ)| < 2 ^ 53 := h
      _ = 2 ^ 52 * 2 := by norm_num
  have he := gdouble_exponent_lt _ hx hlt
  obtain ⟨j, hj⟩ : ∃ j : Nat,
      max (gdouble_exponent ((n : ℚ) / 2)) (-1022) - 52 = -((j : Int) + 1) :=
    ⟨(51 - max (gdouble_exponent ((n : ℚ) / 2)) (-1022)).toNat, by
      have : max (gdouble_exponent ((n : ℚ) / 2)) (-1022) ≤ 51 := max_le he (by norm_num)
      omega⟩
  unfold gdouble_round
  rw [if_neg hx, hj]
  have hp : (2 : ℚ) ^ (-((j : Int) + 1)) = 1 / (2 ^ j * 2) := by
    rw [zpow_neg, zpow_add_one₀ (by norm_num : (2 : ℚ) ≠ 0), zpow_natCast]
    simp
  have hpos : (0 : ℚ) < 2 ^ j := by positivity
  have e : (n : ℚ) / 2 / (1 / (2 ^ j * 2)) = ((n * 2 ^ j : Int) : ℚ) := by
    push_cast
    field_simp
    ring
  rw [hp, e, round_half_even_int]
  push_cast
  field_simp
  ring

/-- The binary64 difference of two halves of integers of moderate size is their
difference. -/
theorem gdouble_sub_half (a b : Int) (h : |((a - b : Int) : ℚ)| < 2 ^ 53) :
    gdouble_sub ((a : ℚ) / 2) ((b : ℚ) / 2) = ((a - b : Int) : ℚ) / 2 := by
  unfold gdouble_sub
  have e : (a : ℚ) / 2 - (b : ℚ) / 2 = ((a - b : Int) : ℚ) / 2 := by push_cast; ring
  rw [e]
  exact gdouble_round_half _ h

theorem gdouble_add_half (a b : Int) (h : |((a + b : Int) : ℚ)| < 2 ^ 53) :
    gdouble_add ((a : ℚ) / 2) ((b : ℚ) / 2) = ((a + b : Int) : ℚ) / 2 := by
  unfold gdouble_add
  have e : (a : ℚ) / 2 + (b : ℚ) / 2 = ((a + b : Int) : ℚ) / 2 := by push_cast; ring
  rw [e]
  exact gdouble_round_half _ h

/-- The binary64 quotient of a residual by a number of downloads stays above a
half of an integer that the quotient is above. -/
theorem gdouble_div_gt_half (v : Int) (n : Nat) (m : Int) (hv : 0 ≤ v ∧ v ≤ 4294967294)
    (hn : n ≤ 1000000) (h : (m : ℚ) / 2 < (v : ℚ) / 2 / (n : ℚ)) :
    (m : ℚ) / 2 < gdouble_div ((v : ℚ) / 2) (n : ℚ) := by
  unfold gdouble_div
  rcases Nat.eq_zero_or_pos n with h0 | hpos
  · subst h0
    simp only [Nat.cast_zero, div_zero] at h ⊢
    rw [gdouble_round_zero]
    exact h
  have hn' : (0 : ℚ) < (n : ℚ) := by exact_mod_cast hpos
  have hn1 : (1 : ℚ) ≤ (n : ℚ) := by exact_mod_cast hpos
  have hnle : (n : ℚ) ≤ 1000000 := by exact_mod_cast hn
  have hv0 : (0 : ℚ) ≤ (v : ℚ) := by exact_mod_cast hv.1
  have hv1 : (v : ℚ) ≤ 4294967294 := by exact_mod_cast hv.2
  have hx0 : (0 : ℚ) ≤ (v : ℚ) / 2 / (n : ℚ) := div_nonneg (by linarith) (le_of_lt hn')
  have hxle : (v : ℚ) / 2 / (n : ℚ) ≤ 2147483647 := by
    rw [div_le_iff₀ hn']
    nlinarith
  have hlt : |(v : ℚ) / 2 / (n : ℚ)| < 2 ^ 31 := by
    rw [abs_of_nonneg hx0]
    norm_num
    linarith
  have hmn : m * (n : Int) + 1 ≤ v := by
    have h1 : (m : ℚ) * (n : ℚ) < (v : ℚ) := by
      rw [lt_div_iff₀ hn'] at h
      linarith
    have h2 : ((m * (n : Int) : Int) : ℚ) < ((v : Int) : ℚ) := by
      push_cast
      exact h1
    have h3 : m * (n : Int) < v := by exact_mod_cast h2
    omega
  have hgap : (m : ℚ) / 2 + 1 / (2 * (n : ℚ)) ≤ (v : ℚ) / 2 / (n : ℚ) := by
    rw [le_div_iff₀ hn']
    have : ((m * (n : Int) + 1 : Int) : ℚ) ≤ (v : ℚ) := by exact_mod_cast hmn
    push_cast at this
    have e : ((m : ℚ) / 2 + 1 / (2 * (n : ℚ))) * (n : ℚ) = ((m : ℚ) * (n : ℚ) + 1) / 2 := by
      field_simp
      ring
    rw [e]
    linarith
  have hinv : (1 : ℚ) / 2000000 ≤ 1 / (2 * (n : ℚ)) :=
    one_div_le_one_div_of_le (by linarith) (by linarith)
  have hclose := gdouble_round_close _ hlt
  have := (abs_le.1 hclose).1
  linarith

/-- The binary64 quotient that is half of an integer is that value. -/
theorem gdouble_div_eq_half (v : ℚ) (n : ℚ) (m : Int) (hm : |(m : ℚ)| < 2 ^ 53)
    (h : v / n = (m : ℚ) / 2) : gdouble_div v n = (m : ℚ) / 2 := by
  unfold gdouble_div
  rw [h]
  exact gdouble_round_half m hm

/-- The two searches for the bottleneck in step: once the exact search holds a
share that is half of a whole number and that no relay undercuts, the binary64
search holds the same record. -/
theorem bottleneck_fold_half (rd : GHashTable String (List download_t)) (m : Int)
    (hm : |(m : ℚ)| < 2 ^ 53) (a : GHashTable String ℚ) :
    half_table a →
    (∀ r L, g_hash_table_lookup rd r = some L → L.length ≤ 1000000) →
    (∀ e ∈ a, e.2 ≠ 0 → ∀ L, g_hash_table_lookup rd e.1 = some L →
      (m : ℚ) / 2 ≤ e.2 / (L.length : ℚ)) →
    ∀ acc acc2 : bottleneck_t,
      ((acc.download_bandwidth = (m : ℚ) / 2 ∧ acc2 = acc) ∨
        ((m : ℚ) / 2 < acc.download_bandwidth ∧ (m : ℚ) / 2 < acc2.download_bandwidth)) →
      (((a.foldl (bottleneck_step rd) acc).download_bandwidth = (m : ℚ) / 2 ∧
          a.foldl (Binary64.bottleneck_step rd) acc2 = a.foldl (bottleneck_step rd) acc) ∨
        ((m : ℚ) / 2 < (a.foldl (bottleneck_step rd) acc).download_bandwidth ∧
          (m : ℚ) / 2 < (a.foldl (Binary64.bottleneck_step rd) acc2).download_bandwidth)) := by
  induction a with
  | nil =>
    intro _ _ _ acc acc2 h
    exact h
  | cons e t ih =>
    intro hw hlen hlow acc acc2 h
    rw [List.foldl_cons, List.foldl_cons]
    apply ih (fun x hx => hw x (List.mem_cons_of_mem _ hx)) hlen
      (fun x hx => hlow x (List.mem_cons_of_mem _ hx))
    obtain ⟨n, hn, hn0, hn1⟩ := hw e (List.mem_cons_self _ _)
    unfold bottleneck_step Binary64.bottleneck_step
    by_cases hz : e.2 = 0
    · rw [if_pos hz, if_pos hz]
      exact h
    rw [if_neg hz, if_neg hz]
    cases hL : g_hash_table_lookup rd e.1 with
    | none => exact h
    | some L =>
      dsimp only
      have hle := hlow e (List.mem_cons_self _ _) hz L hL
      have hLlen := hlen e.1 L hL
      rcases eq_or_lt_of_le hle with heq | hgt
      · -- the relay ties with the share
        have hfl : gdouble_div e.2 (L.length : ℚ) = (m : ℚ) / 2 :=
          gdouble_div_eq_half _ _ m hm heq.symm
        rw [hfl, ← heq]
        rcases h with ⟨h1, h2⟩ | ⟨h1, h2⟩
        · subst h2
          rw [h1, if_neg (lt_irrefl _)]
          exact Or.inl ⟨h1, rfl⟩
        · rw [if_pos h1, if_pos h2]
          exact Or.inl ⟨rfl, rfl⟩
      · -- the relay offers more than the share
        have hgt2 : (m : ℚ) / 2 < gdouble_div e.2 (L.length : ℚ) := by
          rw [hn] at hgt ⊢
          exact gdouble_div_gt_half n L.length m ⟨hn0, hn1⟩ hLlen hgt
        rcases h with ⟨h1, h2⟩ | ⟨h1, h2⟩
        · subst h2
          rw [h1, if_neg (not_lt.2 (le_of_lt hgt)), if_neg (not_lt.2 (le_of_lt hgt2))]
          exact Or.inl ⟨h1, rfl⟩
        · right
          constructor
          · split
            · exact hgt
            · exact h1
          · split
            · exact hgt2
            · exact h2

/-- When the share that the exact search ends with is half of a whole number,
the binary64 search ends with the same record. -/
theorem bottleneck_search_half (rd : GHashTable String (List download_t))
    (a : GHashTable String ℚ) (m : Int) (hm : |(m : ℚ)| < 2 ^ 53) (hw : half_table a)
    (hlen : ∀ r L, g_hash_table_lookup rd r = some L → L.length ≤ 1000000)
    (acc : bottleneck_t)
    (h : (a.foldl (bottleneck_step rd) acc).download_bandwidth = (m : ℚ) / 2) :
    a.foldl (Binary64.bottleneck_step rd) acc = a.foldl (bottleneck_step rd) acc := by
  obtain ⟨h1, h2, _⟩ := bottleneck_fold rd a acc
  rw [h] at h1 h2
  have h0 : (acc.download_bandwidth = (m : ℚ) / 2 ∧ acc = acc) ∨
      ((m : ℚ) / 2 < acc.download_bandwidth ∧ (m : ℚ) / 2 < acc.download_bandwidth) := by
    rcases eq_or_lt_of_le h1 with e | l
    · exact Or.inl ⟨e.symm, rfl⟩
    · exact Or.inr ⟨l, l⟩
  rcases bottleneck_fold_half rd m hm a hw hlen h2 acc acc h0 with ⟨_, k2⟩ | ⟨k1, _⟩
  · exact k2
  · rw [h] at k1
    exact absurd k1 (lt_irrefl _)

/-- When the share that the exact search finds is half of a whole number, the
binary64 search finds the same bottleneck with the same share. -/
theorem find_bottleneck_half (rd : GHashTable String (List download_t))
    (a : GHashTable String ℚ) (m : Int) (hm : |(m : ℚ)| < 2 ^ 53) (hw : half_table a)
    (hlen : ∀ r L, g_hash_table_lookup rd r = some L → L.length ≤ 1000000)
    (h : (find_bottleneck rd a).download_bandwidth = (m : ℚ) / 2) :
    Binary64.find_bottleneck rd a = find_bottleneck rd a := by
  unfold find_bottleneck at h
  unfold Binary64.find_bottleneck find_bottleneck
  exact bottleneck_search_half rd a m hm hw hlen _ h

theorem abs_lt_of_bounds (n : Int) (h0 : -9000000000000000 ≤ n) (h1 : n ≤ 9000000000000000) :
    |(n : ℚ)| < 2 ^ 53 := by
  rw [abs_lt]
  constructor
  · have h' : ((-9000000000000000 : Int) : ℚ) ≤ (n : ℚ) := by exact_mod_cast h0
    have : (-(2 : ℚ) ^ 53) < ((-9000000000000000 : Int) : ℚ) := by norm_num
    linarith
  · have h' : (n : ℚ) ≤ ((9000000000000000 : Int) : ℚ) := by exact_mod_cast h1
    have : ((9000000000000000 : Int) : ℚ) < (2 : ℚ) ^ 53 := by norm_num
    linarith

/-- On a table of residuals that are halves of whole numbers the subtraction
of such a share is the same in binary64, and leaves such residuals. -/
theorem update_relays_half (a : GHashTable String ℚ) (r : String) (m : Int)
    (hm : 0 ≤ m ∧ m ≤ 4294967294) (hw : half_table a) :
    Binary64.update_relays a r ((m : ℚ) / 2) = update_relays a r ((m : ℚ) / 2) ∧
    ∀ a', update_relays a r ((m : ℚ) / 2) = some a' → half_table a' := by
  unfold Binary64.update_relays update_relays
  cases hv : g_hash_table_lookup a r with
  | none =>
    refine ⟨rfl, ?_⟩
    intro a' h
    cases h
  | some v =>
    dsimp only
    obtain ⟨n, hn, hn0, hn1⟩ := hw _ (mem_of_lookup hv)
    simp only at hn
    subst hn
    have hsub : gdouble_sub ((n : ℚ) / 2) ((m : ℚ) / 2) = ((n - m : Int) : ℚ) / 2 :=
      gdouble_sub_half n m (abs_lt_of_bounds _ (by omega) (by omega))
    have hcast : (n : ℚ) / 2 - (m : ℚ) / 2 = ((n - m : Int) : ℚ) / 2 := by push_cast; ring
    rw [hsub, hcast]
    obtain ⟨t0, t1⟩ := tolerance_bounds_half
    by_cases hle : n - m ≤ 0
    · have hq : ((n - m : Int) : ℚ) / 2 ≤ 0 := by
        have : ((n - m : Int) : ℚ) ≤ 0 := by exact_mod_cast hle
        linarith
      rw [if_pos (lt_of_le_of_lt hq t0), if_pos (lt_of_le_of_lt hq (by norm_num))]
      refine ⟨rfl, ?_⟩
      intro a' h
      cases h
      intro e he
      exact hw e (mem_remove_cases _ _ _ he)
    · have hge : 1 ≤ n - m := by omega
      have hq : (1 : ℚ) / 2 ≤ ((n - m : Int) : ℚ) / 2 := by
        have : (1 : ℚ) ≤ ((n - m : Int) : ℚ) := by exact_mod_cast hge
        linarith
      rw [if_neg (not_lt.2 (le_trans (le_of_lt t1) hq)),
        if_neg (not_lt.2 (le_trans (by norm_num) hq))]
      refine ⟨rfl, ?_⟩
      intro a' h
      cases h
      intro e he
      rcases mem_insert_cases _ _ _ _ he with h1 | h1
      · exact hw e h1
      · rw [h1]
        exact ⟨n - m, rfl, by omega, by omega⟩

/-- One assignment of a share that is half of a whole number, on tables of
such residuals, is the same in binary64. -/
theorem assign_download_half {S : GHashTable download_t circuit_t} {b : String} (m : Int)
    (hm : 0 ≤ m ∧ m ≤ 4294967294) {st st2 st' : solve_state} {d : download_t}
    (hsame : same_tables st st2) (hw : half_table st.active_relays) (ht : half_total st)
    (hlen : st.fields.length + 1 ≤ 1000000)
    (h : assign_download S b ((m : ℚ) / 2) (some st) d = some st') :
    ∃ st2', Binary64.assign_download S b ((m : ℚ) / 2) (some st2) d = some st2' ∧
      same_tables st' st2' ∧ half_table st'.active_relays ∧ half_total st' ∧
      st'.fields.length = st.fields.length + 1 := by
  obtain ⟨e1, e2, e3, e4⟩ := hsame
  unfold assign_download at h
  unfold Binary64.assign_download
  cases hc : g_hash_table_lookup S d with
  | none => simp [hc] at h
  | some c =>
    simp only [hc, Option.bind_eq_some] at h
    obtain ⟨a1, ha1, a2, ha2, a3, ha3, r1, hr1, r2, hr2, r3, hr3, hst⟩ := h
    simp only [Option.some.injEq] at hst
    subst hst
    obtain ⟨u1, w1⟩ := update_relays_half st.active_relays c.guard m hm hw
    have hw1 := w1 a1 ha1
    obtain ⟨u2, w2⟩ := update_relays_half a1 c.middle m hm hw1
    have hw2 := w2 a2 ha2
    obtain ⟨u3, w3⟩ := update_relays_half a2 c.exit m hm hw2
    have hw3 := w3 a3 ha3
    obtain ⟨n, hn, hn0, hn1⟩ := ht
    have hl : (st.fields.length : Int) + 1 ≤ 1000000 := by exact_mod_cast hlen
    have hadd : gdouble_add st.total_bandwidth ((m : ℚ) / 2) = ((n + m : Int) : ℚ) / 2 := by
      rw [hn]
      apply gdouble_add_half
      have hb1 : 0 ≤ n + m := by omega
      have hb2 : n + m ≤ 4294967294 * 1000000 := by nlinarith
      exact abs_lt_of_bounds _ (by omega) (by omega)
    simp only [e1, e2, e3, e4, u1, ha1, u2, ha2, u3, ha3, hr1, hr2, hr3, Option.some_bind,
      Option.bind_some, hadd]
    refine ⟨_, rfl, ⟨rfl, rfl, ?_, rfl⟩, hw3, ⟨n + m, ?_, by omega, ?_⟩, by simp⟩
    · simp only
      rw [hn]
      push_cast
      ring
    · simp only
      rw [hn]
      push_cast
      ring
    · simp only [List.length_cons]
      push_cast
      nlinarith

theorem assign_download_none_binary64 (S : GHashTable download_t circuit_t) (b : String)
    (s : ℚ) (l : List download_t) :
    l.foldl (Binary64.assign_download S b s) none = none := by
  induction l with
  | nil => rfl
  | cons d t ih => simpa [List.foldl_cons, Binary64.assign_download] using ih

/-- The inner loop of a round whose share is half of a whole number is the
same in binary64. -/
theorem assign_fold_half {S : GHashTable download_t circuit_t} {b : String} (m : Int)
    (hm : 0 ≤ m ∧ m ≤ 4294967294) (l : List download_t) :
    ∀ (st st2 st' : solve_state), same_tables st st2 → half_table st.active_relays →
      half_total st → st.fields.length + l.length ≤ 1000000 →
      l.foldl (assign_download S b ((m : ℚ) / 2)) (some st) = some st' →
      ∃ st2', l.foldl (Binary64.assign_download S b ((m : ℚ) / 2)) (some st2) = some st2' ∧
        same_tables st' st2' ∧ half_table st'.active_relays ∧ half_total st' := by
  induction l with
  | nil =>
    intro st st2 st' hsame hw ht _ h
    simp only [List.foldl_nil, Option.some.injEq] at h
    subst h
    exact ⟨st2, rfl, hsame, hw, ht⟩
  | cons d t ih =>
    intro st st2 st' hsame hw ht hlen h
    rw [List.foldl_cons] at h ⊢
    cases h1 : assign_download S b ((m : ℚ) / 2) (some st) d with
    | none =>
      rw [h1, assign_download_none] at h
      cases h
    | some s1 =>
      rw [h1] at h
      rw [List.length_cons] at hlen
      obtain ⟨s2, k1, k2, k3, k4, k5⟩ :=
        assign_download_half m hm hsame hw ht (by omega) h1
      rw [k1]
      exact ih s1 s2 st' k2 k3 k4 (by omega) h

theorem length_le_of_nodup_subset {α : Type} [DecidableEq α] {l A : List α} (hn : l.Nodup)
    (hs : ∀ x ∈ l, x ∈ A) : l.length ≤ A.length :=
  (List.subperm_of_subset hn hs).length_le

/-- One round whose share is half of a whole number is the same in binary64. -/
theorem solve_round_half {A : List download_t} {relays : GHashTable String Int}
    {S : GHashTable download_t circuit_t} {st st2 st' : solve_state}
    (hinv : solve_inv A relays S st) (hA : A.length ≤ 1000000)
    (hsame : same_tables st st2) (hw : half_table st.active_relays) (ht : half_total st)
    (hwf : half_fields st'.fields) (h : solve_round S st = some st') :
    ∃ st2', Binary64.solve_round S st2 = some st2' ∧ same_tables st' st2' ∧
      half_table st'.active_relays ∧ half_total st' := by
  obtain ⟨b, L, hb, hL, hfold, hc1, hc2⟩ := solve_round_cases h
  obtain ⟨vb, hvb', hvb, hLne, hs, hmax, _, _, hok1, hs1, hon⟩ :=
    solve_round_start hinv hb hL _ rfl
  obtain ⟨k1, _, k3, _, _, _⟩ := assign_fold_spec L _ _ hok1 hs1 hon hfold
  have hpos : (0 : ℚ) < (L.length : ℚ) := by
    have : L.length ≠ 0 := fun e => hLne (List.length_eq_zero.1 e)
    exact_mod_cast Nat.pos_of_ne_zero this
  -- the share is half of a whole number
  obtain ⟨d0, hd0⟩ := List.exists_mem_of_ne_nil L hLne
  obtain ⟨m, hmdef⟩ := hwf
    (d0, (find_bottleneck st.relay_downloads st.active_relays).download_bandwidth, b)
    (by
      rw [k3]
      apply List.mem_append_left
      exact List.mem_map.2 ⟨d0, List.mem_reverse.2 hd0, rfl⟩)
  simp only at hmdef
  obtain ⟨nb, hnb, hnb0, hnb1⟩ := hw _ (mem_of_lookup hvb')
  simp only at hnb
  have hm0 : 0 ≤ m := by
    have h1 : (0 : ℚ) ≤
        (find_bottleneck st.relay_downloads st.active_relays).download_bandwidth := by
      rw [hs, hnb]
      exact div_nonneg (div_nonneg (by exact_mod_cast hnb0) (by norm_num)) (le_of_lt hpos)
    rw [hmdef] at h1
    have h2 : (0 : ℚ) ≤ (m : ℚ) := by linarith
    exact_mod_cast h2
  have hm1 : m ≤ 4294967294 := by
    have h1 := hmax
    rw [hmdef] at h1
    unfold G_MAXINT32 at h1
    have h2 : (m : ℚ) < ((4294967294 : Int) : ℚ) := by
      push_cast
      linarith
    have h3 : m < 4294967294 := by exact_mod_cast h2
    omega
  have hm53 : |(m : ℚ)| < 2 ^ 53 := abs_lt_of_bounds _ (by omega) (by omega)
  -- the lists of waiting downloads are short
  have hshort : ∀ r L', g_hash_table_lookup st.relay_downloads r = some L' →
      L'.length ≤ 1000000 := by
    intro r L' hL'
    have hp := pending_of_lookup hL'
    have hn := hinv.tables.pending_nodup r
    rw [hp] at hn
    refine le_trans (length_le_of_nodup_subset hn ?_) hA
    intro x hx
    exact ((hinv.tables.pending_mem r x).1 (by rw [hp]; exact hx)).1
  have hfind := find_bottleneck_half st.relay_downloads st.active_relays m hm53 hw hshort hmdef
  obtain ⟨e1, e2, e3, e4⟩ := hsame
  -- the product that resets the residual of the bottleneck
  have hreset : (m : ℚ) / 2 * (L.length : ℚ) = (nb : ℚ) / 2 := by
    rw [← hmdef, hs, hnb]
    field_simp
    ring
  have hmul : gdouble_mul ((m : ℚ) / 2) (L.length : ℚ) = (m : ℚ) / 2 * (L.length : ℚ) := by
    unfold gdouble_mul
    rw [hreset]
    exact gdouble_round_half nb (abs_lt_of_bounds _ (by omega) (by omega))
  have hsame1 : same_tables (round_start st b ((m : ℚ) / 2) L.length)
      (Binary64.round_start st2 b ((m : ℚ) / 2) L.length) := by
    unfold same_tables round_start Binary64.round_start
    simp only [e1, e2, e3, e4, hmul, and_self]
  have hw1 : half_table (round_start st b ((m : ℚ) / 2) L.length).active_relays := by
    intro e he
    rcases mem_insert_cases _ _ _ _ he with h1 | h1
    · exact hw e h1
    · rw [h1]
      exact ⟨nb, hreset, hnb0, hnb1⟩
  have ht1 : half_total (round_start st b ((m : ℚ) / 2) L.length) := ht
  have hlen1 : (round_start st b ((m : ℚ) / 2) L.length).fields.length + L.length ≤
      1000000 := by
    have h1 : st'.fields.length ≤ A.length := by
      have := length_le_of_nodup_subset k1.fields_nodup (A := A) (by
        intro x hx
        obtain ⟨e, he, rfl⟩ := List.mem_map.1 hx
        exact (k1.fields_mem e he).1)
      simpa using this
    rw [k3] at h1
    simp only [List.length_append, List.length_map, List.length_reverse] at h1
    show st.fields.length + L.length ≤ 1000000
    have h2 : (round_start st b
      (find_bottleneck st.relay_downloads st.active_relays).download_bandwidth
        L.length).fields = st.fields := rfl
    rw [h2] at h1
    omega
  rw [hmdef] at hfold
  obtain ⟨st2', j1, j2, j3, j4⟩ :=
    assign_fold_half m ⟨hm0, hm1⟩ L _ _ st' hsame1 hw1 ht1 hlen1 hfold
  refine ⟨st2', ?_, j2, j3, j4⟩
  unfold Binary64.solve_round Binary64.assign_round
  simp only [e1, e2, hfind, hb, hL, hmdef, j1]
  obtain ⟨f1, f2, _, _⟩ := j2
  rw [f1, f2, hc1, hc2]
  rfl

/-- The fields written before a loop are among the fields after it. -/
theorem solve_loop_fields {A : List download_t} {relays : GHashTable String Int}
    {S : GHashTable download_t circuit_t} (n : Nat) :
    ∀ (st st' : solve_state), solve_inv A relays S st → solve_loop S n st = some st' →
      ∀ e ∈ st.fields, e ∈ st'.fields := by
  induction n with
  | zero =>
    intro st st' _ h
    unfold solve_loop at h
    split at h
    · cases h
    · cases h
      exact fun e he => he
  | succ n ih =>
    intro st st' hinv h
    unfold solve_loop at h
    split at h
    · obtain ⟨st1, h1, h2⟩ := Option.bind_eq_some.1 h
      obtain ⟨b, s, l, vb, _, _, _, _, _, _, _, _, _, hfld, _⟩ := solve_round_spec hinv h1
      intro e he
      apply ih st1 st' (solve_round_inv hinv h1) h2 e
      rw [hfld]
      exact List.mem_append_right _ he
    · cases h
      exact fun e he => he

/-- A loop that ends with bandwidths that are halves of whole numbers is the
same in binary64. -/
theorem solve_loop_half {A : List download_t} {relays : GHashTable String Int}
    {S : GHashTable download_t circuit_t} (hA : A.length ≤ 1000000) (n : Nat) :
    ∀ (st st2 st' : solve_state), solve_inv A relays S st → same_tables st st2 →
      half_table st.active_relays → half_total st → half_fields st'.fields →
      solve_loop S n st = some st' →
      ∃ st2', Binary64.solve_loop S n st2 = some st2' ∧ same_tables st' st2' := by
  induction n with
  | zero =>
    intro st st2 st' _ hsame _ _ _ h
    unfold solve_loop at h
    unfold Binary64.solve_loop
    rw [hsame.1, hsame.2.1]
    split at h
    · cases h
    · rename_i hc
      cases h
      rw [if_neg hc]
      exact ⟨st2, rfl, hsame⟩
  | succ n ih =>
    intro st st2 st' hinv hsame hw ht hwf h
    unfold solve_loop at h
    unfold Binary64.solve_loop
    rw [hsame.1, hsame.2.1]
    split at h
    · rename_i hc
      rw [if_pos hc]
      obtain ⟨st1, h1, h2⟩ := Option.bind_eq_some.1 h
      have hinv1 := solve_round_inv hinv h1
      have hwf1 : half_fields st1.fields := by
        intro e he
        exact hwf e (solve_loop_fields n st1 st' hinv1 h2 e he)
      obtain ⟨s2, j1, j2, j3, j4⟩ := solve_round_half hinv hA hsame hw ht hwf1 h1
      rw [j1]
      exact ih st1 s2 st' hinv1 j2 j3 j4 hwf h2
    · rename_i hc
      cases h
      rw [if_neg hc]
      exact ⟨st2, rfl, hsame⟩

/-- The two embeddings agree where no operation rounds. When the capacities of
the relays in use are from 0 to `2^31 - 1`, the active set has at most a
million downloads and the call returns in exact arithmetic with bandwidths
that are all halves of whole numbers, the call returns in binary64 as well,
with the same total, the same table of available bandwidths and the same
fields. -/
theorem compute_download_bandwidths_half {A : List download_t}
    {relays : GHashTable String Int} {S : GHashTable download_t circuit_t}
    (w : Option (GHashTable String ℚ)) (ab : Option (GHashTable String Int))
    {res : solve_result}
    (hcap : ∀ d ∈ A, ∀ r, on_relay S r d = true →
      0 ≤ relay_capacity relays r ∧ relay_capacity relays r ≤ 2147483647)
    (hA : A.length ≤ 1000000)
    (h : compute_download_bandwidths A relays S w ab = some res)
    (hwf : half_fields res.fields) :
    ∃ res2, Binary64.compute_download_bandwidths A relays S w ab = some res2 ∧
      res2.total_bandwidth = res.total_bandwidth ∧
      res2.available_bandwidth = res.available_bandwidth ∧ res2.fields = res.fields := by
  unfold compute_download_bandwidths at h
  unfold Binary64.compute_download_bandwidths
  split at h
  · cases h
  rename_i rd a hbuild
  dsimp only at h
  split at h
  · cases h
  rename_i st hloop
  split at h
  · cases h
  rename_i hempty
  cases h
  have hok := build_relay_tables_ok hbuild
  have hw : half_table a := by
    intro e he
    have hl : g_hash_table_lookup a e.1 = some e.2 := lookup_of_mem hok.keys_active he
    have hv := hok.capacity e.1 e.2 hl
    have hne := hok.used e.1 e.2 hl
    obtain ⟨d, hd⟩ := List.exists_mem_of_ne_nil _ hne
    obtain ⟨hdA, hon⟩ := (hok.pending_mem e.1 d).1 hd
    obtain ⟨c0, c1⟩ := hcap d hdA e.1 hon
    refine ⟨2 * relay_capacity relays e.1, ?_, by omega, by omega⟩
    rw [hv]
    push_cast
    ring
  obtain ⟨st2, j1, j2⟩ := solve_loop_half hA (g_hash_table_size rd)
    { active_relays := a, relay_downloads := rd, total_bandwidth := 0, weights := w,
      fields := [] }
    { active_relays := a, relay_downloads := rd, total_bandwidth := 0, weights := w,
      fields := [] } st (solve_inv_init hbuild w) ⟨rfl, rfl, rfl, rfl⟩ hw
    ⟨0, by simp, le_refl _, by simp⟩ hwf hloop
  dsimp only
  rw [j1]
  dsimp only
  obtain ⟨f1, f2, f3, f4⟩ := j2
  rw [f2, if_neg hempty]
  exact ⟨_, rfl, f3, by rw [f1], f4⟩

/-- The two embeddings agree on whole numbers: a call that returns in exact
arithmetic with bandwidths that are all whole numbers returns in binary64 with
the same total, the same table of available bandwidths and the same fields. -/
theorem compute_download_bandwidths_whole {A : List download_t}
    {relays : GHashTable String Int} {S : GHashTable download_t circuit_t}
    (w : Option (GHashTable String ℚ)) (ab : Option (GHashTable String Int))
    {res : solve_result}
    (hcap : ∀ d ∈ A, ∀ r, on_relay S r d = true →
      0 ≤ relay_capacity relays r ∧ relay_capacity relays r ≤ 2147483647)
    (hA : A.length ≤ 1000000)
    (h : compute_download_bandwidths A relays S w ab = some res)
    (hwf : whole_fields res.fields) :
    ∃ res2, Binary64.compute_download_bandwidths A relays S w ab = some res2 ∧
      res2.total_bandwidth = res.total_bandwidth ∧
      res2.available_bandwidth = res.available_bandwidth ∧ res2.fields = res.fields := by
  apply compute_download_bandwidths_half w ab hcap hA h
  intro e he
  obtain ⟨n, hn⟩ := hwf e he
  refine ⟨2 * n, ?_⟩
  rw [hn]
  push_cast
  ring

/-- The fields written are whole numbers when the bandwidth of every active
download is. -/
theorem whole_fields_of_bandwidth {A : List download_t} {relays : GHashTable String Int}
    {S : GHashTable download_t circuit_t} {w : Option (GHashTable String ℚ)}
    {ab : Option (GHashTable String Int)} {res : solve_result}
    (h : compute_download_bandwidths A relays S w ab = some res)
    (hb : ∀ d ∈ A, ∃ n : Int, bandwidth_of res.fields d = (n : ℚ)) :
    whole_fields res.fields := by
  obtain ⟨st, hinv, hf, _, _, _⟩ := compute_download_bandwidths_inv h
  have hnodup : (res.fields.map Prod.fst).Nodup := by
    rw [hf]
    exact hinv.tables.fields_nodup
  intro e he
  have he1 : e.1 ∈ A := by
    rw [hf] at he
    exact (hinv.tables.fields_mem e he).1
  obtain ⟨n, hn⟩ := hb e.1 he1
  exact ⟨n, by rw [← (fields_entry hnodup he).1, hn]⟩

/-- The fields written are halves of whole numbers when the bandwidth of every
active download is. -/
theorem half_fields_of_bandwidth {A : List download_t} {relays : GHashTable String Int}
    {S : GHashTable download_t circuit_t} {w : Option (GHashTable String ℚ)}
    {ab : Option (GHashTable String Int)} {res : solve_result}
    (h : compute_download_bandwidths A relays S w ab = some res)
    (hb : ∀ d ∈ A, ∃ n : Int, bandwidth_of res.fields d = (n : ℚ) / 2) :
    half_fields res.fields := by
  obtain ⟨st, hinv, hf, _, _, _⟩ := compute_download_bandwidths_inv h
  have hnodup : (res.fields.map Prod.fst).Nodup := by
    rw [hf]
    exact hinv.tables.fields_nodup
  intro e he
  have he1 : e.1 ∈ A := by
    rw [hf] at he
    exact (hinv.tables.fields_mem e he).1
  obtain ⟨n, hn⟩ := hb e.1 he1
  exact ⟨n, by rw [← (fields_entry hnodup he).1, hn]⟩

/-- Three terms that are not negative, rounded and added in binary64 from
zero, stay within a millionth of their sum, when the sum is within `gint`. -/
theorem gdouble_sum_close (y1 y2 y3 : ℚ) (h1 : 0 ≤ y1) (h2 : 0 ≤ y2) (h3 : 0 ≤ y3)
    (hs : y1 + y2 + y3 ≤ 2147483647) :
    |gdouble_add (gdouble_add (gdouble_add 0 (gdouble_round y1)) (gdouble_round y2))
        (gdouble_round y3) - (y1 + y2 + y3)| ≤ 1 / 1000000 := by
  have lim : ∀ x : ℚ, -1 ≤ x → x ≤ 2147483647 + 1 / 2 → |x| < 2 ^ 31 := by
    intro x hx0 hx1
    rw [abs_lt]
    constructor
    · norm_num
      linarith
    · norm_num
      linarith
  have c1 := abs_le.1 (gdouble_round_close y1 (lim y1 (by linarith) (by linarith)))
  have c2 := abs_le.1 (gdouble_round_close y2 (lim y2 (by linarith) (by linarith)))
  have c3 := abs_le.1 (gdouble_round_close y3 (lim y3 (by linarith) (by linarith)))
  unfold gdouble_add
  have d1 := abs_le.1 (gdouble_round_close (0 + gdouble_round y1)
    (lim _ (by linarith [c1.1]) (by linarith [c1.2])))
  have d2 := abs_le.1 (gdouble_round_close
    (gdouble_round (0 + gdouble_round y1) + gdouble_round y2)
    (lim _ (by linarith [c1.1, c2.1, d1.1]) (by linarith [c1.2, c2.2, d1.2])))
  have d3 := abs_le.1 (gdouble_round_close
    (gdouble_round (gdouble_round (0 + gdouble_round y1) + gdouble_round y2) +
      gdouble_round y3)
    (lim _ (by linarith [c1.1, c2.1, c3.1, d1.1, d2.1])
      (by linarith [c1.2, c2.2, c3.2, d1.2, d2.2])))
  rw [abs_le]
  constructor
  · linarith [c1.1, c2.1, c3.1, d1.1, d2.1, d3.1]
  · linarith [c1.2, c2.2, c3.2, d1.2, d2.2, d3.2]

/-! ## Downloads that share a circuit no other download touches -/

theorem circuit_capacity_le (relays : GHashTable String Int) (c : circuit_t) (r : String)
    (hr : r ∈ circuit_relays c) : circuit_capacity relays c ≤ relay_capacity relays r := by
  unfold circuit_capacity
  rcases (mem_circuit_relays c r).1 hr with rfl | rfl | rfl
  · exact min_le_left _ _
  · exact le_trans (min_le_right _ _) (min_le_left _ _)
  · exact le_trans (min_le_right _ _) (min_le_right _ _)

theorem circuit_capacity_eq (relays : GHashTable String Int) (c : circuit_t) (b : String)
    (hb : b ∈ circuit_relays c)
    (hle : ∀ r ∈ circuit_relays c, relay_capacity relays b ≤ relay_capacity relays r) :
    relay_capacity relays b = circuit_capacity relays c := by
  apply le_antisymm
  · unfold circuit_capacity
    exact le_min (hle _ (by simp [circuit_relays]))
      (le_min (hle _ (by simp [circuit_relays])) (hle _ (by simp [circuit_relays])))
  · exact circuit_capacity_le relays c b hb

/-- When the downloads of a circuit are the only ones on its three relays, they
share the smallest of the three capacities in equal parts, and the bottleneck
recorded for each of them is a relay of the circuit with that capacity. -/
theorem circuit_group_share {A : List download_t} {relays : GHashTable String Int}
    {S : GHashTable download_t circuit_t} {w : Option (GHashTable String ℚ)}
    {ab : Option (GHashTable String Int)} {res : solve_result}
    (h : compute_download_bandwidths A relays S w ab = some res)
    (hcap : ∀ d ∈ A, ∀ r, on_relay S r d = true → 0 < relay_capacity relays r)
    (c : circuit_t)
    (hiso : ∀ d ∈ A, ∀ r ∈ circuit_relays c, on_relay S r d = true →
      g_hash_table_lookup S d = some c)
    (d : download_t) (hd : d ∈ A) (hdc : g_hash_table_lookup S d = some c) :
    ∑ d' ∈ A.toFinset.filter (fun d' => g_hash_table_lookup S d' = some c),
        bandwidth_of res.fields d' = (circuit_capacity relays c : ℚ) ∧
      bandwidth_of res.fields d *
        ((A.toFinset.filter (fun d' => g_hash_table_lookup S d' = some c)).card : ℚ) =
          (circuit_capacity relays c : ℚ) ∧
      ∃ b ∈ circuit_relays c, bottleneck_of res.fields d = some b ∧
        relay_capacity relays b = circuit_capacity relays c := by
  obtain ⟨st, hinv, hf, _, _, _⟩ := compute_download_bandwidths_inv h
  obtain ⟨hwithin, _⟩ := compute_download_bandwidths_positive h hcap
  rw [hf] at hwithin ⊢
  have hall := compute_download_bandwidths_all h
  rw [hf] at hall
  have hnd := hinv.tables.fields_nodup
  -- the entry of a download of the circuit
  have hentry : ∀ d' ∈ A, g_hash_table_lookup S d' = some c →
      ∃ e ∈ st.fields, e.1 = d' ∧ e.2.2 ∈ circuit_relays c := by
    intro d' hd' hc'
    obtain ⟨e, he, rfl⟩ := List.mem_map.1 (hall d' hd')
    exact ⟨e, he, rfl, (on_relay_of_lookup hc' _).1 (hinv.tables.fields_mem e he).2⟩
  -- the downloads on a relay of the circuit are the downloads of the circuit
  have hset : ∀ r ∈ circuit_relays c,
      A.toFinset.filter (fun d' => on_relay S r d' = true) =
        A.toFinset.filter (fun d' => g_hash_table_lookup S d' = some c) := by
    intro r hr
    ext d'
    simp only [Finset.mem_filter, List.mem_toFinset]
    constructor
    · rintro ⟨h1, h2⟩
      exact ⟨h1, hiso d' h1 r hr h2⟩
    · rintro ⟨h1, h2⟩
      exact ⟨h1, (on_relay_of_lookup h2 r).2 hr⟩
  have husage : ∀ r ∈ circuit_relays c, relay_usage S st.fields r =
      ∑ d' ∈ A.toFinset.filter (fun d' => g_hash_table_lookup S d' = some c),
        bandwidth_of st.fields d' := by
    intro r hr
    rw [relay_usage_eq_sum hinv.tables r, hset r hr]
  obtain ⟨e, he, hed, heb⟩ := hentry d hd hdc
  have hsat := hinv.saturated e he
  rw [husage _ heb] at hsat
  have hle : ∀ r ∈ circuit_relays c,
      relay_capacity relays e.2.2 ≤ relay_capacity relays r := by
    intro r hr
    have h1 := hwithin r
    rw [husage r hr, hsat] at h1
    have h2 : 0 < relay_capacity relays r := hcap d hd r ((on_relay_of_lookup hdc r).2 hr)
    have h3 : (0 : ℚ) < (relay_capacity relays r : ℚ) := by exact_mod_cast h2
    rw [max_eq_left (le_of_lt h3)] at h1
    exact_mod_cast h1
  have hmin := circuit_capacity_eq relays c e.2.2 heb hle
  have hsum : ∑ d' ∈ A.toFinset.filter (fun d' => g_hash_table_lookup S d' = some c),
      bandwidth_of st.fields d' = (circuit_capacity relays c : ℚ) := by
    rw [hsat, hmin]
  have hsame : ∀ d' ∈ A.toFinset.filter (fun d' => g_hash_table_lookup S d' = some c),
      bandwidth_of st.fields d' = bandwidth_of st.fields d := by
    intro d' hd'
    obtain ⟨h1, h2⟩ := Finset.mem_filter.1 hd'
    obtain ⟨e', he', hed', heb'⟩ := hentry d' (List.mem_toFinset.1 h1) h2
    have k1 := hinv.least e he e' he' (by rw [hed']; exact (on_relay_of_lookup h2 _).2 heb)
    have k2 := hinv.least e' he' e he (by rw [hed]; exact (on_relay_of_lookup hdc _).2 heb')
    rw [← hed', ← hed, (fields_entry hnd he').1, (fields_entry hnd he).1]
    exact le_antisymm k1 k2
  refine ⟨hsum, ?_, e.2.2, heb, ?_, hmin⟩
  · rw [← hsum, Finset.sum_congr rfl hsame, Finset.sum_const, nsmul_eq_mul, mul_comm]
  · rw [← hed]
    exact (fields_entry hnd he).2

/-! ## Downloads that all use one circuit -/

/-- What `compute_download_bandwidths` returns is the sum of the bandwidths it
wrote. -/
theorem total_eq_sum {A : List download_t} {relays : GHashTable String Int}
    {S : GHashTable download_t circuit_t} {w : Option (GHashTable String ℚ)}
    {ab : Option (GHashTable String Int)} {res : solve_result}
    (h : compute_download_bandwidths A relays S w ab = some res) :
    res.total_bandwidth = ∑ d ∈ A.toFinset, bandwidth_of res.fields d := by
  obtain ⟨st, hinv, hf, ht, _, _⟩ := compute_download_bandwidths_inv h
  rw [ht, hf, hinv.tables.total]
  have := sum_fields_active (A := A) st.fields hinv.tables.fields_nodup
    (fun e he => (hinv.tables.fields_mem e he).1) (fun _ => true)
  simpa using this

/-- The smallest capacity of a circuit is the capacity of one of its relays. -/
theorem circuit_capacity_attained (relays : GHashTable String Int) (c : circuit_t) :
    ∃ r ∈ circuit_relays c, relay_capacity relays r = circuit_capacity relays c := by
  unfold circuit_capacity circuit_relays
  rcases min_choice (relay_capacity relays c.guard)
    (min (relay_capacity relays c.middle) (relay_capacity relays c.exit)) with e | e
  · exact ⟨c.guard, by simp, e.symm⟩
  · rw [e]
    rcases min_choice (relay_capacity relays c.middle) (relay_capacity relays c.exit) with e' | e'
    · exact ⟨c.middle, by simp, e'.symm⟩
    · exact ⟨c.exit, by simp, e'.symm⟩

theorem circuit_capacity_bounds (relays : GHashTable String Int) (c : circuit_t)
    (hcap : ∀ r ∈ circuit_relays c,
      1 ≤ relay_capacity relays r ∧ relay_capacity relays r < 2147483647) :
    1 ≤ circuit_capacity relays c ∧ circuit_capacity relays c < 2147483647 := by
  have h1 := hcap c.guard (by simp [circuit_relays])
  have h2 := hcap c.middle (by simp [circuit_relays])
  have h3 := hcap c.exit (by simp [circuit_relays])
  unfold circuit_capacity
  constructor
  · exact le_min h1.1 (le_min h2.1 h3.1)
  · exact lt_of_le_of_lt (min_le_left _ _) h1.2

/-- The solve, in exact arithmetic, of a set of different downloads that all
use one circuit of three different relays with capacities of at least 1, the
smallest below `G_MAXINT32`: the call returns the smallest of the three
capacities, every download times the number of downloads gives that capacity,
and the recorded bottleneck is a relay of the circuit with that capacity. -/
theorem same_circuit_solve {A : List download_t} {relays : GHashTable String Int}
    {S : GHashTable download_t circuit_t} (c : circuit_t) (hnd : A.Nodup)
    (hsize : A.length ≤ 1000000) (hS : ∀ d ∈ A, g_hash_table_lookup S d = some c)
    (hdist : circuit_distinct c)
    (hcap : ∀ r ∈ circuit_relays c, 1 ≤ relay_capacity relays r)
    (hmin : circuit_capacity relays c < 2147483647)
    (w : Option (GHashTable String ℚ)) (ab : Option (GHashTable String Int)) :
    ∃ res, compute_download_bandwidths A relays S w ab = some res ∧
      (A ≠ [] → res.total_bandwidth = (circuit_capacity relays c : ℚ)) ∧
      ∀ d ∈ A, bandwidth_of res.fields d * (A.length : ℚ) = (circuit_capacity relays c : ℚ) ∧
        ∃ b ∈ circuit_relays c, bottleneck_of res.fields d = some b ∧
          relay_capacity relays b = circuit_capacity relays c := by
  have hcap' : ∀ d ∈ A, ∀ r, on_relay S r d = true → 1 ≤ relay_capacity relays r := by
    intro d hd r hr
    exact hcap r ((on_relay_of_lookup (hS d hd) r).1 hr)
  have hsmall : ∀ d ∈ A, ∀ r0, on_relay S r0 d = true →
      ∃ r, on_relay S r d = true ∧ relay_capacity relays r < 2147483647 := by
    intro d hd r0 _
    obtain ⟨r, hr, e⟩ := circuit_capacity_attained relays c
    exact ⟨r, (on_relay_of_lookup (hS d hd) r).2 hr, by rw [e]; exact hmin⟩
  obtain ⟨res, h⟩ := @compute_download_bandwidths_returns A relays S
    (fun d hd => ⟨c, hS d hd, hdist⟩) hcap' hsmall hsize w ab
  have hpos : ∀ d ∈ A, ∀ r, on_relay S r d = true → 0 < relay_capacity relays r := by
    intro d hd r hr
    have := hcap' d hd r hr
    omega
  have hfilter : A.toFinset.filter (fun d' => g_hash_table_lookup S d' = some c) = A.toFinset := by
    apply Finset.filter_true_of_mem
    intro d hd
    exact hS d (List.mem_toFinset.1 hd)
  have hgroup := fun d hd => circuit_group_share h hpos c (fun d' hd' _ _ _ => hS d' hd') d hd
    (hS d hd)
  refine ⟨res, h, ?_, ?_⟩
  · intro hne
    obtain ⟨d, hd⟩ := List.exists_mem_of_ne_nil _ hne
    obtain ⟨h1, _, _⟩ := hgroup d hd
    rw [total_eq_sum h, ← h1, hfilter]
  · intro d hd
    obtain ⟨_, h2, h3⟩ := hgroup d hd
    rw [hfilter, List.toFinset_card_of_nodup hnd] at h2
    exact ⟨h2, h3⟩

/-! ## No share under the tolerance -/

theorem assign_download_floor {S : GHashTable download_t circuit_t} {b : String} {s : ℚ}
    {st st' : solve_state} {d : download_t}
    (h : assign_download S b s (some st) d = some st')
    (hfl : ∀ r v, g_hash_table_lookup st.active_relays r = some v → (1 : ℚ) / 1000000 ≤ v) :
    ∀ r v, g_hash_table_lookup st'.active_relays r = some v → (1 : ℚ) / 1000000 ≤ v := by
  obtain ⟨c, _, _, _, _, hact, _⟩ := assign_download_spec h
  intro r v' hv'
  obtain ⟨v, hv, hval, hin⟩ := hact r v' hv'
  by_cases hr : r ∈ circuit_relays c
  · exact hin hr
  · rw [if_neg hr, sub_zero] at hval
    rw [hval]
    exact hfl r v hv

theorem assign_fold_floor {S : GHashTable download_t circuit_t} {b : String} {s : ℚ}
    (l : List download_t) :
    ∀ (st st' : solve_state), l.foldl (assign_download S b s) (some st) = some st' →
      (∀ r v, g_hash_table_lookup st.active_relays r = some v → (1 : ℚ) / 1000000 ≤ v) →
      ∀ r v, g_hash_table_lookup st'.active_relays r = some v → (1 : ℚ) / 1000000 ≤ v := by
  induction l with
  | nil =>
    intro st st' h hfl
    cases h
    exact hfl
  | cons d t ih =>
    intro st st' h hfl
    rw [List.foldl_cons] at h
    cases h1 : assign_download S b s (some st) d with
    | none =>
      rw [h1, assign_download_none] at h
      cases h
    | some st1 =>
      rw [h1] at h
      exact ih st1 st' h (assign_download_floor h1 hfl)

/-- A round that raises no error gives its downloads a share of at least one
millionth: the bottleneck relay is still active when the last of them is
assigned, with exactly one share left. -/
theorem solve_round_floor {A : List download_t} {relays : GHashTable String Int}
    {S : GHashTable download_t circuit_t} {st st' : solve_state}
    (hinv : solve_inv A relays S st) (hfl : floor_ok st) (h : solve_round S st = some st') :
    floor_ok st' := by
  obtain ⟨b, L, hb, hL, hfold, _, _⟩ := solve_round_cases h
  obtain ⟨vb, hvb', hvb, hLne, hs, _, _, hsame, hok1, hs1, hon⟩ :=
    solve_round_start hinv hb hL _ rfl
  generalize hsdef : (find_bottleneck st.relay_downloads st.active_relays).download_bandwidth = s
    at hfold hs hsame hok1 hs1
  have hfl1 : ∀ r v, g_hash_table_lookup (round_start st b s L.length).active_relays r = some v →
      (1 : ℚ) / 1000000 ≤ v := by
    intro r v hv
    rw [hsame r] at hv
    exact hfl.residual r v hv
  have hsplit : L.dropLast ++ [L.getLast hLne] = L := List.dropLast_append_getLast hLne
  have hfold' : [L.getLast hLne].foldl (assign_download S b s)
      (L.dropLast.foldl (assign_download S b s) (some (round_start st b s L.length)))
      = some st' := by
    rw [← List.foldl_append, hsplit]
    exact hfold
  cases hmid : L.dropLast.foldl (assign_download S b s) (some (round_start st b s L.length)) with
  | none =>
    rw [hmid] at hfold'
    simp [List.foldl, assign_download] at hfold'
  | some st_mid =>
    rw [hmid] at hfold'
    have hlast : assign_download S b s (some st_mid) (L.getLast hLne) = some st' := by
      simpa [List.foldl] using hfold'
    have hon' : ∀ d ∈ L.dropLast, on_relay S b d = true :=
      fun d hd => hon d (List.mem_of_mem_dropLast hd)
    obtain ⟨hokm, _, hfm, _, _, _⟩ := assign_fold_spec L.dropLast _ _ hok1 hs1 hon' hmid
    have hflm := assign_fold_floor L.dropLast _ _ hmid hfl1
    obtain ⟨c, hc, hactive, _⟩ := assign_download_active hlast
    have hbc : b ∈ circuit_relays c :=
      (on_relay_of_lookup hc b).1 (hon _ (List.getLast_mem hLne))
    obtain ⟨v, hv⟩ := hactive b hbc
    have hvfl := hflm b v hv
    have h1 := hokm.residual b v hv
    have h3 := hinv.tables.residual b vb hvb'
    have hf : st_mid.fields = (L.dropLast.reverse.map fun d => (d, s, b)) ++ st.fields := hfm
    rw [hf, relay_usage_append, relay_usage_round] at h1
    have hfil : L.dropLast.filter (fun d => on_relay S b d) = L.dropLast :=
      List.filter_eq_self.2 (fun d hd => hon' d hd)
    rw [hfil, List.length_dropLast] at h1
    have hlen : 1 ≤ L.length := List.length_pos.2 hLne
    have hcast : ((L.length - 1 : Nat) : ℚ) = (L.length : ℚ) - 1 := by
      rw [Nat.cast_sub hlen, Nat.cast_one]
    rw [hcast] at h1
    have hlen0 : (L.length : ℚ) ≠ 0 := by
      exact_mod_cast (Nat.pos_iff_ne_zero.1 hlen)
    have hvb2 : vb = s * (L.length : ℚ) := by
      rw [hs, div_mul_cancel₀ _ hlen0]
    have hsv : s = v := by
      linarith
    have hsfl : (1 : ℚ) / 1000000 ≤ s := by rw [hsv]; exact hvfl
    obtain ⟨_, _, hf2, _, _, _⟩ := assign_fold_spec L _ _ hok1 hs1 hon hfold
    refine ⟨assign_fold_floor L _ _ hfold hfl1, ?_⟩
    intro e he
    have hf2' : st'.fields = (L.reverse.map fun d => (d, s, b)) ++ st.fields := hf2
    rw [hf2'] at he
    rcases List.mem_append.1 he with he | he
    · obtain ⟨d, _, rfl⟩ := List.mem_map.1 he
      exact hsfl
    · exact hfl.written e he

theorem solve_loop_floor {A : List download_t} {relays : GHashTable String Int}
    {S : GHashTable download_t circuit_t} (n : Nat) :
    ∀ (st st' : solve_state), solve_inv A relays S st → floor_ok st →
      solve_loop S n st = some st' → floor_ok st' := by
  induction n with
  | zero =>
    intro st st' _ hfl h
    unfold solve_loop at h
    split at h
    · cases h
    · cases h
      exact hfl
  | succ n ih =>
    intro st st' hinv hfl h
    unfold solve_loop at h
    split at h
    · obtain ⟨st1, h1, h2⟩ := Option.bind_eq_some.1 h
      exact ih st1 st' (solve_round_inv hinv h1) (solve_round_floor hinv hfl h1) h2
    · cases h
      exact hfl

/-- When `compute_download_bandwidths` returns on relays of capacity at least 1,
no bandwidth it wrote is under one millionth. -/
theorem compute_download_bandwidths_floor {A : List download_t}
    {relays : GHashTable String Int} {S : GHashTable download_t circuit_t}
    {w : Option (GHashTable String ℚ)} {ab : Option (GHashTable String Int)}
    {res : solve_result} (h : compute_download_bandwidths A relays S w ab = some res)
    (hcap : ∀ d ∈ A, ∀ r, on_relay S r d = true → 1 ≤ relay_capacity relays r) :
    ∀ e ∈ res.fields, (1 : ℚ) / 1000000 ≤ e.2.1 := by
  unfold compute_download_bandwidths at h
  split at h
  · cases h
  rename_i rd a hbuild
  dsimp only at h
  split at h
  · cases h
  rename_i st hloop
  split at h
  · cases h
  cases h
  have hok := build_relay_tables_ok hbuild
  have hinit : floor_ok
      { active_relays := a, relay_downloads := rd, total_bandwidth := 0, weights := w,
        fields := [] } := by
    refine ⟨?_, ?_⟩
    · intro r v hv
      have hv' : g_hash_table_lookup a r = some v := hv
      rw [hok.capacity r v hv']
      have hne := hok.used r v hv'
      obtain ⟨d, hd⟩ := List.exists_mem_of_ne_nil _ hne
      obtain ⟨h1, h2⟩ := (hok.pending_mem r d).1 hd
      have hc : (1 : ℚ) ≤ (relay_capacity relays r : ℚ) := by exact_mod_cast hcap d h1 r h2
      linarith
    · intro e he
      simp at he
  exact (solve_loop_floor _ _ _ (solve_inv_init hbuild w) hinit hloop).written

/-! ## The fair split of one circuit -/

theorem lookup_selection_same (l : List download_t) (d : download_t) (hd : d ∈ l) :
    g_hash_table_lookup (selection_same l) d = some (ex_circuit "g" "m" "x-exit") := by
  induction l with
  | nil => cases hd
  | cons x t ih =>
    unfold selection_same
    rw [List.map_cons]
    unfold g_hash_table_lookup
    by_cases hx : x = d
    · rw [if_pos hx]
    · rw [if_neg hx]
      rcases List.mem_cons.1 hd with e | e
      · exact absurd e.symm hx
      · exact ih e

theorem downloads_crowd_nodup (n : Nat) : (downloads_crowd n).Nodup := by
  unfold downloads_crowd
  apply List.Nodup.map _ (List.nodup_range n)
  intro a b hab
  have := congrArg download_t.id hab
  simpa [ex_download] using this

theorem relays_unit_capacity (r : String) (hr : r ∈ circuit_relays (ex_circuit "g" "m" "x-exit")) :
    relay_capacity relays_unit r = 1 := by
  rcases (mem_circuit_relays _ r).1 hr with rfl | rfl | rfl <;> decide

/-- With more than a million downloads on one circuit of capacity 1 the share is
under the tolerance of `update_relays`: the call does not return. -/
theorem crowd_fails (n : Nat) (hn : 1000000 < n) :
    compute_download_bandwidths (downloads_crowd n) relays_unit
      (selection_same (downloads_crowd n)) none none = none := by
  cases h : compute_download_bandwidths (downloads_crowd n) relays_unit
      (selection_same (downloads_crowd n)) none none with
  | none => rfl
  | some res =>
    exfalso
    have hS := lookup_selection_same (downloads_crowd n)
    have hd0 : ex_download 0 ∈ downloads_crowd n := by
      unfold downloads_crowd
      exact List.mem_map.2 ⟨0, List.mem_range.2 (by omega), rfl⟩
    have hone : ∀ d ∈ downloads_crowd n, ∀ r,
        on_relay (selection_same (downloads_crowd n)) r d = true →
        relay_capacity relays_unit r = 1 := by
      intro d hd r hr
      exact relays_unit_capacity r ((on_relay_of_lookup (hS d hd) r).1 hr)
    have hpos : ∀ d ∈ downloads_crowd n, ∀ r,
        on_relay (selection_same (downloads_crowd n)) r d = true →
        0 < relay_capacity relays_unit r := by
      intro d hd r hr
      rw [hone d hd r hr]
      decide
    obtain ⟨_, h2, _⟩ := circuit_group_share h hpos (ex_circuit "g" "m" "x-exit")
      (fun d' hd' _ _ _ => hS d' hd') (ex_download 0) hd0 (hS _ hd0)
    have hfilter : (downloads_crowd n).toFinset.filter
        (fun d' => g_hash_table_lookup (selection_same (downloads_crowd n)) d' =
          some (ex_circuit "g" "m" "x-exit")) = (downloads_crowd n).toFinset := by
      apply Finset.filter_true_of_mem
      intro d hd
      exact hS d (List.mem_toFinset.1 hd)
    have hlen : (downloads_crowd n).length = n := by
      unfold downloads_crowd
      rw [List.length_map, List.length_range]
    have hcapc : circuit_capacity relays_unit (ex_circuit "g" "m" "x-exit") = 1 := by decide
    rw [hfilter, List.toFinset_card_of_nodup (downloads_crowd_nodup n), hlen, hcapc] at h2
    have hfloor := compute_download_bandwidths_floor h
      (fun d hd r hr => le_of_eq (hone d hd r hr).symm)
    obtain ⟨st, hinv, hf, _, _, _⟩ := compute_download_bandwidths_inv h
    obtain ⟨e, he, hed⟩ := List.mem_map.1 (compute_download_bandwidths_all h _ hd0)
    have hnd : (res.fields.map Prod.fst).Nodup := by
      rw [hf]
      exact hinv.tables.fields_nodup
    have hbw := (fields_entry hnd he).1
    rw [hed] at hbw
    have hge := hfloor e he
    rw [← hbw] at hge
    have hn' : (1000000 : ℚ) < (n : ℚ) := by exact_mod_cast hn
    push_cast at h2
    nlinarith

/-- C25, counterexample: 22 downloads, all active together on the circuit `g`,
`m`, `x-exit` of three relays of capacity 1800000000. The share
1800000000 / 22 is not a binary64 value: after the 22 subtractions of
`update_relays` the bottleneck relay keeps a residual that is not below the
tolerance 0.000001, the check of line 712 raises `g_error`, and the call does
not return, where the claim has it give every download the share and return
1800000000 (as it does in exact arithmetic). And with three million downloads
on three relays of capacity 1 the share is under the tolerance, the
bottleneck relay leaves the active relays while downloads of its round are
still to come, and the call does not return either. -/
theorem fair_split_counterexample :
    Binary64.compute_download_bandwidths (downloads_crowd 22) relays_broad
      (selection_same (downloads_crowd 22)) none none = none ∧
    (compute_download_bandwidths (downloads_crowd 22) relays_broad
      (selection_same (downloads_crowd 22)) none none).map (fun res => res.total_bandwidth) =
      some 1800000000 ∧
    compute_download_bandwidths (downloads_crowd 3000000) relays_unit
      (selection_same (downloads_crowd 3000000)) none none = none :=
  ⟨by decide!, by decide!, crowd_fails 3000000 (by norm_num)⟩

/-- C25, amended: `k` different downloads, from 1 to a million, all active
together on the same circuit of three different relays with capacities from 1
to `2^31 - 2`, the smallest `c`. In exact arithmetic, whenever
`compute_download_bandwidths` returns, every download has the bandwidth
`c / k` and the value returned is `c`: real values, which the binary64 results
of the program follow up to rounding. And when `k` divides `2 c` the share is
a whole number or half of one, no operation rounds, and the call returns in
binary64 with the bandwidth `c / k` for every download and the value `c`. -/
theorem fair_split (A : List download_t) (relays : GHashTable String Int)
    (S : GHashTable download_t circuit_t) (w : Option (GHashTable String ℚ))
    (ab : Option (GHashTable String Int)) (c : circuit_t) (hne : A ≠ []) (hnd : A.Nodup)
    (hsize : A.length ≤ 1000000) (hS : ∀ d ∈ A, g_hash_table_lookup S d = some c)
    (hdist : circuit_distinct c)
    (hcap : ∀ r ∈ circuit_relays c,
      1 ≤ relay_capacity relays r ∧ relay_capacity relays r < 2147483647) :
    (∀ res, compute_download_bandwidths A relays S w ab = some res →
      (∀ d ∈ A, bandwidth_of res.fields d =
        (circuit_capacity relays c : ℚ) / (A.length : ℚ)) ∧
      res.total_bandwidth = (circuit_capacity relays c : ℚ)) ∧
    ((A.length : Int) ∣ 2 * circuit_capacity relays c →
      ∃ res, Binary64.compute_download_bandwidths A relays S w ab = some res ∧
        (∀ d ∈ A, bandwidth_of res.fields d =
          (circuit_capacity relays c : ℚ) / (A.length : ℚ)) ∧
        res.total_bandwidth = (circuit_capacity relays c : ℚ)) := by
  obtain ⟨res, h, htot, hall⟩ := same_circuit_solve c hnd hsize hS hdist
    (fun r hr => (hcap r hr).1) (circuit_capacity_bounds relays c hcap).2 w ab
  have hlen : (A.length : ℚ) ≠ 0 := by
    have : 0 < A.length := List.length_pos.2 hne
    exact_mod_cast (Nat.pos_iff_ne_zero.1 this)
  have hshare : ∀ d ∈ A, bandwidth_of res.fields d =
      (circuit_capacity relays c : ℚ) / (A.length : ℚ) := by
    intro d hd
    rw [eq_div_iff hlen]
    exact (hall d hd).1
  refine ⟨?_, ?_⟩
  · intro res' h'
    rw [h] at h'
    cases h'
    exact ⟨hshare, htot hne⟩
  · intro hdvd
    obtain ⟨q, hq⟩ := hdvd
    have hhalf : half_fields res.fields := by
      apply half_fields_of_bandwidth h
      intro d hd
      refine ⟨q, ?_⟩
      have hq' : (2 : ℚ) * (circuit_capacity relays c : ℚ) = (A.length : ℚ) * (q : ℚ) := by
        exact_mod_cast hq
      rw [hshare d hd]
      field_simp
      linarith
    obtain ⟨res2, k1, k2, _, k4⟩ := compute_download_bandwidths_half w ab
      (by
        intro d hd r hr
        have hr' := (on_relay_of_lookup (hS d hd) r).1 hr
        have := hcap r hr'
        omega)
      hsize h hhalf
    refine ⟨res2, k1, ?_, ?_⟩
    · rw [k4]
      exact hshare
    · rw [k2]
      exact htot hne

/-- C25 on scenario B: the two downloads on the circuit `g`, `m`, `x-exit` of
capacity 100 receive 100 / 2 each and the call returns 100; 2 divides 200, and
the call returns in binary64 with the same result. -/
theorem fair_split_witness :
    compute_download_bandwidths [ex_download 1, ex_download 2] relays_ab selection_b
      none none = some result_b ∧
    Binary64.compute_download_bandwidths [ex_download 1, ex_download 2] relays_ab selection_b
      none none = some result_b ∧
    ((∀ d ∈ [ex_download 1, ex_download 2], bandwidth_of result_b.fields d =
        (circuit_capacity relays_ab (ex_circuit "g" "m" "x-exit") : ℚ) /
          (([ex_download 1, ex_download 2] : List download_t).length : ℚ)) ∧
      result_b.total_bandwidth =
        (circuit_capacity relays_ab (ex_circuit "g" "m" "x-exit") : ℚ)) ∧
    ∃ res, Binary64.compute_download_bandwidths [ex_download 1, ex_download 2] relays_ab
        selection_b none none = some res ∧
      (∀ d ∈ [ex_download 1, ex_download 2], bandwidth_of res.fields d =
        (circuit_capacity relays_ab (ex_circuit "g" "m" "x-exit") : ℚ) /
          (([ex_download 1, ex_download 2] : List download_t).length : ℚ)) ∧
      res.total_bandwidth = (circuit_capacity relays_ab (ex_circuit "g" "m" "x-exit") : ℚ) :=
  have H := fair_split [ex_download 1, ex_download 2] relays_ab selection_b none none
    (ex_circuit "g" "m" "x-exit") (by decide) (by decide) (by decide)
    (by
      intro d hd
      rcases List.mem_cons.1 hd with rfl | hd
      · decide
      rcases List.mem_cons.1 hd with rfl | hd
      · decide
      cases hd)
    (by unfold circuit_distinct; decide)
    (by
      intro r hr
      rcases (mem_circuit_relays _ r).1 hr with rfl | rfl | rfl <;> decide)
  ⟨by decide!, by decide!, H.1 result_b (by decide!), H.2 (by decide)⟩

/-! ## The rounds of the main loop -/

/-- What `k` rounds keep and what they use up: a relay of the pending index
and at least one download per round. -/
theorem solve_rounds_inv {A : List download_t} {relays : GHashTable String Int}
    {S : GHashTable download_t circuit_t} (k : Nat) :
    ∀ (st0 st : solve_state), solve_inv A relays S st0 → solve_rounds S k st0 = some st →
      solve_inv A relays S st ∧
      k + g_hash_table_size st.relay_downloads ≤ g_hash_table_size st0.relay_downloads ∧
      st0.fields.length + k ≤ st.fields.length ∧
      (positive_ok relays S st0 → positive_ok relays S st) ∧
      (complete_ok st0 → complete_ok st) := by
  induction k with
  | zero =>
    intro st0 st hinv h
    cases h
    exact ⟨hinv, by omega, by omega, fun hp => hp, fun hq => hq⟩
  | succ k ih =>
    intro st0 st hinv h
    unfold solve_rounds at h
    split at h
    · obtain ⟨st1, h1, h2⟩ := Option.bind_eq_some.1 h
      obtain ⟨i1, i2, i3, i4, i5⟩ := ih st1 st (solve_round_inv hinv h1) h2
      have hdec := solve_round_decreases hinv h1
      obtain ⟨j1, j2⟩ := solve_round_extra hinv h1
      obtain ⟨b, s, l, vb, _, _, _, hl, _, _, _, _, _, hf, _⟩ := solve_round_spec hinv h1
      have hlen : st0.fields.length + 1 ≤ st1.fields.length := by
        rw [hf, List.length_append, List.length_map, List.length_reverse]
        have : 0 < l.length := List.length_pos.2 hl
        omega
      exact ⟨i1, by omega, by omega, fun hp => i4 (j1 hp), fun hq => i5 (j2 hq)⟩
    · cases h

/-- The loop that returns has made some number of rounds, within the bound on
its passes, and ended on its condition. -/
theorem solve_loop_rounds {S : GHashTable download_t circuit_t} (n : Nat) :
    ∀ (st0 st : solve_state), solve_loop S n st0 = some st →
      ∃ k, k ≤ n ∧ solve_rounds S k st0 = some st ∧
        ¬ (0 < g_hash_table_size st.active_relays ∧ 0 < g_hash_table_size st.relay_downloads) := by
  induction n with
  | zero =>
    intro st0 st h
    unfold solve_loop at h
    split at h
    · cases h
    · rename_i hc
      cases h
      exact ⟨0, le_refl _, rfl, hc⟩
  | succ n ih =>
    intro st0 st h
    unfold solve_loop at h
    split at h
    · rename_i hc
      obtain ⟨st1, h1, h2⟩ := Option.bind_eq_some.1 h
      obtain ⟨k, hk, hr, hend⟩ := ih st1 st h2
      refine ⟨k + 1, by omega, ?_, hend⟩
      unfold solve_rounds
      rw [if_pos hc, h1, Option.some_bind]
      exact hr
    · rename_i hc
      cases h
      exact ⟨0, Nat.zero_le _, rfl, hc⟩

theorem fields_length_le {A : List download_t} {relays : GHashTable String Int}
    {S : GHashTable download_t circuit_t} {st : solve_state} (hinv : solve_inv A relays S st) :
    st.fields.length ≤ A.length := by
  have h1 : (st.fields.map Prod.fst).length ≤ A.length := by
    apply List.Subperm.length_le
    apply List.subperm_of_subset hinv.tables.fields_nodup
    intro d hd
    obtain ⟨e, he, rfl⟩ := List.mem_map.1 hd
    exact (hinv.tables.fields_mem e he).1
  rwa [List.length_map] at h1

/-- C30: when `compute_download_bandwidths` returns, its main loop has ended
after `k` rounds with `k` at most the number of active downloads and at most
the number of relays that the active downloads touch; and every round of the
loop takes the bottleneck relay and at least one download out of the pending
index. -/
theorem round_bound (A : List download_t) (relays : GHashTable String Int)
    (S : GHashTable download_t circuit_t) (w : Option (GHashTable String ℚ))
    (ab : Option (GHashTable String Int)) (res : solve_result)
    (h : compute_download_bandwidths A relays S w ab = some res) :
    ∃ (t : GHashTable String (List download_t) × GHashTable String ℚ) (k : Nat)
      (st : solve_state),
      build_relay_tables A relays S = some t ∧
      k ≤ min A.length (g_hash_table_size t.1) ∧
      solve_rounds S k (solve_init t w) = some st ∧
      ¬ (0 < g_hash_table_size st.active_relays ∧ 0 < g_hash_table_size st.relay_downloads) ∧
      res.fields = st.fields ∧
      ∀ (j : Nat) (st1 st2 : solve_state), solve_rounds S j (solve_init t w) = some st1 →
        solve_round S st1 = some st2 →
        ∃ (b : String) (d : download_t),
          (find_bottleneck st1.relay_downloads st1.active_relays).bottleneck_relay = some b ∧
          d ∈ pending st1.relay_downloads b ∧
          g_hash_table_lookup st2.relay_downloads b = none ∧
          (∀ r, d ∉ pending st2.relay_downloads r) ∧
          ∀ r d', d' ∈ pending st2.relay_downloads r → d' ∈ pending st1.relay_downloads r := by
  unfold compute_download_bandwidths at h
  split at h
  · cases h
  rename_i rd a hbuild
  dsimp only at h
  split at h
  · cases h
  rename_i st hloop
  split at h
  · cases h
  cases h
  have hinit := solve_inv_init hbuild w
  obtain ⟨k, _, hr, hend⟩ := solve_loop_rounds _ _ _ hloop
  have hr' : solve_rounds S k (solve_init (rd, a) w) = some st := hr
  obtain ⟨hinv, h2, h3, _, _⟩ := solve_rounds_inv k _ _ hinit hr
  have h4 := fields_length_le hinv
  refine ⟨(rd, a), k, st, hbuild, ?_, hr', hend, rfl, ?_⟩
  · apply le_min
    · have : 0 + k ≤ st.fields.length := by simpa using h3
      omega
    · have : k ≤ g_hash_table_size rd := by
        have h2' : k + g_hash_table_size st.relay_downloads ≤ g_hash_table_size rd := h2
        omega
      exact this
  · intro j st1 st2 hj hround
    obtain ⟨hinv1, _, _, _, _⟩ := solve_rounds_inv j _ _ hinit hj
    obtain ⟨b, L, hb, hL, hfold, _, hb2⟩ := solve_round_cases hround
    obtain ⟨b', s, l, vb, _, _, hl, hlne, _, _, _, hok2, _, hf, _, _, hpend, _, _⟩ :=
      solve_round_spec hinv1 hround
    obtain ⟨d, hd⟩ := List.exists_mem_of_ne_nil _ hlne
    have hdf : d ∈ st2.fields.map Prod.fst := by
      rw [hf, List.map_append, List.map_map]
      apply List.mem_append_left
      exact List.mem_map.2 ⟨d, List.mem_reverse.2 hd, rfl⟩
    obtain ⟨_, ⟨_, Lb, _, _, hLb, _, _⟩⟩ :=
      find_bottleneck_spec st1.relay_downloads st1.active_relays hb
    -- the list of the round is the list of the bottleneck
    have hbb : l = L := by
      have hcases := solve_round_cases hround
      obtain ⟨_, _, _, _, hfold1, _, _⟩ := hcases
      obtain ⟨vb1, _, _, _, _, _, _, _, hok1, hs1, hon1⟩ :=
        solve_round_start hinv1 hb hL _ rfl
      obtain ⟨_, _, hf1, _, _, _⟩ := assign_fold_spec L _ _ hok1 hs1 hon1 hfold
      have hf1' : st2.fields = (L.reverse.map fun d => (d,
          (find_bottleneck st1.relay_downloads st1.active_relays).download_bandwidth, b))
          ++ st1.fields := hf1
      rw [hf] at hf1'
      have := List.append_cancel_right hf1'
      have hmap := congrArg (List.map Prod.fst) this
      rw [List.map_map, List.map_map] at hmap
      have hid : ∀ (x : List download_t) (q : ℚ) (r : String),
          List.map (Prod.fst ∘ fun d => (d, q, r)) x = x := by
        intro x q r
        induction x with
        | nil => rfl
        | cons y t ih => rw [List.map_cons, ih]; rfl
      rw [hid, hid] at hmap
      exact List.reverse_injective hmap
    refine ⟨b, d, hb, ?_, hb2, ?_, hpend⟩
    · rw [pending_of_lookup hL, ← hbb]
      exact hd
    · intro r hr
      exact ((hok2.pending_mem r d).1 hr).2.2 hdf

/-- C30 on scenario B: the two downloads touch three relays, and the loop ends
after at most min(2, 3) rounds (it makes one). -/
theorem round_bound_witness :
    ∃ (t : GHashTable String (List download_t) × GHashTable String ℚ) (k : Nat)
      (st : solve_state),
      build_relay_tables [ex_download 1, ex_download 2] relays_ab selection_b = some t ∧
      k ≤ min ([ex_download 1, ex_download 2] : List download_t).length
        (g_hash_table_size t.1) ∧
      solve_rounds selection_b k (solve_init t none) = some st ∧
      ¬ (0 < g_hash_table_size st.active_relays ∧ 0 < g_hash_table_size st.relay_downloads) ∧
      result_b.fields = st.fields ∧
      ∀ (j : Nat) (st1 st2 : solve_state),
        solve_rounds selection_b j (solve_init t none) = some st1 →
        solve_round selection_b st1 = some st2 →
        ∃ (b : String) (d : download_t),
          (find_bottleneck st1.relay_downloads st1.active_relays).bottleneck_relay = some b ∧
          d ∈ pending st1.relay_downloads b ∧
          g_hash_table_lookup st2.relay_downloads b = none ∧
          (∀ r, d ∉ pending st2.relay_downloads r) ∧
          ∀ r d', d' ∈ pending st2.relay_downloads r → d' ∈ pending st1.relay_downloads r :=
  round_bound [ex_download 1, ex_download 2] relays_ab selection_b none none result_b
    (by decide!)

/-! ## The safety of the solve -/

/-- One download on a circuit of three relays of capacity `2^31 - 1`. The search
for the bottleneck starts from `G_MAXINT32` and takes a relay only when its
share is below that value: no bottleneck is found, `g_error` is raised (line
660), and the call does not return. No operation of this run rounds. -/
theorem sentinel_capacity_error :
    compute_download_bandwidths [ex_download 1] relays_max (selection_same [ex_download 1])
      none none = none ∧
    Binary64.compute_download_bandwidths [ex_download 1] relays_max
      (selection_same [ex_download 1]) none none = none := by
  constructor <;> decide!

/-! ## Scenarios on the timeline -/

theorem compare_int_le (a b : Int) (h1 : -2147483648 ≤ a - b) (h2 : a - b ≤ 2147483647) :
    compare_int a b ≤ 0 ↔ a ≤ b := by
  unfold compare_int
  rw [gint_wrap_of_range h1 h2]
  omega

theorem gint_of_gdouble_int (x : Int) (h0 : 0 ≤ x) (h1 : x ≤ 2147483647) :
    gint_of_gdouble (x : ℚ) = x := by
  have h0' : (0 : ℚ) ≤ (x : ℚ) := by exact_mod_cast h0
  have h1' : (x : ℚ) ≤ 2147483647 := by exact_mod_cast h1
  rw [gint_of_gdouble_floor h0' h1', Int.floor_intCast]

theorem interval_bytes_eq (B l t : Int) (hB : 1 ≤ B) (ht : 0 ≤ t - l)
    (hprod : B * (t - l) ≤ 2147483647) :
    interval_bytes B l t = (B : ℚ) * ((t - l : Int) : ℚ) / 1000 := by
  unfold interval_bytes
  have h1 : t - l ≤ 2147483647 := by nlinarith
  rw [gint_wrap_of_range (by omega) h1, gint_wrap_of_range (by nlinarith) hprod]
  push_cast
  ring

theorem tick_step_eval (relays : GHashTable String Int) (S : GHashTable download_t circuit_t)
    (dbt : GHashTable Int (List download_t)) (st : integrate_state) (tick : Int)
    (a : GHashTable download_t Bool) (res : solve_result)
    (h1 : tick_active S dbt st.active_downloads tick = some a)
    (h2 : compute_download_bandwidths (g_hash_table_get_keys a) relays S none none = some res) :
    tick_step relays S dbt (some st) tick =
      some { active_downloads := a
             total_bandwidth :=
               if st.last_tick ≠ -1 then
                 st.total_bandwidth + interval_bytes st.last_bandwidth st.last_tick tick
               else st.total_bandwidth
             last_tick := tick
             last_bandwidth := gint_of_gdouble res.total_bandwidth } := by
  unfold tick_step
  simp only [h1, h2]

theorem compute_download_bandwidths_nil (relays : GHashTable String Int)
    (S : GHashTable download_t circuit_t) :
    compute_download_bandwidths [] relays S none none =
      some { total_bandwidth := 0, weights := none, available_bandwidth := none, fields := [] } :=
  rfl

/-- C24, counterexample: one download from 0 s to 10 s on a circuit of three
relays of capacity one million. The product `last_bandwidth * (tick -
last_tick)`, one million times 10000, is taken in `gint` and wraps: the value
returned is 1410065408 / 1000, the claim has 10000000. -/
theorem single_bottleneck_counterexample :
    compute_total_bandwidth [ex_download 1] relays_million (selection_same [ex_download 1])
        (generate_downloads_by_tick [ex_download 1])
        (sorted_ticks (generate_downloads_by_tick [ex_download 1]))
      = some (1410065408 / 1000) ∧
    (circuit_capacity relays_million (ex_circuit "g" "m" "x-exit") : ℚ) *
      (((ex_download 1).end_time - (ex_download 1).start_time : Int) : ℚ) / 1000 = 10000000 := by
  constructor
  · decide!
  · decide!

/-- C24, amended: a single download with `start_time < end_time` and
`start_time` other than -1, on a circuit of three different relays with
capacities from 1 to `2^31 - 2` of which the smallest is `c`, with
`c * (end_time - start_time)` within `gint`: `compute_download_bandwidths`
writes the bandwidth `c` and as bottleneck a relay of the circuit of capacity
`c`, and `compute_total_bandwidth` returns `c * (end_time - start_time) /
1000`. -/
theorem single_bottleneck (d : download_t) (relays : GHashTable String Int)
    (S : GHashTable download_t circuit_t) (c : circuit_t)
    (hS : g_hash_table_lookup S d = some c) (hdist : circuit_distinct c)
    (hcap : ∀ r ∈ circuit_relays c,
      1 ≤ relay_capacity relays r ∧ relay_capacity relays r < 2147483647)
    (htime : d.start_time < d.end_time) (hstart : d.start_time ≠ -1)
    (hprod : circuit_capacity relays c * (d.end_time - d.start_time) ≤ 2147483647) :
    (∃ res, compute_download_bandwidths [d] relays S none none = some res ∧
      bandwidth_of res.fields d = (circuit_capacity relays c : ℚ) ∧
      ∃ b ∈ circuit_relays c, bottleneck_of res.fields d = some b ∧
        relay_capacity relays b = circuit_capacity relays c) ∧
    compute_total_bandwidth [d] relays S (generate_downloads_by_tick [d])
        (sorted_ticks (generate_downloads_by_tick [d])) =
      some ((circuit_capacity relays c : ℚ) * ((d.end_time - d.start_time : Int) : ℚ) / 1000) := by
  obtain ⟨hc1, hc2⟩ := circuit_capacity_bounds relays c hcap
  obtain ⟨res, hres, htot, hall⟩ := @same_circuit_solve [d] relays S c
    (List.nodup_singleton d) (by simp)
    (by intro x hx; rw [List.mem_singleton] at hx; rw [hx]; exact hS) hdist
    (fun r hr => (hcap r hr).1) hc2 none none
  have htot' := htot (by simp)
  obtain ⟨hbw, hbot⟩ := hall d (List.mem_singleton_self d)
  have hbw' : bandwidth_of res.fields d = (circuit_capacity relays c : ℚ) := by
    simpa using hbw
  refine ⟨⟨res, hres, hbw', hbot⟩, ?_⟩
  have hne : d.start_time ≠ d.end_time := ne_of_lt htime
  have hlen : d.end_time - d.start_time ≤ 2147483647 := by nlinarith
  have hdbt : generate_downloads_by_tick [d] =
      [(d.start_time, [d]), (d.end_time, [d])] := by
    simp [generate_downloads_by_tick, g_hash_table_insert, g_hash_table_lookup, hne]
  have hticks : sorted_ticks [(d.start_time, [d]), (d.end_time, [d])] =
      [d.start_time, d.end_time] := by
    have hcmp : compare_int d.start_time d.end_time ≤ 0 :=
      (compare_int_le _ _ (by omega) (by omega)).2 (le_of_lt htime)
    simp [sorted_ticks, g_hash_table_get_keys, List.insertionSort, List.orderedInsert, hcmp]
  rw [hdbt, hticks]
  have hact1 : tick_active S [(d.start_time, [d]), (d.end_time, [d])]
      integrate_init.active_downloads d.start_time = some [(d, true)] := by
    simp [tick_active, g_hash_table_lookup, tick_download, hS, g_hash_table_insert,
      integrate_init]
  have hstep1 := tick_step_eval relays S [(d.start_time, [d]), (d.end_time, [d])]
    integrate_init d.start_time [(d, true)] res hact1 hres
  have hact2 : tick_active S [(d.start_time, [d]), (d.end_time, [d])]
      [(d, true)] d.end_time = some [] := by
    simp [tick_active, g_hash_table_lookup, tick_download, hS, g_hash_table_remove, hne,
      Ne.symm hne]
  have hstep2 := tick_step_eval relays S [(d.start_time, [d]), (d.end_time, [d])]
    { active_downloads := [(d, true)]
      total_bandwidth := 0
      last_tick := d.start_time
      last_bandwidth := circuit_capacity relays c } d.end_time [] _ hact2
    (compute_download_bandwidths_nil relays S)
  unfold compute_total_bandwidth
  rw [List.foldl_cons, List.foldl_cons, List.foldl_nil, hstep1]
  have hinit : (if integrate_init.last_tick ≠ -1 then
      integrate_init.total_bandwidth +
        interval_bytes integrate_init.last_bandwidth integrate_init.last_tick d.start_time
      else integrate_init.total_bandwidth) = 0 := by
    simp [integrate_init]
  rw [hinit, htot', gint_of_gdouble_int _ (by omega) (by omega), hstep2]
  simp only [Option.map_some']
  rw [if_pos hstart, interval_bytes_eq _ _ _ hc1 (by omega) hprod, zero_add]

/-- C24 on scenario A: `g` = 1000, `m` = 1000, `x-exit` = 100 and a download
from 0 s to 10 s give the bandwidth 100, a bottleneck of capacity 100, and the
total 100 * 10000 / 1000. -/
theorem single_bottleneck_witness :
    ((∃ res, compute_download_bandwidths [ex_download 1] relays_ab
        (selection_same [ex_download 1]) none none = some res ∧
      bandwidth_of res.fields (ex_download 1) =
        (circuit_capacity relays_ab (ex_circuit "g" "m" "x-exit") : ℚ) ∧
      ∃ b ∈ circuit_relays (ex_circuit "g" "m" "x-exit"),
        bottleneck_of res.fields (ex_download 1) = some b ∧
        relay_capacity relays_ab b = circuit_capacity relays_ab (ex_circuit "g" "m" "x-exit")) ∧
    compute_total_bandwidth [ex_download 1] relays_ab (selection_same [ex_download 1])
        (generate_downloads_by_tick [ex_download 1])
        (sorted_ticks (generate_downloads_by_tick [ex_download 1])) =
      some ((circuit_capacity relays_ab (ex_circuit "g" "m" "x-exit") : ℚ) *
        (((ex_download 1).end_time - (ex_download 1).start_time : Int) : ℚ) / 1000)) ∧
    circuit_capacity relays_ab (ex_circuit "g" "m" "x-exit") = 100 :=
  ⟨single_bottleneck (ex_download 1) relays_ab (selection_same [ex_download 1])
    (ex_circuit "g" "m" "x-exit") (by decide) (by unfold circuit_distinct; decide)
    (by
      intro r hr
      rcases (mem_circuit_relays _ r).1 hr with rfl | rfl | rfl <;> decide)
    (by decide) (by decide) (by decide), by decide⟩

/-- A tick of `read_downloads` is a multiple of 100 reduced to 32 bits, and
never the value -1 that the loop of `compute_total_bandwidth` keeps for "no
tick yet". -/
theorem download_tick_ne (seconds : ℚ) : download_tick seconds ≠ -1 := by
  unfold download_tick gint_wrap
  omega

theorem tick_step_eval_binary64 (relays : GHashTable String Int)
    (S : GHashTable download_t circuit_t) (dbt : GHashTable Int (List download_t))
    (st : integrate_state) (tick : Int) (a : GHashTable download_t Bool) (res : solve_result)
    (h1 : tick_active S dbt st.active_downloads tick = some a)
    (h2 : Binary64.compute_download_bandwidths (g_hash_table_get_keys a) relays S none none =
      some res) :
    Binary64.tick_step relays S dbt (some st) tick =
      some { active_downloads := a
             total_bandwidth :=
               if st.last_tick ≠ -1 then
                 gdouble_add st.total_bandwidth
                   (Binary64.interval_bytes st.last_bandwidth st.last_tick tick)
               else st.total_bandwidth
             last_tick := tick
             last_bandwidth := gint_of_gdouble res.total_bandwidth } := by
  unfold Binary64.tick_step
  simp only [h1, h2]

theorem interval_bytes_binary64 (B l t : Int) (hB : 1 ≤ B) (ht : 0 ≤ t - l)
    (hprod : B * (t - l) ≤ 2147483647) :
    Binary64.interval_bytes B l t = gdouble_round ((B : ℚ) * ((t - l : Int) : ℚ) / 1000) := by
  unfold Binary64.interval_bytes gdouble_div
  have h1 : t - l ≤ 2147483647 := by nlinarith
  rw [gint_wrap_of_range (by omega) h1, gint_wrap_of_range (by nlinarith) hprod]
  push_cast
  rfl

/-- One or two downloads on one circuit of three different relays with
capacities within `gint`, the smallest below `G_MAXINT32`: the shares are the
smallest capacity or half of it, no operation rounds, and the call returns the
smallest capacity in binary64. -/
theorem same_circuit_binary64 {A : List download_t} {relays : GHashTable String Int}
    {S : GHashTable download_t circuit_t} (c : circuit_t) (hnd : A.Nodup) (hne : A ≠ [])
    (hsize : A.length ≤ 2) (hS : ∀ d ∈ A, g_hash_table_lookup S d = some c)
    (hdist : circuit_distinct c)
    (hcap : ∀ r ∈ circuit_relays c,
      1 ≤ relay_capacity relays r ∧ relay_capacity relays r ≤ 2147483647)
    (hmin : circuit_capacity relays c < 2147483647) :
    ∃ res, Binary64.compute_download_bandwidths A relays S none none = some res ∧
      res.total_bandwidth = (circuit_capacity relays c : ℚ) := by
  obtain ⟨res, h, htot, hall⟩ := same_circuit_solve c hnd (by omega) hS hdist
    (fun r hr => (hcap r hr).1) hmin none none
  have hlen : A.length = 1 ∨ A.length = 2 := by
    have : 0 < A.length := List.length_pos.2 hne
    omega
  have hhalf : half_fields res.fields := by
    apply half_fields_of_bandwidth h
    intro d hd
    have hb := (hall d hd).1
    rcases hlen with e | e
    · refine ⟨2 * circuit_capacity relays c, ?_⟩
      rw [e] at hb
      push_cast at hb ⊢
      linarith
    · refine ⟨circuit_capacity relays c, ?_⟩
      rw [e] at hb
      push_cast at hb
      linarith
  obtain ⟨res2, k1, k2, _, _⟩ := compute_download_bandwidths_half none none
    (by
      intro d hd r hr
      have hr' := (on_relay_of_lookup (hS d hd) r).1 hr
      have := hcap r hr'
      omega)
    (by omega) h hhalf
  exact ⟨res2, k1, by rw [k2]; exact htot hne⟩

/-- Claim C26. Two downloads with `s1 < s2 < e1 < e2` on the same circuit of
three different relays whose smallest capacity `c` is at least 1 and below
`2^31 - 1`, with `c * (e2 - s1)` within `gint`: `compute_total_bandwidth`
returns `c * (e2 - s1) / 1000`. The ticks `s1`, `s2`, `e1` are not -1, as no
tick of `read_downloads` is (`download_tick_ne`). In exact arithmetic the value
is returned as it stands, whatever the other two capacities. In binary64, with
the capacities within `gint`, the call returns as well: the shares are `c` and
`c / 2`, no operation of the solves rounds, the total of every solve is the
whole number `c`, and the value returned, three quotients by 1000.0 added one
after the other, is within 0.000001 of `c * (e2 - s1) / 1000`. -/
theorem staggered_total (d1 d2 : download_t) (relays : GHashTable String Int)
    (S : GHashTable download_t circuit_t) (c : circuit_t)
    (hS1 : g_hash_table_lookup S d1 = some c) (hS2 : g_hash_table_lookup S d2 = some c)
    (hdist : circuit_distinct c)
    (hc1 : 1 ≤ circuit_capacity relays c) (hc2 : circuit_capacity relays c < 2147483647)
    (h12 : d1.start_time < d2.start_time) (h23 : d2.start_time < d1.end_time)
    (h34 : d1.end_time < d2.end_time)
    (hsent : d1.start_time ≠ -1 ∧ d2.start_time ≠ -1 ∧ d1.end_time ≠ -1)
    (hprod : circuit_capacity relays c * (d2.end_time - d1.start_time) ≤ 2147483647) :
    compute_total_bandwidth [d1, d2] relays S (generate_downloads_by_tick [d1, d2])
        (sorted_ticks (generate_downloads_by_tick [d1, d2])) =
      some ((circuit_capacity relays c : ℚ) *
        ((d2.end_time - d1.start_time : Int) : ℚ) / 1000) ∧
    ((∀ r ∈ circuit_relays c, relay_capacity relays r ≤ 2147483647) →
      ∃ v, Binary64.compute_total_bandwidth [d1, d2] relays S
          (generate_downloads_by_tick [d1, d2])
          (sorted_ticks (generate_downloads_by_tick [d1, d2])) = some v ∧
        |v - (circuit_capacity relays c : ℚ) *
          ((d2.end_time - d1.start_time : Int) : ℚ) / 1000| ≤ 1 / 1000000) := by
  have hcap : ∀ r ∈ circuit_relays c, 1 ≤ relay_capacity relays r := by
    intro r hr
    exact le_trans hc1 (circuit_capacity_le relays c r hr)
  have hd : d1 ≠ d2 := by
    intro e
    rw [e] at h12
    exact lt_irrefl _ h12
  have hlen : d2.end_time - d1.start_time ≤ 2147483647 := by nlinarith
  -- the three solves
  obtain ⟨res1, hres1, htot1, _⟩ := @same_circuit_solve [d1] relays S c
    (List.nodup_singleton d1) (by simp)
    (by intro x hx; rw [List.mem_singleton] at hx; rw [hx]; exact hS1) hdist hcap hc2 none none
  obtain ⟨res12, hres12, htot12, _⟩ := @same_circuit_solve [d1, d2] relays S
    c (by simp [hd]) (by simp)
    (by
      intro x hx
      rcases List.mem_cons.1 hx with rfl | hx
      · exact hS1
      · rw [List.mem_singleton] at hx; rw [hx]; exact hS2) hdist hcap hc2 none none
  obtain ⟨res2, hres2, htot2, _⟩ := @same_circuit_solve [d2] relays S c
    (List.nodup_singleton d2) (by simp)
    (by intro x hx; rw [List.mem_singleton] at hx; rw [hx]; exact hS2) hdist hcap hc2 none none
  have htot1' := htot1 (by simp)
  have htot12' := htot12 (by simp)
  have htot2' := htot2 (by simp)
  have hcc := gint_of_gdouble_int (circuit_capacity relays c) (by omega) (by omega)
  -- the index and the ticks
  have n1 : d1.start_time ≠ d1.end_time := by omega
  have n2 : d1.start_time ≠ d2.start_time := by omega
  have n3 : d1.start_time ≠ d2.end_time := by omega
  have n4 : d1.end_time ≠ d2.start_time := by omega
  have n5 : d1.end_time ≠ d2.end_time := by omega
  have n6 : d2.start_time ≠ d2.end_time := by omega
  have hdbt : generate_downloads_by_tick [d1, d2] =
      [(d1.start_time, [d1]), (d1.end_time, [d1]), (d2.start_time, [d2]),
       (d2.end_time, [d2])] := by
    simp [generate_downloads_by_tick, g_hash_table_insert, g_hash_table_lookup, n1, n2, n3,
      n4, n5, n6]
  have hticks : sorted_ticks [(d1.start_time, [d1]), (d1.end_time, [d1]),
      (d2.start_time, [d2]), (d2.end_time, [d2])] =
      [d1.start_time, d2.start_time, d1.end_time, d2.end_time] := by
    have c1 : compare_int d2.start_time d2.end_time ≤ 0 :=
      (compare_int_le _ _ (by omega) (by omega)).2 (by omega)
    have c2 : ¬ compare_int d1.end_time d2.start_time ≤ 0 := by
      rw [compare_int_le _ _ (by omega) (by omega)]
      omega
    have c3 : compare_int d1.end_time d2.end_time ≤ 0 :=
      (compare_int_le _ _ (by omega) (by omega)).2 (by omega)
    have c4 : compare_int d1.start_time d2.start_time ≤ 0 :=
      (compare_int_le _ _ (by omega) (by omega)).2 (by omega)
    simp [sorted_ticks, g_hash_table_get_keys, List.insertionSort, List.orderedInsert, c1, c2,
      c3, c4]
  rw [hdbt, hticks]
  generalize hdbtdef : [(d1.start_time, [d1]), (d1.end_time, [d1]), (d2.start_time, [d2]),
       (d2.end_time, [d2])] = dbt
  have hact1 : tick_active S dbt [] d1.start_time = some [(d1, true)] := by
    rw [← hdbtdef]
    simp [tick_active, g_hash_table_lookup, tick_download, hS1, g_hash_table_insert]
  have hact2 : tick_active S dbt [(d1, true)] d2.start_time = some [(d1, true), (d2, true)] := by
    rw [← hdbtdef]
    simp [tick_active, g_hash_table_lookup, tick_download, hS2, g_hash_table_insert, n2, n4, hd]
  have hact3 : tick_active S dbt [(d1, true), (d2, true)] d1.end_time = some [(d2, true)] := by
    rw [← hdbtdef]
    simp [tick_active, g_hash_table_lookup, tick_download, hS1, g_hash_table_remove, n1,
      Ne.symm hd]
  have hact4 : tick_active S dbt [(d2, true)] d2.end_time = some [] := by
    rw [← hdbtdef]
    simp [tick_active, g_hash_table_lookup, tick_download, hS2, g_hash_table_remove, n3, n5, n6,
      Ne.symm n6]
  have hs1 : tick_step relays S dbt (some integrate_init) d1.start_time =
      some { active_downloads := [(d1, true)], total_bandwidth := 0,
             last_tick := d1.start_time, last_bandwidth := circuit_capacity relays c } := by
    rw [tick_step_eval relays S dbt integrate_init d1.start_time [(d1, true)] res1 hact1 hres1,
      htot1', hcc]
    simp [integrate_init]
  have hs2 : tick_step relays S dbt
      (some { active_downloads := [(d1, true)], total_bandwidth := 0,
              last_tick := d1.start_time, last_bandwidth := circuit_capacity relays c })
      d2.start_time =
      some { active_downloads := [(d1, true), (d2, true)]
             total_bandwidth := (circuit_capacity relays c : ℚ) *
               ((d2.start_time - d1.start_time : Int) : ℚ) / 1000
             last_tick := d2.start_time, last_bandwidth := circuit_capacity relays c } := by
    rw [tick_step_eval relays S dbt _ d2.start_time [(d1, true), (d2, true)] res12 hact2 hres12,
      htot12', hcc]
    simp only
    rw [if_pos hsent.1, interval_bytes_eq _ _ _ hc1 (by omega) (by nlinarith), zero_add]
  have hs3 : tick_step relays S dbt
      (some { active_downloads := [(d1, true), (d2, true)]
              total_bandwidth := (circuit_capacity relays c : ℚ) *
                ((d2.start_time - d1.start_time : Int) : ℚ) / 1000
              last_tick := d2.start_time, last_bandwidth := circuit_capacity relays c })
      d1.end_time =
      some { active_downloads := [(d2, true)]
             total_bandwidth := (circuit_capacity relays c : ℚ) *
               ((d1.end_time - d1.start_time : Int) : ℚ) / 1000
             last_tick := d1.end_time, last_bandwidth := circuit_capacity relays c } := by
    rw [tick_step_eval relays S dbt _ d1.end_time [(d2, true)] res2 hact3 hres2, htot2', hcc]
    simp only
    rw [if_pos hsent.2.1, interval_bytes_eq _ _ _ hc1 (by omega) (by nlinarith)]
    congr 2
    push_cast
    ring
  have hs4 : tick_step relays S dbt
      (some { active_downloads := [(d2, true)]
              total_bandwidth := (circuit_capacity relays c : ℚ) *
                ((d1.end_time - d1.start_time : Int) : ℚ) / 1000
              last_tick := d1.end_time, last_bandwidth := circuit_capacity relays c })
      d2.end_time =
      some { active_downloads := []
             total_bandwidth := (circuit_capacity relays c : ℚ) *
               ((d2.end_time - d1.start_time : Int) : ℚ) / 1000
             last_tick := d2.end_time, last_bandwidth := gint_of_gdouble 0 } := by
    rw [tick_step_eval relays S dbt _ d2.end_time [] _ hact4
      (compute_download_bandwidths_nil relays S)]
    simp only
    rw [if_pos hsent.2.2, interval_bytes_eq _ _ _ hc1 (by omega) (by nlinarith)]
    congr 2
    push_cast
    ring
  refine ⟨?_, ?_⟩
  · unfold compute_total_bandwidth
    rw [List.foldl_cons, List.foldl_cons, List.foldl_cons, List.foldl_cons, List.foldl_nil,
      hs1, hs2, hs3, hs4]
    rfl
  -- the same walk in binary64
  intro hmax
  have hcap2 : ∀ r ∈ circuit_relays c,
      1 ≤ relay_capacity relays r ∧ relay_capacity relays r ≤ 2147483647 :=
    fun r hr => ⟨hcap r hr, hmax r hr⟩
  obtain ⟨q1, hq1, hqt1⟩ := @same_circuit_binary64 [d1] relays S c
    (List.nodup_singleton d1) (by simp) (by simp)
    (by intro x hx; rw [List.mem_singleton] at hx; rw [hx]; exact hS1) hdist hcap2 hc2
  obtain ⟨q12, hq12, hqt12⟩ := @same_circuit_binary64 [d1, d2] relays S c
    (by simp [hd]) (by simp) (by simp)
    (by
      intro x hx
      rcases List.mem_cons.1 hx with rfl | hx
      · exact hS1
      · rw [List.mem_singleton] at hx; rw [hx]; exact hS2) hdist hcap2 hc2
  obtain ⟨q2, hq2, hqt2⟩ := @same_circuit_binary64 [d2] relays S c
    (List.nodup_singleton d2) (by simp) (by simp)
    (by intro x hx; rw [List.mem_singleton] at hx; rw [hx]; exact hS2) hdist hcap2 hc2
  have i1 := interval_bytes_binary64 (circuit_capacity relays c) d1.start_time d2.start_time
    hc1 (by omega) (by nlinarith)
  have i2 := interval_bytes_binary64 (circuit_capacity relays c) d2.start_time d1.end_time
    hc1 (by omega) (by nlinarith)
  have i3 := interval_bytes_binary64 (circuit_capacity relays c) d1.end_time d2.end_time
    hc1 (by omega) (by nlinarith)
  have ht1 : Binary64.tick_step relays S dbt (some integrate_init) d1.start_time =
      some { active_downloads := [(d1, true)], total_bandwidth := 0,
             last_tick := d1.start_time, last_bandwidth := circuit_capacity relays c } := by
    rw [tick_step_eval_binary64 relays S dbt integrate_init d1.start_time [(d1, true)] q1
      hact1 hq1, hqt1, hcc]
    simp [integrate_init]
  have ht2 : Binary64.tick_step relays S dbt
      (some { active_downloads := [(d1, true)], total_bandwidth := 0,
              last_tick := d1.start_time, last_bandwidth := circuit_capacity relays c })
      d2.start_time =
      some { active_downloads := [(d1, true), (d2, true)]
             total_bandwidth := gdouble_add 0 (gdouble_round
               ((circuit_capacity relays c : ℚ) *
                 ((d2.start_time - d1.start_time : Int) : ℚ) / 1000))
             last_tick := d2.start_time, last_bandwidth := circuit_capacity relays c } := by
    rw [tick_step_eval_binary64 relays S dbt _ d2.start_time [(d1, true), (d2, true)] q12
      hact2 hq12, hqt12, hcc]
    simp only
    rw [if_pos hsent.1, i1]
  have ht3 : Binary64.tick_step relays S dbt
      (some { active_downloads := [(d1, true), (d2, true)]
              total_bandwidth := gdouble_add 0 (gdouble_round
                ((circuit_capacity relays c : ℚ) *
                  ((d2.start_time - d1.start_time : Int) : ℚ) / 1000))
              last_tick := d2.start_time, last_bandwidth := circuit_capacity relays c })
      d1.end_time =
      some { active_downloads := [(d2, true)]
             total_bandwidth := gdouble_add (gdouble_add 0 (gdouble_round
               ((circuit_capacity relays c : ℚ) *
                 ((d2.start_time - d1.start_time : Int) : ℚ) / 1000)))
               (gdouble_round ((circuit_capacity relays c : ℚ) *
                 ((d1.end_time - d2.start_time : Int) : ℚ) / 1000))
             last_tick := d1.end_time, last_bandwidth := circuit_capacity relays c } := by
    rw [tick_step_eval_binary64 relays S dbt _ d1.end_time [(d2, true)] q2 hact3 hq2, hqt2,
      hcc]
    simp only
    rw [if_pos hsent.2.1, i2]
  have ht4 : Binary64.tick_step relays S dbt
      (some { active_downloads := [(d2, true)]
              total_bandwidth := gdouble_add (gdouble_add 0 (gdouble_round
                ((circuit_capacity relays c : ℚ) *
                  ((d2.start_time - d1.start_time : Int) : ℚ) / 1000)))
                (gdouble_round ((circuit_capacity relays c : ℚ) *
                  ((d1.end_time - d2.start_time : Int) : ℚ) / 1000))
              last_tick := d1.end_time, last_bandwidth := circuit_capacity relays c })
      d2.end_time =
      some { active_downloads := []
             total_bandwidth := gdouble_add (gdouble_add (gdouble_add 0 (gdouble_round
               ((circuit_capacity relays c : ℚ) *
                 ((d2.start_time - d1.start_time : Int) : ℚ) / 1000)))
               (gdouble_round ((circuit_capacity relays c : ℚ) *
                 ((d1.end_time - d2.start_time : Int) : ℚ) / 1000)))
               (gdouble_round ((circuit_capacity relays c : ℚ) *
                 ((d2.end_time - d1.end_time : Int) : ℚ) / 1000))
             last_tick := d2.end_time, last_bandwidth := gint_of_gdouble 0 } := by
    rw [tick_step_eval_binary64 relays S dbt _ d2.end_time [] _ hact4
      (show Binary64.compute_download_bandwidths (g_hash_table_get_keys
        ([] : GHashTable download_t Bool)) relays S none none =
        some { total_bandwidth := 0, weights := none, available_bandwidth := none,
               fields := [] } from rfl)]
    simp only
    rw [if_pos hsent.2.2, i3]
  refine ⟨gdouble_add (gdouble_add (gdouble_add 0 (gdouble_round
      ((circuit_capacity relays c : ℚ) *
        ((d2.start_time - d1.start_time : Int) : ℚ) / 1000)))
      (gdouble_round ((circuit_capacity relays c : ℚ) *
        ((d1.end_time - d2.start_time : Int) : ℚ) / 1000)))
      (gdouble_round ((circuit_capacity relays c : ℚ) *
        ((d2.end_time - d1.end_time : Int) : ℚ) / 1000)), ?_, ?_⟩
  · unfold Binary64.compute_total_bandwidth
    rw [List.foldl_cons, List.foldl_cons, List.foldl_cons, List.foldl_cons, List.foldl_nil,
      ht1, ht2, ht3, ht4]
    rfl
  · have hcq : (0 : ℚ) ≤ (circuit_capacity relays c : ℚ) := by
      have : (0 : Int) ≤ circuit_capacity relays c := by omega
      exact_mod_cast this
    have y1 : (0 : ℚ) ≤ (circuit_capacity relays c : ℚ) *
        ((d2.start_time - d1.start_time : Int) : ℚ) / 1000 := by
      have : (0 : ℚ) ≤ ((d2.start_time - d1.start_time : Int) : ℚ) := by
        have : (0 : Int) ≤ d2.start_time - d1.start_time := by omega
        exact_mod_cast this
      positivity
    have y2 : (0 : ℚ) ≤ (circuit_capacity relays c : ℚ) *
        ((d1.end_time - d2.start_time : Int) : ℚ) / 1000 := by
      have : (0 : ℚ) ≤ ((d1.end_time - d2.start_time : Int) : ℚ) := by
        have : (0 : Int) ≤ d1.end_time - d2.start_time := by omega
        exact_mod_cast this
      positivity
    have y3 : (0 : ℚ) ≤ (circuit_capacity relays c : ℚ) *
        ((d2.end_time - d1.end_time : Int) : ℚ) / 1000 := by
      have : (0 : ℚ) ≤ ((d2.end_time - d1.end_time : Int) : ℚ) := by
        have : (0 : Int) ≤ d2.end_time - d1.end_time := by omega
        exact_mod_cast this
      positivity
    have hsum : (circuit_capacity relays c : ℚ) *
          ((d2.start_time - d1.start_time : Int) : ℚ) / 1000 +
        (circuit_capacity relays c : ℚ) * ((d1.end_time - d2.start_time : Int) : ℚ) / 1000 +
        (circuit_capacity relays c : ℚ) * ((d2.end_time - d1.end_time : Int) : ℚ) / 1000 =
        (circuit_capacity relays c : ℚ) * ((d2.end_time - d1.start_time : Int) : ℚ) / 1000 := by
      push_cast
      ring
    have hle : (circuit_capacity relays c : ℚ) *
        ((d2.end_time - d1.start_time : Int) : ℚ) / 1000 ≤ 2147483647 := by
      have h1 : ((circuit_capacity relays c * (d2.end_time - d1.start_time) : Int) : ℚ) ≤
          ((2147483647 : Int) : ℚ) := by exact_mod_cast hprod
      push_cast at h1
      have h0 : (0 : ℚ) ≤ (circuit_capacity relays c : ℚ) *
          ((d2.end_time - d1.start_time : Int) : ℚ) := by
        rw [← hsum] at *
        push_cast
        have a1 : (0 : ℚ) ≤ ((d2.end_time - d1.start_time : Int) : ℚ) := by
          have : (0 : Int) ≤ d2.end_time - d1.start_time := by omega
          exact_mod_cast this
        push_cast at a1
        exact mul_nonneg hcq a1
      push_cast at h0 ⊢
      linarith
    have := gdouble_sum_close _ _ _ y1 y2 y3 (by rw [hsum]; exact hle)
    rw [hsum] at this
    exact this

/-- C26 on scenario D, with a guard of capacity `2^31 - 1`: the intervals
[0, 5] s and [3, 8] s, whose ticks are those of `read_downloads`, on the
circuit `g`, `m`, `x-exit` of capacity 100 give 100 * 8000 / 1000, which is
800 in binary64 as well. -/
theorem staggered_total_witness :
    ([0, 3, 5, 8] : List ℚ).map download_tick = [0, 3000, 5000, 8000] ∧
    relay_capacity relays_guard_max "g" = 2147483647 ∧
    Binary64.compute_total_bandwidth [ex_interval 1 0 5000, ex_interval 2 3000 8000]
        relays_guard_max (selection_same [ex_interval 1 0 5000, ex_interval 2 3000 8000])
        (generate_downloads_by_tick [ex_interval 1 0 5000, ex_interval 2 3000 8000])
        (sorted_ticks
          (generate_downloads_by_tick [ex_interval 1 0 5000, ex_interval 2 3000 8000])) =
      some 800 ∧
    (compute_total_bandwidth [ex_interval 1 0 5000, ex_interval 2 3000 8000] relays_guard_max
        (selection_same [ex_interval 1 0 5000, ex_interval 2 3000 8000])
        (generate_downloads_by_tick [ex_interval 1 0 5000, ex_interval 2 3000 8000])
        (sorted_ticks
          (generate_downloads_by_tick [ex_interval 1 0 5000, ex_interval 2 3000 8000])) =
      some ((circuit_capacity relays_guard_max (ex_circuit "g" "m" "x-exit") : ℚ) *
        (((ex_interval 2 3000 8000).end_time - (ex_interval 1 0 5000).start_time : Int) : ℚ)
          / 1000) ∧
    ((∀ r ∈ circuit_relays (ex_circuit "g" "m" "x-exit"),
        relay_capacity relays_guard_max r ≤ 2147483647) →
      ∃ v, Binary64.compute_total_bandwidth [ex_interval 1 0 5000, ex_interval 2 3000 8000]
          relays_guard_max (selection_same [ex_interval 1 0 5000, ex_interval 2 3000 8000])
          (generate_downloads_by_tick [ex_interval 1 0 5000, ex_interval 2 3000 8000])
          (sorted_ticks
            (generate_downloads_by_tick [ex_interval 1 0 5000, ex_interval 2 3000 8000])) =
          some v ∧
        |v - (circuit_capacity relays_guard_max (ex_circuit "g" "m" "x-exit") : ℚ) *
          (((ex_interval 2 3000 8000).end_time - (ex_interval 1 0 5000).start_time : Int) : ℚ)
            / 1000| ≤ 1 / 1000000)) :=
  ⟨by decide!, by decide, by decide!,
    staggered_total (ex_interval 1 0 5000) (ex_interval 2 3000 8000) relays_guard_max
      (selection_same [ex_interval 1 0 5000, ex_interval 2 3000 8000])
      (ex_circuit "g" "m" "x-exit") (by decide) (by decide)
      (by unfold circuit_distinct; decide) (by decide) (by decide)
      (by decide) (by decide) (by decide) (by decide) (by decide)⟩

/-! ## The weighted circuit list -/

theorem weighted_inner (c : circuit_t) (n : Nat) (l : List circuit_t) :
    (List.range n).foldl (fun l _ => l ++ [c]) l = l ++ List.replicate n c := by
  induction n with
  | zero => simp
  | succ n ih =>
    rw [List.range_succ, List.foldl_append, ih, List.replicate_succ']
    simp

theorem weighted_outer (list : List circuit_t) (k : Nat) (hk : k ≤ list.length) :
    (List.range k).foldl (weighted_fill list) [] =
      (list.take k).flatMap fun c => List.replicate (circuit_weight c).toNat c := by
  induction k with
  | zero => simp
  | succ k ih =>
    have hlt : k < list.length := by omega
    rw [List.range_succ, List.foldl_append, ih (by omega), List.take_succ,
      List.flatMap_append]
    simp only [List.foldl_cons, List.foldl_nil]
    unfold weighted_fill
    rw [List.getElem?_eq_getElem hlt]
    simp only [Option.toList_some, List.flatMap_cons, List.flatMap_nil, List.append_nil]
    rw [weighted_inner]

theorem circuit_weight_floor (c : circuit_t) (h0 : 0 ≤ c.bandwidth)
    (h1 : c.bandwidth / 1024 ≤ 2147483647) :
    circuit_weight c = max ⌊c.bandwidth / 1024⌋ 1 := by
  unfold circuit_weight
  rw [gint_of_gdouble_floor (div_nonneg h0 (by norm_num)) h1]

theorem total_fold_sum (l : List circuit_t) (f : circuit_t → Int) (hf : ∀ c ∈ l, 0 ≤ f c) :
    ∀ acc : Int, 0 ≤ acc → acc + (l.map f).sum ≤ 2147483647 →
      l.foldl (fun total c => gint_wrap (total + f c)) acc = acc + (l.map f).sum := by
  induction l with
  | nil =>
    intro acc _ _
    simp
  | cons x t ih =>
    intro acc h0 h1
    rw [List.map_cons, List.sum_cons] at h1
    have hx := hf x (List.mem_cons_self _ _)
    have ht : 0 ≤ (t.map f).sum :=
      List.sum_nonneg (fun y hy => by
        obtain ⟨c, hc, rfl⟩ := List.mem_map.1 hy
        exact hf c (List.mem_cons_of_mem _ hc))
    rw [List.foldl_cons, gint_wrap_of_range (by omega) (by omega),
      ih (fun c hc => hf c (List.mem_cons_of_mem _ hc)) _ (by omega) (by omega),
      List.map_cons, List.sum_cons]
    ring

theorem count_flatMap_replicate (l : List circuit_t) (f : circuit_t → Nat) (c : circuit_t) :
    (l.flatMap fun x => List.replicate (f x) x).count c = l.count c * f c := by
  induction l with
  | nil => simp
  | cons x t ih =>
    rw [List.flatMap_cons, List.count_append, ih, List.count_replicate, List.count_cons]
    by_cases hx : x = c
    · subst hx
      simp
      ring
    · have hx' : (x == c) = false := by simpa using hx
      simp [hx']

theorem length_flatMap_replicate (l : List circuit_t) (f : circuit_t → Nat) :
    ((l.flatMap fun x => List.replicate (f x) x).length : Int) =
      (l.map fun x => (f x : Int)).sum := by
  induction l with
  | nil => simp
  | cons x t ih =>
    rw [List.flatMap_cons, List.length_append, List.length_replicate, List.map_cons,
      List.sum_cons, Nat.cast_add, ih]

/-- C21, counterexample: the pool that `build_all_circuits` makes of three
relays of capacity 1500 has one circuit, of bandwidth 1500. Its weight is
`MAX((gint)(1500 / 1024.0), 1)` = 1, so the weighted list has one entry, where
the claim has `ceil(1500 / 1024)` = 2. -/
theorem weighted_pool_counterexample :
    ∃ lists, generate_circuit_lists (build_all_circuits relays_wide) = some lists ∧
      lists.weighted_circuit_list.length = 1 ∧
      ((build_all_circuits relays_wide).map fun c => ⌈c.bandwidth / 1024⌉).sum = 2 := by
  refine ⟨{ circuit_list := [circuit_wide], weighted_circuit_list := [circuit_wide],
            total_circuit_bandwidth := 1 }, by decide!, by decide!, ?_⟩
  have h : build_all_circuits relays_wide = [circuit_wide] := by decide!
  rw [h]
  unfold circuit_wide
  simp only [List.map_cons, List.map_nil, List.sum_cons, List.sum_nil, add_zero]
  rw [Int.ceil_eq_iff]
  norm_num

/-- C21, amended: for every pool of circuits whose bandwidths are not negative
and whose weights `max(floor(bandwidth / 1024), 1)` add up to a `gint`,
`generate_circuit_lists` returns the pool as the plain list, the sum of the
weights as the total, and as the weighted list the circuits of the pool in
their order, each repeated as often as its weight says: the length of the
weighted list is the total, and a circuit occurs in it its weight times the
number of times it stands in the pool. -/
theorem weighted_pool (circuits : List circuit_t)
    (hbw : ∀ c ∈ circuits, 0 ≤ c.bandwidth ∧ c.bandwidth / 1024 ≤ 2147483647)
    (hsum : (circuits.map fun c => max ⌊c.bandwidth / 1024⌋ 1).sum ≤ 2147483647) :
    ∃ lists, generate_circuit_lists circuits = some lists ∧
      lists.circuit_list = circuits ∧
      lists.total_circuit_bandwidth = (circuits.map fun c => max ⌊c.bandwidth / 1024⌋ 1).sum ∧
      (lists.weighted_circuit_list.length : Int) = lists.total_circuit_bandwidth ∧
      lists.weighted_circuit_list =
        circuits.flatMap (fun c => List.replicate (max ⌊c.bandwidth / 1024⌋ 1).toNat c) ∧
      ∀ c, lists.weighted_circuit_list.count c =
        circuits.count c * (max ⌊c.bandwidth / 1024⌋ 1).toNat := by
  have hw : ∀ c ∈ circuits, circuit_weight c = max ⌊c.bandwidth / 1024⌋ 1 :=
    fun c hc => circuit_weight_floor c (hbw c hc).1 (hbw c hc).2
  have hmap : (circuits.map circuit_weight) =
      circuits.map fun c => max ⌊c.bandwidth / 1024⌋ 1 :=
    List.map_congr_left hw
  have htotal : circuits.foldl (fun total c => gint_wrap (total + circuit_weight c)) 0 =
      (circuits.map fun c => max ⌊c.bandwidth / 1024⌋ 1).sum := by
    rw [total_fold_sum circuits circuit_weight
      (fun c hc => by rw [hw c hc]; exact le_trans (by norm_num) (le_max_right _ _)) 0
      (le_refl _) (by rw [hmap, zero_add]; exact hsum), zero_add, hmap]
  have hweighted : (List.range circuits.length).foldl (weighted_fill circuits) [] =
      circuits.flatMap (fun c => List.replicate (max ⌊c.bandwidth / 1024⌋ 1).toNat c) := by
    rw [weighted_outer circuits circuits.length (le_refl _), List.take_length]
    apply List.flatMap_congr
    intro c hc
    rw [hw c hc]
  have hlen : ((circuits.flatMap
      (fun c => List.replicate (max ⌊c.bandwidth / 1024⌋ 1).toNat c)).length : Int) =
      (circuits.map fun c => max ⌊c.bandwidth / 1024⌋ 1).sum := by
    rw [length_flatMap_replicate]
    congr 1
    apply List.map_congr_left
    intro c _
    exact Int.toNat_of_nonneg (le_trans (by norm_num) (le_max_right _ _))
  unfold generate_circuit_lists
  simp only [htotal, hweighted]
  rw [if_pos hlen]
  exact ⟨_, rfl, rfl, rfl, hlen, rfl, count_flatMap_replicate circuits _⟩

/-- C21 on a pool of two circuits, of bandwidth 2048 and 100: the weights are 2
and 1 and the weighted list has three entries. -/
theorem weighted_pool_witness :
    (∃ lists, generate_circuit_lists pool_weighted = some lists ∧
      lists.circuit_list = pool_weighted ∧
      lists.total_circuit_bandwidth =
        (pool_weighted.map fun c => max ⌊c.bandwidth / 1024⌋ 1).sum ∧
      (lists.weighted_circuit_list.length : Int) = lists.total_circuit_bandwidth ∧
      lists.weighted_circuit_list =
        pool_weighted.flatMap (fun c => List.replicate (max ⌊c.bandwidth / 1024⌋ 1).toNat c) ∧
      ∀ c, lists.weighted_circuit_list.count c =
        pool_weighted.count c * (max ⌊c.bandwidth / 1024⌋ 1).toNat) ∧
    (pool_weighted.map fun c => max ⌊c.bandwidth / 1024⌋ 1) = [2, 1] :=
  ⟨weighted_pool pool_weighted
    (by
      intro c hc
      rcases List.mem_cons.1 hc with rfl | hc
      · norm_num
      rcases List.mem_cons.1 hc with rfl | hc
      · norm_num
      cases hc)
    (by decide!), by decide!⟩

/-! ## Circuits that name a client -/

theorem read_circuit_line_eq (g_ascii_strtod : String → ℚ)
    (acc : List circuit_t × GHashTable String (List download_t)) (line : String) :
    read_circuit_line g_ascii_strtod acc line =
      match line_circuit g_ascii_strtod line with
      | none => acc
      | some c =>
        match c.client with
        | none => (acc.1 ++ [c], acc.2)
        | some client =>
          match g_hash_table_lookup acc.2 client with
          | none => acc
          | some downloads =>
            (acc.1 ++ [c], g_hash_table_insert acc.2 client (downloads.map (offer_circuit c))) := by
  unfold read_circuit_line line_circuit
  by_cases h1 : line = ""
  · simp only [h1, if_true]
  · simp only [h1, if_false]
    by_cases h2 : (g_strsplit line).length < 3
    · simp only [h2, if_true]
    · simp only [h2, if_false]

theorem map_self_of_forall {α : Type} (f : α → α) (l : List α) (h : ∀ x ∈ l, f x = x) :
    l.map f = l := by
  induction l with
  | nil => rfl
  | cons x t ih =>
    rw [List.map_cons, h x (List.mem_cons_self _ _),
      ih (fun y hy => h y (List.mem_cons_of_mem _ hy))]

theorem insert_eq_map {ν : Type} (t : GHashTable String ν) (k : String) (v v0 : ν)
    (hk : g_hash_table_lookup t k = some v0) (hn : (g_hash_table_get_keys t).Nodup) :
    g_hash_table_insert t k v = t.map fun e => if e.1 = k then (k, v) else e := by
  induction t with
  | nil => cases hk
  | cons x t ih =>
    obtain ⟨k', v'⟩ := x
    have hn' : k' ∉ g_hash_table_get_keys t ∧ (g_hash_table_get_keys t).Nodup := by
      simpa [g_hash_table_get_keys] using hn
    unfold g_hash_table_insert
    by_cases hkk : k' = k
    · rw [if_pos hkk, List.map_cons]
      simp only [hkk, if_true]
      congr 1
      symm
      apply map_self_of_forall
      intro e he
      have hne : e.1 ≠ k := by
        intro h
        apply hn'.1
        rw [hkk, ← h]
        exact List.mem_map.2 ⟨e, he, rfl⟩
      rw [if_neg hne]
    · rw [if_neg hkk, List.map_cons]
      simp only [hkk, if_false]
      congr 1
      apply ih _ hn'.2
      unfold g_hash_table_lookup at hk
      rwa [if_neg hkk] at hk

/-- C23: for a line of the circuits file that makes a circuit naming a client,
`read_circuits` appends the circuit to the pool of a download exactly when the
download is one of that client and the window of the circuit covers it, a
bound of 0 leaving the side open: the table of the downloads after the line is
the table before it with the circuit appended to the pools of these downloads
and no other pool changed. -/
theorem window_filter (g_ascii_strtod : String → ℚ)
    (acc : List circuit_t × GHashTable String (List download_t)) (line : String)
    (c : circuit_t) (client : String)
    (hline : line_circuit g_ascii_strtod line = some c) (hclient : c.client = some client)
    (hkeys : (g_hash_table_get_keys acc.2).Nodup)
    (hown : ∀ e ∈ acc.2, ∀ d ∈ e.2, d.client = e.1) :
    (read_circuit_line g_ascii_strtod acc line).2 =
      acc.2.map fun e => (e.1, e.2.map fun d =>
        if d.client = client ∧
            (c.start_time = 0 ∨ c.start_time ≤ (d.start_time : ℚ)) ∧
            (c.end_time = 0 ∨ c.end_time ≥ (d.end_time : ℚ)) then
          { d with circuits := d.circuits ++ [c] }
        else d) := by
  rw [read_circuit_line_eq, hline]
  dsimp only
  rw [hclient]
  dsimp only
  have hother : ∀ e ∈ acc.2, e.1 ≠ client →
      (e.1, e.2.map fun d =>
        if d.client = client ∧
            (c.start_time = 0 ∨ c.start_time ≤ (d.start_time : ℚ)) ∧
            (c.end_time = 0 ∨ c.end_time ≥ (d.end_time : ℚ)) then
          { d with circuits := d.circuits ++ [c] }
        else d) = e := by
    intro e he hne
    have : (e.2.map fun d =>
        if d.client = client ∧
            (c.start_time = 0 ∨ c.start_time ≤ (d.start_time : ℚ)) ∧
            (c.end_time = 0 ∨ c.end_time ≥ (d.end_time : ℚ)) then
          { d with circuits := d.circuits ++ [c] }
        else d) = e.2 := by
      apply map_self_of_forall
      intro d hd
      rw [if_neg]
      rintro ⟨h1, _⟩
      exact hne ((hown e he d hd).symm.trans h1)
    rw [this]
  cases hl : g_hash_table_lookup acc.2 client with
  | none =>
    dsimp only
    symm
    apply map_self_of_forall
    intro e he
    apply hother e he
    intro h
    have := lookup_isSome_of_mem (show (client, e.2) ∈ acc.2 by rw [← h]; exact he)
    rw [hl] at this
    obtain ⟨_, h'⟩ := this
    cases h'
  | some downloads =>
    dsimp only
    rw [insert_eq_map acc.2 client _ downloads hl hkeys]
    apply List.map_congr_left
    intro e he
    by_cases hk : e.1 = client
    · rw [if_pos hk]
      have he' : (client, e.2) ∈ acc.2 := by rw [← hk]; exact he
      have hds := lookup_of_mem hkeys he'
      rw [hl] at hds
      cases hds
      rw [hk]
      congr 1
      apply List.map_congr_left
      intro d hd
      have hdc : d.client = client := (hown e he d hd).trans hk
      unfold offer_circuit
      simp only [hdc, true_and, ge_iff_le]
    · rw [if_neg hk]
      exact (hother e he hk).symm

/-- C23 on the line `g m x-exit alice 0 5`: of the two downloads of `alice`, the
one from 0 s to 3 s takes the circuit, the one from 0 s to 10 s does not, and
the download of `bob` is left as it is. -/
theorem window_filter_witness :
    (read_circuit_line strtod_example ([], clients_example) "g m x-exit alice 0 5").2 =
        clients_example.map (fun e => (e.1, e.2.map fun d =>
          if d.client = "alice" ∧
              (circuit_alice.start_time = 0 ∨ circuit_alice.start_time ≤ (d.start_time : ℚ)) ∧
              (circuit_alice.end_time = 0 ∨ circuit_alice.end_time ≥ (d.end_time : ℚ)) then
            { d with circuits := d.circuits ++ [circuit_alice] }
          else d)) ∧
      (read_circuit_line strtod_example ([], clients_example) "g m x-exit alice 0 5").2 =
        [("alice", [{ id := 1, client := "alice", start_time := 0, end_time := 10000 },
                    { id := 2, client := "alice", start_time := 0, end_time := 3000,
                      circuits := [circuit_alice] }]),
         ("bob", [{ id := 3, client := "bob", start_time := 0, end_time := 3000 }])] :=
  ⟨window_filter strtod_example ([], clients_example) "g m x-exit alice 0 5" circuit_alice
    "alice" (by decide!) (by decide) (by decide)
    (by
      intro e he d hd
      rcases List.mem_cons.1 he with rfl | he
      · rcases List.mem_cons.1 hd with rfl | hd
        · rfl
        rcases List.mem_cons.1 hd with rfl | hd
        · rfl
        cases hd
      rcases List.mem_cons.1 he with rfl | he
      · rcases List.mem_cons.1 hd with rfl | hd
        · rfl
        cases hd
      cases he), by decide!⟩

/-- C22, at the failing input: the circuits file has the one line
`g m x-exit alice 0 5`, a circuit for the client `alice` with the window up to
5 s. The filter of `read_circuits` gives it to the download of `alice` from 0 s
to 3 s only. The circuit is also pushed on the global queue, and `main` gives
the global queue to every download that has no queue of its own: the download
of `alice` from 0 s to 10 s, which the window does not cover, and the download
of `bob` both have the circuit in their pool. -/
theorem scoped_circuit_leaks :
    main_pools strtod_example ["g m x-exit alice 0 5"] clients_example =
        some [{ id := 1, client := "alice", start_time := 0, end_time := 10000,
                circuits := [circuit_alice] },
              { id := 2, client := "alice", start_time := 0, end_time := 3000,
                circuits := [circuit_alice] },
              { id := 3, client := "bob", start_time := 0, end_time := 3000,
                circuits := [circuit_alice] }] ∧
      circuit_alice.client = some "alice" ∧
      ¬ window_covers circuit_alice
        { id := 1, client := "alice", start_time := 0, end_time := 10000 } := by
  refine ⟨by decide!, rfl, by decide!⟩

/-! ## Downloads without a circuit -/

theorem lookup_delete_unassigned (S : GHashTable download_t circuit_t)
    (dbt : GHashTable Int (List download_t)) (tick : Int) :
    g_hash_table_lookup (delete_unassigned S dbt) tick =
      (g_hash_table_lookup dbt tick).map fun l =>
        l.filter fun d => (g_hash_table_lookup S d).isSome := by
  induction dbt with
  | nil => rfl
  | cons x t ih =>
    obtain ⟨k, l⟩ := x
    unfold delete_unassigned at ih ⊢
    simp only [List.map_cons, g_hash_table_lookup]
    by_cases h : k = tick
    · rw [if_pos h, if_pos h]
      rfl
    · rw [if_neg h, if_neg h]
      exact ih

theorem tick_download_skip (S : GHashTable download_t circuit_t) (tick : Int)
    (acc : Option (GHashTable download_t Bool)) (d : download_t)
    (h : g_hash_table_lookup S d = none) : tick_download S tick acc d = acc := by
  unfold tick_download
  cases acc with
  | none => rfl
  | some a => simp only [h]

theorem tick_fold_filter (S : GHashTable download_t circuit_t) (tick : Int)
    (l : List download_t) :
    ∀ acc, (l.filter fun d => (g_hash_table_lookup S d).isSome).foldl (tick_download S tick) acc =
      l.foldl (tick_download S tick) acc := by
  induction l with
  | nil => intro acc; rfl
  | cons d t ih =>
    intro acc
    cases hd : g_hash_table_lookup S d with
    | none =>
      rw [List.filter_cons_of_neg (by simp [hd]), List.foldl_cons, tick_download_skip S tick acc d hd]
      exact ih acc
    | some c =>
      rw [List.filter_cons_of_pos (by simp [hd]), List.foldl_cons, List.foldl_cons]
      exact ih _

theorem tick_active_delete (S : GHashTable download_t circuit_t)
    (dbt : GHashTable Int (List download_t)) (a : GHashTable download_t Bool) (tick : Int) :
    tick_active S (delete_unassigned S dbt) a tick = tick_active S dbt a tick := by
  unfold tick_active
  rw [lookup_delete_unassigned]
  cases g_hash_table_lookup dbt tick with
  | none => rfl
  | some l => exact tick_fold_filter S tick l (some a)

theorem tick_download_assigned (S : GHashTable download_t circuit_t) (tick : Int)
    (a a' : GHashTable download_t Bool) (d : download_t)
    (ha : ∀ x ∈ g_hash_table_get_keys a, (g_hash_table_lookup S x).isSome = true)
    (h : tick_download S tick (some a) d = some a') :
    ∀ x ∈ g_hash_table_get_keys a', (g_hash_table_lookup S x).isSome = true := by
  unfold tick_download at h
  dsimp only at h
  cases hd : g_hash_table_lookup S d with
  | none =>
    rw [hd] at h
    cases h
    exact ha
  | some c =>
    rw [hd] at h
    dsimp only at h
    split at h
    · cases h
      intro x hx
      obtain ⟨e, he, rfl⟩ := List.mem_map.1 hx
      rcases mem_insert a d true he with rfl | he
      · simp [hd]
      · exact ha _ (List.mem_map.2 ⟨e, he, rfl⟩)
    · split at h
      · cases h
        intro x hx
        obtain ⟨e, he, rfl⟩ := List.mem_map.1 hx
        unfold g_hash_table_remove at he
        exact ha _ (List.mem_map.2 ⟨e, (List.mem_filter.1 he).1, rfl⟩)
      · cases h

theorem tick_fold_assigned (S : GHashTable download_t circuit_t) (tick : Int)
    (l : List download_t) :
    ∀ (a a' : GHashTable download_t Bool),
      (∀ x ∈ g_hash_table_get_keys a, (g_hash_table_lookup S x).isSome = true) →
      l.foldl (tick_download S tick) (some a) = some a' →
      ∀ x ∈ g_hash_table_get_keys a', (g_hash_table_lookup S x).isSome = true := by
  induction l with
  | nil =>
    intro a a' ha h
    cases h
    exact ha
  | cons d t ih =>
    intro a a' ha h
    rw [List.foldl_cons] at h
    cases h1 : tick_download S tick (some a) d with
    | none =>
      rw [h1] at h
      have hnone : ∀ (l : List download_t),
          l.foldl (tick_download S tick) none = none := by
        intro l
        induction l with
        | nil => rfl
        | cons y u ihu => rw [List.foldl_cons]; exact ihu
      rw [hnone] at h
      cases h
    | some a1 =>
      rw [h1] at h
      exact ih a1 a' (tick_download_assigned S tick a a1 d ha h1) h

theorem active_after_assigned (S : GHashTable download_t circuit_t)
    (dbt : GHashTable Int (List download_t)) (p : List Int) :
    ∀ (a0 a : GHashTable download_t Bool),
      (∀ x ∈ g_hash_table_get_keys a0, (g_hash_table_lookup S x).isSome = true) →
      p.foldl (fun acc tick => acc.bind fun a => tick_active S dbt a tick) (some a0) = some a →
      ∀ x ∈ g_hash_table_get_keys a, (g_hash_table_lookup S x).isSome = true := by
  induction p with
  | nil =>
    intro a0 a ha h
    cases h
    exact ha
  | cons t p ih =>
    intro a0 a ha h
    rw [List.foldl_cons, Option.some_bind] at h
    cases h1 : tick_active S dbt a0 t with
    | none =>
      rw [h1] at h
      have hnone : ∀ (l : List Int),
          l.foldl (fun acc tick => acc.bind fun a => tick_active S dbt a tick) none = none := by
        intro l
        induction l with
        | nil => rfl
        | cons y u ihu => rw [List.foldl_cons]; exact ihu
      rw [hnone] at h
      cases h
    | some a1 =>
      rw [h1] at h
      exact ih a1 a (tick_fold_assigned S t _ a0 a1 ha h1) h

/-- The list that `generate_downloads_by_tick` keeps for a tick: every download
that starts at the tick and every download that ends at it, in the order of
the download list (a download of length 0 twice). -/
theorem generate_downloads_by_tick_lookup (l : List download_t) (tick : Int) :
    ∀ T : GHashTable Int (List download_t),
      (g_hash_table_lookup (l.foldl (fun t download =>
        let t1 := g_hash_table_insert t download.start_time
          ((g_hash_table_lookup t download.start_time).getD [] ++ [download])
        g_hash_table_insert t1 download.end_time
          ((g_hash_table_lookup t1 download.end_time).getD [] ++ [download])) T) tick).getD [] =
      (g_hash_table_lookup T tick).getD [] ++ l.flatMap (fun d =>
        (if d.start_time = tick then [d] else []) ++ (if d.end_time = tick then [d] else [])) := by
  induction l with
  | nil =>
    intro T
    simp
  | cons d l ih =>
    intro T
    rw [List.foldl_cons, ih, List.flatMap_cons, ← List.append_assoc]
    congr 1
    simp only [lookup_insert]
    by_cases h1 : tick = d.start_time
    · by_cases h2 : tick = d.end_time
      · have h3 : d.end_time = d.start_time := h2.symm.trans h1
        have h1' : d.start_time = tick := h1.symm
        have h2' : d.end_time = tick := h2.symm
        rw [if_pos h2, if_pos h3, if_pos h1', if_pos h2', h1]
        simp
      · have h1' : d.start_time = tick := h1.symm
        have h2' : ¬ d.end_time = tick := fun h => h2 h.symm
        rw [if_neg h2, if_pos h1, if_pos h1', if_neg h2', h1]
        simp
    · have h1' : ¬ d.start_time = tick := fun h => h1 h.symm
      by_cases h2 : tick = d.end_time
      · have h3 : ¬ d.end_time = d.start_time := fun h => h1 (h2.trans h)
        have h2' : d.end_time = tick := h2.symm
        rw [if_pos h2, if_neg h3, if_neg h1', if_pos h2', h2]
        simp
      · have h2' : ¬ d.end_time = tick := fun h => h2 h.symm
        rw [if_neg h2, if_neg h1, if_neg h1', if_neg h2']
        simp

theorem filter_flatMap_ticks (S : GHashTable download_t circuit_t) (tick : Int)
    (l : List download_t) :
    (l.flatMap (fun d =>
        (if d.start_time = tick then [d] else []) ++ (if d.end_time = tick then [d] else []))).filter
        (fun d => (g_hash_table_lookup S d).isSome) =
      (l.filter (fun d => (g_hash_table_lookup S d).isSome)).flatMap (fun d =>
        (if d.start_time = tick then [d] else []) ++ (if d.end_time = tick then [d] else [])) := by
  induction l with
  | nil => rfl
  | cons d l ih =>
    rw [List.flatMap_cons, List.filter_append, ih]
    cases hd : (g_hash_table_lookup S d).isSome with
    | false =>
      rw [List.filter_cons_of_neg (by simp [hd])]
      have : ((if d.start_time = tick then [d] else []) ++
          (if d.end_time = tick then [d] else [])).filter
          (fun d => (g_hash_table_lookup S d).isSome) = [] := by
        rw [List.filter_eq_nil_iff]
        intro x hx
        have hxd : x = d := by
          rcases List.mem_append.1 hx with hx | hx
          · split at hx
            · exact List.mem_singleton.1 hx
            · cases hx
          · split at hx
            · exact List.mem_singleton.1 hx
            · cases hx
        rw [hxd, hd]
        simp
      rw [this, List.nil_append]
    | true =>
      rw [List.filter_cons_of_pos (by simp [hd]), List.flatMap_cons]
      congr 1
      rw [List.filter_eq_self]
      intro x hx
      have hxd : x = d := by
        rcases List.mem_append.1 hx with hx | hx
        · split at hx
          · exact List.mem_singleton.1 hx
          · cases hx
        · split at hx
          · exact List.mem_singleton.1 hx
          · cases hx
      rw [hxd, hd]

theorem tick_active_generate (S : GHashTable download_t circuit_t) (downloads : List download_t)
    (a : GHashTable download_t Bool) (tick : Int) :
    tick_active S (generate_downloads_by_tick
        (downloads.filter fun d => (g_hash_table_lookup S d).isSome)) a tick =
      tick_active S (generate_downloads_by_tick downloads) a tick := by
  unfold tick_active generate_downloads_by_tick
  rw [generate_downloads_by_tick_lookup, generate_downloads_by_tick_lookup]
  simp only [g_hash_table_lookup, Option.getD_none, List.nil_append]
  rw [← filter_flatMap_ticks, tick_fold_filter]

/-- C27: for every download list, tick list and assignment, what
`compute_total_bandwidth` does is what it does when every download without an
entry in the assignment is deleted from the download list and from the tick
index, the tick list being the same: with the index of
`generate_downloads_by_tick` made from the shorter list, and with any index
from whose lists these downloads are taken out (the value returned is the
same, and a call that does not return does not return either way). After every
prefix of the ticks the active set holds downloads with an entry only. -/
theorem unassigned_skipped (downloads : List download_t) (relays : GHashTable String Int)
    (S : GHashTable download_t circuit_t) (dbt : GHashTable Int (List download_t))
    (ticks : List Int) :
    compute_total_bandwidth
        (downloads.filter fun d => (g_hash_table_lookup S d).isSome) relays S
        (generate_downloads_by_tick
          (downloads.filter fun d => (g_hash_table_lookup S d).isSome)) ticks =
      compute_total_bandwidth downloads relays S (generate_downloads_by_tick downloads) ticks ∧
    compute_total_bandwidth
        (downloads.filter fun d => (g_hash_table_lookup S d).isSome) relays S
        (delete_unassigned S dbt) ticks =
      compute_total_bandwidth downloads relays S dbt ticks ∧
    ∀ (p : List Int) (a : GHashTable download_t Bool), active_after S dbt p = some a →
      ∀ d ∈ g_hash_table_get_keys a, (g_hash_table_lookup S d).isSome = true := by
  refine ⟨?_, ?_, ?_⟩
  · have hstep : tick_step relays S (generate_downloads_by_tick
        (downloads.filter fun d => (g_hash_table_lookup S d).isSome)) =
        tick_step relays S (generate_downloads_by_tick downloads) := by
      funext acc tick
      unfold tick_step
      cases acc with
      | none => rfl
      | some st =>
        dsimp only
        rw [tick_active_generate]
    unfold compute_total_bandwidth
    rw [hstep]
  · have hstep : tick_step relays S (delete_unassigned S dbt) = tick_step relays S dbt := by
      funext acc tick
      unfold tick_step
      cases acc with
      | none => rfl
      | some st =>
        dsimp only
        rw [tick_active_delete]
    unfold compute_total_bandwidth
    rw [hstep]
  · intro p a h
    exact active_after_assigned S dbt p [] a (by intro x hx; cases hx) h

/-- C27 on two downloads of which the second has no circuit: the total is the
total of the first download alone, 100 * 5000 / 1000. -/
theorem unassigned_skipped_witness :
    (compute_total_bandwidth
        (downloads_sparse.filter fun d => (g_hash_table_lookup selection_sparse d).isSome)
        relays_ab selection_sparse
        (generate_downloads_by_tick
          (downloads_sparse.filter fun d => (g_hash_table_lookup selection_sparse d).isSome))
        (sorted_ticks (generate_downloads_by_tick downloads_sparse)) =
      compute_total_bandwidth downloads_sparse relays_ab selection_sparse
        (generate_downloads_by_tick downloads_sparse)
        (sorted_ticks (generate_downloads_by_tick downloads_sparse)) ∧
    compute_total_bandwidth
        (downloads_sparse.filter fun d => (g_hash_table_lookup selection_sparse d).isSome)
        relays_ab selection_sparse
        (delete_unassigned selection_sparse (generate_downloads_by_tick downloads_sparse))
        (sorted_ticks (generate_downloads_by_tick downloads_sparse)) =
      compute_total_bandwidth downloads_sparse relays_ab selection_sparse
        (generate_downloads_by_tick downloads_sparse)
        (sorted_ticks (generate_downloads_by_tick downloads_sparse)) ∧
    ∀ (p : List Int) (a : GHashTable download_t Bool),
      active_after selection_sparse (generate_downloads_by_tick downloads_sparse) p = some a →
      ∀ d ∈ g_hash_table_get_keys a, (g_hash_table_lookup selection_sparse d).isSome = true) ∧
    compute_total_bandwidth downloads_sparse relays_ab selection_sparse
        (generate_downloads_by_tick downloads_sparse)
        (sorted_ticks (generate_downloads_by_tick downloads_sparse)) = some 500 :=
  ⟨unassigned_skipped downloads_sparse relays_ab selection_sparse
    (generate_downloads_by_tick downloads_sparse)
    (sorted_ticks (generate_downloads_by_tick downloads_sparse)), by decide!⟩

/-! ## The estimate of the maximum bandwidth -/

theorem mem_keys_iff {κ ν : Type} [DecidableEq κ] (t : GHashTable κ ν) (k : κ) :
    k ∈ g_hash_table_get_keys t ↔ (g_hash_table_lookup t k).isSome = true := by
  constructor
  · intro h
    obtain ⟨e, he, hk⟩ := List.mem_map.1 h
    obtain ⟨k1, v1⟩ := e
    simp only at hk
    subst hk
    obtain ⟨w, hw⟩ := lookup_isSome_of_mem he
    rw [hw]
    rfl
  · intro h
    cases hl : g_hash_table_lookup t k with
    | none => rw [hl] at h; cases h
    | some v => exact List.mem_map.2 ⟨(k, v), mem_of_lookup hl, rfl⟩

theorem mem_keys_insert {κ ν : Type} [DecidableEq κ] (t : GHashTable κ ν) (k k' : κ) (v : ν) :
    k' ∈ g_hash_table_get_keys (g_hash_table_insert t k v) ↔
      k' = k ∨ k' ∈ g_hash_table_get_keys t := by
  rw [mem_keys_iff, mem_keys_iff, lookup_insert]
  by_cases h : k' = k
  · simp [h]
  · simp [h]

theorem mem_keys_remove {κ ν : Type} [DecidableEq κ] (t : GHashTable κ ν) (k k' : κ) :
    k' ∈ g_hash_table_get_keys (g_hash_table_remove t k) ↔
      k' ≠ k ∧ k' ∈ g_hash_table_get_keys t := by
  rw [mem_keys_iff, mem_keys_iff, lookup_remove]
  by_cases h : k' = k
  · simp [h]
  · simp [h]
/-! ## The error of a round without a bottleneck -/

/-- A round that raises an error after `k` rounds ends the loop without a
state, whatever the bound of the loop. -/
theorem solve_loop_error {S : GHashTable download_t circuit_t} (k : Nat) :
    ∀ (st0 st : solve_state), solve_rounds S k st0 = some st →
      (0 < g_hash_table_size st.active_relays ∧ 0 < g_hash_table_size st.relay_downloads) →
      solve_round S st = none → ∀ n, solve_loop S n st0 = none := by
  induction k with
  | zero =>
    intro st0 st hk hcond hround n
    simp only [solve_rounds, Option.some.injEq] at hk
    subst hk
    cases n with
    | zero => simp [solve_loop, hcond]
    | succ n => simp [solve_loop, hcond, hround]
  | succ k ih =>
    intro st0 st hk hcond hround n
    simp only [solve_rounds] at hk
    split_ifs at hk with hc
    cases h1 : solve_round S st0 with
    | none => simp [h1] at hk
    | some st1 =>
      simp only [h1, Option.some_bind] at hk
      cases n with
      | zero => simp [solve_loop, hc]
      | succ n =>
        simp only [solve_loop, if_pos hc, h1, Option.some_bind]
        exact ih st1 st hk hcond hround n

/-- The search finds no relay in a table whose residuals are all 0. -/
theorem find_bottleneck_zero (rd : GHashTable String (List download_t))
    (a : GHashTable String ℚ) (h : ∀ e ∈ a, e.2 = 0) :
    (find_bottleneck rd a).bottleneck_relay = none := by
  rcases (bottleneck_fold rd a
    { bottleneck_relay := none, bottleneck_bandwidth := G_MAXINT32,
      download_bandwidth := G_MAXINT32 }).2.2 with heq | ⟨e, he, L, hne, _⟩
  · unfold find_bottleneck
    rw [heq]
  · exact absurd (h e he) hne

/-- Claim C31. A round of `compute_download_bandwidths` that finds no bottleneck
while active relays and pending downloads remain raises the error, and the call
does not return: this holds for whichever round it is, and it is what happens
in the first round when the active set is not empty, every active download has
a circuit, and every relay of these circuits has capacity 0. -/
theorem no_bottleneck_error (A : List download_t) (relays : GHashTable String Int)
    (S : GHashTable download_t circuit_t) (w : Option (GHashTable String ℚ))
    (ab : Option (GHashTable String Int)) :
    (∀ (t : GHashTable String (List download_t) × GHashTable String ℚ) (k : Nat)
      (st : solve_state),
      build_relay_tables A relays S = some t →
      solve_rounds S k (solve_init t w) = some st →
      0 < g_hash_table_size st.active_relays ∧ 0 < g_hash_table_size st.relay_downloads →
      (find_bottleneck st.relay_downloads st.active_relays).bottleneck_relay = none →
      solve_round S st = none ∧ compute_download_bandwidths A relays S w ab = none) ∧
    (A ≠ [] → (∀ d ∈ A, ∃ c, g_hash_table_lookup S d = some c) →
      (∀ d ∈ A, ∀ r, on_relay S r d = true → relay_capacity relays r = 0) →
      ∃ t, build_relay_tables A relays S = some t ∧
        (0 < g_hash_table_size t.2 ∧ 0 < g_hash_table_size t.1) ∧
        (find_bottleneck t.1 t.2).bottleneck_relay = none ∧
        compute_download_bandwidths A relays S w ab = none) := by
  have key : ∀ (t : GHashTable String (List download_t) × GHashTable String ℚ) (k : Nat)
      (st : solve_state),
      build_relay_tables A relays S = some t →
      solve_rounds S k (solve_init t w) = some st →
      0 < g_hash_table_size st.active_relays ∧ 0 < g_hash_table_size st.relay_downloads →
      (find_bottleneck st.relay_downloads st.active_relays).bottleneck_relay = none →
      solve_round S st = none ∧ compute_download_bandwidths A relays S w ab = none := by
    intro t k st hbuild hk hcond hnone
    have hround : solve_round S st = none := by
      unfold solve_round
      simp only [hnone]
    refine ⟨hround, ?_⟩
    have hloop := solve_loop_error k (solve_init t w) st hk hcond hround
      (g_hash_table_size t.1)
    obtain ⟨rd, a⟩ := t
    unfold compute_download_bandwidths
    simp only [hbuild]
    unfold solve_init at hloop
    simp only at hloop
    rw [hloop]
  refine ⟨key, ?_⟩
  intro hA hsel hcap
  obtain ⟨t, ht⟩ := register_fold_total relays S A hsel ([], [])
  have hbuild : build_relay_tables A relays S = some t := ht
  have hok := build_relay_tables_ok hbuild
  -- a download of the active set waits at its guard
  obtain ⟨d, hd⟩ := List.exists_mem_of_ne_nil A hA
  obtain ⟨c, hc⟩ := hsel d hd
  have hon : on_relay S c.guard d = true :=
    (on_relay_of_lookup hc c.guard).2 ((mem_circuit_relays c c.guard).2 (Or.inl rfl))
  have hpend : d ∈ pending t.1 c.guard := (hok.pending_mem c.guard d).2 ⟨hd, hon⟩
  have hpne : pending t.1 c.guard ≠ [] := List.ne_nil_of_mem hpend
  obtain ⟨v, hv⟩ := hok.active c.guard hpne
  have hsize2 : 0 < g_hash_table_size t.2 := by
    unfold g_hash_table_size
    exact List.length_pos_of_mem (mem_of_lookup hv)
  have hsize1 : 0 < g_hash_table_size t.1 := by
    unfold g_hash_table_size
    cases hl : g_hash_table_lookup t.1 c.guard with
    | none => simp [pending, hl] at hpend
    | some L => exact List.length_pos_of_mem (mem_of_lookup hl)
  have hzero : ∀ e ∈ t.2, e.2 = 0 := by
    intro e he
    have hl : g_hash_table_lookup t.2 e.1 = some e.2 := lookup_of_mem hok.keys_active he
    have hvcap := hok.capacity e.1 e.2 hl
    have hne := hok.used e.1 e.2 hl
    obtain ⟨d', hd'⟩ := List.exists_mem_of_ne_nil _ hne
    have := (hok.pending_mem e.1 d').1 hd'
    rw [hvcap, hcap d' this.1 e.1 this.2]
    simp
  have hnone := find_bottleneck_zero t.1 t.2 hzero
  refine ⟨t, hbuild, ⟨hsize2, hsize1⟩, hnone, ?_⟩
  exact (key t 0 (solve_init t w) hbuild rfl ⟨hsize2, hsize1⟩ hnone).2

/-- The error on the one circuit of three relays of capacity 0. -/
theorem no_bottleneck_error_witness :
    ([ex_download 1] : List download_t) ≠ [] ∧
    (∀ d ∈ [ex_download 1], ∃ c, g_hash_table_lookup (selection_same [ex_download 1]) d = some c) ∧
    (∀ d ∈ [ex_download 1], ∀ r, on_relay (selection_same [ex_download 1]) r d = true →
      relay_capacity relays_idle r = 0) ∧
    ∃ t, build_relay_tables [ex_download 1] relays_idle (selection_same [ex_download 1])
        = some t ∧
      (0 < g_hash_table_size t.2 ∧ 0 < g_hash_table_size t.1) ∧
      (find_bottleneck t.1 t.2).bottleneck_relay = none ∧
      compute_download_bandwidths [ex_download 1] relays_idle (selection_same [ex_download 1])
        none none = none := by
  have h1 : ([ex_download 1] : List download_t) ≠ [] := by simp
  have h2 : ∀ d ∈ [ex_download 1],
      ∃ c, g_hash_table_lookup (selection_same [ex_download 1]) d = some c := by
    intro d hd
    simp only [List.mem_singleton] at hd
    subst hd
    exact ⟨ex_circuit "g" "m" "x-exit", by decide⟩
  have h3 : ∀ d ∈ [ex_download 1], ∀ r,
      on_relay (selection_same [ex_download 1]) r d = true →
      relay_capacity relays_idle r = 0 := by
    intro d hd r hr
    simp only [List.mem_singleton] at hd
    subst hd
    have hc : g_hash_table_lookup (selection_same [ex_download 1]) (ex_download 1)
        = some (ex_circuit "g" "m" "x-exit") := by decide
    have := (on_relay_of_lookup hc r).1 hr
    rw [mem_circuit_relays] at this
    rcases this with h | h | h <;> subst h <;> decide
  exact ⟨h1, h2, h3,
    (no_bottleneck_error [ex_download 1] relays_idle (selection_same [ex_download 1])
      none none).2 h1 h2 h3⟩
/-! ## The tick queue -/

theorem ticks_fold_eq (l : List download_t) :
    ∀ acc : List Int,
      l.foldl (fun ticks download => (ticks ++ [download.start_time]) ++ [download.end_time]) acc
        = acc ++ l.flatMap (fun d => [d.start_time, d.end_time]) := by
  induction l with
  | nil => intro acc; simp
  | cons d l ih =>
    intro acc
    rw [List.foldl_cons, ih]
    simp

theorem get_download_ticks_perm (downloads : List download_t) :
    (get_download_ticks downloads).Perm
      (downloads.flatMap (fun d => [d.start_time, d.end_time])) := by
  unfold get_download_ticks
  rw [ticks_fold_eq]
  simpa using g_queue_sort_perm compare_int
    (downloads.flatMap (fun d => [d.start_time, d.end_time]))

theorem count_flatMap_times (t : Int) (l : List download_t) :
    (l.flatMap (fun d => [d.start_time, d.end_time])).count t =
      (l.filter (fun d => decide (d.start_time = t))).length +
        (l.filter (fun d => decide (d.end_time = t))).length := by
  induction l with
  | nil => simp
  | cons d l ih =>
    rw [List.flatMap_cons, List.count_append, ih]
    simp only [List.filter_cons, List.count_cons, List.count_nil, beq_iff_eq]
    by_cases h1 : d.start_time = t <;> by_cases h2 : d.end_time = t <;>
      simp [h1, h2] <;> omega

/-- The keys of the tick index: pairwise different, and the times at which a
download starts or ends. -/
theorem generate_downloads_by_tick_keys (l : List download_t) :
    ∀ T : GHashTable Int (List download_t), (g_hash_table_get_keys T).Nodup →
      (g_hash_table_get_keys (l.foldl (fun t download =>
        let t1 := g_hash_table_insert t download.start_time
          ((g_hash_table_lookup t download.start_time).getD [] ++ [download])
        g_hash_table_insert t1 download.end_time
          ((g_hash_table_lookup t1 download.end_time).getD [] ++ [download])) T)).Nodup ∧
      ∀ t, t ∈ g_hash_table_get_keys (l.foldl (fun t download =>
        let t1 := g_hash_table_insert t download.start_time
          ((g_hash_table_lookup t download.start_time).getD [] ++ [download])
        g_hash_table_insert t1 download.end_time
          ((g_hash_table_lookup t1 download.end_time).getD [] ++ [download])) T) ↔
        (t ∈ g_hash_table_get_keys T ∨ ∃ d ∈ l, d.start_time = t ∨ d.end_time = t) := by
  induction l with
  | nil => intro T hT; simp [hT]
  | cons d l ih =>
    intro T hT
    rw [List.foldl_cons]
    have hn1 := nodup_keys_insert hT d.start_time
      ((g_hash_table_lookup T d.start_time).getD [] ++ [d])
    have hn2 := nodup_keys_insert hn1 d.end_time
      ((g_hash_table_lookup (g_hash_table_insert T d.start_time
        ((g_hash_table_lookup T d.start_time).getD [] ++ [d])) d.end_time).getD [] ++ [d])
    obtain ⟨hnd, hmem⟩ := ih _ hn2
    refine ⟨hnd, ?_⟩
    intro t
    rw [hmem t, mem_keys_insert, mem_keys_insert]
    simp only [List.mem_cons, exists_eq_or_imp]
    constructor
    · rintro ((h | h | h) | h)
      · exact Or.inr (Or.inl (Or.inr h.symm))
      · exact Or.inr (Or.inl (Or.inl h.symm))
      · exact Or.inl h
      · exact Or.inr (Or.inr h)
    · rintro (h | (h | h) | h)
      · exact Or.inl (Or.inr (Or.inr h))
      · exact Or.inl (Or.inr (Or.inl h.symm))
      · exact Or.inl (Or.inl h.symm)
      · exact Or.inr h

/-- The tick queue of `run_dwc_algorithm` and `run_genetic_algorithm`, the sorted
keys of the tick index, is the sorted union of the start and end times. -/
theorem sorted_ticks_union (downloads : List download_t)
    (htimes : ∀ d ∈ downloads, 0 ≤ d.start_time ∧ d.start_time ≤ G_MAXINT ∧
      0 ≤ d.end_time ∧ d.end_time ≤ G_MAXINT) :
    (sorted_ticks (generate_downloads_by_tick downloads)).Sorted (fun a b => a < b) ∧
    ∀ t, t ∈ sorted_ticks (generate_downloads_by_tick downloads) ↔
      ∃ d ∈ downloads, d.start_time = t ∨ d.end_time = t := by
  obtain ⟨hnd, hmem⟩ := generate_downloads_by_tick_keys downloads [] List.nodup_nil
  have hmem' : ∀ t, t ∈ g_hash_table_get_keys (generate_downloads_by_tick downloads) ↔
      ∃ d ∈ downloads, d.start_time = t ∨ d.end_time = t := by
    intro t
    have := hmem t
    simpa [g_hash_table_get_keys] using this
  have hrange : ∀ t ∈ g_hash_table_get_keys (generate_downloads_by_tick downloads),
      0 ≤ t ∧ t ≤ G_MAXINT := by
    intro t ht
    obtain ⟨d, hd, h | h⟩ := (hmem' t).1 ht
    · rw [← h]; exact ⟨(htimes d hd).1, (htimes d hd).2.1⟩
    · rw [← h]; exact ⟨(htimes d hd).2.2.1, (htimes d hd).2.2.2⟩
  have hperm : (sorted_ticks (generate_downloads_by_tick downloads)).Perm
      (g_hash_table_get_keys (generate_downloads_by_tick downloads)) :=
    g_queue_sort_perm compare_int _
  have hsorted : (sorted_ticks (generate_downloads_by_tick downloads)).Sorted
      (fun a b => id a ≤ id b) := by
    apply g_queue_sort_sorted compare_int id
    intro a ha b hb
    have h1 := hrange a ha
    have h2 := hrange b hb
    unfold G_MAXINT at h1 h2
    exact compare_int_le a b (by omega) (by omega)
  refine ⟨?_, ?_⟩
  · have hnd' : (sorted_ticks (generate_downloads_by_tick downloads)).Nodup :=
      hperm.nodup_iff.2 hnd
    have hs : (sorted_ticks (generate_downloads_by_tick downloads)).Sorted
        (fun a b => a ≤ b) := hsorted
    exact hs.lt_of_le hnd'
  · intro t
    rw [hperm.mem_iff]
    exact hmem' t

/-- Claim C35, as the code has it: two downloads that start together give a tick
queue in which the time 0 stands twice, and so does the time at which both
end. -/
theorem tick_list_counterexample :
    get_download_ticks [ex_download 1, ex_download 2] = [0, 0, 10000, 10000] ∧
    (get_download_ticks [ex_download 1, ex_download 2]).count 0 = 2 ∧
    ¬ (get_download_ticks [ex_download 1, ex_download 2]).Nodup := by
  decide

/-- Claim C35, amended. For downloads whose times are between 0 and `G_MAXINT`,
`get_download_ticks` returns the start and end times in ascending order, every
time as often as there are downloads that start at it plus downloads that end
at it: every start and every end occurs, and nothing else does. -/
theorem tick_list (downloads : List download_t)
    (htimes : ∀ d ∈ downloads, 0 ≤ d.start_time ∧ d.start_time ≤ G_MAXINT ∧
      0 ≤ d.end_time ∧ d.end_time ≤ G_MAXINT) :
    (get_download_ticks downloads).Sorted (fun a b => a ≤ b) ∧
    (∀ d ∈ downloads, d.start_time ∈ get_download_ticks downloads ∧
      d.end_time ∈ get_download_ticks downloads) ∧
    (∀ t ∈ get_download_ticks downloads, ∃ d ∈ downloads, d.start_time = t ∨ d.end_time = t) ∧
    ∀ t, (get_download_ticks downloads).count t =
      (downloads.filter (fun d => decide (d.start_time = t))).length +
        (downloads.filter (fun d => decide (d.end_time = t))).length := by
  have hperm := get_download_ticks_perm downloads
  have hmem : ∀ t, t ∈ get_download_ticks downloads ↔
      ∃ d ∈ downloads, d.start_time = t ∨ d.end_time = t := by
    intro t
    rw [hperm.mem_iff]
    simp only [List.mem_flatMap, List.mem_cons, List.mem_singleton, List.not_mem_nil, or_false]
    constructor
    · rintro ⟨d, hd, h | h⟩
      · exact ⟨d, hd, Or.inl h.symm⟩
      · exact ⟨d, hd, Or.inr h.symm⟩
    · rintro ⟨d, hd, h | h⟩
      · exact ⟨d, hd, Or.inl h.symm⟩
      · exact ⟨d, hd, Or.inr h.symm⟩
  have hrange : ∀ t ∈ downloads.flatMap (fun d => [d.start_time, d.end_time]),
      0 ≤ t ∧ t ≤ G_MAXINT := by
    intro t ht
    simp only [List.mem_flatMap, List.mem_cons, List.mem_singleton, List.not_mem_nil,
      or_false] at ht
    obtain ⟨d, hd, h | h⟩ := ht
    · rw [h]; exact ⟨(htimes d hd).1, (htimes d hd).2.1⟩
    · rw [h]; exact ⟨(htimes d hd).2.2.1, (htimes d hd).2.2.2⟩
  refine ⟨?_, ?_, ?_, ?_⟩
  · unfold get_download_ticks
    rw [ticks_fold_eq, List.nil_append]
    have : (g_queue_sort compare_int
        (downloads.flatMap (fun d => [d.start_time, d.end_time]))).Sorted
        (fun a b => id a ≤ id b) := by
      apply g_queue_sort_sorted compare_int id
      intro a ha b hb
      have h1 := hrange a ha
      have h2 := hrange b hb
      unfold G_MAXINT at h1 h2
      exact compare_int_le a b (by omega) (by omega)
    exact this
  · intro d hd
    exact ⟨(hmem _).2 ⟨d, hd, Or.inl rfl⟩, (hmem _).2 ⟨d, hd, Or.inr rfl⟩⟩
  · intro t ht
    exact (hmem t).1 ht
  · intro t
    rw [hperm.count_eq, count_flatMap_times]

/-- The tick queue of three downloads of which two start together. -/
theorem tick_list_witness :
    (get_download_ticks [ex_interval 1 0 5000, ex_interval 2 0 3000, ex_interval 3 1000 5000]
      = [0, 0, 1000, 3000, 5000, 5000]) ∧
    (get_download_ticks
      [ex_interval 1 0 5000, ex_interval 2 0 3000, ex_interval 3 1000 5000]).Sorted
        (fun a b => a ≤ b) :=
  ⟨by decide,
    (tick_list [ex_interval 1 0 5000, ex_interval 2 0 3000, ex_interval 3 1000 5000]
      (by decide)).1⟩
/-! ## The selection loop of `breed` and `select_parent` -/

theorem sorted_ge_append {T R : List Int} (hT : T.Sorted (fun a b => b ≤ a))
    (hR : R.Sorted (fun a b => b ≤ a)) (h : ∀ x ∈ T, ∀ y ∈ R, y ≤ x) :
    (T ++ R).Sorted (fun a b => b ≤ a) := by
  unfold List.Sorted at *
  rw [List.pairwise_append]
  exact ⟨hT, hR, h⟩

theorem sorted_ge_unique {l1 l2 : List Int} (hp : l1.Perm l2)
    (h1 : l1.Sorted (fun a b => b ≤ a)) (h2 : l2.Sorted (fun a b => b ≤ a)) : l1 = l2 := by
  have e : ∀ (l : List Int), l.Sorted (fun a b => b ≤ a) → l.reverse.Sorted (fun a b => a ≤ b) := by
    intro l hl
    unfold List.Sorted at *
    rw [List.pairwise_reverse]
    exact hl
  have := List.eq_of_perm_of_sorted ((List.reverse_perm l1).trans (hp.trans
    (List.reverse_perm l2).symm)) (e l1 h1) (e l2 h2)
  exact List.reverse_injective this

theorem sorted_ge_insertionSort (l : List Int) :
    (l.insertionSort (fun a b => b ≤ a)).Sorted (fun a b => b ≤ a) := by
  haveI : IsTotal Int (fun a b => b ≤ a) := ⟨fun a b => le_total b a⟩
  haveI : IsTrans Int (fun a b => b ≤ a) := ⟨fun a b c h1 h2 => le_trans h2 h1⟩
  exact List.sorted_insertionSort (fun a b => b ≤ a) l

/-- Claim C38. For an array of `N` experiments and `k ≤ N`, the loop with which
`breed` takes the elites and `select_parent` the breeding set ends with `k`
experiments in its `k` slots: they stand at `k` different places of the array
(with the experiments left out they are the array again), no experiment left
out has a higher score than one of them, and their scores are the `k` largest
scores of the array, as a multiset. -/
theorem top_k_selection (experiments : List experiment_t) (k : Nat)
    (hk : k ≤ experiments.length) :
    (top_experiments experiments k).length = k ∧
    (∃ rest, (top_experiments experiments k ++ rest).Perm experiments ∧
      ∀ x ∈ top_experiments experiments k, ∀ y ∈ rest, y.score ≤ x.score) ∧
    ((top_experiments experiments k).map (fun e => e.score)).Perm
      (((experiments.map (fun e => e.score)).insertionSort (fun a b => b ≤ a)).take k) := by
  obtain ⟨rest, hperm, hdom, hlen⟩ := top_experiments_spec experiments k
  have hlen' : (top_experiments experiments k).length = k := by
    rw [hlen]
    exact Nat.min_eq_left hk
  refine ⟨hlen', ⟨rest, hperm, hdom⟩, ?_⟩
  have hT := sorted_ge_insertionSort ((top_experiments experiments k).map (fun e => e.score))
  have hR := sorted_ge_insertionSort (rest.map (fun e => e.score))
  have hpT := List.perm_insertionSort (fun (a b : Int) => b ≤ a)
    ((top_experiments experiments k).map (fun e => e.score))
  have hpR := List.perm_insertionSort (fun (a b : Int) => b ≤ a)
    (rest.map (fun e => e.score))
  have hTR : (((top_experiments experiments k).map (fun e => e.score)).insertionSort
      (fun a b => b ≤ a) ++ (rest.map (fun e => e.score)).insertionSort
      (fun a b => b ≤ a)).Sorted (fun a b => b ≤ a) := by
    apply sorted_ge_append hT hR
    intro x hx y hy
    obtain ⟨ex, hex, rfl⟩ := List.mem_map.1 (hpT.mem_iff.1 hx)
    obtain ⟨ey, hey, rfl⟩ := List.mem_map.1 (hpR.mem_iff.1 hy)
    exact hdom ex hex ey hey
  have hpall : (((top_experiments experiments k).map (fun e => e.score)).insertionSort
      (fun a b => b ≤ a) ++ (rest.map (fun e => e.score)).insertionSort
      (fun a b => b ≤ a)).Perm
      ((experiments.map (fun e => e.score)).insertionSort (fun a b => b ≤ a)) := by
    refine ((hpT.append hpR).trans ?_).trans
      (List.perm_insertionSort (fun (a b : Int) => b ≤ a) _).symm
    rw [← List.map_append]
    exact hperm.map _
  have heq := sorted_ge_unique hpall hTR
    (sorted_ge_insertionSort (experiments.map (fun e => e.score)))
  rw [← heq]
  have hl : (((top_experiments experiments k).map (fun e => e.score)).insertionSort
      (fun a b => b ≤ a)).length = k := by
    rw [hpT.length_eq, List.length_map, hlen']
  rw [List.take_append_of_le_length (le_of_eq hl.symm), List.take_of_length_le (le_of_eq hl)]
  exact hpT.symm

/-- The loop on the generation of four experiments with `k = 2`. -/
theorem top_k_selection_witness :
    top_experiments generation_four 2 = [experiment_narrow, experiment_wide] ∧
    ((top_experiments generation_four 2).map (fun e => e.score)).Perm
      (((generation_four.map (fun e => e.score)).insertionSort (fun a b => b ≤ a)).take 2) :=
  ⟨by decide, (top_k_selection generation_four 2 (by decide)).2.2⟩
/-! ## The pruned universe uses a relay once -/

/-- A pass that makes a circuit takes its three relays out of the queue for
good. -/
theorem pruned_step_nodup {st st1 : pruned_state} (h : pruned_step st = some st1)
    (hJ : (st.circuits.flatMap circuit_relays ++ st.relays_remaining).Nodup) :
    (st1.circuits.flatMap circuit_relays ++ st1.relays_remaining).Nodup ∧
    st1.relays_remaining.length + 3 = st.relays_remaining.length ∧
    st1.circuits.length ≤ st.circuits.length + 1 := by
  obtain ⟨relay1, relay2, relay3, hperm, _, _, hcirc⟩ := pruned_step_spec h
  have hlen := hperm.length_eq
  simp only [List.length_cons] at hlen
  refine ⟨?_, by omega, ?_⟩
  · have hJ' : (st.circuits.flatMap circuit_relays ++
        (relay1 :: relay2 :: relay3 :: st1.relays_remaining)).Nodup :=
      (List.Perm.append_left _ hperm).nodup_iff.1 hJ
    rw [hcirc, List.flatMap_append, List.append_assoc]
    cases hp : place_exit ((min (relay_capacity st.relay_bandwidth relay1)
          (min (relay_capacity st.relay_bandwidth relay2)
            (relay_capacity st.relay_bandwidth relay3)) : Int) : ℚ) relay1 relay2 relay3 with
    | none =>
      simp only [Option.toList, List.flatMap_nil, List.nil_append]
      refine List.Nodup.sublist ?_ hJ'
      apply List.Sublist.append_left
      exact (List.sublist_cons_self _ _).trans
        ((List.sublist_cons_self _ _).trans (List.sublist_cons_self _ _))
    | some c =>
      simp only [Option.toList, List.flatMap_cons, List.flatMap_nil, List.append_nil]
      have hc : (circuit_relays c ++ st1.relays_remaining).Perm
          (relay1 :: relay2 :: relay3 :: st1.relays_remaining) := by
        rcases place_exit_cases hp with ⟨h1, h2, h3⟩ | ⟨h1, h2, h3⟩ | ⟨h1, h2, h3⟩
        · simp only [circuit_relays, h1, h2, h3]
          exact List.Perm.refl _
        · simp only [circuit_relays, h1, h2, h3]
          exact List.Perm.cons _ (List.Perm.swap _ _ _)
        · simp only [circuit_relays, h1, h2, h3]
          exact (List.Perm.cons _ (List.Perm.swap _ _ _)).trans (List.Perm.swap _ _ _)
      exact (List.Perm.append_left _ hc).nodup_iff.2 hJ'
  · rw [hcirc, List.length_append]
    cases place_exit ((min (relay_capacity st.relay_bandwidth relay1)
          (min (relay_capacity st.relay_bandwidth relay2)
            (relay_capacity st.relay_bandwidth relay3)) : Int) : ℚ) relay1 relay2 relay3 <;>
      simp [Option.toList]

theorem pruned_loop_nodup (n : Nat) :
    ∀ st : pruned_state, (st.circuits.flatMap circuit_relays ++ st.relays_remaining).Nodup →
      ((pruned_loop n st).circuits.flatMap circuit_relays ++
        (pruned_loop n st).relays_remaining).Nodup ∧
      3 * (pruned_loop n st).circuits.length + (pruned_loop n st).relays_remaining.length ≤
        3 * st.circuits.length + st.relays_remaining.length ∧
      3 * pruned_passes n st ≤ st.relays_remaining.length := by
  induction n with
  | zero =>
    intro st hJ
    exact ⟨hJ, le_refl _, by simp [pruned_passes]⟩
  | succ n ih =>
    intro st hJ
    unfold pruned_loop pruned_passes
    cases hs : pruned_step st with
    | none =>
      refine ⟨hJ, le_refl _, ?_⟩
      split_ifs with hlt
      · simp
      · simp only
        omega
    | some st1 =>
      obtain ⟨hJ1, hlen, hc⟩ := pruned_step_nodup hs hJ
      obtain ⟨h1, h2, h3⟩ := ih st1 hJ1
      refine ⟨h1, by simp only; omega, ?_⟩
      split_ifs with hlt
      · simp
      · simp only
        omega

/-- The loop has ended after a third as many passes as the queue has relays. -/
theorem pruned_loop_third (k : Nat) :
    ∀ st : pruned_state, st.relays_remaining.length < 3 * (k + 1) →
      pruned_step (pruned_loop k st) = none := by
  induction k with
  | zero =>
    intro st h
    unfold pruned_loop pruned_step
    rw [if_pos (by omega)]
  | succ k ih =>
    intro st h
    unfold pruned_loop
    cases hs : pruned_step st with
    | none => exact hs
    | some st1 =>
      dsimp only
      apply ih
      obtain ⟨_, _, _, hperm, _⟩ := pruned_step_spec hs
      have := hperm.length_eq
      simp only [List.length_cons] at this
      omega

theorem pruned_loop_stable (k : Nat) :
    ∀ st : pruned_state, pruned_step (pruned_loop k st) = none →
      ∀ m, k ≤ m → pruned_loop m st = pruned_loop k st := by
  induction k with
  | zero =>
    intro st h m _
    simp only [pruned_loop] at h
    cases m with
    | zero => rfl
    | succ m => simp [pruned_loop, h]
  | succ k ih =>
    intro st h m hm
    cases m with
    | zero => omega
    | succ m =>
      unfold pruned_loop at h ⊢
      cases hs : pruned_step st with
      | none => rfl
      | some st1 =>
        simp only [hs] at h
        exact ih st1 h m (by omega)

/-- Claim C39. For a relay table with `n` relays, the loop of
`build_pruned_circuits` makes at most `n / 3` passes, the pass that ends with
`break` counted, and has ended after `n / 3` passes; at most `n / 3` circuits
are returned, and the relays of the returned circuits are pairwise different:
no relay stands in two circuits, nor twice in one. -/
theorem pruned_disjoint (relays : GHashTable String Int)
    (hn : (g_hash_table_get_keys relays).Nodup) :
    (∀ m, pruned_passes m (pruned_init relays) ≤ g_hash_table_size relays / 3) ∧
    pruned_step (pruned_loop (g_hash_table_size relays / 3) (pruned_init relays)) = none ∧
    build_pruned_circuits relays =
      (pruned_loop (g_hash_table_size relays / 3) (pruned_init relays)).circuits ∧
    (build_pruned_circuits relays).length ≤ g_hash_table_size relays / 3 ∧
    ((build_pruned_circuits relays).flatMap circuit_relays).Nodup ∧
    (build_pruned_circuits relays).Pairwise
      (fun c c' => ∀ r ∈ circuit_relays c, r ∉ circuit_relays c') := by
  have hq := pruned_init_queue relays
  have hc := pruned_init_circuits relays
  have hlen : (pruned_init relays).relays_remaining.length = g_hash_table_size relays := by
    rw [hq]
    simp [g_hash_table_size, g_hash_table_get_keys]
  have hJ : ((pruned_init relays).circuits.flatMap circuit_relays ++
      (pruned_init relays).relays_remaining).Nodup := by
    rw [hc, hq]
    simpa using hn
  have hthird : pruned_step
      (pruned_loop (g_hash_table_size relays / 3) (pruned_init relays)) = none := by
    apply pruned_loop_third
    rw [hlen]
    omega
  have hstable := pruned_loop_stable _ _ hthird (g_hash_table_size relays)
    (Nat.div_le_self _ _)
  obtain ⟨h1, h2, _⟩ := pruned_loop_nodup (g_hash_table_size relays) (pruned_init relays) hJ
  have hnd : ((build_pruned_circuits relays).flatMap circuit_relays).Nodup := by
    unfold build_pruned_circuits
    exact (List.nodup_append.1 h1).1
  refine ⟨?_, hthird, ?_, ?_, hnd, ?_⟩
  · intro m
    have := (pruned_loop_nodup m (pruned_init relays) hJ).2.2
    rw [hlen] at this
    omega
  · unfold build_pruned_circuits
    rw [hstable]
  · unfold build_pruned_circuits
    rw [hc, hlen] at h2
    simp only [List.length_nil] at h2
    omega
  · have := (List.nodup_flatMap.1 hnd).2
    refine this.imp ?_
    intro c c' hdis r hr hr'
    exact hdis hr hr'

/-- The six relays of `relays_six` give two circuits over six different relays. -/
theorem pruned_disjoint_witness :
    (g_hash_table_get_keys relays_six).Nodup ∧
    (build_pruned_circuits relays_six).length ≤ g_hash_table_size relays_six / 3 ∧
    ((build_pruned_circuits relays_six).flatMap circuit_relays).Nodup :=
  ⟨by decide, (pruned_disjoint relays_six (by decide)).2.2.2.1,
    (pruned_disjoint relays_six (by decide)).2.2.2.2.1⟩
/-! ## The genetic assignments stay inside the pools -/

theorem pool_table_insert {t : GHashTable download_t circuit_t} (h : pool_table t)
    {d : download_t} {c : circuit_t} (hc : c ∈ d.circuits) :
    pool_table (g_hash_table_insert t d c) := by
  refine ⟨nodup_keys_insert h.1 d c, ?_⟩
  intro d' c' hl
  rw [lookup_insert] at hl
  split_ifs at hl with he
  · cases hl
    rw [he]
    exact hc
  · exact h.2 d' c' hl

theorem top_experiments_mem (experiments : List experiment_t) (k : Nat) :
    ∀ x ∈ top_experiments experiments k, x ∈ experiments := by
  obtain ⟨rest, hperm, _, _⟩ := top_experiments_spec experiments k
  intro x hx
  exact hperm.mem_iff.1 (List.mem_append_left _ hx)

theorem select_parent_mem {experiments : List experiment_t} {breed_percentile : ℚ}
    {breed_weighted : Bool} {rand : Nat} {parent : experiment_t}
    (h : select_parent experiments breed_percentile breed_weighted rand = some parent) :
    parent ∈ experiments := by
  unfold select_parent at h
  simp only at h
  split_ifs at h with h1 h2 h3 h4 h5
  · have := List.getElem?_mem h
    obtain ⟨e, he, hr⟩ := List.mem_flatMap.1 this
    rw [(List.mem_replicate.1 hr).2]
    exact top_experiments_mem _ _ _ he
  · exact top_experiments_mem _ _ _ (List.getElem?_mem h)

theorem initial_download_none (rand : Nat → Nat) (weighted : Bool) (l : List download_t) :
    l.foldl (initial_download rand weighted) none = none := by
  induction l with
  | nil => rfl
  | cons d l ih => simpa [initial_download] using ih

/-- The entries of the lists that `generate_circuit_lists` makes of a pool. -/
theorem generate_circuit_lists_mem {circuits : List circuit_t} {lists : circuit_lists_t}
    (h : generate_circuit_lists circuits = some lists) :
    (∀ c ∈ lists.weighted_circuit_list, c ∈ circuits) ∧
    (lists.weighted_circuit_list.length : Int) = lists.total_circuit_bandwidth ∧
    (circuits ≠ [] → 0 < lists.total_circuit_bandwidth) := by
  unfold generate_circuit_lists at h
  simp only at h
  split_ifs at h with hlen
  simp only [Option.some.injEq] at h
  subst h
  simp only
  rw [weighted_outer circuits circuits.length (le_refl _), List.take_length] at hlen ⊢
  refine ⟨?_, hlen, ?_⟩
  · intro c hc
    obtain ⟨e, he, hr⟩ := List.mem_flatMap.1 hc
    rw [(List.mem_replicate.1 hr).2]
    exact he
  · intro hne
    rw [← hlen]
    obtain ⟨c, hc⟩ := List.exists_mem_of_ne_nil circuits hne
    have hw : 0 < (circuit_weight c).toNat := by
      have : 1 ≤ circuit_weight c := le_max_right _ _
      omega
    have hmem : c ∈ circuits.flatMap (fun c => List.replicate (circuit_weight c).toNat c) :=
      List.mem_flatMap.2 ⟨c, hc, List.mem_replicate.2 ⟨by omega, rfl⟩⟩
    exact_mod_cast List.length_pos_of_mem hmem

theorem initial_download_spec {rand : Nat → Nat} {weighted : Bool}
    {t t' : GHashTable download_t circuit_t} {pos pos' : Nat} {d : download_t}
    (h : initial_download rand weighted (some (t, pos)) d = some (t', pos')) :
    ∃ c ∈ d.circuits, t' = g_hash_table_insert t d c := by
  unfold initial_download at h
  simp only at h
  by_cases hw : weighted = true
  · simp only [hw, if_true] at h
    cases hg : generate_circuit_lists d.circuits with
    | none => simp [hg] at h
    | some lists =>
      simp only [hg, Option.map_some'] at h
      split_ifs at h with h0
      cases hi : lists.weighted_circuit_list[rand pos % lists.total_circuit_bandwidth.natAbs]? with
      | none => simp [hi] at h
      | some c =>
        simp only [hi, Option.some.injEq, Prod.mk.injEq] at h
        exact ⟨c, (generate_circuit_lists_mem hg).1 c (List.getElem?_mem hi), h.1.symm⟩
  · simp only [hw] at h
    simp only [Bool.false_eq_true, if_false] at h
    split_ifs at h with h0
    simp only [Int.natAbs_ofNat] at h
    cases hi : d.circuits[rand pos % d.circuits.length]? with
    | none => simp [hi] at h
    | some c =>
      simp only [hi, Option.some.injEq, Prod.mk.injEq] at h
      exact ⟨c, List.getElem?_mem hi, h.1.symm⟩

theorem initial_download_fold {rand : Nat → Nat} {weighted : Bool} (l : List download_t) :
    ∀ (t t' : GHashTable download_t circuit_t) (pos pos' : Nat),
      l.foldl (initial_download rand weighted) (some (t, pos)) = some (t', pos') →
      pool_table t → pool_table t' ∧
        (∀ d, (g_hash_table_lookup t d).isSome = true →
          (g_hash_table_lookup t' d).isSome = true) ∧
        ∀ d ∈ l, (g_hash_table_lookup t' d).isSome = true := by
  induction l with
  | nil =>
    intro t t' pos pos' h ht
    simp only [List.foldl_nil, Option.some.injEq, Prod.mk.injEq] at h
    rw [← h.1]
    exact ⟨ht, fun _ hd => hd, by simp⟩
  | cons d l ih =>
    intro t t' pos pos' h ht
    rw [List.foldl_cons] at h
    cases h1 : initial_download rand weighted (some (t, pos)) d with
    | none =>
      rw [h1, initial_download_none] at h
      cases h
    | some r =>
      obtain ⟨t1, pos1⟩ := r
      rw [h1] at h
      obtain ⟨c, hc, ht1⟩ := initial_download_spec h1
      have hp1 : pool_table t1 := ht1 ▸ pool_table_insert ht hc
      obtain ⟨hp, hkeep, hall⟩ := ih t1 t' pos1 pos' h hp1
      refine ⟨hp, ?_, ?_⟩
      · intro x hx
        apply hkeep
        rw [ht1, lookup_insert]
        split_ifs
        · rfl
        · exact hx
      · intro x hx
        rcases List.mem_cons.1 hx with e | e
        · apply hkeep
          rw [ht1, lookup_insert, if_pos e]
          rfl
        · exact hall x e

theorem pool_table_assignment {downloads : List download_t}
    {t : GHashTable download_t circuit_t} (hp : pool_table t)
    (hall : ∀ d ∈ downloads, (g_hash_table_lookup t d).isSome = true) :
    pool_assignment downloads t := by
  intro d hd
  cases hl : g_hash_table_lookup t d with
  | none =>
    have := hall d hd
    rw [hl] at this
    cases this
  | some c => exact ⟨c, rfl, hp.2 d c hl⟩

theorem initial_experiment_none (rand : Nat → Nat) (downloads : List download_t)
    (weighted : Bool) (l : List Nat) :
    l.foldl (initial_experiment rand downloads weighted) none = none := by
  induction l with
  | nil => rfl
  | cons d l ih => simpa [initial_experiment] using ih

theorem initial_experiment_fold {rand : Nat → Nat} {downloads : List download_t}
    {weighted : Bool} (l : List Nat) :
    ∀ (acc r : List experiment_t) (pos pos' : Nat),
      l.foldl (initial_experiment rand downloads weighted) (some (acc, pos)) = some (r, pos') →
      r.length = acc.length + l.length ∧
      ((∀ x ∈ acc, pool_assignment downloads x.circuit_selection ∧
          (g_hash_table_get_keys x.circuit_selection).Nodup) →
        ∀ x ∈ r, pool_assignment downloads x.circuit_selection ∧
          (g_hash_table_get_keys x.circuit_selection).Nodup) := by
  induction l with
  | nil =>
    intro acc r pos pos' h
    simp only [List.foldl_nil, Option.some.injEq, Prod.mk.injEq] at h
    rw [← h.1]
    exact ⟨by simp, fun hacc => hacc⟩
  | cons i l ih =>
    intro acc r pos pos' h
    rw [List.foldl_cons] at h
    cases h1 : initial_experiment rand downloads weighted (some (acc, pos)) i with
    | none =>
      rw [h1, initial_experiment_none] at h
      cases h
    | some q =>
      obtain ⟨acc1, pos1⟩ := q
      rw [h1] at h
      obtain ⟨hlen, hprop⟩ := ih acc1 r pos1 pos' h
      unfold initial_experiment at h1
      simp only at h1
      cases hf : downloads.foldl (initial_download rand weighted) (some ([], pos)) with
      | none => simp [hf] at h1
      | some q1 =>
        obtain ⟨t, p⟩ := q1
        simp only [hf, Option.some.injEq, Prod.mk.injEq] at h1
        obtain ⟨hp, _, hall⟩ := initial_download_fold downloads [] t pos p hf
          ⟨List.nodup_nil, by intro d c hl; simp [g_hash_table_lookup] at hl⟩
        refine ⟨?_, ?_⟩
        · rw [hlen, ← h1.1]
          simp
          omega
        · intro hacc
          apply hprop
          intro x hx
          rw [← h1.1] at hx
          rcases List.mem_append.1 hx with e | e
          · exact hacc x e
          · simp only [List.mem_singleton] at e
            subst e
            exact ⟨pool_table_assignment hp hall, hp.1⟩

theorem initial_download_total {rand : Nat → Nat} {weighted : Bool} (l : List download_t)
    (hpools : ∀ d ∈ l, d.circuits ≠ [] ∧
      (weighted = true → (generate_circuit_lists d.circuits).isSome = true)) :
    ∀ (t : GHashTable download_t circuit_t) (pos : Nat),
      ∃ r, l.foldl (initial_download rand weighted) (some (t, pos)) = some r := by
  induction l with
  | nil => intro t pos; exact ⟨_, rfl⟩
  | cons d l ih =>
    intro t pos
    rw [List.foldl_cons]
    obtain ⟨hne, hw⟩ := hpools d (List.mem_cons_self _ _)
    have hstep : ∃ r, initial_download rand weighted (some (t, pos)) d = some r := by
      unfold initial_download
      simp only
      by_cases hwt : weighted = true
      · simp only [hwt, if_true]
        cases hg : generate_circuit_lists d.circuits with
        | none =>
          have := hw hwt
          rw [hg] at this
          cases this
        | some lists =>
          obtain ⟨_, hlen, hpos⟩ := generate_circuit_lists_mem hg
          have h0 := hpos hne
          simp only [Option.map_some']
          rw [if_neg (by omega)]
          have hidx : rand pos % lists.total_circuit_bandwidth.natAbs <
              lists.weighted_circuit_list.length := by
            have : lists.total_circuit_bandwidth.natAbs = lists.weighted_circuit_list.length := by
              omega
            rw [this]
            exact Nat.mod_lt _ (by omega)
          rw [List.getElem?_eq_getElem hidx]
          exact ⟨_, rfl⟩
      · have hwf : weighted = false := by simpa using hwt
        simp only [hwf, Bool.false_eq_true, if_false]
        have hlen : 0 < d.circuits.length := List.length_pos_of_ne_nil hne
        rw [if_neg (by omega)]
        have hidx : rand pos % ((d.circuits.length : Int)).natAbs < d.circuits.length := by
          simp only [Int.natAbs_ofNat]
          exact Nat.mod_lt _ hlen
        rw [List.getElem?_eq_getElem hidx]
        exact ⟨_, rfl⟩
    obtain ⟨r, hr⟩ := hstep
    rw [hr]
    obtain ⟨t1, pos1⟩ := r
    exact ih (fun x hx => hpools x (List.mem_cons_of_mem _ hx)) t1 pos1

theorem initial_experiment_total {rand : Nat → Nat} {downloads : List download_t}
    {weighted : Bool}
    (hpools : ∀ d ∈ downloads, d.circuits ≠ [] ∧
      (weighted = true → (generate_circuit_lists d.circuits).isSome = true))
    (l : List Nat) :
    ∀ (acc : List experiment_t) (pos : Nat),
      ∃ r, l.foldl (initial_experiment rand downloads weighted) (some (acc, pos)) = some r := by
  induction l with
  | nil => intro acc pos; exact ⟨_, rfl⟩
  | cons i l ih =>
    intro acc pos
    rw [List.foldl_cons]
    obtain ⟨q, hq⟩ := @initial_download_total rand weighted downloads hpools [] pos
    obtain ⟨t, p⟩ := q
    have : initial_experiment rand downloads weighted (some (acc, pos)) i =
        some (acc ++ [{ circuit_selection := t, score := 0 }], p) := by
      unfold initial_experiment
      simp only [hq]
    rw [this]
    exact ih _ _

/-! ### The children of `breed` -/

theorem breed_download_fold {rand : Nat → Nat} {μ : ℚ} {parent1 parent2 : experiment_t}
    {downloads : List download_t}
    (hp1 : pool_assignment downloads parent1.circuit_selection)
    (hp2 : pool_assignment downloads parent2.circuit_selection) (l : List download_t)
    (hl : ∀ d ∈ l, d ∈ downloads) :
    ∀ (t t' : GHashTable download_t circuit_t) (pos pos' : Nat),
      l.foldl (breed_download rand μ parent1 parent2) (some (t, pos)) = some (t', pos') →
      pool_table t → pool_table t' ∧
        (∀ d, (g_hash_table_lookup t d).isSome = true →
          (g_hash_table_lookup t' d).isSome = true) ∧
        ∀ d ∈ l, (g_hash_table_lookup t' d).isSome = true := by
  induction l with
  | nil =>
    intro t t' pos pos' h ht
    simp only [List.foldl_nil, Option.some.injEq, Prod.mk.injEq] at h
    rw [← h.1]
    exact ⟨ht, fun _ hd => hd, by simp⟩
  | cons d l ih =>
    intro t t' pos pos' h ht
    rw [List.foldl_cons] at h
    cases h1 : breed_download rand μ parent1 parent2 (some (t, pos)) d with
    | none =>
      rw [h1, breed_download_none] at h
      cases h
    | some r =>
      obtain ⟨t1, pos1⟩ := r
      rw [h1] at h
      obtain ⟨c, ht1, hc⟩ := breed_download_spec h1
      have hd : d ∈ downloads := hl d (List.mem_cons_self _ _)
      have hcp : c ∈ d.circuits := by
        rcases hc with hc | hc | hc
        · exact hc
        · obtain ⟨c', hc', hin⟩ := hp1 d hd
          rw [hc] at hc'
          cases hc'
          exact hin
        · obtain ⟨c', hc', hin⟩ := hp2 d hd
          rw [hc] at hc'
          cases hc'
          exact hin
      have hpt1 : pool_table t1 := ht1 ▸ pool_table_insert ht hcp
      obtain ⟨hp, hkeep, hall⟩ := ih (fun x hx => hl x (List.mem_cons_of_mem _ hx))
        t1 t' pos1 pos' h hpt1
      refine ⟨hp, ?_, ?_⟩
      · intro x hx
        apply hkeep
        rw [ht1, lookup_insert]
        split_ifs
        · rfl
        · exact hx
      · intro x hx
        rcases List.mem_cons.1 hx with e | e
        · apply hkeep
          rw [ht1, lookup_insert, if_pos e]
          rfl
        · exact hall x e

theorem breed_child_fold {rand : Nat → Nat} {experiments : List experiment_t}
    {downloads : List download_t} {b : ℚ} {w : Bool} {μ : ℚ}
    (hpop : ∀ x ∈ experiments, pool_assignment downloads x.circuit_selection)
    (l : List Nat) :
    ∀ (children r : List (GHashTable download_t circuit_t)) (pos pos' : Nat),
      l.foldl (breed_child rand experiments downloads b w μ) (some (children, pos)) =
        some (r, pos') →
      (∀ t ∈ children, pool_assignment downloads t ∧ (g_hash_table_get_keys t).Nodup) →
      ∀ t ∈ r, pool_assignment downloads t ∧ (g_hash_table_get_keys t).Nodup := by
  induction l with
  | nil =>
    intro children r pos pos' h hc
    simp only [List.foldl_nil, Option.some.injEq, Prod.mk.injEq] at h
    rw [← h.1]
    exact hc
  | cons i l ih =>
    intro children r pos pos' h hc
    rw [List.foldl_cons] at h
    cases h1 : breed_child rand experiments downloads b w μ (some (children, pos)) i with
    | none =>
      rw [h1, breed_child_none] at h
      cases h
    | some q =>
      obtain ⟨children1, pos1⟩ := q
      rw [h1] at h
      apply ih children1 r pos1 pos' h
      unfold breed_child at h1
      simp only at h1
      cases hs1 : select_parent experiments b w (rand pos) with
      | none => simp [hs1] at h1
      | some parent1 =>
        cases hs2 : select_parent experiments b w (rand (pos + 1)) with
        | none => simp [hs1, hs2] at h1
        | some parent2 =>
          simp only [hs1, hs2] at h1
          cases hf : downloads.foldl (breed_download rand μ parent1 parent2)
              (some ([], pos + 2)) with
          | none => simp [hf] at h1
          | some q1 =>
            obtain ⟨child, p⟩ := q1
            simp only [hf, Option.some.injEq, Prod.mk.injEq] at h1
            obtain ⟨hp, _, hall⟩ := breed_download_fold
              (hpop parent1 (select_parent_mem hs1)) (hpop parent2 (select_parent_mem hs2))
              downloads (fun d hd => hd) [] child (pos + 2) p hf
              ⟨List.nodup_nil, by intro d c hl; simp [g_hash_table_lookup] at hl⟩
            intro t ht
            rw [← h1.1] at ht
            rcases List.mem_append.1 ht with e | e
            · exact hc t e
            · simp only [List.mem_singleton] at e
              subst e
              exact ⟨pool_table_assignment hp hall, hp.1⟩

/-- Claim C40. The experiments that `generate_initial_experiments` returns, in
the weighted and in the uniform mode, give every download a circuit of the
download's own pool, and the call returns when no pool is empty (and, in the
weighted mode, the weighted list of every pool was made); and when `breed`
returns on a population of such experiments, every experiment of the new
generation again gives every download a circuit of the download's own pool.
The tables are hash tables: their keys are pairwise different. -/
theorem pools_preserved (rand : Nat → Nat) (downloads : List download_t) (weighted : Bool)
    (n : Nat) :
    (∀ experiments, generate_initial_experiments rand downloads weighted n = some experiments →
      experiments.length = n ∧
      ∀ x ∈ experiments, pool_assignment downloads x.circuit_selection ∧
        (g_hash_table_get_keys x.circuit_selection).Nodup) ∧
    ((∀ d ∈ downloads, d.circuits ≠ [] ∧
        (weighted = true → (generate_circuit_lists d.circuits).isSome = true)) →
      ∃ experiments, generate_initial_experiments rand downloads weighted n = some experiments) ∧
    (∀ (experiments new_generation : List experiment_t)
      (breed_percentile elite_percentile mutation_probability : ℚ) (breed_weighted : Bool),
      (∀ x ∈ experiments, pool_assignment downloads x.circuit_selection ∧
        (g_hash_table_get_keys x.circuit_selection).Nodup) →
      breed rand experiments downloads breed_percentile breed_weighted elite_percentile
        mutation_probability = some new_generation →
      ∀ y ∈ new_generation, pool_assignment downloads y.circuit_selection ∧
        (g_hash_table_get_keys y.circuit_selection).Nodup) := by
  refine ⟨?_, ?_, ?_⟩
  · intro experiments h
    unfold generate_initial_experiments at h
    cases hf : (List.range n).foldl (initial_experiment rand downloads weighted)
        (some ([], 0)) with
    | none => simp [hf] at h
    | some q =>
      obtain ⟨r, p⟩ := q
      simp only [hf, Option.map_some', Option.some.injEq] at h
      subst h
      obtain ⟨hlen, hprop⟩ := initial_experiment_fold (List.range n) [] r 0 p hf
      refine ⟨by simpa using hlen, hprop ?_⟩
      intro x hx
      simp at hx
  · intro hpools
    obtain ⟨r, hr⟩ := @initial_experiment_total rand downloads weighted hpools (List.range n) [] 0
    exact ⟨r.1, by unfold generate_initial_experiments; rw [hr]; rfl⟩
  · intro experiments new_generation bp ep μ bw hpop h y hy
    unfold breed at h
    cases hs : breed_selections rand experiments downloads bp bw ep μ with
    | none => simp [hs] at h
    | some selections =>
      simp only [hs, Option.map_some', Option.some.injEq] at h
      subst h
      have hmem := mem_zipWith_selection experiments selections y hy
      unfold breed_selections at hs
      simp only at hs
      split_ifs at hs with hsize
      split at hs
      · cases hs
      · rename_i children p hf
        simp only [Option.some.injEq] at hs
        rw [← hs] at hmem
        rcases List.mem_append.1 hmem with e | e
        · obtain ⟨x, hx, hxe⟩ := List.mem_map.1 e
          have hxin := top_experiments_mem _ _ x hx
          rw [copy_selection_eq _ (hpop x hxin).2] at hxe
          rw [← hxe]
          exact hpop x hxin
        · exact breed_child_fold (fun x hx => (hpop x hx).1) _ [] children 0 p hf
            (by intro t ht; simp at ht) _ e

/-- Two first experiments for the download of `relays_dwc`, and the generation
that `breed` makes of `generation_two`. -/
theorem pools_preserved_witness :
    generate_initial_experiments (fun _ => 1) [ex_arrival 1 0 10000] false 2 =
      some [experiment_narrow_zero, experiment_narrow_zero] ∧
    (∀ y ∈ generation_two_bred, pool_assignment [ex_arrival 1 0 10000] y.circuit_selection ∧
      (g_hash_table_get_keys y.circuit_selection).Nodup) :=
  ⟨by decide,
    (pools_preserved (fun _ => 1) [ex_arrival 1 0 10000] false 2).2.2 generation_two
      generation_two_bred (1 / 2) (1 / 4) 1 false
      (by
        intro x hx
        simp only [generation_two, List.mem_cons, List.mem_singleton, List.not_mem_nil,
          or_false] at hx
        rcases hx with e | e <;> subst e
        · refine ⟨?_, by decide⟩
          intro d hd
          simp only [List.mem_singleton] at hd
          subst hd
          exact ⟨ex_circuit "g1" "m1" "x1-exit", by decide, by decide⟩
        · refine ⟨?_, by decide⟩
          intro d hd
          simp only [List.mem_singleton] at hd
          subst hd
          exact ⟨ex_circuit "g2" "m2" "x2-exit", by decide, by decide⟩)
      (by decide!)⟩
/-! ## The side table `weights` -/

theorem assign_download_gone {A : List download_t} {relays : GHashTable String Int}
    {S : GHashTable download_t circuit_t} {b : String} {s : ℚ} {st st' : solve_state}
    {d : download_t} (hok : tables_ok A relays S st) (hg : gone_ok A relays S st)
    (h : assign_download S b s (some st) d = some st') : gone_ok A relays S st' := by
  obtain ⟨c, hc, hact, hlook⟩ := assign_download_active h
  obtain ⟨c', hc', _, _, _, _, _, hfields, _⟩ := assign_download_spec h
  constructor
  · intro r v hv
    rw [hlook r] at hv
    split_ifs at hv with hr
    · obtain ⟨v0, hv0⟩ := hact r hr
      exact hg.touched r v0 hv0
    · exact hg.touched r v hv
  · intro r ht hnone
    rw [hfields, relay_usage_cons]
    rw [hlook r] at hnone
    by_cases hr : r ∈ circuit_relays c
    · rw [if_pos hr] at hnone
      obtain ⟨v0, hv0⟩ := hact r hr
      rw [hv0] at hnone
      simp only [Option.some_bind] at hnone
      split_ifs at hnone with hlt
      have hres := hok.residual r v0 hv0
      have hon : on_relay S r d = true := (on_relay_of_lookup hc r).2 hr
      rw [if_pos hon]
      rw [hres] at hlt
      linarith
    · rw [if_neg hr] at hnone
      have hon : ¬ on_relay S r d = true := fun hon => hr ((on_relay_of_lookup hc r).1 hon)
      rw [if_neg hon, zero_add]
      exact hg.gone r ht hnone

theorem assign_fold_gone {A : List download_t} {relays : GHashTable String Int}
    {S : GHashTable download_t circuit_t} {b : String} {s : ℚ} (l : List download_t) :
    ∀ (st st' : solve_state), tables_ok A relays S st → gone_ok A relays S st →
      (∀ d ∈ l, on_relay S b d = true) →
      l.foldl (assign_download S b s) (some st) = some st' → gone_ok A relays S st' := by
  induction l with
  | nil =>
    intro st st' _ hg _ h
    simp only [List.foldl_nil, Option.some.injEq] at h
    subst h
    exact hg
  | cons d t ih =>
    intro st st' hok hg hl h
    rw [List.foldl_cons] at h
    cases h1 : assign_download S b s (some st) d with
    | none =>
      rw [h1, assign_download_none] at h
      cases h
    | some st1 =>
      rw [h1] at h
      have hb := hl d (List.mem_cons_self _ _)
      exact ih st1 st' (assign_download_ok hok hb h1) (assign_download_gone hok hg h1)
        (fun d' hd' => hl d' (List.mem_cons_of_mem _ hd')) h

theorem solve_round_gone {A : List download_t} {relays : GHashTable String Int}
    {S : GHashTable download_t circuit_t} {st st' : solve_state}
    (hinv : solve_inv A relays S st) (hg : gone_ok A relays S st)
    (h : solve_round S st = some st') : gone_ok A relays S st' := by
  obtain ⟨b, L, hb, hL, hfold, _, _⟩ := solve_round_cases h
  obtain ⟨vb, _, _, _, _, _, _, hsame, hok1, _, hon⟩ :=
    solve_round_start hinv hb hL _ rfl
  apply assign_fold_gone L _ _ hok1 ?_ hon hfold
  constructor
  · intro r v hv
    rw [hsame r] at hv
    exact hg.touched r v hv
  · intro r ht hnone
    rw [hsame r] at hnone
    exact hg.gone r ht hnone

theorem solve_loop_gone {A : List download_t} {relays : GHashTable String Int}
    {S : GHashTable download_t circuit_t} (n : Nat) :
    ∀ (st st' : solve_state), solve_inv A relays S st → gone_ok A relays S st →
      solve_loop S n st = some st' → gone_ok A relays S st' := by
  induction n with
  | zero =>
    intro st st' _ hg h
    unfold solve_loop at h
    split at h
    · cases h
    · cases h
      exact hg
  | succ n ih =>
    intro st st' hinv hg h
    unfold solve_loop at h
    split at h
    · obtain ⟨st1, h1, h2⟩ := Option.bind_eq_some.1 h
      exact ih st1 st' (solve_round_inv hinv h1) (solve_round_gone hinv hg h1) h2
    · cases h
      exact hg

/-- The entries that the first loop over the relay table writes. -/
theorem record_inactive_lookup (a : GHashTable String ℚ) (r : String) :
    ∀ (l : GHashTable String Int), (g_hash_table_get_keys l).Nodup →
      ∀ T : GHashTable String Int,
        g_hash_table_lookup (record_inactive a l T) r =
          if g_hash_table_lookup a r = none then
            (match g_hash_table_lookup l r with
              | some cap => some cap
              | none => g_hash_table_lookup T r)
          else g_hash_table_lookup T r := by
  intro l
  induction l with
  | nil =>
    intro _ T
    simp [record_inactive, g_hash_table_lookup]
  | cons e l ih =>
    intro hn T
    obtain ⟨k, cap⟩ := e
    simp only [g_hash_table_get_keys, List.map_cons, List.nodup_cons] at hn
    have hfold : record_inactive a ((k, cap) :: l) T =
        record_inactive a l (match g_hash_table_lookup a k with
          | none => g_hash_table_insert T k cap
          | some _ => T) := rfl
    rw [hfold, ih hn.2]
    by_cases hr : k = r
    · subst hr
      have hl : g_hash_table_lookup l k = none := lookup_none_of_not_mem hn.1
      simp only [hl, g_hash_table_lookup, if_true]
      cases ha : g_hash_table_lookup a k with
      | none => simp [lookup_insert_self]
      | some v => simp
    · have hne : r ≠ k := fun e => hr e.symm
      simp only [g_hash_table_lookup, if_neg hr]
      cases ha : g_hash_table_lookup a k with
      | none => simp only [lookup_insert_ne _ _ _ _ hne]
      | some v => rfl

/-- The entries that the last loop over the active relays writes. -/
theorem record_residual_lookup (r : String) :
    ∀ (a : GHashTable String ℚ), (g_hash_table_get_keys a).Nodup →
      ∀ T : GHashTable String Int,
        g_hash_table_lookup (record_residual a T) r =
          match g_hash_table_lookup a r with
          | some v => some (gint_of_gdouble v)
          | none => g_hash_table_lookup T r := by
  intro a
  induction a with
  | nil =>
    intro _ T
    simp [record_residual, g_hash_table_lookup]
  | cons e a ih =>
    intro hn T
    obtain ⟨k, v⟩ := e
    simp only [g_hash_table_get_keys, List.map_cons, List.nodup_cons] at hn
    have hfold : record_residual ((k, v) :: a) T =
        record_residual a (g_hash_table_insert T k (gint_of_gdouble v)) := rfl
    rw [hfold, ih hn.2]
    by_cases hr : k = r
    · subst hr
      have hl : g_hash_table_lookup a k = none := lookup_none_of_not_mem hn.1
      simp only [hl, g_hash_table_lookup, if_true, lookup_insert_self]
    · have hne : r ≠ k := fun e => hr e.symm
      simp only [g_hash_table_lookup, if_neg hr, lookup_insert_ne _ _ _ _ hne]

theorem gint_of_gdouble_small {x : ℚ} (h0 : 0 ≤ x) (h1 : x < 1) : gint_of_gdouble x = 0 := by
  rw [gint_of_gdouble_floor h0 (by linarith)]
  exact Int.floor_eq_iff.2 ⟨by simpa using h0, by simpa using h1⟩

/-- Claim C34, as the code has it: a relay that carries two downloads of
bandwidth 5/2 has 1000 - 5 = 995 left, and the relays that carry one of them
have 997.5 left, but the table holds 997 for them: the residual is stored as a
`gint`, the fraction cut off. No operation of this run rounds, the two
embeddings give the same tables. -/
theorem available_output_counterexample :
    compute_download_bandwidths [ex_download 1, ex_download 2] relays_odd selection_odd
      none (some []) = some result_odd ∧
    Binary64.compute_download_bandwidths [ex_download 1, ex_download 2] relays_odd
      selection_odd none (some []) = some result_odd ∧
    g_hash_table_lookup (result_odd.available_bandwidth.getD []) "g1" = some 997 ∧
    (relay_capacity relays_odd "g1" : ℚ) - relay_usage selection_odd result_odd.fields "g1"
      = 1995 / 2 := by
  decide!

/-- The side table in exact arithmetic. When `compute_download_bandwidths` is
given an empty table `available_bandwidth` and returns, on relays of positive
capacity: a relay of the relay table that no active download crosses has its
capacity as entry; for a relay that an active download crosses, the entry,
read as 0 when there is none, is the residual (the capacity minus the
bandwidths of the active downloads that cross the relay) cut to a `gint`; and
such a relay has an entry only when its residual is not under the tolerance of
one millionth. -/
theorem available_output_exact (A : List download_t) (relays : GHashTable String Int)
    (S : GHashTable download_t circuit_t) (w : Option (GHashTable String ℚ))
    (res : solve_result) (hn : (g_hash_table_get_keys relays).Nodup)
    (hcap : ∀ d ∈ A, ∀ r, on_relay S r d = true → 0 < relay_capacity relays r)
    (h : compute_download_bandwidths A relays S w (some []) = some res) :
    ∃ ab, res.available_bandwidth = some ab ∧
      (∀ r cap, g_hash_table_lookup relays r = some cap →
        (∀ d ∈ A, on_relay S r d = false) → g_hash_table_lookup ab r = some cap) ∧
      (∀ r, (∃ d ∈ A, on_relay S r d = true) →
        (g_hash_table_lookup ab r).getD 0 =
          gint_of_gdouble ((relay_capacity relays r : ℚ) - relay_usage S res.fields r)) ∧
      (∀ r, (∃ d ∈ A, on_relay S r d = true) →
        ((g_hash_table_lookup ab r).isSome = true ↔
          (1 : ℚ) / 1000000 ≤ (relay_capacity relays r : ℚ) - relay_usage S res.fields r)) := by
  have hpos := compute_download_bandwidths_positive h hcap
  unfold compute_download_bandwidths at h
  split at h
  · cases h
  rename_i rd a hbuild
  dsimp only at h
  split at h
  · cases h
  rename_i st hloop
  split at h
  · cases h
  cases h
  simp only at hpos
  have hok := build_relay_tables_ok hbuild
  have hinv0 := solve_inv_init hbuild w
  obtain ⟨hinv, _, _⟩ := solve_loop_inv _ _ _ hinv0 hloop
  have hg0 : gone_ok A relays S
      { active_relays := a, relay_downloads := rd, total_bandwidth := 0, weights := w,
        fields := [] } := by
    constructor
    · intro r v hv
      have hv' : g_hash_table_lookup a r = some v := hv
      obtain ⟨d, hd⟩ := List.exists_mem_of_ne_nil _ (hok.used r v hv')
      obtain ⟨h1, h2⟩ := (hok.pending_mem r d).1 hd
      exact ⟨d, h1, h2⟩
    · intro r ht hnone
      obtain ⟨d, hd, hon⟩ := ht
      have hp : pending rd r ≠ [] :=
        List.ne_nil_of_mem ((hok.pending_mem r d).2 ⟨hd, hon⟩)
      obtain ⟨v, hv⟩ := hok.active r hp
      have hnone' : g_hash_table_lookup a r = none := hnone
      rw [hv] at hnone'
      cases hnone'
  have hg := solve_loop_gone _ _ _ hinv0 hg0 hloop
  have hfl0 : floor_ok
      { active_relays := a, relay_downloads := rd, total_bandwidth := 0, weights := w,
        fields := [] } := by
    constructor
    · intro r v hv
      have hv' : g_hash_table_lookup a r = some v := hv
      rw [hok.capacity r v hv']
      obtain ⟨d, hd⟩ := List.exists_mem_of_ne_nil _ (hok.used r v hv')
      obtain ⟨h1, h2⟩ := (hok.pending_mem r d).1 hd
      have hc := hcap d h1 r h2
      have : (1 : ℚ) ≤ (relay_capacity relays r : ℚ) := by exact_mod_cast hc
      linarith
    · intro e he
      simp at he
  have hfl := solve_loop_floor _ _ _ hinv0 hfl0 hloop
  have hlook : ∀ r, g_hash_table_lookup
      (record_residual st.active_relays (record_inactive a relays [])) r =
      match g_hash_table_lookup st.active_relays r with
      | some v => some (gint_of_gdouble v)
      | none =>
        if g_hash_table_lookup a r = none then
          (match g_hash_table_lookup relays r with
            | some cap => some cap
            | none => none)
        else none := by
    intro r
    rw [record_residual_lookup r _ hinv.tables.keys_active, record_inactive_lookup a r _ hn]
    simp [g_hash_table_lookup]
  have htouched : ∀ r, (∃ d ∈ A, on_relay S r d = true) → g_hash_table_lookup a r ≠ none := by
    intro r ⟨d, hd, hon⟩ hnone
    have hp : pending rd r ≠ [] :=
      List.ne_nil_of_mem ((hok.pending_mem r d).2 ⟨hd, hon⟩)
    obtain ⟨v, hv⟩ := hok.active r hp
    rw [hv] at hnone
    cases hnone
  refine ⟨_, rfl, ?_, ?_, ?_⟩
  · intro r cap hr huntouched
    rw [hlook r]
    have h1 : g_hash_table_lookup st.active_relays r = none := by
      cases hl : g_hash_table_lookup st.active_relays r with
      | none => rfl
      | some v =>
        obtain ⟨d, hd, hon⟩ := hg.touched r v hl
        rw [huntouched d hd] at hon
        cases hon
    have h2 : g_hash_table_lookup a r = none := by
      cases hl : g_hash_table_lookup a r with
      | none => rfl
      | some v =>
        obtain ⟨d, hd, hon⟩ := hg0.touched r v hl
        rw [huntouched d hd] at hon
        cases hon
    simp only [h1, h2, if_true, hr]
  · intro r ht
    rw [hlook r]
    cases hl : g_hash_table_lookup st.active_relays r with
    | some v =>
      simp only [Option.getD_some]
      rw [hinv.tables.residual r v hl]
    | none =>
      simp only [if_neg (htouched r ht), Option.getD_none]
      have hlt := hg.gone r ht hl
      have hle := hpos.1 r
      obtain ⟨d, hd, hon⟩ := ht
      have hc : (0 : ℚ) < (relay_capacity relays r : ℚ) := by exact_mod_cast hcap d hd r hon
      rw [max_eq_left (le_of_lt hc)] at hle
      symm
      apply gint_of_gdouble_small
      · linarith
      · linarith
  · intro r ht
    rw [hlook r]
    cases hl : g_hash_table_lookup st.active_relays r with
    | some v =>
      simp only [Option.isSome_some, true_iff]
      rw [← hinv.tables.residual r v hl]
      exact hfl.residual r v hl
    | none =>
      simp only [if_neg (htouched r ht)]
      have hlt := hg.gone r ht hl
      constructor
      · intro hc
        cases hc
      · intro hc
        linarith

theorem relay_usage_whole (S : GHashTable download_t circuit_t)
    (fields : List (download_t × ℚ × String)) (h : whole_fields fields) (r : String) :
    ∃ n : Int, relay_usage S fields r = (n : ℚ) := by
  unfold relay_usage
  induction fields with
  | nil => exact ⟨0, by simp⟩
  | cons e t ih =>
    obtain ⟨n, hn⟩ := ih (fun x hx => h x (List.mem_cons_of_mem _ hx))
    obtain ⟨m, hm⟩ := h e (List.mem_cons_self _ _)
    by_cases hon : on_relay S r e.1 = true
    · refine ⟨m + n, ?_⟩
      have e1 : List.filter (fun e => on_relay S r e.1) (e :: t) =
          e :: List.filter (fun e => on_relay S r e.1) t := by
        simp [List.filter_cons, hon]
      rw [e1, List.map_cons, List.sum_cons, hn, hm]
      push_cast
      rfl
    · refine ⟨n, ?_⟩
      have e1 : List.filter (fun e => on_relay S r e.1) (e :: t) =
          List.filter (fun e => on_relay S r e.1) t := by
        simp [List.filter_cons, hon]
      rw [e1, hn]

/-- Claim C34, amended. When `compute_download_bandwidths` is given an empty
table `available_bandwidth` and returns, on a relay table (a hash table: its
keys are pairwise different) in which every relay that an active download
crosses has a positive capacity within `gint`: a relay of the relay table that
no active download crosses has its capacity as entry; and when every bandwidth
assigned is a whole number, so that no operation rounds and no fraction is cut
off, the entry of a relay that an active download crosses, read as 0 when
there is none, is the residual, the capacity minus the bandwidths of the
active downloads that cross the relay, and the relay has an entry exactly when
its residual is not 0; the call in binary64, on at most a million downloads,
then returns with the same table and the same bandwidths. -/
theorem available_output (A : List download_t) (relays : GHashTable String Int)
    (S : GHashTable download_t circuit_t) (w : Option (GHashTable String ℚ))
    (res : solve_result) (hn : (g_hash_table_get_keys relays).Nodup)
    (hcap : ∀ d ∈ A, ∀ r, on_relay S r d = true →
      0 < relay_capacity relays r ∧ relay_capacity relays r ≤ 2147483647)
    (h : compute_download_bandwidths A relays S w (some []) = some res) :
    ∃ ab, res.available_bandwidth = some ab ∧
      (∀ r cap, g_hash_table_lookup relays r = some cap →
        (∀ d ∈ A, on_relay S r d = false) → g_hash_table_lookup ab r = some cap) ∧
      (whole_fields res.fields →
        (∀ r, (∃ d ∈ A, on_relay S r d = true) →
          (((g_hash_table_lookup ab r).getD 0 : Int) : ℚ) =
              (relay_capacity relays r : ℚ) - relay_usage S res.fields r ∧
            ((g_hash_table_lookup ab r).isSome = true ↔
              (relay_capacity relays r : ℚ) - relay_usage S res.fields r ≠ 0)) ∧
        (A.length ≤ 1000000 →
          ∃ res2, Binary64.compute_download_bandwidths A relays S w (some []) = some res2 ∧
            res2.available_bandwidth = some ab ∧ res2.fields = res.fields)) := by
  have hcap0 : ∀ d ∈ A, ∀ r, on_relay S r d = true → 0 < relay_capacity relays r :=
    fun d hd r hr => (hcap d hd r hr).1
  obtain ⟨ab, hab, h1, h2, h3⟩ := available_output_exact A relays S w res hn hcap0 h
  have hpos := compute_download_bandwidths_positive h hcap0
  refine ⟨ab, hab, h1, ?_⟩
  intro hwhole
  refine ⟨?_, ?_⟩
  swap
  · intro hA
    obtain ⟨res2, k1, _, k3, k4⟩ := compute_download_bandwidths_whole w (some [])
      (by
        intro d hd r hr
        have := hcap d hd r hr
        omega)
      hA h hwhole
    exact ⟨res2, k1, by rw [k3, hab], k4⟩
  intro r ht
  obtain ⟨n, hu⟩ := relay_usage_whole S res.fields hwhole r
  obtain ⟨d, hd, hon⟩ := ht
  have hc := hcap d hd r hon
  have hle := hpos.1 r
  have hc0 : (0 : ℚ) < (relay_capacity relays r : ℚ) := by exact_mod_cast hc.1
  rw [max_eq_left (le_of_lt hc0)] at hle
  have hnn := relay_usage_nonneg S res.fields hpos.2 r
  have hres : (relay_capacity relays r : ℚ) - relay_usage S res.fields r =
      ((relay_capacity relays r - n : Int) : ℚ) := by
    rw [hu]
    push_cast
    rfl
  have hr0 : (0 : Int) ≤ relay_capacity relays r - n := by
    have : (0 : ℚ) ≤ ((relay_capacity relays r - n : Int) : ℚ) := by
      rw [← hres]
      linarith
    exact_mod_cast this
  have hr1 : relay_capacity relays r - n ≤ 2147483647 := by
    have : ((relay_capacity relays r - n : Int) : ℚ) ≤ (relay_capacity relays r : ℚ) := by
      rw [← hres]
      linarith
    have h' : relay_capacity relays r - n ≤ relay_capacity relays r := by exact_mod_cast this
    omega
  have e2 := h2 r ⟨d, hd, hon⟩
  have e3 := h3 r ⟨d, hd, hon⟩
  rw [hres, gint_of_gdouble_int _ hr0 hr1] at e2
  constructor
  · rw [e2, hres]
  · rw [e3, hres]
    constructor
    · intro hge hz
      rw [hz] at hge
      norm_num at hge
    · intro hne
      have hne' : relay_capacity relays r - n ≠ 0 := by
        intro hz
        apply hne
        rw [hz]
        simp
      have h1' : (1 : Int) ≤ relay_capacity relays r - n := by omega
      have h1q : (1 : ℚ) ≤ ((relay_capacity relays r - n : Int) : ℚ) := by exact_mod_cast h1'
      linarith

/-- The table of the solve of scenario B, whose bandwidths are 50 and 50: 900
for the guard and the middle relay, and nothing for the exit, whose residual
is 0. -/
theorem available_output_witness :
    compute_download_bandwidths [ex_download 1, ex_download 2] relays_ab selection_b
      (some []) (some []) = some result_b_side ∧
    whole_fields result_b_side.fields ∧
    (Binary64.compute_download_bandwidths [ex_download 1, ex_download 2] relays_ab selection_b
      (some []) (some [])).map (fun res => (res.available_bandwidth, res.fields)) =
      some (result_b_side.available_bandwidth, result_b_side.fields) ∧
    ∃ ab, result_b_side.available_bandwidth = some ab ∧
      (∀ r cap, g_hash_table_lookup relays_ab r = some cap →
        (∀ d ∈ [ex_download 1, ex_download 2], on_relay selection_b r d = false) →
        g_hash_table_lookup ab r = some cap) ∧
      (whole_fields result_b_side.fields →
        (∀ r, (∃ d ∈ [ex_download 1, ex_download 2], on_relay selection_b r d = true) →
          (((g_hash_table_lookup ab r).getD 0 : Int) : ℚ) =
              (relay_capacity relays_ab r : ℚ) -
                relay_usage selection_b result_b_side.fields r ∧
            ((g_hash_table_lookup ab r).isSome = true ↔
              (relay_capacity relays_ab r : ℚ) -
                relay_usage selection_b result_b_side.fields r ≠ 0)) ∧
        (([ex_download 1, ex_download 2] : List download_t).length ≤ 1000000 →
          ∃ res2, Binary64.compute_download_bandwidths [ex_download 1, ex_download 2]
              relays_ab selection_b (some []) (some []) = some res2 ∧
            res2.available_bandwidth = some ab ∧ res2.fields = result_b_side.fields)) :=
  ⟨by decide!,
    (by
      intro e he
      simp only [result_b_side, List.mem_cons, List.mem_singleton, List.not_mem_nil,
        or_false] at he
      rcases he with rfl | rfl
      · exact ⟨50, by norm_num⟩
      · exact ⟨50, by norm_num⟩),
    by decide!,
    available_output [ex_download 1, ex_download 2] relays_ab selection_b (some [])
      result_b_side (by decide)
      (by
        intro d hd r hr
        have hc : ∀ d ∈ [ex_download 1, ex_download 2],
            g_hash_table_lookup selection_b d = some (ex_circuit "g" "m" "x-exit") := by
          decide
        have := (on_relay_of_lookup (hc d hd) r).1 hr
        rw [mem_circuit_relays] at this
        rcases this with e | e | e <;> subst e <;> decide)
      (by decide!)⟩
/-! ## The active set at a tick -/

/-- The list of a tick in the index of `generate_downloads_by_tick`. -/
theorem mem_tick_list (downloads : List download_t) (tick : Int) (x : download_t) :
    x ∈ (g_hash_table_lookup (generate_downloads_by_tick downloads) tick).getD [] ↔
      x ∈ downloads ∧ (x.start_time = tick ∨ x.end_time = tick) := by
  have h := generate_downloads_by_tick_lookup downloads tick []
  have h' : (g_hash_table_lookup (generate_downloads_by_tick downloads) tick).getD [] =
      downloads.flatMap (fun d =>
        (if d.start_time = tick then [d] else []) ++ (if d.end_time = tick then [d] else [])) := by
    unfold generate_downloads_by_tick
    rw [h]
    simp [g_hash_table_lookup]
  rw [h', List.mem_flatMap]
  constructor
  · rintro ⟨d, hd, hx⟩
    rcases List.mem_append.1 hx with hx | hx
    · split_ifs at hx with h1
      · simp only [List.mem_singleton] at hx
        subst hx
        exact ⟨hd, Or.inl h1⟩
      · simp at hx
    · split_ifs at hx with h1
      · simp only [List.mem_singleton] at hx
        subst hx
        exact ⟨hd, Or.inr h1⟩
      · simp at hx
  · rintro ⟨hd, h1 | h1⟩
    · exact ⟨x, hd, List.mem_append_left _ (by rw [if_pos h1]; exact List.mem_singleton_self x)⟩
    · exact ⟨x, hd, List.mem_append_right _ (by rw [if_pos h1]; exact List.mem_singleton_self x)⟩

/-- The walk along the list of a tick: the downloads that start at the tick
come in, those that end at it go out. -/
theorem tick_fold_active (S : GHashTable download_t circuit_t) (tick : Int)
    (l : List download_t) :
    (∀ d ∈ l, (g_hash_table_lookup S d).isSome = true ∧ d.start_time < d.end_time ∧
      (d.start_time = tick ∨ d.end_time = tick)) →
    ∀ a : GHashTable download_t Bool,
      ∃ a', l.foldl (tick_download S tick) (some a) = some a' ∧
        ∀ x, x ∈ g_hash_table_get_keys a' ↔
          (x ∈ l ∧ x.start_time = tick) ∨
            (x ∈ g_hash_table_get_keys a ∧ ¬ (x ∈ l ∧ x.end_time = tick)) := by
  induction l with
  | nil =>
    intro _ a
    exact ⟨a, rfl, by simp⟩
  | cons d l ih =>
    intro hl a
    obtain ⟨hS, hlt, hat⟩ := hl d (List.mem_cons_self _ _)
    have hl' := fun x hx => hl x (List.mem_cons_of_mem _ hx)
    rw [List.foldl_cons]
    obtain ⟨c, hc⟩ := Option.isSome_iff_exists.1 hS
    by_cases hstart : d.start_time = tick
    · have hstep : tick_download S tick (some a) d =
          some (g_hash_table_insert a d true) := by
        simp only [tick_download, hc, if_pos hstart]
      rw [hstep]
      obtain ⟨a', ha', hmem⟩ := ih hl' (g_hash_table_insert a d true)
      refine ⟨a', ha', ?_⟩
      intro x
      rw [hmem x, mem_keys_insert]
      have hend : d.end_time ≠ tick := by omega
      by_cases hx : x = d
      · subst hx
        simp [hstart, hend]
      · simp [hx]
    · have hend : d.end_time = tick := by
        rcases hat with h | h
        · exact absurd h hstart
        · exact h
      have hstep : tick_download S tick (some a) d =
          some (g_hash_table_remove a d) := by
        simp only [tick_download, hc, if_neg hstart, if_pos hend]
      rw [hstep]
      obtain ⟨a', ha', hmem⟩ := ih hl' (g_hash_table_remove a d)
      refine ⟨a', ha', ?_⟩
      intro x
      rw [hmem x, mem_keys_remove]
      by_cases hx : x = d
      · subst hx
        simp [hstart, hend]
      · simp [hx]

theorem active_after_snoc (S : GHashTable download_t circuit_t)
    (dbt : GHashTable Int (List download_t)) (q : List Int) (t : Int) :
    active_after S dbt (q ++ [t]) =
      (active_after S dbt q).bind fun a => tick_active S dbt a t := by
  unfold active_after
  rw [List.foldl_append]
  rfl

/-- The active set of the loop of `compute_total_bandwidth` is the set that the
walks along the tick lists leave. -/
theorem tick_step_active (relays : GHashTable String Int) (S : GHashTable download_t circuit_t)
    (dbt : GHashTable Int (List download_t)) (p : List Int) :
    ∀ st0 st, p.foldl (tick_step relays S dbt) (some st0) = some st →
      p.foldl (fun acc tick => acc.bind fun a => tick_active S dbt a tick)
        (some st0.active_downloads) = some st.active_downloads := by
  induction p with
  | nil =>
    intro st0 st h
    simp only [List.foldl_nil, Option.some.injEq] at h
    subst h
    rfl
  | cons t p ih =>
    intro st0 st h
    rw [List.foldl_cons] at h
    cases h1 : tick_step relays S dbt (some st0) t with
    | none =>
      rw [h1, tick_step_none] at h
      cases h
    | some st1 =>
      rw [h1] at h
      rw [List.foldl_cons]
      have hact : tick_active S dbt st0.active_downloads t = some st1.active_downloads := by
        unfold tick_step at h1
        simp only at h1
        cases h2 : tick_active S dbt st0.active_downloads t with
        | none => simp [h2] at h1
        | some a =>
          simp only [h2] at h1
          cases h3 : compute_download_bandwidths (g_hash_table_get_keys a) relays S none none with
          | none => simp [h3] at h1
          | some res =>
            simp only [h3, Option.some.injEq] at h1
            rw [← h1]
      simp only [Option.some_bind, hact]
      exact ih st1 st h

/-- Claim C32. When every download has a circuit and starts before it ends, the
ticks are the start and end times in ascending order, each once, and the index
is the one of `generate_downloads_by_tick`, the active set that
`compute_total_bandwidth` hands to the solve at a tick `t` is made of the
downloads with `start_time ≤ t < end_time`, and of nothing else. -/
theorem active_set (downloads : List download_t) (S : GHashTable download_t circuit_t)
    (ticks : List Int)
    (hS : ∀ d ∈ downloads, (g_hash_table_lookup S d).isSome = true)
    (htime : ∀ d ∈ downloads, d.start_time < d.end_time)
    (hsorted : ticks.Sorted (fun a b => a < b))
    (hticks : ∀ t, t ∈ ticks ↔ ∃ d ∈ downloads, d.start_time = t ∨ d.end_time = t) :
    ∀ (p : List Int) (t : Int) (rest : List Int), ticks = p ++ t :: rest →
      ∃ a, active_after S (generate_downloads_by_tick downloads) (p ++ [t]) = some a ∧
        (∀ d, d ∈ g_hash_table_get_keys a ↔
          (d ∈ downloads ∧ d.start_time ≤ t ∧ t < d.end_time)) ∧
        ∀ (relays : GHashTable String Int) (st : integrate_state),
          p.foldl (tick_step relays S (generate_downloads_by_tick downloads))
            (some integrate_init) = some st →
          tick_active S (generate_downloads_by_tick downloads) st.active_downloads t = some a := by
  have hlist : ∀ tick, ∀ d ∈ (g_hash_table_lookup (generate_downloads_by_tick downloads)
      tick).getD [], (g_hash_table_lookup S d).isSome = true ∧ d.start_time < d.end_time ∧
      (d.start_time = tick ∨ d.end_time = tick) := by
    intro tick d hd
    obtain ⟨h1, h2⟩ := (mem_tick_list downloads tick d).1 hd
    exact ⟨hS d h1, htime d h1, h2⟩
  have main : ∀ (p : List Int) (t : Int) (rest : List Int), ticks = p ++ t :: rest →
      ∃ a, active_after S (generate_downloads_by_tick downloads) (p ++ [t]) = some a ∧
        (∀ d, d ∈ g_hash_table_get_keys a ↔
          (d ∈ downloads ∧ d.start_time ≤ t ∧ t < d.end_time)) := by
    intro p
    induction p using List.reverseRecOn with
    | nil =>
      intro t rest hsplit
      obtain ⟨a, ha, hmem⟩ := tick_fold_active S t _ (hlist t) []
      refine ⟨a, ?_, ?_⟩
      · simp only [List.nil_append, active_after, List.foldl_cons, List.foldl_nil,
          Option.some_bind]
        exact ha
      · intro d
        rw [hmem d, mem_tick_list]
        have hmin : ∀ u ∈ ticks, t ≤ u := by
          intro u hu
          rw [hsplit] at hu hsorted
          simp only [List.nil_append, List.mem_cons] at hu
          rcases hu with e | e
          · omega
          · have := List.rel_of_sorted_cons hsorted u e
            omega
        constructor
        · rintro (⟨⟨hd, _⟩, hst⟩ | ⟨hk, _⟩)
          · have := htime d hd
            exact ⟨hd, by omega, by omega⟩
          · simp [g_hash_table_get_keys] at hk
        · rintro ⟨hd, h1, h2⟩
          have := hmin d.start_time ((hticks _).2 ⟨d, hd, Or.inl rfl⟩)
          have hst : d.start_time = t := by omega
          exact Or.inl ⟨⟨hd, Or.inl hst⟩, hst⟩
    | append_singleton p' t' ih =>
      intro t rest hsplit
      have hsplit' : ticks = p' ++ t' :: (t :: rest) := by
        rw [hsplit]
        simp
      obtain ⟨a0, ha0, hmem0⟩ := ih t' (t :: rest) hsplit'
      obtain ⟨a, ha, hmem⟩ := tick_fold_active S t _ (hlist t) a0
      have hgap : ∀ u ∈ ticks, u ≤ t' ∨ t ≤ u := by
        intro u hu
        rw [hsplit'] at hu hsorted
        have hs := List.pairwise_append.1 hsorted
        rcases List.mem_append.1 hu with e | e
        · have := hs.2.2 u e t' (List.mem_cons_self _ _)
          omega
        · rcases List.mem_cons.1 e with e | e
          · omega
          · rcases List.mem_cons.1 e with e | e
            · omega
            · have h1 : (t :: rest).Sorted (fun a b => a < b) := List.Sorted.of_cons hs.2.1
              have := List.rel_of_sorted_cons h1 u e
              omega
      have hlt : t' < t := by
        rw [hsplit'] at hsorted
        have hs := List.pairwise_append.1 hsorted
        exact List.rel_of_sorted_cons hs.2.1 t (List.mem_cons_self _ _)
      refine ⟨a, ?_, ?_⟩
      · rw [active_after_snoc, ha0]
        exact ha
      · intro d
        rw [hmem d, mem_tick_list, hmem0 d]
        constructor
        · rintro (⟨⟨hd, _⟩, hst⟩ | ⟨⟨hd, h1, h2⟩, hno⟩)
          · have := htime d hd
            exact ⟨hd, by omega, by omega⟩
          · have hne : d.end_time ≠ t := fun e => hno ⟨⟨hd, Or.inr e⟩, e⟩
            have := hgap d.end_time ((hticks _).2 ⟨d, hd, Or.inr rfl⟩)
            exact ⟨hd, by omega, by omega⟩
        · rintro ⟨hd, h1, h2⟩
          by_cases hst : d.start_time = t
          · exact Or.inl ⟨⟨hd, Or.inl hst⟩, hst⟩
          · have := hgap d.start_time ((hticks _).2 ⟨d, hd, Or.inl rfl⟩)
            refine Or.inr ⟨⟨hd, by omega, by omega⟩, ?_⟩
            rintro ⟨_, he⟩
            omega
  intro p t rest hsplit
  obtain ⟨a, ha, hmem⟩ := main p t rest hsplit
  refine ⟨a, ha, hmem, ?_⟩
  intro relays st hst
  have h1 := tick_step_active relays S (generate_downloads_by_tick downloads) p
    integrate_init st hst
  have h2 : active_after S (generate_downloads_by_tick downloads) p =
      some st.active_downloads := h1
  rw [active_after_snoc, h2] at ha
  exact ha

/-- The active sets of two overlapping downloads at the second of their four
ticks. -/
theorem active_set_witness :
    sorted_ticks (generate_downloads_by_tick [ex_interval 1 0 5000, ex_interval 2 3000 8000])
      = [0, 3000, 5000, 8000] ∧
    ∃ a, active_after (selection_same [ex_interval 1 0 5000, ex_interval 2 3000 8000])
        (generate_downloads_by_tick [ex_interval 1 0 5000, ex_interval 2 3000 8000])
        ([0] ++ [3000]) = some a ∧
      (∀ d, d ∈ g_hash_table_get_keys a ↔
        (d ∈ [ex_interval 1 0 5000, ex_interval 2 3000 8000] ∧ d.start_time ≤ 3000 ∧
          3000 < d.end_time)) ∧
      ∀ (relays : GHashTable String Int) (st : integrate_state),
        ([0] : List Int).foldl (tick_step relays
            (selection_same [ex_interval 1 0 5000, ex_interval 2 3000 8000])
            (generate_downloads_by_tick [ex_interval 1 0 5000, ex_interval 2 3000 8000]))
          (some integrate_init) = some st →
        tick_active (selection_same [ex_interval 1 0 5000, ex_interval 2 3000 8000])
          (generate_downloads_by_tick [ex_interval 1 0 5000, ex_interval 2 3000 8000])
          st.active_downloads 3000 = some a :=
  ⟨by decide,
    active_set [ex_interval 1 0 5000, ex_interval 2 3000 8000]
      (selection_same [ex_interval 1 0 5000, ex_interval 2 3000 8000])
      (sorted_ticks (generate_downloads_by_tick [ex_interval 1 0 5000, ex_interval 2 3000 8000]))
      (by decide) (by decide)
      (sorted_ticks_union [ex_interval 1 0 5000, ex_interval 2 3000 8000] (by decide)).1
      (sorted_ticks_union [ex_interval 1 0 5000, ex_interval 2 3000 8000] (by decide)).2
      [0] 3000 [5000, 8000] (by decide)⟩
/-! ## The DWC choice does not depend on the number of threads -/

theorem dwc_key_lt (x y : dwc_choice_t) :
    dwc_key x < dwc_key y ↔
      x.best_circuit_weight < y.best_circuit_weight ∨
        (x.best_circuit_weight = y.best_circuit_weight ∧
          y.best_circuit_bandwidth < x.best_circuit_bandwidth) := by
  unfold dwc_key
  rw [Prod.Lex.lt_iff]
  simp

theorem dwc_key_le (x y : dwc_choice_t) :
    dwc_key x ≤ dwc_key y ↔
      dwc_before x.best_circuit_weight x.best_circuit_bandwidth
        y.best_circuit_weight y.best_circuit_bandwidth := by
  unfold dwc_key dwc_before
  rw [Prod.Lex.le_iff]
  simp

theorem dwc_merge_eq (acc x : dwc_choice_t) :
    dwc_merge acc x = if dwc_key x < dwc_key acc then x else acc := by
  unfold dwc_merge
  have : (x.best_circuit_weight < acc.best_circuit_weight ∨
      (acc.best_circuit_weight = x.best_circuit_weight ∧
        acc.best_circuit_bandwidth < x.best_circuit_bandwidth)) ↔ dwc_key x < dwc_key acc := by
    rw [dwc_key_lt]
    constructor
    · rintro (h | ⟨h1, h2⟩)
      · exact Or.inl h
      · exact Or.inr ⟨h1.symm, h2⟩
    · rintro (h | ⟨h1, h2⟩)
      · exact Or.inl h
      · exact Or.inr ⟨h1.symm, h2⟩
  by_cases h : dwc_key x < dwc_key acc
  · rw [if_pos (this.2 h), if_pos h]
  · rw [if_neg (fun h' => h (this.1 h')), if_neg h]

theorem dwc_merge_assoc (a b c : dwc_choice_t) :
    dwc_merge (dwc_merge a b) c = dwc_merge a (dwc_merge b c) := by
  simp only [dwc_merge_eq]
  by_cases h1 : dwc_key b < dwc_key a
  · by_cases h2 : dwc_key c < dwc_key b
    · simp [h1, h2, lt_trans h2 h1]
    · simp [h1, h2]
  · by_cases h2 : dwc_key c < dwc_key b
    · simp [h1, h2]
    · have h3 : ¬ dwc_key c < dwc_key a := by
        intro h
        exact h1 (lt_of_le_of_lt (not_lt.1 h2) h)
      simp [h1, h2, h3]

theorem dwc_merge_key_le (a x : dwc_choice_t) : dwc_key (dwc_merge a x) ≤ dwc_key a := by
  rw [dwc_merge_eq]
  split_ifs with h
  · exact le_of_lt h
  · exact le_refl _

theorem dwc_scan_from_key_le (W : GHashTable String ℚ) (B : GHashTable String Int)
    (l : List circuit_t) :
    ∀ acc, dwc_key (dwc_scan_from W B acc l) ≤ dwc_key acc := by
  induction l with
  | nil => intro acc; exact le_refl _
  | cons c l ih =>
    intro acc
    unfold dwc_scan_from
    rw [List.foldl_cons]
    exact le_trans (ih _) (dwc_merge_key_le _ _)

theorem dwc_scan_from_merge (W : GHashTable String ℚ) (B : GHashTable String Int)
    (l : List circuit_t) :
    ∀ a b, dwc_scan_from W B (dwc_merge a b) l = dwc_merge a (dwc_scan_from W B b l) := by
  induction l with
  | nil => intro a b; rfl
  | cons c l ih =>
    intro a b
    unfold dwc_scan_from
    rw [List.foldl_cons, List.foldl_cons, dwc_merge_assoc]
    exact ih a _

/-- The reduction of the result of a scan into a running best is the scan
continued from the running best. -/
theorem dwc_merge_scan (W : GHashTable String ℚ) (B : GHashTable String Int)
    (acc : dwc_choice_t) (hacc : dwc_key acc ≤ dwc_key dwc_choice_init) (l : List circuit_t) :
    dwc_merge acc (dwc_scan W B l) = dwc_scan_from W B acc l := by
  unfold dwc_scan
  rw [← dwc_scan_from_merge]
  have : dwc_merge acc dwc_choice_init = acc := by
    rw [dwc_merge_eq, if_neg (not_lt.2 hacc)]
  rw [this]

theorem dwc_scan_append (W : GHashTable String ℚ) (B : GHashTable String Int)
    (l1 l2 : List circuit_t) :
    dwc_scan_from W B (dwc_scan W B l1) l2 = dwc_scan W B (l1 ++ l2) := by
  unfold dwc_scan dwc_scan_from
  rw [List.foldl_append]

/-- A worker that reads the shared tables returns the scan of its chunk. -/
theorem dwc_worker_fold_scan {data : dwc_data_t} {W : GHashTable String ℚ}
    {B : GHashTable String Int} (hW : data.relay_weights = some W)
    (hB : data.available_bandwidth = some B) (l : List circuit_t) :
    ∀ st : dwc_best_t, ∃ r, l.foldl (dwc_worker_step data) (some st) = some r ∧
      dwc_result r = dwc_scan_from W B (dwc_result st) l := by
  induction l with
  | nil => intro st; exact ⟨st, rfl, rfl⟩
  | cons c l ih =>
    intro st
    rw [List.foldl_cons]
    have hstep : ∃ st1, dwc_worker_step data (some st) c = some st1 ∧
        dwc_result st1 = dwc_merge (dwc_result st) (dwc_candidate W B c) := by
      unfold dwc_worker_step
      simp only [hW, hB, Option.getD_some]
      by_cases hc : circuit_weight_of W c < st.best_circuit_weight ∨
          (circuit_weight_of W c = st.best_circuit_weight ∧
            st.best_circuit_bandwidth < circuit_available B c)
      · rw [if_pos hc]
        refine ⟨_, rfl, ?_⟩
        have hc' : (dwc_candidate W B c).best_circuit_weight <
            (dwc_result st).best_circuit_weight ∨
            ((dwc_result st).best_circuit_weight = (dwc_candidate W B c).best_circuit_weight ∧
              (dwc_result st).best_circuit_bandwidth <
                (dwc_candidate W B c).best_circuit_bandwidth) := by
          rcases hc with h | ⟨h1, h2⟩
          · exact Or.inl h
          · exact Or.inr ⟨h1.symm, h2⟩
        unfold dwc_merge
        rw [if_pos hc']
        rfl
      · rw [if_neg hc]
        refine ⟨_, rfl, ?_⟩
        have hc' : ¬ ((dwc_candidate W B c).best_circuit_weight <
            (dwc_result st).best_circuit_weight ∨
            ((dwc_result st).best_circuit_weight = (dwc_candidate W B c).best_circuit_weight ∧
              (dwc_result st).best_circuit_bandwidth <
                (dwc_candidate W B c).best_circuit_bandwidth)) := by
          intro h
          apply hc
          rcases h with h | ⟨h1, h2⟩
          · exact Or.inl h
          · exact Or.inr ⟨h1.symm, h2⟩
        unfold dwc_merge
        rw [if_neg hc']
    obtain ⟨st1, h1, h2⟩ := hstep
    rw [h1]
    obtain ⟨r, hr, hres⟩ := ih st1
    refine ⟨r, hr, ?_⟩
    rw [hres, h2]
    rfl

/-- The worker `i` of `nthreads` returns the scan of its chunk. -/
theorem dwc_worker_scan (relays : GHashTable String Int) (active : GHashTable download_t Bool)
    (S : GHashTable download_t circuit_t) (W : GHashTable String ℚ) (B : GHashTable String Int)
    (download : download_t) (s e : Nat) :
    ∃ r, dwc_worker
        { relays := relays, active_downloads := active, circuit_selection := S,
          relay_weights := some W, available_bandwidth := some B, download := download,
          start_idx := s, end_idx := e } = some r ∧
      dwc_result r = dwc_scan W B ((download.circuits.drop s).take (e - s)) := by
  unfold dwc_worker
  exact dwc_worker_fold_scan rfl rfl _ _

theorem dwc_reduce_scan (acc : dwc_choice_t) (r : dwc_best_t) :
    dwc_reduce (some acc) (some r) = some (dwc_merge acc (dwc_result r)) := rfl

/-- The reduction over the first `m` workers, none of them the last, leaves the
scan of the first `m` chunks. -/
theorem dwc_reduce_chunks (relays : GHashTable String Int) (active : GHashTable download_t Bool)
    (S : GHashTable download_t circuit_t) (W : GHashTable String ℚ) (B : GHashTable String Int)
    (download : download_t) (nthreads : Nat) (m : Nat) (hm : m < nthreads) :
    ((List.range m).map fun i =>
      dwc_worker
        { relays := relays, active_downloads := active, circuit_selection := S,
          relay_weights := some W, available_bandwidth := some B, download := download,
          start_idx := (dwc_range download.circuits.length nthreads i).1,
          end_idx := (dwc_range download.circuits.length nthreads i).2 }).foldl dwc_reduce
        (some dwc_choice_init) =
      some (dwc_scan W B
        (download.circuits.take (m * (download.circuits.length / nthreads)))) := by
  induction m with
  | zero =>
    simp [dwc_scan, dwc_scan_from]
  | succ m ih =>
    rw [List.range_succ, List.map_append, List.foldl_append, ih (by omega)]
    simp only [List.map_cons, List.map_nil, List.foldl_cons, List.foldl_nil]
    obtain ⟨r, hr, hres⟩ := dwc_worker_scan relays active S W B download
      (dwc_range download.circuits.length nthreads m).1
      (dwc_range download.circuits.length nthreads m).2
    rw [hr, dwc_reduce_scan, hres]
    have hrange : dwc_range download.circuits.length nthreads m =
        (m * (download.circuits.length / nthreads),
          (m + 1) * (download.circuits.length / nthreads)) := by
      unfold dwc_range
      rw [if_neg (by omega)]
    rw [hrange]
    simp only
    have hle : dwc_key (dwc_scan W B
        (download.circuits.take (m * (download.circuits.length / nthreads)))) ≤
        dwc_key dwc_choice_init := dwc_scan_from_key_le W B _ _
    rw [dwc_merge_scan W B _ hle, dwc_scan_append]
    congr 2
    have e : (m + 1) * (download.circuits.length / nthreads) -
        m * (download.circuits.length / nthreads) = download.circuits.length / nthreads := by
      rw [Nat.add_one_mul]
      exact Nat.add_sub_cancel_left _ _
    rw [e, Nat.add_one_mul, List.take_add]

/-- The workers and the reduction select what one scan of the pool selects. -/
theorem dwc_select_scan (relays : GHashTable String Int) (active : GHashTable download_t Bool)
    (S : GHashTable download_t circuit_t) (W : GHashTable String ℚ) (B : GHashTable String Int)
    (download : download_t) (nthreads : Nat) (hT : 1 ≤ nthreads) :
    dwc_select relays active S W B download nthreads =
      some (dwc_scan W B download.circuits) := by
  obtain ⟨m, rfl⟩ : ∃ m, nthreads = m + 1 := ⟨nthreads - 1, by omega⟩
  unfold dwc_select dwc_workers
  rw [List.range_succ, List.map_append, List.foldl_append]
  have hpre := dwc_reduce_chunks relays active S W B download (m + 1) m (by omega)
  change List.foldl dwc_reduce (List.foldl dwc_reduce (some dwc_choice_init) _) _ = _
  rw [hpre]
  simp only [List.map_cons, List.map_nil, List.foldl_cons, List.foldl_nil]
  obtain ⟨r, hr, hres⟩ := dwc_worker_scan relays active S W B download
    (dwc_range download.circuits.length (m + 1) m).1
    (dwc_range download.circuits.length (m + 1) m).2
  rw [hr, dwc_reduce_scan, hres]
  have hrange : dwc_range download.circuits.length (m + 1) m =
      (m * (download.circuits.length / (m + 1)), download.circuits.length) := by
    unfold dwc_range
    rw [if_pos rfl]
  rw [hrange]
  simp only
  have hle : dwc_key (dwc_scan W B
      (download.circuits.take (m * (download.circuits.length / (m + 1))))) ≤
      dwc_key dwc_choice_init := dwc_scan_from_key_le W B _ _
  rw [dwc_merge_scan W B _ hle, dwc_scan_append]
  congr 2
  have e : (download.circuits.drop (m * (download.circuits.length / (m + 1)))).take
      (download.circuits.length - m * (download.circuits.length / (m + 1))) =
      download.circuits.drop (m * (download.circuits.length / (m + 1))) :=
    List.take_of_length_le (by simp)
  rw [e, List.take_append_drop]

/-- The scan of a list whose candidates are all before the starting values ends
with the first of the candidates that no other candidate is before. -/
theorem dwc_scan_first (W : GHashTable String ℚ) (B : GHashTable String Int)
    (l : List circuit_t) (hne : l ≠ [])
    (hw : ∀ c ∈ l, circuit_weight_of W c < G_MAXDOUBLE) :
    ∃ i c, l[i]? = some c ∧ dwc_scan W B l = dwc_candidate W B c ∧
      ∀ (j : Nat) (c' : circuit_t), l[j]? = some c' →
        dwc_key (dwc_candidate W B c) ≤ dwc_key (dwc_candidate W B c') ∧
        (j < i → dwc_key (dwc_candidate W B c) < dwc_key (dwc_candidate W B c')) := by
  induction l using List.reverseRecOn with
  | nil => exact absurd rfl hne
  | append_singleton l x ih =>
    have hx : dwc_key (dwc_candidate W B x) < dwc_key dwc_choice_init := by
      rw [dwc_key_lt]
      exact Or.inl (hw x (by simp))
    have hsnoc : dwc_scan W B (l ++ [x]) =
        dwc_merge (dwc_scan W B l) (dwc_candidate W B x) := by
      unfold dwc_scan dwc_scan_from
      rw [List.foldl_append]
      rfl
    by_cases hl : l = []
    · subst hl
      refine ⟨0, x, by simp, ?_, ?_⟩
      · rw [hsnoc]
        have : dwc_scan W B [] = dwc_choice_init := rfl
        rw [this, dwc_merge_eq, if_pos hx]
      · intro j c' hj
        cases j with
        | zero =>
          simp only [List.nil_append, List.getElem?_cons_zero, Option.some.injEq] at hj
          subst hj
          exact ⟨le_refl _, fun h => absurd h (by omega)⟩
        | succ j => simp at hj
    · obtain ⟨i, c, hi, hscan, hbest⟩ := ih hl (fun c hc => hw c (by simp [hc]))
      have hilt : i < l.length := by
        by_contra hcon
        rw [List.getElem?_eq_none (by omega)] at hi
        cases hi
      rw [hsnoc, hscan, dwc_merge_eq]
      by_cases hlt : dwc_key (dwc_candidate W B x) < dwc_key (dwc_candidate W B c)
      · rw [if_pos hlt]
        refine ⟨l.length, x, by simp, rfl, ?_⟩
        intro j c' hj
        by_cases hjl : j < l.length
        · rw [List.getElem?_append_left hjl] at hj
          have := (hbest j c' hj).1
          exact ⟨le_of_lt (lt_of_lt_of_le hlt this), fun _ => lt_of_lt_of_le hlt this⟩
        · rw [List.getElem?_append_right (by omega)] at hj
          have hj0 : j - l.length = 0 := by
            by_contra hcon
            rw [List.getElem?_eq_none (by simp; omega)] at hj
            cases hj
          rw [hj0] at hj
          simp only [List.getElem?_cons_zero, Option.some.injEq] at hj
          subst hj
          exact ⟨le_refl _, fun h => absurd h (by omega)⟩
      · rw [if_neg hlt]
        refine ⟨i, c, by rw [List.getElem?_append_left hilt]; exact hi, rfl, ?_⟩
        intro j c' hj
        by_cases hjl : j < l.length
        · rw [List.getElem?_append_left hjl] at hj
          exact hbest j c' hj
        · rw [List.getElem?_append_right (by omega)] at hj
          have hj0 : j - l.length = 0 := by
            by_contra hcon
            rw [List.getElem?_eq_none (by simp; omega)] at hj
            cases hj
          rw [hj0] at hj
          simp only [List.getElem?_cons_zero, Option.some.injEq] at hj
          subst hj
          exact ⟨not_lt.1 hlt, fun h => absurd h (by omega)⟩

/-- Claim C37. For every number of threads `T ≥ 1` the workers, each scanning its
chunk of the pool, and the reduction in the order of the chunks select what
the one worker of `T = 1` selects, the result of one scan of the whole pool;
and for a pool that is not empty, with candidate weights below `G_MAXDOUBLE`,
this is the candidate of the lowest index among those that no candidate is
before in the order of ascending weight, then descending bandwidth. -/
theorem dwc_thread_count (relays : GHashTable String Int)
    (active : GHashTable download_t Bool) (S : GHashTable download_t circuit_t)
    (W : GHashTable String ℚ) (B : GHashTable String Int) (download : download_t)
    (nthreads : Nat) (hT : 1 ≤ nthreads) :
    dwc_select relays active S W B download nthreads =
      dwc_select relays active S W B download 1 ∧
    dwc_select relays active S W B download nthreads =
      some (dwc_scan W B download.circuits) ∧
    (download.circuits ≠ [] →
      (∀ c ∈ download.circuits, circuit_weight_of W c < G_MAXDOUBLE) →
      ∃ i c, download.circuits[i]? = some c ∧
        dwc_select relays active S W B download nthreads = some (dwc_candidate W B c) ∧
        ∀ (j : Nat) (c' : circuit_t), download.circuits[j]? = some c' →
          dwc_before (circuit_weight_of W c) (circuit_available B c)
            (circuit_weight_of W c') (circuit_available B c') ∧
          (j < i → ¬ dwc_before (circuit_weight_of W c') (circuit_available B c')
            (circuit_weight_of W c) (circuit_available B c))) := by
  have h1 := dwc_select_scan relays active S W B download nthreads hT
  have h2 := dwc_select_scan relays active S W B download 1 (le_refl _)
  refine ⟨h1.trans h2.symm, h1, ?_⟩
  intro hne hw
  obtain ⟨i, c, hi, hscan, hbest⟩ := dwc_scan_first W B download.circuits hne hw
  refine ⟨i, c, hi, by rw [h1, hscan], ?_⟩
  intro j c' hj
  obtain ⟨k1, k2⟩ := hbest j c' hj
  refine ⟨(dwc_key_le _ _).1 k1, ?_⟩
  intro hji hbefore
  exact absurd ((dwc_key_le (dwc_candidate W B c') (dwc_candidate W B c)).2 hbefore)
    (not_le.2 (k2 hji))

/-- The choice among three candidates with two threads and with one. -/
theorem dwc_thread_count_witness :
    dwc_select relays_e [] [] [("g1", 1 / 50)] relays_e arrival_three 2 =
      dwc_select relays_e [] [] [("g1", 1 / 50)] relays_e arrival_three 1 ∧
    (dwc_select relays_e [] [] [("g1", 1 / 50)] relays_e arrival_three 2).map
        (fun choice => choice.best_circuit) =
      some (some (ex_circuit "g3" "m3" "x3-exit")) :=
  ⟨(dwc_thread_count relays_e [] [] [("g1", 1 / 50)] relays_e arrival_three 2 (by decide)).1,
    by decide!⟩
/-! ## The solve does not depend on the iteration order -/

theorem reordered_refl (st : solve_state) : reordered st st :=
  ⟨List.Perm.refl _, List.Perm.refl _, fun _ => List.Perm.refl _, rfl, rfl, rfl⟩

/-- A table in another order holds the same value for every key. -/
theorem lookup_perm {κ ν : Type} [DecidableEq κ] {t t' : GHashTable κ ν} (hp : t'.Perm t)
    (hn : (g_hash_table_get_keys t).Nodup) (k : κ) :
    g_hash_table_lookup t' k = g_hash_table_lookup t k := by
  have hn' : (g_hash_table_get_keys t').Nodup := (hp.map Prod.fst).nodup_iff.2 hn
  cases hl : g_hash_table_lookup t k with
  | some v => exact lookup_of_mem hn' (hp.mem_iff.2 (mem_of_lookup hl))
  | none =>
    cases hl' : g_hash_table_lookup t' k with
    | none => rfl
    | some v =>
      have := lookup_of_mem hn (hp.mem_iff.1 (mem_of_lookup hl'))
      rw [hl] at this
      cases this

theorem reordered_active {st st' : solve_state} (hr : reordered st st')
    (hn : (g_hash_table_get_keys st.active_relays).Nodup) (r : String) :
    g_hash_table_lookup st'.active_relays r = g_hash_table_lookup st.active_relays r :=
  lookup_perm hr.active hn r

theorem reordered_length {st st' : solve_state} (hr : reordered st st') (r : String) :
    (pending st'.relay_downloads r).length = (pending st.relay_downloads r).length :=
  (hr.downloads r).length_eq

theorem reordered_nil {st st' : solve_state} (hr : reordered st st') (r : String) :
    pending st'.relay_downloads r = [] ↔ pending st.relay_downloads r = [] := by
  constructor
  · intro h
    have := hr.downloads r
    rw [h] at this
    exact List.Perm.eq_nil this.symm
  · intro h
    have := hr.downloads r
    rw [h] at this
    exact List.Perm.eq_nil this

/-- The invariant of the main loop does not see the iteration order. -/
theorem solve_inv_reordered {A : List download_t} {relays : GHashTable String Int}
    {S : GHashTable download_t circuit_t} {st st' : solve_state}
    (hinv : solve_inv A relays S st) (hr : reordered st st') : solve_inv A relays S st' := by
  have hact := reordered_active hr hinv.tables.keys_active
  have hf := hr.fields
  refine ⟨⟨?_, ?_, ?_, ?_, ?_, ?_, ?_, ?_, ?_⟩, ?_, ?_, ?_, ?_, ?_⟩
  · exact (hr.active.map Prod.fst).nodup_iff.2 hinv.tables.keys_active
  · exact hr.relays.nodup_iff.2 hinv.tables.keys_pending
  · intro r L hL hnil
    have hp : pending st'.relay_downloads r = [] := by
      unfold pending
      rw [hL, hnil]
      rfl
    have hp0 := (reordered_nil hr r).1 hp
    have hk : r ∈ g_hash_table_get_keys st.relay_downloads :=
      hr.relays.mem_iff.1 (List.mem_map.2 ⟨(r, L), mem_of_lookup hL, rfl⟩)
    obtain ⟨e, he, hek⟩ := List.mem_map.1 hk
    obtain ⟨k0, L0⟩ := e
    simp only at hek
    subst hek
    have hl0 := lookup_of_mem hinv.tables.keys_pending he
    have hne := hinv.tables.nonempty k0 L0 hl0
    apply hne
    unfold pending at hp0
    rw [hl0] at hp0
    exact hp0
  · intro r
    exact (hr.downloads r).nodup_iff.2 (hinv.tables.pending_nodup r)
  · intro r d
    rw [(hr.downloads r).mem_iff, hf]
    exact hinv.tables.pending_mem r d
  · intro r v hv
    rw [hact r] at hv
    rw [hf]
    exact hinv.tables.residual r v hv
  · rw [hr.total, hf]
    exact hinv.tables.total
  · rw [hf]
    exact hinv.tables.fields_nodup
  · rw [hf]
    exact hinv.tables.fields_mem
  · intro e he r v hv hv0 hne
    rw [hf] at he
    rw [hact r] at hv
    rw [reordered_length hr r]
    exact hinv.below e he r v hv hv0 (fun h => hne ((reordered_nil hr r).2 h))
  · intro e he
    rw [hf] at he
    rw [hact]
    exact ⟨(hinv.drained e he).1, (reordered_nil hr _).2 (hinv.drained e he).2⟩
  · rw [hf]
    exact hinv.saturated
  · rw [hf]
    exact hinv.least
  · rw [hf]
    exact hinv.same

theorem positive_ok_reordered {A : List download_t} {relays : GHashTable String Int}
    {S : GHashTable download_t circuit_t} {st st' : solve_state}
    (hinv : solve_inv A relays S st) (hp : positive_ok relays S st) (hr : reordered st st') :
    positive_ok relays S st' := by
  refine ⟨?_, ?_, ?_⟩
  · intro r v hv
    rw [reordered_active hr hinv.tables.keys_active r] at hv
    exact hp.positive r v hv
  · rw [hr.fields]
    exact hp.within
  · rw [hr.fields]
    exact hp.nonneg

/-- The invariant only asks which downloads are active. -/
theorem solve_inv_perm {A A' : List download_t} {relays : GHashTable String Int}
    {S : GHashTable download_t circuit_t} {st : solve_state}
    (hmem : ∀ d, d ∈ A' ↔ d ∈ A) (hinv : solve_inv A' relays S st) :
    solve_inv A relays S st := by
  refine ⟨⟨hinv.tables.keys_active, hinv.tables.keys_pending, hinv.tables.nonempty,
    hinv.tables.pending_nodup, ?_, hinv.tables.residual, hinv.tables.total,
    hinv.tables.fields_nodup, ?_⟩, hinv.below, hinv.drained, hinv.saturated, hinv.least,
    hinv.same⟩
  · intro r d
    rw [hinv.tables.pending_mem r d, hmem d]
  · intro e he
    obtain ⟨h1, h2⟩ := hinv.tables.fields_mem e he
    exact ⟨(hmem _).1 h1, h2⟩

/-- A run under some iteration order keeps the invariant of the loop. -/
theorem solve_run_inv {A : List download_t} {relays : GHashTable String Int}
    {S : GHashTable download_t circuit_t} {st0 st : solve_state} (hrun : solve_run S st0 st) :
    solve_inv A relays S st0 → positive_ok relays S st0 →
      solve_inv A relays S st ∧ positive_ok relays S st := by
  induction hrun with
  | done st _ => exact fun hinv hp => ⟨hinv, hp⟩
  | round st st1 st2 st3 _ hr hround _ ih =>
    intro hinv hp
    have hinv1 := solve_inv_reordered hinv hr
    have hp1 := positive_ok_reordered hinv hp hr
    exact ih (solve_round_inv hinv1 hround) ((solve_round_extra hinv1 hround).1 hp1)

/-- The rounds of the source are a run. -/
theorem solve_rounds_run {S : GHashTable download_t circuit_t} (k : Nat) :
    ∀ st0 st, solve_rounds S k st0 = some st →
      ¬ (0 < g_hash_table_size st.active_relays ∧ 0 < g_hash_table_size st.relay_downloads) →
      solve_run S st0 st := by
  induction k with
  | zero =>
    intro st0 st h hc
    simp only [solve_rounds, Option.some.injEq] at h
    subst h
    exact solve_run.done _ hc
  | succ k ih =>
    intro st0 st h hc
    rw [solve_rounds] at h
    split_ifs at h with hc0
    cases h1 : solve_round S st0 with
    | none => simp [h1] at h
    | some st1 =>
      simp only [h1, Option.some_bind] at h
      exact solve_run.round st0 st0 st1 st hc0 (reordered_refl st0) h1 (ih st1 st h hc)

/-- What a run leaves behind when no relay has a download left. -/
theorem solve_outcome_final {A : List download_t} {relays : GHashTable String Int}
    {S : GHashTable download_t circuit_t} {fields : List (download_t × ℚ × String)}
    {total : ℚ} (h : solve_outcome A relays S fields total)
    (hcap : ∀ d ∈ A, ∀ r, on_relay S r d = true → 0 < relay_capacity relays r) :
    ∃ st, solve_inv A relays S st ∧ positive_ok relays S st ∧ st.fields = fields ∧
      st.total_bandwidth = total ∧ ∀ d ∈ A, d ∈ st.fields.map Prod.fst := by
  obtain ⟨order, t, w, st, hperm, hbuild, hrun, hempty, hf, ht⟩ := h
  have hmem : ∀ d, d ∈ order ↔ d ∈ A := fun d => hperm.mem_iff
  have hok := build_relay_tables_ok hbuild
  have hinv0 : solve_inv order relays S (solve_init t w) := solve_inv_init hbuild w
  have hp0 : positive_ok relays S (solve_init t w) := by
    refine ⟨?_, ?_, ?_⟩
    · intro r v hv
      have hv' : g_hash_table_lookup t.2 r = some v := hv
      rw [hok.capacity r v hv']
      obtain ⟨d, hd⟩ := List.exists_mem_of_ne_nil _ (hok.used r v hv')
      obtain ⟨h1, h2⟩ := (hok.pending_mem r d).1 hd
      exact_mod_cast hcap d ((hmem d).1 h1) r h2
    · intro r
      simp [relay_usage, solve_init]
    · intro e he
      simp [solve_init] at he
  obtain ⟨hinv, hp⟩ := solve_run_inv hrun hinv0 hp0
  refine ⟨st, solve_inv_perm hmem hinv, hp, hf, ht, ?_⟩
  intro d hd
  by_contra hnot
  obtain ⟨c, hc⟩ := hok.selected d ((hmem d).2 hd)
  have hon : on_relay S c.guard d = true :=
    (on_relay_of_lookup hc _).2 ((mem_circuit_relays c _).2 (Or.inl rfl))
  have hpd : d ∈ pending st.relay_downloads c.guard :=
    (hinv.tables.pending_mem c.guard d).2 ⟨(hmem d).2 hd, hon, hnot⟩
  obtain ⟨L, hL, _⟩ := pending_ne_nil (List.ne_nil_of_mem hpd)
  apply hempty
  unfold g_hash_table_size
  exact List.length_pos_of_mem (mem_of_lookup hL)

/-- The fairness argument for the state with which a run ends. -/
theorem fair_state {A : List download_t} {relays : GHashTable String Int}
    {S : GHashTable download_t circuit_t} {st : solve_state}
    (hinv : solve_inv A relays S st) (hall : ∀ d ∈ A, d ∈ st.fields.map Prod.fst)
    (y : download_t → ℚ)
    (hy : ∀ r, (∃ d ∈ A, on_relay S r d = true) →
      ∑ d ∈ A.toFinset.filter (fun d => on_relay S r d = true), y d
        ≤ (relay_capacity relays r : ℚ))
    (d : download_t) (hd : d ∈ A) (hgt : bandwidth_of st.fields d < y d) :
    ∃ d' ∈ A, bandwidth_of st.fields d' ≤ bandwidth_of st.fields d ∧
      y d' < bandwidth_of st.fields d' := by
  have hd := hall d hd
  obtain ⟨e, he, rfl⟩ := List.mem_map.1 hd
  have hn := hinv.tables.fields_nodup
  obtain ⟨hbw, _⟩ := fields_entry hn he
  obtain ⟨hA, hon⟩ := hinv.tables.fields_mem e he
  have hsat := hinv.saturated e he
  rw [relay_usage_eq_sum hinv.tables e.2.2] at hsat
  have hmemF : e.1 ∈ A.toFinset.filter (fun d => on_relay S e.2.2 d = true) :=
    Finset.mem_filter.2 ⟨List.mem_toFinset.2 hA, hon⟩
  by_contra hcon
  push_neg at hcon
  have hle : ∀ d' ∈ A.toFinset.filter (fun d => on_relay S e.2.2 d = true),
      bandwidth_of st.fields d' ≤ y d' := by
    intro d' hd'
    obtain ⟨h1, h2⟩ := Finset.mem_filter.1 hd'
    have h1' : d' ∈ A := List.mem_toFinset.1 h1
    obtain ⟨e', he', rfl⟩ := List.mem_map.1 (hall d' h1')
    obtain ⟨hbw', _⟩ := fields_entry hn he'
    have hlt := hinv.least e he e' he' h2
    apply hcon e'.1 h1'
    rw [hbw', hbw]
    exact hlt
  have hlt : ∑ d' ∈ A.toFinset.filter (fun d => on_relay S e.2.2 d = true),
      bandwidth_of st.fields d' <
      ∑ d' ∈ A.toFinset.filter (fun d => on_relay S e.2.2 d = true), y d' :=
    Finset.sum_lt_sum hle ⟨e.1, hmemF, hgt⟩
  have := hy e.2.2 ⟨e.1, hA, hon⟩
  linarith

/-- The bandwidths that a run leaves respect the capacity of every relay in
use. -/
theorem feasible_state {A : List download_t} {relays : GHashTable String Int}
    {S : GHashTable download_t circuit_t} {st : solve_state}
    (hinv : solve_inv A relays S st) (hp : positive_ok relays S st)
    (hcap : ∀ d ∈ A, ∀ r, on_relay S r d = true → 0 < relay_capacity relays r) :
    ∀ r, (∃ d ∈ A, on_relay S r d = true) →
      ∑ d ∈ A.toFinset.filter (fun d => on_relay S r d = true), bandwidth_of st.fields d
        ≤ (relay_capacity relays r : ℚ) := by
  intro r ⟨d, hd, hon⟩
  rw [← relay_usage_eq_sum hinv.tables r]
  have h := hp.within r
  have hc : (0 : ℚ) < (relay_capacity relays r : ℚ) := by exact_mod_cast hcap d hd r hon
  rwa [max_eq_left (le_of_lt hc)] at h

/-- Two allocations that are both fair against every allocation within the
capacities, and both within the capacities, are the same. -/
theorem fair_unique {A : List download_t} (x x' : download_t → ℚ)
    (h1 : ∀ d ∈ A, x d < x' d → ∃ d' ∈ A, x d' ≤ x d ∧ x' d' < x d')
    (h2 : ∀ d ∈ A, x' d < x d → ∃ d' ∈ A, x' d' ≤ x' d ∧ x d' < x' d') :
    ∀ d ∈ A, x d = x' d := by
  by_contra hcon
  push_neg at hcon
  obtain ⟨d0, hd0, hne0⟩ := hcon
  have hD : (A.toFinset.filter (fun d => x d ≠ x' d)).Nonempty :=
    ⟨d0, Finset.mem_filter.2 ⟨List.mem_toFinset.2 hd0, hne0⟩⟩
  obtain ⟨d, hd, hmin⟩ := Finset.exists_min_image _ (fun d => min (x d) (x' d)) hD
  obtain ⟨hdA, hne⟩ := Finset.mem_filter.1 hd
  have hdA' : d ∈ A := List.mem_toFinset.1 hdA
  rcases lt_or_gt_of_ne hne with hlt | hgt
  · obtain ⟨d', hd', k1, k2⟩ := h1 d hdA' hlt
    have hmem : d' ∈ A.toFinset.filter (fun d => x d ≠ x' d) :=
      Finset.mem_filter.2 ⟨List.mem_toFinset.2 hd', ne_of_gt k2⟩
    have := hmin d' hmem
    simp only at this
    rw [min_eq_left (le_of_lt hlt), min_eq_right (le_of_lt k2)] at this
    linarith
  · obtain ⟨d', hd', k1, k2⟩ := h2 d hdA' hgt
    have hmem : d' ∈ A.toFinset.filter (fun d => x d ≠ x' d) :=
      Finset.mem_filter.2 ⟨List.mem_toFinset.2 hd', ne_of_lt k2⟩
    have := hmin d' hmem
    simp only at this
    rw [min_eq_right (le_of_lt hgt), min_eq_left (le_of_lt k2)] at this
    linarith

/-- Two outcomes of the solve, under whatever iteration orders, give every
download the same bandwidth and return the same total. -/
theorem solve_outcome_unique {A : List download_t} {relays : GHashTable String Int}
    {S : GHashTable download_t circuit_t}
    (hcap : ∀ d ∈ A, ∀ r, on_relay S r d = true → 0 < relay_capacity relays r)
    {fields1 fields2 : List (download_t × ℚ × String)} {total1 total2 : ℚ}
    (h1 : solve_outcome A relays S fields1 total1)
    (h2 : solve_outcome A relays S fields2 total2) :
    (∀ d, bandwidth_of fields1 d = bandwidth_of fields2 d) ∧ total1 = total2 := by
  obtain ⟨st1, hinv1, hp1, hf1, ht1, hall1⟩ := solve_outcome_final h1 hcap
  obtain ⟨st2, hinv2, hp2, hf2, ht2, hall2⟩ := solve_outcome_final h2 hcap
  have hfeas1 := feasible_state hinv1 hp1 hcap
  have hfeas2 := feasible_state hinv2 hp2 hcap
  have hA : ∀ d ∈ A, bandwidth_of st1.fields d = bandwidth_of st2.fields d :=
    fair_unique (bandwidth_of st1.fields) (bandwidth_of st2.fields)
      (fun d hd hlt => fair_state hinv1 hall1 _ hfeas2 d hd hlt)
      (fun d hd hlt => fair_state hinv2 hall2 _ hfeas1 d hd hlt)
  have hbw : ∀ d, bandwidth_of st1.fields d = bandwidth_of st2.fields d := by
    intro d
    by_cases hd : d ∈ A
    · exact hA d hd
    · have n1 : d ∉ st1.fields.map Prod.fst := by
        intro hm
        obtain ⟨e, he, rfl⟩ := List.mem_map.1 hm
        exact hd (hinv1.tables.fields_mem e he).1
      have n2 : d ∉ st2.fields.map Prod.fst := by
        intro hm
        obtain ⟨e, he, rfl⟩ := List.mem_map.1 hm
        exact hd (hinv2.tables.fields_mem e he).1
      rw [bandwidth_of_not_mem n1, bandwidth_of_not_mem n2]
  refine ⟨by rw [← hf1, ← hf2]; exact hbw, ?_⟩
  have hsum : ∀ st : solve_state, solve_inv A relays S st →
      st.total_bandwidth = ∑ d ∈ A.toFinset, bandwidth_of st.fields d := by
    intro st hinv
    rw [hinv.tables.total]
    have := sum_fields_active (A := A) st.fields hinv.tables.fields_nodup
      (fun e he => (hinv.tables.fields_mem e he).1) (fun _ => true)
    simpa using this
  rw [← ht1, ← ht2, hsum st1 hinv1, hsum st2 hinv2]
  exact Finset.sum_congr rfl (fun d hd => hA d (List.mem_toFinset.1 hd))

/-- What `compute_download_bandwidths` returns is one of the outcomes. -/
theorem compute_download_bandwidths_outcome {A : List download_t}
    {relays : GHashTable String Int} {S : GHashTable download_t circuit_t}
    {w : Option (GHashTable String ℚ)} {ab : Option (GHashTable String Int)}
    {res : solve_result} (h : compute_download_bandwidths A relays S w ab = some res) :
    solve_outcome A relays S res.fields res.total_bandwidth := by
  unfold compute_download_bandwidths at h
  split at h
  · cases h
  rename_i rd a hbuild
  dsimp only at h
  split at h
  · cases h
  rename_i st hloop
  split at h
  · cases h
  rename_i hempty
  cases h
  obtain ⟨k, _, hk, hcond⟩ := solve_loop_rounds _ _ _ hloop
  exact ⟨A, (rd, a), w, st, List.Perm.refl _, hbuild, solve_rounds_run k _ _ hk hcond, hempty,
    rfl, rfl⟩
theorem solve_outcome_perm {A A' : List download_t} {relays : GHashTable String Int}
    {S : GHashTable download_t circuit_t} {fields : List (download_t × ℚ × String)}
    {total : ℚ} (hp : A'.Perm A) (h : solve_outcome A' relays S fields total) :
    solve_outcome A relays S fields total := by
  obtain ⟨order, t, w, st, hperm, rest⟩ := h
  exact ⟨order, t, w, st, hperm.trans hp, rest⟩

/-- A pass of the loop of `compute_total_bandwidth` ends in the same state under
every iteration order. -/
theorem tick_outcome_unique {relays : GHashTable String Int}
    {S : GHashTable download_t circuit_t} {dbt : GHashTable Int (List download_t)}
    (hcap : ∀ d r, on_relay S r d = true → 0 < relay_capacity relays r)
    {st st1 st2 : integrate_state} {tick : Int}
    (h1 : tick_outcome relays S dbt st tick st1) (h2 : tick_outcome relays S dbt st tick st2) :
    st1 = st2 := by
  obtain ⟨a1, f1, b1, ha1, ho1, e1⟩ := h1
  obtain ⟨a2, f2, b2, ha2, ho2, e2⟩ := h2
  rw [ha1] at ha2
  simp only [Option.some.injEq] at ha2
  subst ha2
  have := (solve_outcome_unique (fun d _ r hr => hcap d r hr) ho1 ho2).2
  subst this
  rw [e1, e2]

theorem integrate_run_unique {relays : GHashTable String Int}
    {S : GHashTable download_t circuit_t} {dbt : GHashTable Int (List download_t)}
    (hcap : ∀ d r, on_relay S r d = true → 0 < relay_capacity relays r)
    {st0 st1 : integrate_state} {ticks : List Int}
    (h1 : integrate_run relays S dbt st0 ticks st1) :
    ∀ st2, integrate_run relays S dbt st0 ticks st2 → st1 = st2 := by
  induction h1 with
  | nil st =>
    intro st2 h2
    cases h2
    rfl
  | cons st sta stb tick ticks hstep _ ih =>
    intro st2 h2
    cases h2 with
    | cons _ sta' _ _ _ hstep' hrun' =>
      have := tick_outcome_unique hcap hstep hstep'
      subst this
      exact ih st2 hrun'

/-- The loop of `compute_total_bandwidth` is one of the runs. -/
theorem tick_step_run (relays : GHashTable String Int) (S : GHashTable download_t circuit_t)
    (dbt : GHashTable Int (List download_t)) (ticks : List Int) :
    ∀ st0 st, ticks.foldl (tick_step relays S dbt) (some st0) = some st →
      integrate_run relays S dbt st0 ticks st := by
  induction ticks with
  | nil =>
    intro st0 st h
    simp only [List.foldl_nil, Option.some.injEq] at h
    subst h
    exact integrate_run.nil _
  | cons t ticks ih =>
    intro st0 st h
    rw [List.foldl_cons] at h
    cases h1 : tick_step relays S dbt (some st0) t with
    | none =>
      rw [h1, tick_step_none] at h
      cases h
    | some st1 =>
      rw [h1] at h
      refine integrate_run.cons st0 st1 st t ticks ?_ (ih st1 st h)
      unfold tick_step at h1
      simp only at h1
      cases h2 : tick_active S dbt st0.active_downloads t with
      | none => simp [h2] at h1
      | some a =>
        simp only [h2] at h1
        cases h3 : compute_download_bandwidths (g_hash_table_get_keys a) relays S none none with
        | none => simp [h3] at h1
        | some res =>
          simp only [h3, Option.some.injEq] at h1
          exact ⟨a, res.fields, res.total_bandwidth, h2,
            compute_download_bandwidths_outcome h3, h1.symm⟩

/-- The bandwidth read from whole-number fields is a whole number. -/
theorem bandwidth_of_whole {fields : List (download_t × ℚ × String)}
    (h : whole_fields fields) (d : download_t) :
    ∃ n : Int, bandwidth_of fields d = (n : ℚ) := by
  unfold bandwidth_of
  cases hl : g_hash_table_lookup fields d with
  | none => exact ⟨0, by simp⟩
  | some p => exact h (d, p) (mem_of_lookup hl)

/-- C36, amended. Over relays of positive capacity, in exact arithmetic what
`compute_download_bandwidths` leaves behind when it returns is the same under
every iteration order of the active set and of the scratch tables, that is,
however the ties of the search for the bottleneck fall; the binary64 results
of the program follow these values up to rounding, and are these values when
the bandwidths assigned are whole numbers, since no operation then rounds. So
when an order gives whole-number bandwidths, every order gives every download
the same bandwidth and returns the same total, and so do the calls in
binary64 on the active set in two orders (at most a million downloads,
capacities within `gint`); and when the solves of all ticks of a timeline give
whole-number bandwidths, the value of `compute_total_bandwidth`, the fitness,
is the same under every iteration order of every solve. The function itself
is one of these runs. -/
theorem order_independence (relays : GHashTable String Int)
    (S : GHashTable download_t circuit_t)
    (hcap : ∀ d r, on_relay S r d = true → 0 < relay_capacity relays r) :
    (∀ A w ab res, compute_download_bandwidths A relays S w ab = some res →
      solve_outcome A relays S res.fields res.total_bandwidth) ∧
    (∀ A fields1 total1 fields2 total2,
      solve_outcome A relays S fields1 total1 → solve_outcome A relays S fields2 total2 →
      whole_fields fields1 →
      (∀ d, bandwidth_of fields1 d = bandwidth_of fields2 d) ∧ total1 = total2) ∧
    (∀ (A A' : List download_t) w ab w' ab' res res', A'.Perm A →
      compute_download_bandwidths A relays S w ab = some res →
      compute_download_bandwidths A' relays S w' ab' = some res' →
      whole_fields res.fields →
      (∀ d, bandwidth_of res.fields d = bandwidth_of res'.fields d) ∧
        res.total_bandwidth = res'.total_bandwidth) ∧
    (∀ (A A' : List download_t) w ab w' ab' res res', A'.Perm A → A.length ≤ 1000000 →
      (∀ d ∈ A, ∀ r, on_relay S r d = true → relay_capacity relays r ≤ 2147483647) →
      compute_download_bandwidths A relays S w ab = some res →
      compute_download_bandwidths A' relays S w' ab' = some res' →
      whole_fields res.fields →
      ∃ res2 res2', Binary64.compute_download_bandwidths A relays S w ab = some res2 ∧
        Binary64.compute_download_bandwidths A' relays S w' ab' = some res2' ∧
        (∀ d, bandwidth_of res2.fields d = bandwidth_of res2'.fields d) ∧
        res2.total_bandwidth = res2'.total_bandwidth) ∧
    (∀ downloads dbt ticks v,
      compute_total_bandwidth downloads relays S dbt ticks = some v →
      ∃ st, integrate_run relays S dbt integrate_init ticks st ∧ st.total_bandwidth = v) ∧
    (∀ dbt ticks st1 st2,
      (∀ n a fields total, active_after S dbt (ticks.take n) = some a →
        solve_outcome (g_hash_table_get_keys a) relays S fields total → whole_fields fields) →
      integrate_run relays S dbt integrate_init ticks st1 →
      integrate_run relays S dbt integrate_init ticks st2 →
      st1.total_bandwidth = st2.total_bandwidth) := by
  have key : ∀ (A A' : List download_t) w ab w' ab' res res', A'.Perm A →
      compute_download_bandwidths A relays S w ab = some res →
      compute_download_bandwidths A' relays S w' ab' = some res' →
      (∀ d, bandwidth_of res.fields d = bandwidth_of res'.fields d) ∧
        res.total_bandwidth = res'.total_bandwidth := by
    intro A A' w ab w' ab' res res' hp h h'
    exact solve_outcome_unique (fun d _ r hr => hcap d r hr)
      (compute_download_bandwidths_outcome h)
      (solve_outcome_perm hp (compute_download_bandwidths_outcome h'))
  refine ⟨?_, ?_, ?_, ?_, ?_, ?_⟩
  · intro A w ab res h
    exact compute_download_bandwidths_outcome h
  · intro A f1 t1 f2 t2 h1 h2 _
    exact solve_outcome_unique (fun d _ r hr => hcap d r hr) h1 h2
  · intro A A' w ab w' ab' res res' hp h h' _
    exact key A A' w ab w' ab' res res' hp h h'
  · intro A A' w ab w' ab' res res' hp hA hmax h h' hw
    obtain ⟨k1, k2⟩ := key A A' w ab w' ab' res res' hp h h'
    have hw' : whole_fields res'.fields := by
      apply whole_fields_of_bandwidth h'
      intro d _
      rw [← k1 d]
      exact bandwidth_of_whole hw d
    obtain ⟨res2, b1, b2, _, b4⟩ := compute_download_bandwidths_whole w ab
      (by
        intro d hd r hr
        have := hcap d r hr
        have := hmax d hd r hr
        omega)
      hA h hw
    obtain ⟨res2', c1, c2, _, c4⟩ := compute_download_bandwidths_whole w' ab'
      (by
        intro d hd r hr
        have := hcap d r hr
        have := hmax d (hp.subset hd) r hr
        omega)
      (by rw [hp.length_eq]; exact hA) h' hw'
    refine ⟨res2, res2', b1, c1, ?_, ?_⟩
    · intro d
      rw [b4, c4]
      exact k1 d
    · rw [b2, c2]
      exact k2
  · intro downloads dbt ticks v h
    unfold compute_total_bandwidth at h
    cases hf : ticks.foldl (tick_step relays S dbt) (some integrate_init) with
    | none => simp [hf] at h
    | some st =>
      simp only [hf, Option.map_some', Option.some.injEq] at h
      exact ⟨st, tick_step_run relays S dbt ticks _ _ hf, h⟩
  · intro dbt ticks st1 st2 _ h1 h2
    rw [integrate_run_unique hcap h1 st2 h2]

/-- C36 on the three downloads of `downloads_half` over `relays_even`, where
the relays `a` and `b` tie at the share 1: walked in the reverse order the
second download has the other bottleneck, and every bandwidth and the total
are the same, in exact arithmetic and in binary64. -/
theorem order_independence_witness :
    compute_download_bandwidths downloads_half relays_even selection_half none none =
      some result_even ∧
    compute_download_bandwidths downloads_half.reverse relays_even selection_half none none =
      some result_even_reverse ∧
    Binary64.compute_download_bandwidths downloads_half relays_even selection_half none none =
      some result_even ∧
    Binary64.compute_download_bandwidths downloads_half.reverse relays_even selection_half
      none none = some result_even_reverse ∧
    whole_fields result_even.fields ∧
    bottleneck_of result_even.fields (ex_short 2) = some "a" ∧
    bottleneck_of result_even_reverse.fields (ex_short 2) = some "b" ∧
    (∀ d, bandwidth_of result_even.fields d = bandwidth_of result_even_reverse.fields d) ∧
    result_even.total_bandwidth = result_even_reverse.total_bandwidth :=
  have hw : whole_fields result_even.fields := by
    intro e he
    simp only [result_even, List.mem_cons, List.mem_singleton, List.not_mem_nil,
      or_false] at he
    rcases he with rfl | rfl | rfl
    · exact ⟨1, by norm_num⟩
    · exact ⟨1, by norm_num⟩
    · exact ⟨1, by norm_num⟩
  ⟨by decide!, by decide!, by decide!, by decide!, hw, by decide, by decide,
    (order_independence relays_even selection_half
      (by
        intro d r hr
        unfold on_relay at hr
        cases hl : g_hash_table_lookup selection_half d with
        | none => simp [hl] at hr
        | some c =>
          simp only [hl, decide_eq_true_eq] at hr
          have hmem := mem_of_lookup hl
          simp only [selection_half, List.mem_cons, Prod.mk.injEq, List.mem_singleton,
            List.not_mem_nil, or_false] at hmem
          rcases hmem with ⟨_, e⟩ | ⟨_, e⟩ | ⟨_, e⟩ <;> subst e <;>
            (rw [mem_circuit_relays] at hr
             rcases hr with e | e | e <;> subst e <;> decide)
      )).2.2.1 downloads_half downloads_half.reverse none none none none
      result_even result_even_reverse (List.reverse_perm _) (by decide!) (by decide!) hw⟩

/-! ## The integration in binary64 -/

theorem tick_step_none_binary64 (relays : GHashTable String Int)
    (S : GHashTable download_t circuit_t) (dbt : GHashTable Int (List download_t))
    (l : List Int) :
    l.foldl (Binary64.tick_step relays S dbt) none = none := by
  induction l with
  | nil => rfl
  | cons t l ih => simpa [List.foldl_cons, Binary64.tick_step] using ih

theorem integration_term_append (relays : GHashTable String Int)
    (S : GHashTable download_t circuit_t) (dbt : GHashTable Int (List download_t))
    (q : List Int) (t : Int) (i : Nat) (hi : i + 1 < q.length) :
    Binary64.integration_term relays S dbt (q ++ [t]) i =
      Binary64.integration_term relays S dbt q i := by
  unfold Binary64.integration_term
  rw [List.take_append_of_le_length (by omega), List.getD_append q [t] 0 i (by omega),
    List.getD_append q [t] 0 (i + 1) (by omega)]

/-- The state of the loop of `compute_total_bandwidth` after the ticks `p`. -/
theorem integrate_fold_binary64 (relays : GHashTable String Int)
    (S : GHashTable download_t circuit_t) (dbt : GHashTable Int (List download_t))
    (p : List Int) :
    (∀ t ∈ p, t ≠ -1) → ∀ st,
      p.foldl (Binary64.tick_step relays S dbt) (some integrate_init) = some st →
      active_after S dbt p = some st.active_downloads ∧
      st.total_bandwidth = Binary64.integration_formula relays S dbt p ∧
      (p = [] → st = integrate_init) ∧
      (p ≠ [] → st.last_tick = p.getD (p.length - 1) 0 ∧
        ∃ B, Binary64.steady_total relays S dbt p = some B ∧
          st.last_bandwidth = gint_of_gdouble B) := by
  induction p using List.reverseRecOn with
  | nil =>
    intro _ st h
    simp only [List.foldl_nil, Option.some.injEq] at h
    subst h
    refine ⟨rfl, ?_, fun _ => rfl, fun hne => absurd rfl hne⟩
    simp [Binary64.integration_formula, integrate_init]
  | append_singleton q t ih =>
    intro hp st h
    rw [List.foldl_append, List.foldl_cons, List.foldl_nil] at h
    cases hq : q.foldl (Binary64.tick_step relays S dbt) (some integrate_init) with
    | none =>
      rw [hq] at h
      simp [Binary64.tick_step] at h
    | some sq =>
      rw [hq] at h
      obtain ⟨i1, i2, i3, i4⟩ := ih (fun t' ht' => hp t' (List.mem_append_left _ ht')) sq hq
      unfold Binary64.tick_step at h
      dsimp only at h
      split at h
      · cases h
      rename_i a ha
      split at h
      · cases h
      rename_i res hres
      cases h
      have hact : active_after S dbt (q ++ [t]) = some a := by
        unfold active_after at i1 ⊢
        rw [List.foldl_append, i1]
        simp [ha]
      have hB : Binary64.steady_total relays S dbt (q ++ [t]) = some res.total_bandwidth := by
        unfold Binary64.steady_total
        rw [hact]
        simp [hres]
      refine ⟨hact, ?_, fun he => absurd he (by simp), fun _ => ⟨?_, res.total_bandwidth, hB, rfl⟩⟩
      · by_cases hqe : q = []
        · subst hqe
          rw [i3 rfl]
          simp [integrate_init, Binary64.integration_formula]
        · obtain ⟨j1, B, j2, j3⟩ := i4 hqe
          have hlen : 0 < q.length := List.length_pos.2 hqe
          have hlast : q.getD (q.length - 1) 0 ∈ q := by
            rw [List.getD_eq_getElem q 0 (by omega)]
            exact List.getElem_mem _
          have hne1 : sq.last_tick ≠ -1 := by
            rw [j1]
            exact hp _ (List.mem_append_left _ hlast)
          simp only [hne1, ne_eq, not_false_eq_true, if_true]
          unfold Binary64.integration_formula at i2 ⊢
          have hl : (q ++ [t]).length - 1 = (q.length - 1) + 1 := by
            simp only [List.length_append, List.length_singleton]
            omega
          rw [hl, List.range_succ, List.foldl_append, List.foldl_cons, List.foldl_nil]
          have hpre : (List.range (q.length - 1)).foldl
              (fun total i => gdouble_add total
                (Binary64.integration_term relays S dbt (q ++ [t]) i)) 0 =
              (List.range (q.length - 1)).foldl
              (fun total i => gdouble_add total
                (Binary64.integration_term relays S dbt q i)) 0 := by
            apply List.foldl_ext
            intro acc i hi
            rw [integration_term_append relays S dbt q t i
              (by have := List.mem_range.1 hi; omega)]
          rw [hpre, ← i2]
          congr 1
          unfold Binary64.integration_term
          have e1 : q.length - 1 + 1 = q.length := by omega
          rw [e1, List.take_append_of_le_length (le_refl _), List.take_length,
            List.getD_append q [t] 0 (q.length - 1) (by omega),
            List.getD_append_right q [t] 0 q.length (le_refl _), j2, j1, j3]
          simp
      · simp

/-- C3, counterexample: with three downloads whose steady-state total is 3/2
over the one interval from tick 0 to tick 1000, the claimed sum is
3/2 * 1000 / 1000 = 3/2, and `compute_total_bandwidth` returns 1. No operation
of this run rounds: the shares are 1/2. -/
theorem integration_counterexample :
    Binary64.compute_total_bandwidth downloads_half relays_half selection_half
        (generate_downloads_by_tick downloads_half)
        (sorted_ticks (generate_downloads_by_tick downloads_half)) = some 1 ∧
      sorted_ticks (generate_downloads_by_tick downloads_half) = [0, 1000] ∧
      Binary64.steady_total relays_half selection_half
        (generate_downloads_by_tick downloads_half) [0] = some (3 / 2) ∧
      (3 / 2 : ℚ) * ((1000 - 0 : Int) : ℚ) / 1000 ≠ 1 := by
  refine ⟨by decide!, by decide!, by decide!, by norm_num⟩

/-- C3, amended: for every list of ticks other than -1 (the value the loop
keeps for "no tick yet") on which `compute_total_bandwidth` returns, the value
returned is the sum, taken in binary64 from the first interval to the last, of
the terms `B(t_{i-1}) * (t_i - t_{i-1}) / 1000.0` of the consecutive ticks, in
which `B`, the total returned by the steady-state solve for the active set
after tick `t_{i-1}`, is first cut to an integer `gint` (to `G_MININT` when
it is outside `gint`, as the conversion of x86-64 does), the difference and
the product are taken in 32-bit `gint` arithmetic and the quotient in
binary64; the first tick adds nothing. -/
theorem integration_sum (downloads : List download_t) (relays : GHashTable String Int)
    (S : GHashTable download_t circuit_t) (dbt : GHashTable Int (List download_t))
    (ticks : List Int) (v : ℚ) (hticks : ∀ t ∈ ticks, t ≠ -1)
    (h : Binary64.compute_total_bandwidth downloads relays S dbt ticks = some v) :
    v = Binary64.integration_formula relays S dbt ticks := by
  unfold Binary64.compute_total_bandwidth at h
  obtain ⟨st, hst, rfl⟩ := Option.map_eq_some'.1 h
  exact (integrate_fold_binary64 relays S dbt ticks hticks st hst).2.1

/-- C3 on the six downloads of `downloads_tie` over the one interval from tick
0 to tick 1000: the steady-state total, the binary64 sum of six shares of 1/3,
is a little under 2, its `gint` is 1, and the value returned is the one term
1 * 1000 / 1000. -/
theorem integration_sum_witness :
    Binary64.steady_total relays_tie selection_tie
        (generate_downloads_by_tick downloads_tie) [0] =
      some (9007199254740991 / 4503599627370496) ∧
    Binary64.integration_formula relays_tie selection_tie
      (generate_downloads_by_tick downloads_tie) [0, 1000] = 1 ∧
    (1 : ℚ) = Binary64.integration_formula relays_tie selection_tie
      (generate_downloads_by_tick downloads_tie) [0, 1000] :=
  ⟨by decide!, by decide!,
    integration_sum downloads_tie relays_tie selection_tie
      (generate_downloads_by_tick downloads_tie) [0, 1000] 1 (by decide) (by decide!)⟩

/-! ## Runs of the solve in binary64 -/

/-- C29, the failing run: three relays of capacity 2000000000 and 26 downloads
on their circuit, an input within the claim. The share 2000000000 / 26 is not
a binary64 value. The first pass finds the bottleneck `g`, sets its residual
to the binary64 product of the share and 26, and subtracts the share 26 times
in binary64: what remains is 17/16777216, about 0.00000101, which is not below
the tolerance 0.000001 of `update_relays`. The relay is still active after its
downloads were assigned, the check of line 712 raises `g_error`, and the call
does not return. In exact arithmetic the residual is 0 and the call returns
2000000000. -/
theorem solver_safety_rounding :
    (∀ r ∈ circuit_relays (ex_circuit "g" "m" "x-exit"),
      relay_capacity relays_large r = 2000000000) ∧
    build_relay_tables (downloads_crowd 26) relays_large (selection_same (downloads_crowd 26)) =
      some ((crowd_large_init 26).relay_downloads, (crowd_large_init 26).active_relays) ∧
    (Binary64.find_bottleneck (crowd_large_init 26).relay_downloads
      (crowd_large_init 26).active_relays).bottleneck_relay = some "g" ∧
    (Binary64.find_bottleneck (crowd_large_init 26).relay_downloads
      (crowd_large_init 26).active_relays).download_bandwidth = gdouble_round (2000000000 / 26) ∧
    (Binary64.assign_round (selection_same (downloads_crowd 26)) (crowd_large_init 26)).map
      (fun st => (g_hash_table_lookup st.active_relays "g", st.fields.length)) =
      some (some (17 / 16777216), 26) ∧
    ¬ ((17 / 16777216 : ℚ) < Binary64.tolerance) ∧
    (Binary64.solve_round (selection_same (downloads_crowd 26))
      (crowd_large_init 26)).isSome = false ∧
    Binary64.compute_download_bandwidths (downloads_crowd 26) relays_large
      (selection_same (downloads_crowd 26)) none none = none ∧
    (compute_download_bandwidths (downloads_crowd 26) relays_large
      (selection_same (downloads_crowd 26)) none none).map (fun res => res.total_bandwidth) =
      some 2000000000 := by
  refine ⟨by decide, by decide!, by decide!, by decide!, by decide!, by decide!, by decide!,
    by decide!, by decide!⟩

/-- C36, counterexample: six downloads over `relays_tie`, active from tick 0 to
tick 1000. The relay `m2` carries all six, its share 2/6 ties with the share
1/3 of `g1` and of `x1-exit`. Walked in the order of `downloads_tie` the search
meets `m2` first and gives every download the binary64 value of 1/3; the total,
six such values added in binary64, is a little under 2. Walked in the order of
`downloads_tie_other` the search meets `g1` first; what the later passes
divide is no longer a tie, two downloads receive one unit in the last place
more, and the total is a little over 2. The `gint` cut of the total is 1 in
one order and 2 in the other, and so is the value that
`compute_total_bandwidth` returns, the fitness. In exact arithmetic every
share is 1/3 and the total is 2 in both orders. -/
theorem order_independence_counterexample :
    downloads_tie_other.Perm downloads_tie ∧
    (∀ d r, on_relay selection_tie r d = true → 0 < relay_capacity relays_tie r) ∧
    (Binary64.compute_download_bandwidths downloads_tie relays_tie selection_tie none none).map
      (fun res => (bandwidth_of res.fields (ex_tie 0), res.total_bandwidth)) =
      some (6004799503160661 / 18014398509481984, 9007199254740991 / 4503599627370496) ∧
    (Binary64.compute_download_bandwidths downloads_tie_other relays_tie selection_tie
      none none).map
      (fun res => (bandwidth_of res.fields (ex_tie 0), res.total_bandwidth)) =
      some (3002399751580331 / 9007199254740992, 4503599627370497 / 2251799813685248) ∧
    Binary64.compute_total_bandwidth downloads_tie relays_tie selection_tie
      (generate_downloads_by_tick downloads_tie)
      (sorted_ticks (generate_downloads_by_tick downloads_tie)) = some 1 ∧
    Binary64.compute_total_bandwidth downloads_tie_other relays_tie selection_tie
      (generate_downloads_by_tick downloads_tie_other)
      (sorted_ticks (generate_downloads_by_tick downloads_tie_other)) = some 2 ∧
    (compute_download_bandwidths downloads_tie relays_tie selection_tie none none).map
      (fun res => (bandwidth_of res.fields (ex_tie 0), res.total_bandwidth)) =
      some (1 / 3, 2) ∧
    (compute_download_bandwidths downloads_tie_other relays_tie selection_tie none none).map
      (fun res => (bandwidth_of res.fields (ex_tie 0), res.total_bandwidth)) =
      some (1 / 3, 2) := by
  refine ⟨by decide, ?_, by decide!, by decide!, by decide!, by decide!, by decide!,
    by decide!⟩
  intro d r hr
  unfold on_relay at hr
  cases hl : g_hash_table_lookup selection_tie d with
  | none => simp [hl] at hr
  | some c =>
    simp only [hl, decide_eq_true_eq] at hr
    have hmem := mem_of_lookup hl
    simp only [selection_tie, List.mem_cons, Prod.mk.injEq, List.mem_singleton,
      List.not_mem_nil, or_false] at hmem
    rcases hmem with ⟨_, e⟩ | ⟨_, e⟩ | ⟨_, e⟩ | ⟨_, e⟩ | ⟨_, e⟩ | ⟨_, e⟩ <;> subst e <;>
      (rw [mem_circuit_relays] at hr
       rcases hr with e | e | e <;> subst e <;> decide)

end TorSched
